import Mathlib

/-! DGEMM micro-benchmark: kernels and measurement harness.

Shallow embedding of `src/DGEMM/dgemm_aprimorado_2.c` (with the variants of
`dgemm_aprimorado.c` and `teste.c`).

* `double` values are exact rationals (`ℚ`).  The aggregation of the elapsed times in
  `run_benchmark` is given a second time in binary64 (`F64`, round to nearest even),
  where the roundings of the source can be followed.
* A matrix is a flat row-major buffer, a `List ℚ`; element `(i, j)` of an
  `n × n` matrix lives at flat index `i * n + j`.
* Every load or store outside a buffer is undefined behaviour in C and is `none`
  here.  A loop that did not leave through its condition is `none` as well.
* Loop counters are C `int`s that start at a non-negative value and only grow;
  they are natural numbers here, and a comparison against `n - 4` or
  `j_max - 8`, which can be negative, is made in `ℤ`.
* Every kernel records each memory access it issues in a log (most recent
  first), so that alignment and bounds can be stated about the accesses.
* An aligned vector move (`_mm256_load_pd`, `_mm256_store_pd`) at an address that is
  not a multiple of 32 bytes is undefined behaviour (the instruction faults), and is
  `none` here.  The buffers come from `_mm_malloc(..., 64)` (`32` in `teste.c`), so
  the move at flat index `idx` is aligned exactly when `idx` is a multiple of 4.  The
  loop nest of each vector kernel takes a flag `strict`: with `true` it is the source,
  on aligned moves; with `false` the moves are the unaligned ones, which shows what
  the loops do apart from alignment.
* `int` arithmetic (indices, `n * n`, `i * n + j`) is taken without overflow.
* A quotient by zero, which is `inf` or `nan` in C, is `0` in `ℚ`: the model is
  exact only where the divisor is non-zero.
* What `print_results_matrix` prints is a list of tokens, in printing order; a
  token carries the values handed to `printf`, not their decimal rendering.
* `get_cpu_freq` is handed what `fopen` and `fgets` deliver (`none` when the file
  cannot be opened, else the lines read) and the library conversions `sscanf` and
  `atof` as parameters.
* The size loop of `main` is modelled by the events it gives rise to (messages,
  allocations, calls of `run_benchmark` with their indices); there `int` is 32 bits
  with overflow undefined, and `size_t` is 64 bits.
-/

namespace DGEMM

/-! ## Configuration (`#define`s of the source) -/

/-- Tile edge, `#define BLOCK_SIZE 32`. -/
def BLOCK_SIZE : Nat := 32
/-- Measured repetitions, `#define NUM_RUNS 5`. -/
def NUM_RUNS : Nat := 5
/-- Untimed repetitions, `#define WARMUP_RUNS 1`. -/
def WARMUP_RUNS : Nat := 1
/-- Rows of the result table, `#define MAX_METHODS 3`. -/
def MAX_METHODS : Nat := 3
/-- Columns of the result table, `#define MAX_SIZES 7`. -/
def MAX_SIZES : Nat := 7

/-! ## Memory accesses and kernel state -/

/-- The three buffers a kernel is handed. -/
inductive Buf where
  | A | B | C
deriving DecidableEq, Repr

/-- Kind of a memory access: scalar load or store, 256-bit aligned vector load
(`_mm256_load_pd`) or store (`_mm256_store_pd`), or a prefetch hint. -/
inductive Kind where
  | load | store | vload | vstore | prefetch
deriving DecidableEq, Repr

/-- One access: its kind, the buffer, and the flat element index of its first element. -/
structure Access where
  kind : Kind
  buf : Buf
  idx : Nat
deriving DecidableEq, Repr

/-- What a kernel changes: the output buffer `C`, and the log of accesses issued
so far (most recent first). `A` and `B` are only ever read. -/
structure KState where
  C : List ℚ
  log : List Access

/-- A C `for (; cond x; x += step) body` loop over a counter `x`, run on state `s`.
Returns the final counter and state once `cond` fails; `none` when the body is
undefined or when `fuel` iterations did not reach the exit. -/
def forLoop {σ : Type} (fuel : Nat) (cond : Nat → Bool) (step : Nat)
    (body : Nat → σ → Option σ) (x : Nat) (s : σ) : Option (Nat × σ) :=
  match fuel with
  | 0 => none
  | fuel + 1 =>
    if cond x then
      match body x s with
      | none => none
      | some s' => forLoop fuel cond step body (x + step) s'
    else some (x, s)

/-! ## AVX intrinsics on four `double` lanes -/

/-- Four lanes of a 256-bit register, `__m256d`. -/
structure m256d where
  x0 : ℚ
  x1 : ℚ
  x2 : ℚ
  x3 : ℚ

/-- Broadcast, `_mm256_set1_pd`. -/
def mm256_set1_pd (a : ℚ) : m256d := ⟨a, a, a, a⟩

/-- Unaligned load of four consecutive elements starting at `idx`, `_mm256_loadu_pd`:
defined whenever the four elements exist. The source never calls it; it is what an aligned
load reads where its address requirement is dropped. -/
def mm256_loadu_pd (m : List ℚ) (idx : Nat) : Option m256d :=
  match m[idx]?, m[idx + 1]?, m[idx + 2]?, m[idx + 3]? with
  | some v0, some v1, some v2, some v3 => some ⟨v0, v1, v2, v3⟩
  | _, _, _, _ => none

/-- Unaligned store of four lanes to consecutive elements starting at `idx`,
`_mm256_storeu_pd`. The source never calls it. -/
def mm256_storeu_pd (m : List ℚ) (idx : Nat) (v : m256d) : Option (List ℚ) :=
  if idx + 3 < m.length then
    some ((((m.set idx v.x0).set (idx + 1) v.x1).set (idx + 2) v.x2).set (idx + 3) v.x3)
  else none

/-- Aligned load of four consecutive elements starting at `idx`, `_mm256_load_pd`: the
address must be a multiple of 32 bytes; at any other address the behaviour is undefined
(the aligned move instruction raises a fault), which is `none` here. Every buffer starts
at an address returned by `_mm_malloc(..., 64)` (`32` in `teste.c`) and an element takes
8 bytes, so the address of element `idx` is a multiple of 32 exactly when `idx` is a
multiple of 4. -/
def mm256_load_pd (m : List ℚ) (idx : Nat) : Option m256d :=
  if idx % 4 = 0 then mm256_loadu_pd m idx else none

/-- Aligned store of four lanes to consecutive elements starting at `idx`,
`_mm256_store_pd`: faults (`none`) unless `idx` is a multiple of 4, as for
`mm256_load_pd`. -/
def mm256_store_pd (m : List ℚ) (idx : Nat) (v : m256d) : Option (List ℚ) :=
  if idx % 4 = 0 then mm256_storeu_pd m idx v else none

/-- The vector load of a kernel. With `strict` it is the `_mm256_load_pd` the source
calls; without, the same load freed of the alignment requirement. -/
def vload (strict : Bool) (m : List ℚ) (idx : Nat) : Option m256d :=
  if strict then mm256_load_pd m idx else mm256_loadu_pd m idx

/-- The vector store of a kernel. With `strict` it is the `_mm256_store_pd` the source
calls; without, the same store freed of the alignment requirement. -/
def vstore (strict : Bool) (m : List ℚ) (idx : Nat) (v : m256d) : Option (List ℚ) :=
  if strict then mm256_store_pd m idx v else mm256_storeu_pd m idx v

/-- Lane-wise product, `_mm256_mul_pd`. -/
def mm256_mul_pd (a b : m256d) : m256d :=
  ⟨a.x0 * b.x0, a.x1 * b.x1, a.x2 * b.x2, a.x3 * b.x3⟩

/-- Lane-wise sum, `_mm256_add_pd`. -/
def mm256_add_pd (a b : m256d) : m256d :=
  ⟨a.x0 + b.x0, a.x1 + b.x1, a.x2 + b.x2, a.x3 + b.x3⟩

/-- Lane-wise fused multiply-add `a * b + c`, `_mm256_fmadd_pd`. -/
def mm256_fmadd_pd (a b c : m256d) : m256d :=
  ⟨a.x0 * b.x0 + c.x0, a.x1 * b.x1 + c.x1, a.x2 * b.x2 + c.x2, a.x3 * b.x3 + c.x3⟩

/-! ## Statements shared by the kernels -/

/-- Scalar read `A[ai]`, logged. -/
def loadA (A : List ℚ) (ai : Nat) (s : KState) : Option (ℚ × KState) :=
  match A[ai]? with
  | none => none
  | some a => some (a, { s with log := ⟨.load, .A, ai⟩ :: s.log })

/-- The statement `C[ci] += r * B[bi];` with `r` already in a local. -/
def accum (B : List ℚ) (r : ℚ) (ci bi : Nat) (s : KState) : Option KState :=
  match s.C[ci]?, B[bi]? with
  | some c, some b =>
    some { C := s.C.set ci (c + r * b),
           log := ⟨.store, .C, ci⟩ :: ⟨.load, .B, bi⟩ :: ⟨.load, .C, ci⟩ :: s.log }
  | _, _ => none

/-- The statement `C[ci] += A[ai] * B[bi];` of the scalar clean-up loops. -/
def accumA (A B : List ℚ) (ci ai bi : Nat) (s : KState) : Option KState :=
  match loadA A ai s with
  | none => none
  | some (a, s1) => accum B a ci bi s1

/-- One 4-wide step: load `C[ci..ci+3]` and `B[bi..bi+3]`, combine with the
broadcast `a_vec` (by `_mm256_fmadd_pd` when `fma`, else by `_mm256_mul_pd` then
`_mm256_add_pd`), store back to `C[ci..ci+3]`. The source is `strict = true`: its loads
and its store are the aligned `_mm256_load_pd` and `_mm256_store_pd`. -/
def vecStep (strict : Bool) (fma : Bool) (B : List ℚ) (a_vec : m256d) (ci bi : Nat)
    (s : KState) : Option KState :=
  match vload strict s.C ci, vload strict B bi with
  | some c_vec, some b_vec =>
    let c_new := if fma then mm256_fmadd_pd a_vec b_vec c_vec
                 else mm256_add_pd c_vec (mm256_mul_pd a_vec b_vec)
    match vstore strict s.C ci c_new with
    | none => none
    | some C' =>
      some { C := C',
             log := ⟨.vstore, .C, ci⟩ :: ⟨.vload, .B, bi⟩ :: ⟨.vload, .C, ci⟩ :: s.log }
  | _, _ => none

/-- The hint `_mm_prefetch(&B[bi], _MM_HINT_T0)`: no value is read, nothing changes
but the log. -/
def prefetchB (bi : Nat) (s : KState) : KState :=
  { s with log := ⟨.prefetch, .B, bi⟩ :: s.log }

/-! ## Kernel 1: `dgemm_naive` -/

/-- Body of the `j` loop of `dgemm_naive`: `C[i*n+j] += r * B[k*n+j]`. -/
def naive_j (n : Nat) (B : List ℚ) (r : ℚ) (i k j : Nat) (s : KState) : Option KState :=
  accum B r (i * n + j) (k * n + j) s

/-- Body of the `k` loop of `dgemm_naive`: hoist `r = A[i*n+k]`, then the `j` loop. -/
def naive_k (n : Nat) (A B : List ℚ) (i k : Nat) (s : KState) : Option KState :=
  match loadA A (i * n + k) s with
  | none => none
  | some (r, s1) =>
    (forLoop (n + 1) (fun j => decide (j < n)) 1 (naive_j n B r i k) 0 s1).map Prod.snd

/-- Body of the `i` loop of `dgemm_naive`. -/
def naive_i (n : Nat) (A B : List ℚ) (i : Nat) (s : KState) : Option KState :=
  (forLoop (n + 1) (fun k => decide (k < n)) 1 (naive_k n A B i) 0 s).map Prod.snd

/-- `void dgemm_naive(int n, double* A, double* B, double* C)`. -/
def dgemm_naive (n : Nat) (A B : List ℚ) (s : KState) : Option KState :=
  (forLoop (n + 1) (fun i => decide (i < n)) 1 (naive_i n A B) 0 s).map Prod.snd

/-! ## Kernel 2: `dgemm_avx` -/

/-- Body of the `k` loop of `dgemm_avx`: broadcast `A[i*n+k]`, the 4-wide loop
`for (; j <= n - 4; j += 4)`, then the scalar loop `for (; j < n; j++)` from the
`j` the vector loop stopped at. `strict` is handed to the vector steps: `true` in the
source. -/
def avx_k (strict : Bool) (n : Nat) (A B : List ℚ) (i k : Nat) (s : KState) :
    Option KState :=
  match loadA A (i * n + k) s with
  | none => none
  | some (a, s1) =>
    match forLoop (n + 1) (fun j => decide ((j : Int) ≤ (n : Int) - 4)) 4
        (fun j => vecStep strict false B (mm256_set1_pd a) (i * n + j) (k * n + j)) 0 s1 with
    | none => none
    | some (j, s2) =>
      (forLoop (n + 1) (fun j => decide (j < n)) 1
        (fun j => accumA A B (i * n + j) (i * n + k) (k * n + j)) j s2).map Prod.snd

/-- Body of the `i` loop of `dgemm_avx`; `strict` is handed to the `k` body. -/
def avx_i (strict : Bool) (n : Nat) (A B : List ℚ) (i : Nat) (s : KState) : Option KState :=
  (forLoop (n + 1) (fun k => decide (k < n)) 1 (avx_k strict n A B i) 0 s).map Prod.snd

/-- The loop nest of `dgemm_avx`, with the choice between aligned (`strict`) and unaligned
vector moves as a parameter. -/
def dgemm_avx_with (strict : Bool) (n : Nat) (A B : List ℚ) (s : KState) : Option KState :=
  (forLoop (n + 1) (fun i => decide (i < n)) 1 (avx_i strict n A B) 0 s).map Prod.snd

/-- `void dgemm_avx(int n, double* A, double* B, double* C)`: the loop nest on the aligned
moves the source calls. -/
def dgemm_avx (n : Nat) (A B : List ℚ) (s : KState) : Option KState :=
  dgemm_avx_with true n A B s

/-! ## Kernel 3: `dgemm_avx_block` and `dgemm_avx_block_prefetch` -/

/-- Clamped tile end, `(blk + BLOCK_SIZE > n) ? n : blk + BLOCK_SIZE`. -/
def tile_max (T n blk : Nat) : Nat := if blk + T > n then n else blk + T

/-- One iteration of the unrolled loop `for (; j <= j_max - 8; j += 8)`: two 4-wide
fused steps, at `j` and at `j + 4`. `strict` is handed to the vector steps: `true` in the
source. -/
def block_j8 (strict : Bool) (n : Nat) (B : List ℚ) (a_vec : m256d) (i k j : Nat)
    (s : KState) : Option KState :=
  match vecStep strict true B a_vec (i * n + j) (k * n + j) s with
  | none => none
  | some s1 => vecStep strict true B a_vec (i * n + j + 4) (k * n + j + 4) s1

/-- Body of the `k` loop inside a tile of `dgemm_avx_block`, for columns
`[j_blk, j_max)`. `fma` says whether the file is compiled with `__FMA__`: only then
does the 8-wide loop exist, and only then does the 4-wide loop use `_mm256_fmadd_pd`.
`strict` is handed to the vector steps: `true` in the source. -/
def block_k (strict : Bool) (fma : Bool) (n : Nat) (A B : List ℚ) (j_blk j_max i k : Nat)
    (s : KState) : Option KState :=
  match loadA A (i * n + k) s with
  | none => none
  | some (a, s1) =>
    let a_vec := mm256_set1_pd a
    match (if fma then
            forLoop (n + 1) (fun j => decide ((j : Int) ≤ (j_max : Int) - 8)) 8
              (block_j8 strict n B a_vec i k) j_blk s1
           else some (j_blk, s1)) with
    | none => none
    | some (j1, s2) =>
      match forLoop (n + 1) (fun j => decide ((j : Int) ≤ (j_max : Int) - 4)) 4
          (fun j => vecStep strict fma B a_vec (i * n + j) (k * n + j)) j1 s2 with
      | none => none
      | some (j2, s3) =>
        (forLoop (n + 1) (fun j => decide (j < j_max)) 1
          (fun j => accumA A B (i * n + j) (i * n + k) (k * n + j)) j2 s3).map Prod.snd

/-- Body of the `k` loop inside a tile of `dgemm_avx_block_prefetch` (`teste.c`), for
columns `[j_blk, j_max)`: each 4-wide step is preceded by the prefetch hint for
`&B[k*n + j + 16]` and uses `_mm256_mul_pd` then `_mm256_add_pd`; then the scalar loop.
`strict` is handed to the vector steps: `true` in the source. -/
def prefetch_k (strict : Bool) (n : Nat) (A B : List ℚ) (j_blk j_max i k : Nat)
    (s : KState) : Option KState :=
  match loadA A (i * n + k) s with
  | none => none
  | some (a, s1) =>
    match forLoop (n + 1) (fun j => decide ((j : Int) ≤ (j_max : Int) - 4)) 4
        (fun j s => vecStep strict false B (mm256_set1_pd a) (i * n + j) (k * n + j)
          (prefetchB (k * n + j + 16) s)) j_blk s1 with
    | none => none
    | some (j2, s3) =>
      (forLoop (n + 1) (fun j => decide (j < j_max)) 1
        (fun j => accumA A B (i * n + j) (i * n + k) (k * n + j)) j2 s3).map Prod.snd

/-- The loop nest that `dgemm_avx_block` and `dgemm_avx_block_prefetch` share, around the
body `kbody j_blk j_max i k` of their `k` loop: tile loops `i_blk`, `k_blk`, `j_blk`, each
`for (b = 0; b < n; b += T)`; inside, the three clamped ends, then
`for (i = i_blk; i < i_max; i++) for (k = k_blk; k < k_max; k++) kbody`. -/
def tiled (kbody : Nat → Nat → Nat → Nat → KState → Option KState) (T n : Nat) (s : KState) :
    Option KState :=
  (forLoop (n + 1) (fun i_blk => decide (i_blk < n)) T (fun i_blk s =>
    (forLoop (n + 1) (fun k_blk => decide (k_blk < n)) T (fun k_blk s =>
      (forLoop (n + 1) (fun j_blk => decide (j_blk < n)) T (fun j_blk s =>
        let i_max := tile_max T n i_blk
        let k_max := tile_max T n k_blk
        let j_max := tile_max T n j_blk
        (forLoop (n + 1) (fun i => decide (i < i_max)) 1 (fun i s =>
          (forLoop (n + 1) (fun k => decide (k < k_max)) 1
            (kbody j_blk j_max i) k_blk s).map Prod.snd) i_blk s).map Prod.snd)
        0 s).map Prod.snd) 0 s).map Prod.snd) 0 s).map Prod.snd

/-- The loop nest of `dgemm_avx_block` with the choice between aligned (`strict`) and
unaligned vector moves, the tile edge `T` and the `__FMA__` build flag as parameters. -/
def dgemm_avx_block_with (strict : Bool) (T : Nat) (fma : Bool) (n : Nat) (A B : List ℚ)
    (s : KState) : Option KState :=
  tiled (block_k strict fma n A B) T n s

/-- `void dgemm_avx_block(int n, double* A, double* B, double* C)` as compiled with
`BLOCK_SIZE` 32, on the aligned moves the source calls; `fma` is the `__FMA__` build
flag. -/
def dgemm_avx_block (fma : Bool) (n : Nat) (A B : List ℚ) (s : KState) : Option KState :=
  dgemm_avx_block_with true BLOCK_SIZE fma n A B s

/-- The loop nest of `dgemm_avx_block_prefetch` of `teste.c` with the choice between
aligned (`strict`) and unaligned vector moves and the tile edge `T` as parameters. -/
def dgemm_avx_block_prefetch_with (strict : Bool) (T n : Nat) (A B : List ℚ) (s : KState) :
    Option KState :=
  tiled (prefetch_k strict n A B) T n s

/-- `void dgemm_avx_block_prefetch(int n, double* A, double* B, double* C)` of `teste.c`,
compiled with `BLOCK_SIZE` 32, on the aligned moves the source calls. -/
def dgemm_avx_block_prefetch (n : Nat) (A B : List ℚ) (s : KState) : Option KState :=
  dgemm_avx_block_prefetch_with true BLOCK_SIZE n A B s

/-! ## Buffers: `alloc_matrix`, `clean_matrix` -/

/-- `double* alloc_matrix(int n, const char* name)` of `dgemm_aprimorado_2.c` and
`dgemm_aprimorado.c`, on a successful allocation: `n * n` elements,
`ptr[i] = (double)((i % 100) + 1) * 0.01`. -/
def alloc_matrix (n : Nat) : List ℚ :=
  (List.range (n * n)).map (fun i => (((i % 100 + 1 : Nat) : ℚ)) * (1 / 100))

/-- `void clean_matrix(double* C, int n)`: `memset(C, 0, n * n * sizeof(double))` zeroes
the first `n * n` elements; undefined when `C` is shorter. -/
def clean_matrix (C : List ℚ) (n : Nat) : Option (List ℚ) :=
  if n * n ≤ C.length then some (List.replicate (n * n) 0 ++ C.drop (n * n)) else none

/-! ## The measurement harness: `run_benchmark` -/

/-- A kernel as `run_benchmark` receives it,
`void (*func)(int, double*, double*, double*)`. -/
abbrev Kernel := Nat → List ℚ → List ℚ → KState → Option KState

/-- One row of the result table, `MethodResult`; the three arrays have `MAX_SIZES`
entries each. -/
structure MethodResult where
  name : String
  gflops : List ℚ
  time : List ℚ
  efficiency : List ℚ

/-- The lines `run_benchmark` prints, with the values handed to `printf`. -/
inductive Line where
  | executando (name : String)
  | execucao (r : Nat) (elapsed gflops : ℚ)
  | resultado_final
  | tempo_medio (avg_time : ℚ)
  | gflops_medio (avg_gflops : ℚ)
  | variacao (v : ℚ)
  | eficiencia (efficiency : ℚ)
  | operacoes (operations : ℚ)
deriving DecidableEq

/-- The world `run_benchmark` acts on: the kernel state (buffer `C`, access log), how
many times `get_time_sec` has been called, the contents of `C` at each entry into `func`
(most recent first), and the lines printed (most recent first). -/
structure Bench where
  mem : KState
  ticks : Nat
  calls : List (List ℚ)
  out : List Line

/-- The locals of the measured loop of `run_benchmark`. -/
structure Stats where
  min_time : ℚ
  max_time : ℚ
  total_time : ℚ
  total_gflops : ℚ

/-- `clean_matrix(C, n); func(n, A, B, C);` -/
def clean_and_call (func : Kernel) (n : Nat) (A B : List ℚ) (b : Bench) : Option Bench :=
  match clean_matrix b.mem.C n with
  | none => none
  | some C0 =>
    match func n A B { b.mem with C := C0 } with
    | none => none
    | some m => some { b with mem := m, calls := C0 :: b.calls }

/-- `double operations = 2.0 * (double)n * (double)n * (double)n;` -/
def operations (n : Nat) : ℚ := 2 * (n : ℚ) * (n : ℚ) * (n : ℚ)

/-- `double gflops = (operations / elapsed) * 1e-9;` -/
def run_gflops (n : Nat) (elapsed : ℚ) : ℚ := (operations n / elapsed) * (1 / 10 ^ 9)

/-- Body of the measured loop `for (int r = 0; r < NUM_RUNS; r++)`. The `t`-th call of
`get_time_sec` returns `clock t`; the reading `start` is taken after `clean_matrix`, the
reading `stop` (`end` in the source) right after `func` returns. -/
def measured_run (func : Kernel) (clock : Nat → ℚ) (n : Nat) (A B : List ℚ) (r : Nat)
    (st : Bench × Stats) : Option (Bench × Stats) :=
  match clean_matrix st.1.mem.C n with
  | none => none
  | some C0 =>
    let start := clock st.1.ticks
    match func n A B { st.1.mem with C := C0 } with
    | none => none
    | some m =>
      let stop := clock (st.1.ticks + 1)
      let elapsed := stop - start
      let gflops := run_gflops n elapsed
      some ({ mem := m, ticks := st.1.ticks + 2, calls := C0 :: st.1.calls,
              out := Line.execucao (r + 1) elapsed gflops :: st.1.out },
            { total_time := st.2.total_time + elapsed,
              total_gflops := st.2.total_gflops + gflops,
              min_time := if elapsed < st.2.min_time then elapsed else st.2.min_time,
              max_time := if elapsed > st.2.max_time then elapsed else st.2.max_time })

/-- The part of `run_benchmark` up to the end of the measured loop: the header line, the
warm-up loop, the initial locals `min_time = 1e9`, `max_time = 0`, `total_time = 0.0`,
`total_gflops = 0.0`, and the measured loop. -/
def measure (func : Kernel) (clock : Nat → ℚ) (n : Nat) (A B : List ℚ) (name : String)
    (b : Bench) : Option (Bench × Stats) :=
  match forLoop (WARMUP_RUNS + 1) (fun w => decide (w < WARMUP_RUNS)) 1
      (fun _ b => clean_and_call func n A B b) 0
      { b with out := Line.executando name :: b.out } with
  | none => none
  | some (_, b1) =>
    (forLoop (NUM_RUNS + 1) (fun r => decide (r < NUM_RUNS)) 1
      (measured_run func clock n A B) 0
      (b1, { min_time := 10 ^ 9, max_time := 0, total_time := 0, total_gflops := 0 })).map
      Prod.snd

/-- The final report lines of `run_benchmark`; the variation line only when
`max_time > min_time`, the efficiency line only when `peak_gflops > 0`. -/
def report (n : Nat) (st : Stats) (avg_time avg_gflops efficiency peak_gflops : ℚ) :
    List Line :=
  [Line.operacoes (2 * (n : ℚ) * (n : ℚ) * (n : ℚ))]
  ++ (if peak_gflops > 0 then [Line.eficiencia efficiency] else [])
  ++ (if st.max_time > st.min_time then
        [Line.variacao ((st.max_time - st.min_time) / avg_time * 50)] else [])
  ++ [Line.gflops_medio avg_gflops, Line.tempo_medio avg_time, Line.resultado_final]

/-- The four stores `strcpy(result[method_idx].name, name)`,
`result[method_idx].gflops[size_idx] = avg_gflops`, `.time[size_idx] = avg_time`,
`.efficiency[size_idx] = efficiency`; undefined when an index is out of range. -/
def store_result (result : List MethodResult) (method_idx size_idx : Nat) (name : String)
    (avg_gflops avg_time efficiency : ℚ) : Option (List MethodResult) :=
  match result[method_idx]? with
  | none => none
  | some row =>
    if size_idx < row.gflops.length ∧ size_idx < row.time.length ∧
        size_idx < row.efficiency.length then
      some (result.set method_idx
        { name := name,
          gflops := row.gflops.set size_idx avg_gflops,
          time := row.time.set size_idx avg_time,
          efficiency := row.efficiency.set size_idx efficiency })
    else none

/-- What `run_benchmark` leaves behind: the world, the result table, the returned
`avg_gflops`, and the final values of its locals. -/
structure BenchOut where
  bench : Bench
  result : List MethodResult
  ret : ℚ
  stats : Stats
  avg_time : ℚ
  avg_gflops : ℚ
  efficiency : ℚ

/-- `double run_benchmark(func, n, A, B, C, name, peak_gflops, result, method_idx,
size_idx)` of `dgemm_aprimorado_2.c`; `C` is `b.mem.C`. -/
def run_benchmark (func : Kernel) (clock : Nat → ℚ) (n : Nat) (A B : List ℚ)
    (name : String) (peak_gflops : ℚ) (result : List MethodResult)
    (method_idx size_idx : Nat) (b : Bench) : Option BenchOut :=
  match measure func clock n A B name b with
  | none => none
  | some (b1, st) =>
    let avg_time := st.total_time / (NUM_RUNS : ℚ)
    let avg_gflops := st.total_gflops / (NUM_RUNS : ℚ)
    let efficiency := if peak_gflops > 0 then avg_gflops / peak_gflops * 100 else 0
    match store_result result method_idx size_idx name avg_gflops avg_time efficiency with
    | none => none
    | some result' =>
      some { bench := { b1 with
                        out := report n st avg_time avg_gflops efficiency peak_gflops ++ b1.out },
             result := result', ret := avg_gflops, stats := st, avg_time := avg_time,
             avg_gflops := avg_gflops, efficiency := efficiency }

/-- `double run_benchmark(func, n, A, B, C, name, peak_gflops)` of `dgemm_aprimorado.c`:
the same measurement and report, no result table. -/
def run_benchmark_aprimorado (func : Kernel) (clock : Nat → ℚ) (n : Nat) (A B : List ℚ)
    (name : String) (peak_gflops : ℚ) (b : Bench) : Option BenchOut :=
  match measure func clock n A B name b with
  | none => none
  | some (b1, st) =>
    let avg_time := st.total_time / (NUM_RUNS : ℚ)
    let avg_gflops := st.total_gflops / (NUM_RUNS : ℚ)
    let efficiency := if peak_gflops > 0 then avg_gflops / peak_gflops * 100 else 0
    some { bench := { b1 with
                      out := report n st avg_time avg_gflops efficiency peak_gflops ++ b1.out },
           result := [], ret := avg_gflops, stats := st, avg_time := avg_time,
           avg_gflops := avg_gflops, efficiency := efficiency }

/-- `double estimate_peak_gflops(int cores, float freq)`: `freq * cores * 8 * 2`. -/
def estimate_peak_gflops (cores : Int) (freq : ℚ) : ℚ := freq * (cores : ℚ) * 8 * 2

/-! ## Specification vocabulary -/

open Finset

/-- `f` runs to completion on every state whose `C` has `N` elements, keeps that
size, and adds `δ p` to element `p`. -/
def Adds (N : Nat) (f : KState → Option KState) (δ : Nat → ℚ) : Prop :=
  ∀ s : KState, s.C.length = N → ∃ s', f s = some s' ∧ s'.C.length = N ∧
    ∀ p, p < N → s'.C.getD p 0 = s.C.getD p 0 + δ p

/-- The product term that update `(i, k, j)` adds to flat element `p` of `C`. -/
def term (n : Nat) (A B : List ℚ) (i k j p : Nat) : ℚ :=
  if p = i * n + j then A.getD (i * n + k) 0 * B.getD (k * n + j) 0 else 0

/-- The whole iteration space: what a complete `C += A * B` adds to flat element `p`. -/
def total (n : Nat) (A B : List ℚ) (p : Nat) : ℚ :=
  ∑ i ∈ Ico 0 n, ∑ k ∈ Ico 0 n, ∑ j ∈ Ico 0 n, term n A B i k j p

/-- Elapsed time `end - start` of measured run `r`, when the measured loop starts at clock
reading number `t0`. -/
def elapsed_of (clock : Nat → ℚ) (t0 r : Nat) : ℚ :=
  clock (t0 + 2 * r + 1) - clock (t0 + 2 * r)

/-- A kernel that is defined on every `n × n` output buffer and leaves it `n × n`. -/
def Returns (func : Kernel) (n : Nat) (A B : List ℚ) : Prop :=
  ∀ s : KState, s.C.length = n * n → ∃ s', func n A B s = some s' ∧ s'.C.length = n * n

/-- State of the measured loop after `r` runs. -/
structure MeasuredInv (func : Kernel) (clock : Nat → ℚ) (n : Nat) (A B : List ℚ)
    (b1 : Bench) (r : Nat) (st : Bench × Stats) : Prop where
  len : st.1.mem.C.length = n * n
  last : ∃ m0 : KState, m0.C = List.replicate (n * n) 0 ∧ func n A B m0 = some st.1.mem
  ticks : st.1.ticks = b1.ticks + 2 * r
  calls : st.1.calls = List.replicate r (List.replicate (n * n) 0) ++ b1.calls
  out : st.1.out = ((List.range r).map (fun q => Line.execucao (q + 1)
      (elapsed_of clock b1.ticks q) (run_gflops n (elapsed_of clock b1.ticks q)))).reverse
      ++ b1.out
  total_time : st.2.total_time = ∑ q ∈ range r, elapsed_of clock b1.ticks q
  total_gflops : st.2.total_gflops = ∑ q ∈ range r, run_gflops n (elapsed_of clock b1.ticks q)
  min_time : st.2.min_time = (List.range r).foldl (fun m q =>
      if elapsed_of clock b1.ticks q < m then elapsed_of clock b1.ticks q else m) (10 ^ 9)
  max_time : st.2.max_time = (List.range r).foldl (fun m q =>
      if elapsed_of clock b1.ticks q > m then elapsed_of clock b1.ticks q else m) 0

/-- The cell `(method_idx, size_idx)` exists in the result table. -/
def InTable (result : List MethodResult) (method_idx size_idx : Nat) : Prop :=
  ∃ row, result[method_idx]? = some row ∧ size_idx < row.gflops.length ∧
    size_idx < row.time.length ∧ size_idx < row.efficiency.length

/-- The result table as `main` sets it up: `MAX_METHODS` rows of `MAX_SIZES` zeros. -/
def init_results : List MethodResult :=
  List.replicate MAX_METHODS
    { name := "", gflops := List.replicate MAX_SIZES 0, time := List.replicate MAX_SIZES 0,
      efficiency := List.replicate MAX_SIZES 0 }

/-! ## `teste.c`: random fill -/

/-- `double* alloc_matrix(int n)` of `teste.c`, on a successful allocation: `n * n`
elements, `ptr[i] = (double)(rand() % 100) / 10.0`. `rnd k` is what the `k`-th call of
`rand()` since program start returns (the sequence is fixed by the seed `main` hands to
`srand`), `calls` is the number of calls made before this allocation. Returns the buffer
and the number of calls made after it. -/
def alloc_matrix_teste (rnd : Nat → Nat) (calls n : Nat) : List ℚ × Nat :=
  ((List.range (n * n)).map (fun i => (((rnd (calls + i) % 100 : Nat) : ℚ)) / 10),
    calls + n * n)

/-! ## Vocabulary for the access log -/

/-- An access a kernel may issue on `n × n` buffers: inside the buffer (a vector access
touches the four elements from `idx` on), and, when it writes, a write to `C`. A prefetch
reads and writes nothing. -/
def Access.ok (n : Nat) (a : Access) : Prop :=
  match a.kind with
  | .load => a.idx < n * n
  | .vload => a.idx + 3 < n * n
  | .store => a.buf = .C ∧ a.idx < n * n
  | .vstore => a.buf = .C ∧ a.idx + 3 < n * n
  | .prefetch => True

/-- Every access logged so far is `Access.ok`. -/
def LogOk (n : Nat) (log : List Access) : Prop := ∀ a ∈ log, Access.ok n a

/-- Running `f` keeps the log `LogOk`. -/
def Keeps (n : Nat) (f : KState → Option KState) : Prop :=
  ∀ s s', LogOk n s.log → f s = some s' → LogOk n s'.log

/-- Every write in the log is a write to `C` inside its `n * n` elements; so every access
to `A` or `B` is a read (or a prefetch hint). -/
def WritesOnlyC (n : Nat) (log : List Access) : Prop :=
  ∀ a ∈ log,
    (a.kind = .store → a.buf = .C ∧ a.idx < n * n) ∧
    (a.kind = .vstore → a.buf = .C ∧ a.idx + 3 < n * n) ∧
    (a.buf = .A ∨ a.buf = .B → a.kind = .load ∨ a.kind = .vload ∨ a.kind = .prefetch)

/-! ## Vocabulary for the order of accumulation -/

/-- The updates `C[c] += a * B[b]` that a log records, most recent first, as pairs
`(c, b)`: a scalar store to `C` together with the load of `B` issued just before it, or a
vector store to `C` together with the vector load of `B` issued just before it (four
lanes, four updates). -/
def updates : List Access → List (Nat × Nat)
  | ⟨.store, .C, c⟩ :: ⟨.load, .B, b⟩ :: rest => (c, b) :: updates rest
  | ⟨.vstore, .C, c⟩ :: ⟨.vload, .B, b⟩ :: rest =>
    (c + 3, b + 3) :: (c + 2, b + 2) :: (c + 1, b + 1) :: (c, b) :: updates rest
  | _ :: rest => updates rest
  | [] => []

/-- The `k` indices of the products `A[i*n+k] * B[k*n+j]` added into `C[i*n+j]`, in the
order in which the log says they were added (oldest first): the updates of flat element
`i * n + j`, each with the row `b / n` of the element of `B` it used. -/
def k_order (n i j : Nat) (log : List Access) : List Nat :=
  (((updates log).filter (fun u => decide (u.1 = i * n + j))).map (fun u => u.2 / n)).reverse

/-- Running `f` adds the products with `k` in `L`, in that order, to element `(i, j)`. -/
def Orders (n i j : Nat) (f : KState → Option KState) (L : List Nat) : Prop :=
  ∀ s s', f s = some s' → k_order n i j s'.log = k_order n i j s.log ++ L

/-- The list `L` when `x` lies in `[lo, hi)`, nothing otherwise: what a loop over
`[lo, hi)` contributes when only its iteration `x` contributes `L`. -/
def at_point (x : Nat) (L : List Nat) (lo hi : Nat) : List Nat :=
  if lo ≤ x ∧ x < hi then L else []

/-- The indices `lo, lo + 1, ..., hi - 1` in ascending order. -/
def span (lo hi : Nat) : List Nat := List.range' lo (hi - lo)

/-- An interval function that is empty on empty intervals and concatenates over adjacent
intervals. -/
def Additive (F : Nat → Nat → List Nat) : Prop :=
  (∀ a b, b ≤ a → F a b = []) ∧ (∀ a b c, a ≤ b → b ≤ c → F a b ++ F b c = F a c)

/-! ## The report: `print_results_matrix` -/

/-- What `print_results_matrix` prints, piece by piece, with the values handed to `printf`.
A table cell carries the size index `s` and method index `m` of the row and column it is
printed in; a summary line carries the method index `m` of its block. -/
inductive Tok where
  | box_top
  | title (t : String)
  | box_head
  | size_head
  | name_cell (name : String)
  | newline
  | box_mid
  | size_cell (n : Int)
  | gflops_cell (s m : Nat) (gflops efficiency : ℚ)
  | gflops_na (s m : Nat)
  | time_cell (s m : Nat) (time : ℚ)
  | time_na (s m : Nat)
  | speedup_cell (s m : Nat) (speedup : ℚ)
  | speedup_na (s m : Nat)
  | row_sep
  | box_end
  | summary_head
  | method_name (m : Nat) (name : String)
  | maximo (m : Nat) (max_gflops : ℚ)
  | minimo (m : Nat) (min_gflops : ℚ)
  | media (m : Nat) (avg_gflops : ℚ)
  | eficiencia_media (m : Nat) (efficiency : ℚ)
deriving DecidableEq

/-- A cell of the GFLOPS table: `results[m].gflops[s]` with `results[m].efficiency[s]`
when the former is `> 0`, else `"N/A"`. -/
def gflops_cell (results : List MethodResult) (s m : Nat) (out : List Tok) :
    Option (List Tok) :=
  match results[m]? with
  | none => none
  | some row =>
    match row.gflops[s]? with
    | none => none
    | some g =>
      if g > 0 then
        match row.efficiency[s]? with
        | none => none
        | some e => some (out ++ [Tok.gflops_cell s m g e])
      else some (out ++ [Tok.gflops_na s m])

/-- A cell of the time table: `results[m].time[s]` when it is `> 0`, else `"N/A"`. -/
def time_cell (results : List MethodResult) (s m : Nat) (out : List Tok) :
    Option (List Tok) :=
  match results[m]? with
  | none => none
  | some row =>
    match row.time[s]? with
    | none => none
    | some t => if t > 0 then some (out ++ [Tok.time_cell s m t]) else some (out ++ [Tok.time_na s m])

/-- A cell of the speedup table:
`if (results[0].gflops[s] > 0 && results[m].gflops[s] > 0)` the quotient
`results[m].gflops[s] / results[0].gflops[s]`, else `"N/A"`. The second operand of `&&` is
only read when the first holds. -/
def speedup_cell (results : List MethodResult) (s m : Nat) (out : List Tok) :
    Option (List Tok) :=
  match results[0]? with
  | none => none
  | some row0 =>
    match row0.gflops[s]? with
    | none => none
    | some g0 =>
      if g0 > 0 then
        match results[m]? with
        | none => none
        | some row =>
          match row.gflops[s]? with
          | none => none
          | some g =>
            if g > 0 then some (out ++ [Tok.speedup_cell s m (g / g0)])
            else some (out ++ [Tok.speedup_na s m])
      else some (out ++ [Tok.speedup_na s m])

/-- Body of a table's size loop: `int n = sizes[s]`, the size label, the cells of the
methods `first ≤ m < num_methods`, the line end, and the separator line
`if (s < num_sizes - 1)`. -/
def table_row (cell : Nat → Nat → List Tok → Option (List Tok)) (first num_methods : Nat)
    (sizes : List Int) (num_sizes s : Nat) (out : List Tok) : Option (List Tok) :=
  match sizes[s]? with
  | none => none
  | some n =>
    match forLoop (num_methods + 1) (fun m => decide (m < num_methods)) 1 (cell s) first
        (out ++ [Tok.size_cell n]) with
    | none => none
    | some (_, out1) =>
      if (s : Int) < (num_sizes : Int) - 1 then some (out1 ++ [Tok.newline, Tok.row_sep])
      else some (out1 ++ [Tok.newline])

/-- One of the three tables of `print_results_matrix`, which differ in the title, in the
first method shown (`first`, 0 or 1) and in the cell: the box heading, the method names,
one row per size, the box end. -/
def print_table (title : String) (cell : Nat → Nat → List Tok → Option (List Tok))
    (first : Nat) (results : List MethodResult) (num_methods : Nat) (sizes : List Int)
    (num_sizes : Nat) (out : List Tok) : Option (List Tok) :=
  match forLoop (num_methods + 1) (fun m => decide (m < num_methods)) 1
      (fun m out =>
        match results[m]? with
        | none => none
        | some row => some (out ++ [Tok.name_cell row.name]))
      first (out ++ [Tok.box_top, Tok.title title, Tok.box_head, Tok.size_head]) with
  | none => none
  | some (_, out1) =>
    match forLoop (num_sizes + 1) (fun s => decide (s < num_sizes)) 1
        (table_row cell first num_methods sizes num_sizes) 0
        (out1 ++ [Tok.newline, Tok.box_mid]) with
    | none => none
    | some (_, out2) => some (out2 ++ [Tok.box_end])

/-- The locals of the summary loop: `max_gflops`, `min_gflops`, `avg_gflops`,
`valid_sizes`. -/
structure Resumo where
  max_gflops : ℚ
  min_gflops : ℚ
  avg_gflops : ℚ
  valid_sizes : Nat

/-- What one valid sample `g` does to the summary locals. -/
def resumo_update (g : ℚ) (st : Resumo) : Resumo :=
  { max_gflops := if g > st.max_gflops then g else st.max_gflops,
    min_gflops := if g < st.min_gflops then g else st.min_gflops,
    avg_gflops := st.avg_gflops + g,
    valid_sizes := st.valid_sizes + 1 }

/-- Body of the summary's size loop: `if (results[m].gflops[s] > 0)` update the locals. -/
def resumo_step (results : List MethodResult) (m s : Nat) (st : Resumo) : Option Resumo :=
  match results[m]? with
  | none => none
  | some row =>
    match row.gflops[s]? with
    | none => none
    | some g => if g > 0 then some (resumo_update g st) else some st

/-- Body of the summary's method loop: the method name, the size loop from the locals
`max_gflops = 0`, `min_gflops = 1e9`, `avg_gflops = 0`, `valid_sizes = 0`, and, only
`if (valid_sizes > 0)`, `avg_gflops /= valid_sizes` and the four statistic lines, the last
being `avg_gflops / peak_gflops * 100.0`. -/
def print_resumo_method (results : List MethodResult) (num_sizes : Nat) (peak_gflops : ℚ)
    (m : Nat) (out : List Tok) : Option (List Tok) :=
  match results[m]? with
  | none => none
  | some row =>
    match forLoop (num_sizes + 1) (fun s => decide (s < num_sizes)) 1 (resumo_step results m) 0
        { max_gflops := 0, min_gflops := 10 ^ 9, avg_gflops := 0, valid_sizes := 0 } with
    | none => none
    | some (_, st) =>
      if st.valid_sizes > 0 then
        some (out ++ [Tok.method_name m row.name, Tok.maximo m st.max_gflops,
          Tok.minimo m st.min_gflops, Tok.media m (st.avg_gflops / (st.valid_sizes : ℚ)),
          Tok.eficiencia_media m (st.avg_gflops / (st.valid_sizes : ℚ) / peak_gflops * 100)])
      else some (out ++ [Tok.method_name m row.name])

/-- `void print_results_matrix(MethodResult* results, int num_methods, int* sizes,
int num_sizes, double peak_gflops)`: the GFLOPS table, the time table, the speedup table
(methods from 1 on, against method 0), and the summary. `out` is what was printed before;
the result is `out` followed by the report. -/
def print_results_matrix (results : List MethodResult) (num_methods : Nat)
    (sizes : List Int) (num_sizes : Nat) (peak_gflops : ℚ) (out : List Tok) :
    Option (List Tok) :=
  match print_table "MATRIZ DE RESULTADOS - DGEMM BENCHMARK" (gflops_cell results) 0
      results num_methods sizes num_sizes out with
  | none => none
  | some out1 =>
    match print_table "TEMPOS DE EXECUÇÃO (segundos)" (time_cell results) 0
        results num_methods sizes num_sizes out1 with
    | none => none
    | some out2 =>
      match print_table "SPEEDUP RELATIVO (vs Naive)" (speedup_cell results) 1
          results num_methods sizes num_sizes out2 with
      | none => none
      | some out3 =>
        (forLoop (num_methods + 1) (fun m => decide (m < num_methods)) 1
          (print_resumo_method results num_sizes peak_gflops) 0
          (out3 ++ [Tok.summary_head])).map Prod.snd

/-! ## Vocabulary for the report -/

/-- The table `print_results_matrix` is handed can be read at every index it uses. -/
def TableOK (results : List MethodResult) (num_methods : Nat) (sizes : List Int)
    (num_sizes : Nat) : Prop :=
  num_sizes ≤ sizes.length ∧ num_methods ≤ results.length ∧
  ∀ row ∈ results, num_sizes ≤ row.gflops.length ∧ num_sizes ≤ row.time.length ∧
    num_sizes ≤ row.efficiency.length

/-- The entry `results[m].gflops[s]`. -/
def gflops_at (results : List MethodResult) (m s : Nat) : ℚ :=
  match results[m]? with
  | none => 0
  | some row => row.gflops.getD s 0

/-- The entry `results[m].time[s]`. -/
def time_at (results : List MethodResult) (m s : Nat) : ℚ :=
  match results[m]? with
  | none => 0
  | some row => row.time.getD s 0

/-- The entry `results[m].efficiency[s]`. -/
def efficiency_at (results : List MethodResult) (m s : Nat) : ℚ :=
  match results[m]? with
  | none => 0
  | some row => row.efficiency.getD s 0

/-- The name `results[m].name`. -/
def name_at (results : List MethodResult) (m : Nat) : String :=
  match results[m]? with
  | none => ""
  | some row => row.name

/-- The cell of the GFLOPS table at row `s`, column `m`. -/
def gflops_tok (results : List MethodResult) (s m : Nat) : Tok :=
  if gflops_at results m s > 0 then
    Tok.gflops_cell s m (gflops_at results m s) (efficiency_at results m s)
  else Tok.gflops_na s m

/-- The cell of the time table at row `s`, column `m`. -/
def time_tok (results : List MethodResult) (s m : Nat) : Tok :=
  if time_at results m s > 0 then Tok.time_cell s m (time_at results m s) else Tok.time_na s m

/-- The cell of the speedup table at row `s`, column `m`. -/
def speedup_tok (results : List MethodResult) (s m : Nat) : Tok :=
  if gflops_at results 0 s > 0 ∧ gflops_at results m s > 0 then
    Tok.speedup_cell s m (gflops_at results m s / gflops_at results 0 s)
  else Tok.speedup_na s m

/-- The row of a table for size index `s`. -/
def row_toks (cell_tok : Nat → Nat → Tok) (first num_methods : Nat) (sizes : List Int)
    (num_sizes s : Nat) : List Tok :=
  Tok.size_cell (sizes.getD s 0) :: (List.range' first (num_methods - first)).map (cell_tok s)
    ++ (if (s : Int) < (num_sizes : Int) - 1 then [Tok.newline, Tok.row_sep]
        else [Tok.newline])

/-- A whole table. -/
def table_toks (title : String) (cell_tok : Nat → Nat → Tok) (first : Nat)
    (results : List MethodResult) (num_methods : Nat) (sizes : List Int) (num_sizes : Nat) :
    List Tok :=
  [Tok.box_top, Tok.title title, Tok.box_head, Tok.size_head]
  ++ (List.range' first (num_methods - first)).map (fun m => Tok.name_cell (name_at results m))
  ++ [Tok.newline, Tok.box_mid]
  ++ (List.range' 0 num_sizes).flatMap (row_toks cell_tok first num_methods sizes num_sizes)
  ++ [Tok.box_end]

/-- The valid samples of method `m`: the entries `results[m].gflops[s] > 0`, `s` below
`num_sizes`, in order. -/
def valid_samples (results : List MethodResult) (m num_sizes : Nat) : List ℚ :=
  ((List.range' 0 num_sizes).map (gflops_at results m)).filter (fun g => decide (g > 0))

/-- The summary block of method `m`, from its valid samples. -/
def resumo_toks (results : List MethodResult) (num_sizes : Nat) (peak_gflops : ℚ) (m : Nat) :
    List Tok :=
  Tok.method_name m (name_at results m) ::
    (if valid_samples results m num_sizes = [] then []
     else
      [Tok.maximo m ((valid_samples results m num_sizes).foldl
          (fun a g => if g > a then g else a) 0),
       Tok.minimo m ((valid_samples results m num_sizes).foldl
          (fun a g => if g < a then g else a) (10 ^ 9)),
       Tok.media m ((valid_samples results m num_sizes).sum /
          ((valid_samples results m num_sizes).length : ℚ)),
       Tok.eficiencia_media m ((valid_samples results m num_sizes).sum /
          ((valid_samples results m num_sizes).length : ℚ) / peak_gflops * 100)])

/-- The whole report. -/
def report_toks (results : List MethodResult) (num_methods : Nat) (sizes : List Int)
    (num_sizes : Nat) (peak_gflops : ℚ) : List Tok :=
  table_toks "MATRIZ DE RESULTADOS - DGEMM BENCHMARK" (gflops_tok results) 0 results
    num_methods sizes num_sizes
  ++ table_toks "TEMPOS DE EXECUÇÃO (segundos)" (time_tok results) 0 results num_methods
    sizes num_sizes
  ++ table_toks "SPEEDUP RELATIVO (vs Naive)" (speedup_tok results) 1 results num_methods
    sizes num_sizes
  ++ Tok.summary_head ::
    (List.range' 0 num_methods).flatMap (resumo_toks results num_sizes peak_gflops)

/-- A result table with one measured size: the three rows `main` fills, with GFLOPS
`g0`, `g1`, `g2` at size index 0 and the initial zeros elsewhere, times `t0`, `t1`, `t2`
and efficiencies `e0`, `e1`, `e2`. -/
def one_size_table (g0 g1 g2 t0 t1 t2 e0 e1 e2 : ℚ) : List MethodResult :=
  [ { name := "Naive (IKJ)", gflops := [g0, 0, 0, 0, 0, 0, 0], time := [t0, 0, 0, 0, 0, 0, 0],
      efficiency := [e0, 0, 0, 0, 0, 0, 0] },
    { name := "AVX (Pure)", gflops := [g1, 0, 0, 0, 0, 0, 0], time := [t1, 0, 0, 0, 0, 0, 0],
      efficiency := [e1, 0, 0, 0, 0, 0, 0] },
    { name := "AVX+Blocking+Unroll", gflops := [g2, 0, 0, 0, 0, 0, 0],
      time := [t2, 0, 0, 0, 0, 0, 0], efficiency := [e2, 0, 0, 0, 0, 0, 0] } ]

/-- The valid size indices of method `m`: those `s < num_sizes` with
`results[m].gflops[s] > 0`. -/
def valid_sizes (results : List MethodResult) (m num_sizes : Nat) : List Nat :=
  (List.range' 0 num_sizes).filter (fun s => decide (gflops_at results m s > 0))

/-- The arithmetic mean of the stored `results[m].efficiency[s]` over the valid sizes. -/
def efficiency_mean (results : List MethodResult) (m num_sizes : Nat) : ℚ :=
  ((valid_sizes results m num_sizes).map (efficiency_at results m)).sum /
    ((valid_sizes results m num_sizes).length : ℚ)

/-! ## `dgemm_aprimorado.c`: the speedups of `main` -/

/-- `double speedup_avx = (gflops_naive > 0) ? gflops_avx / gflops_naive : 0;` in the size
loop of `main` of `dgemm_aprimorado.c`. -/
def speedup_avx (gflops_naive gflops_avx : ℚ) : ℚ :=
  if gflops_naive > 0 then gflops_avx / gflops_naive else 0

/-- `double speedup_block = (gflops_naive > 0) ? gflops_avx_block / gflops_naive : 0;` in
the size loop of `main` of `dgemm_aprimorado.c`. -/
def speedup_block (gflops_naive gflops_avx_block : ℚ) : ℚ :=
  if gflops_naive > 0 then gflops_avx_block / gflops_naive else 0

/-! ## Host introspection: `get_cpu_freq` -/

/-- Whether `s` begins with `needle`. -/
def starts_with : List Char → List Char → Bool
  | _, [] => true
  | [], _ :: _ => false
  | c :: cs, d :: ds => c == d && starts_with cs ds

/-- `strstr(hay, needle)`: the offset of the first occurrence of `needle` in `hay`, `none`
for the null pointer. -/
def strstr : List Char → List Char → Option Nat
  | [], needle => if starts_with [] needle then some 0 else none
  | c :: rest, needle =>
    if starts_with (c :: rest) needle then some 0 else (strstr rest needle).map (· + 1)

/-- The scan `for (char* p = ghz - 1; p >= line && i < 10; p--)` of `get_cpu_freq`, over
the characters before `"GHz"` from the nearest on: a digit or `'.'` is appended to
`freq_str`, an `'@'` ends the scan, any other character is passed over; `i` is the number
of characters collected. -/
def collect_digits : List Char → Nat → List Char → List Char
  | [], _, freq_str => freq_str
  | c :: before, i, freq_str =>
    if i < 10 then
      if ('0' ≤ c ∧ c ≤ '9') ∨ c = '.' then collect_digits before (i + 1) (freq_str ++ [c])
      else if c = '@' then freq_str
      else collect_digits before i freq_str
    else freq_str

/-- The `while (fgets(line, sizeof(line), fp))` loop of `get_cpu_freq`, over the lines
`fgets` returns, with the current value of `freq`. A line containing `"cpu MHz"` ends the
loop after `sscanf(line, "cpu MHz : %f", &freq)`, which stores a value only when the
conversion succeeds (`sscanf_mhz line`); a line containing `"model name"` and `"GHz"` ends
it with `freq = atof(freq_str)`, `freq_str` being the characters collected backwards from
`"GHz"` and then reversed. -/
def read_freq (sscanf_mhz : List Char → Option ℚ) (atof : List Char → ℚ) :
    List (List Char) → ℚ → ℚ
  | [], freq => freq
  | line :: rest, freq =>
    if (strstr line "cpu MHz".toList).isSome then
      match sscanf_mhz line with
      | some v => v
      | none => freq
    else if (strstr line "model name".toList).isSome then
      match strstr line "GHz".toList with
      | some ghz => atof (collect_digits (line.take ghz).reverse 0 []).reverse
      | none => read_freq sscanf_mhz atof rest freq
    else read_freq sscanf_mhz atof rest freq

/-- `float get_cpu_freq()`. `cpuinfo` is `none` when `fopen("/proc/cpuinfo", "r")` fails,
else the lines that `fgets` returns; `sscanf_mhz` and `atof` are the two library
conversions. -/
def get_cpu_freq (sscanf_mhz : List Char → Option ℚ) (atof : List Char → ℚ)
    (cpuinfo : Option (List (List Char))) : ℚ :=
  match cpuinfo with
  | none => 5 / 2
  | some lines =>
    let freq := read_freq sscanf_mhz atof lines 0
    let freq := if freq < 100 then freq * 1000 else freq
    freq / 1000

/-! ## Vocabulary for the updates of one output element -/

/-- The elements of `B` used by the updates of `C[i*n+j]`, as flat indices in the order in
which the log says they were used (oldest first). -/
def b_order (n i j : Nat) (log : List Access) : List Nat :=
  (((updates log).filter (fun u => decide (u.1 = i * n + j))).map (fun u => u.2)).reverse

/-- Running `f` updates element `(i, j)` with the elements of `B` at the flat indices `L`,
in that order, and in no other way. -/
def Feeds (n i j : Nat) (f : KState → Option KState) (L : List Nat) : Prop :=
  ∀ s s', f s = some s' → b_order n i j s'.log = b_order n i j s.log ++ L

/-- The flat indices `k * n + j` of column `j` of `B` for `k = lo, ..., hi - 1`. -/
def bspan (n j lo hi : Nat) : List Nat := (span lo hi).map (fun k => k * n + j)

/-! ## Vocabulary for the tiles -/

/-- One tile of `dgemm_avx_block` / `dgemm_avx_block_prefetch`, the body of the `j_blk`
loop: the three clamped ends, then `for (i = i_blk; i < i_max; i++)
for (k = k_blk; k < k_max; k++) kbody`. -/
def tile_body (kbody : Nat → Nat → Nat → Nat → KState → Option KState) (T n : Nat)
    (i_blk k_blk j_blk : Nat) (s : KState) : Option KState :=
  let i_max := tile_max T n i_blk
  let k_max := tile_max T n k_blk
  let j_max := tile_max T n j_blk
  (forLoop (n + 1) (fun i => decide (i < i_max)) 1 (fun i s =>
    (forLoop (n + 1) (fun k => decide (k < k_max)) 1
      (kbody j_blk j_max i) k_blk s).map Prod.snd) i_blk s).map Prod.snd

/-- Running `body` on the items of a list, one after the other, as long as it is defined. -/
def run_list {α σ : Type} (body : α → σ → Option σ) : List α → σ → Option σ
  | [], s => some s
  | x :: xs, s =>
    match body x s with
    | none => none
    | some s' => run_list body xs s'

/-- The tile origins along one axis: `0, T, 2 * T, ...`, as many as `ceil (n / T)`. -/
def tile_starts (T n : Nat) : List Nat :=
  (List.range ((n + T - 1) / T)).map (fun q => q * T)

/-- The tiles `(i_blk, k_blk, j_blk)` in `i → k → j` nesting order. -/
def tiles (T n : Nat) : List (Nat × Nat × Nat) :=
  (tile_starts T n).flatMap (fun i_blk =>
    (tile_starts T n).flatMap (fun k_blk =>
      (tile_starts T n).map (fun j_blk => (i_blk, k_blk, j_blk))))

/-- Every scalar load or store in the log is at a flat index below `n * n`, and every
4-element vector load or store lies with all four elements below `n * n`. A prefetch hint
reads and writes nothing and is not constrained. -/
def InBounds (n : Nat) (log : List Access) : Prop :=
  ∀ a ∈ log, ((a.kind = .load ∨ a.kind = .store) → a.idx < n * n) ∧
    ((a.kind = .vload ∨ a.kind = .vstore) → a.idx + 3 < n * n)

/-! ## `teste.c`: the measurement harness -/

/-- What `run_benchmark` of `teste.c` leaves behind: the world, the final `total_time`,
and the values `avg_time` and `gflops` it prints and (the latter) returns. -/
structure TesteOut where
  bench : Bench
  total_time : ℚ
  avg_time : ℚ
  gflops : ℚ

/-- Body of the measured loop of `run_benchmark` of `teste.c`: `clean_matrix`, the reading
`start`, `func`, the reading `stop` (`end` in the source), `total_time += (end - start)`.
Nothing is printed. -/
def measured_run_teste (func : Kernel) (clock : Nat → ℚ) (n : Nat) (A B : List ℚ) (_r : Nat)
    (st : Bench × ℚ) : Option (Bench × ℚ) :=
  match clean_matrix st.1.mem.C n with
  | none => none
  | some C0 =>
    let start := clock st.1.ticks
    match func n A B { st.1.mem with C := C0 } with
    | none => none
    | some m =>
      let stop := clock (st.1.ticks + 1)
      some ({ mem := m, ticks := st.1.ticks + 2, calls := C0 :: st.1.calls, out := st.1.out },
            st.2 + (stop - start))

/-- `double run_benchmark(func, n, A, B, C, name)` of `teste.c`: the warm-up loop, the
measured loop from `total_time = 0.0`, then `avg_time = total_time / NUM_RUNS`,
`operations = 2.0 * n * n * n`, `gflops = (operations / avg_time) * 1e-9`, which is printed
with `name`, `n` and `avg_time`, and returned. `WARMUP_RUNS` and `NUM_RUNS` are 1 and 5 in
`teste.c` as well. -/
def run_benchmark_teste (func : Kernel) (clock : Nat → ℚ) (n : Nat) (A B : List ℚ)
    (_name : String) (b : Bench) : Option TesteOut :=
  match forLoop (WARMUP_RUNS + 1) (fun w => decide (w < WARMUP_RUNS)) 1
      (fun _ b => clean_and_call func n A B b) 0 b with
  | none => none
  | some (_, b1) =>
    match forLoop (NUM_RUNS + 1) (fun r => decide (r < NUM_RUNS)) 1
        (measured_run_teste func clock n A B) 0 (b1, 0) with
    | none => none
    | some (_, (b2, total_time)) =>
      let avg_time := total_time / (NUM_RUNS : ℚ)
      let gflops := (operations n / avg_time) * (1 / 10 ^ 9)
      some { bench := b2, total_time := total_time, avg_time := avg_time, gflops := gflops }

/-! ## `main`: the loop over the matrix sizes -/

/-- A value of type `int` (32 bits): signed overflow is undefined behaviour, `none`. -/
def int32 (x : Int) : Option Int :=
  if -2 ^ 31 ≤ x ∧ x < 2 ^ 31 then some x else none

/-- `size_t mem_usage = 3 * n * n * sizeof(double) / (1024*1024);` with `int n`: the
products `3 * n` and `3 * n * n` are formed in `int`, the result is converted to the 64-bit
`size_t`, multiplied by `sizeof(double) = 8` modulo `2^64` and divided by `2^20`. -/
def mem_usage (n : Int) : Option Nat :=
  match int32 (3 * n) with
  | none => none
  | some a =>
    match int32 (a * n) with
    | none => none
    | some p => some ((p % 2 ^ 64).toNat * 8 % 2 ^ 64 / (1024 * 1024))

/-- What the size loop of `main` does, step by step: the skip message, the processing
message, an allocation, a call of `run_benchmark` (with the method and size index it is
handed in `dgemm_aprimorado_2.c`), the table row `dgemm_aprimorado.c` prints, a release,
the one-second pause. -/
inductive MainEvent where
  | pulando (n : Int) (mem_usage : Nat)
  | processando (n : Int) (mem_usage : Nat)
  | alloc (n : Int) (name : String)
  | bench (name : String) (n : Int) (method_idx size_idx : Nat)
  | bench_aprimorado (name : String) (n : Int)
  | linha (n : Int)
  | free
  | sleep
deriving DecidableEq

/-- Body of `for (int s = 0; s < num_sizes; s++)` in `main` of `dgemm_aprimorado_2.c`:
a size whose `mem_usage` exceeds 4096 is skipped by `continue`; otherwise the three
buffers are allocated, the three kernels are benchmarked into `results` at
`(0, s)`, `(1, s)`, `(2, s)`, the buffers are released, and sizes from 512 on are followed
by `sleep(1)`. -/
def main_size_step (sizes : List Int) (s : Nat) (ev : List MainEvent) :
    Option (List MainEvent) :=
  match sizes[s]? with
  | none => none
  | some n =>
    match mem_usage n with
    | none => none
    | some mem =>
      if mem > 4096 then some (ev ++ [MainEvent.pulando n mem])
      else
        some (ev ++
          [MainEvent.processando n mem, MainEvent.alloc n "Matriz A",
           MainEvent.alloc n "Matriz B", MainEvent.alloc n "Matriz C",
           MainEvent.bench "Naive (IKJ)" n 0 s, MainEvent.bench "AVX (Pure)" n 1 s,
           MainEvent.bench "AVX+Blocking+Unroll" n 2 s,
           MainEvent.free, MainEvent.free, MainEvent.free]
          ++ (if n ≥ 512 then [MainEvent.sleep] else []))

/-- The size loop of `main` of `dgemm_aprimorado_2.c`, with
`int sizes[] = {64, 128, 256, 512, 1024, 2048}` and
`num_sizes = sizeof(sizes) / sizeof(sizes[0])`. -/
def main_size_loop : Option (List MainEvent) :=
  let sizes : List Int := [64, 128, 256, 512, 1024, 2048]
  let num_sizes := sizes.length
  (forLoop (num_sizes + 1) (fun s => decide (s < num_sizes)) 1 (main_size_step sizes) 0
    []).map Prod.snd

/-- Body of the size loop in `main` of `dgemm_aprimorado.c`: the limit is 512, the three
calls of `run_benchmark` take no indices, and a table row is printed after them. -/
def main_size_step_aprimorado (sizes : List Int) (s : Nat) (ev : List MainEvent) :
    Option (List MainEvent) :=
  match sizes[s]? with
  | none => none
  | some n =>
    match mem_usage n with
    | none => none
    | some mem =>
      if mem > 512 then some (ev ++ [MainEvent.pulando n mem])
      else
        some (ev ++
          [MainEvent.processando n mem, MainEvent.alloc n "Matriz A",
           MainEvent.alloc n "Matriz B", MainEvent.alloc n "Matriz C",
           MainEvent.bench_aprimorado "Naive (IKJ)" n,
           MainEvent.bench_aprimorado "AVX (Pure)" n,
           MainEvent.bench_aprimorado "AVX+Blocking+Unroll" n, MainEvent.linha n,
           MainEvent.free, MainEvent.free, MainEvent.free]
          ++ (if n ≥ 512 then [MainEvent.sleep] else []))

/-- The size loop of `main` of `dgemm_aprimorado.c`, with
`int sizes[] = {64, 128, 256, 512, 1024}`. -/
def main_size_loop_aprimorado : Option (List MainEvent) :=
  let sizes : List Int := [64, 128, 256, 512, 1024]
  let num_sizes := sizes.length
  (forLoop (num_sizes + 1) (fun s => decide (s < num_sizes)) 1
    (main_size_step_aprimorado sizes) 0 []).map Prod.snd

/-- Whether the event is the skip message. -/
def MainEvent.skipped : MainEvent → Bool
  | .pulando _ _ => true
  | _ => false

/-- The cell `(method_idx, size_idx)` a call of `run_benchmark` is handed. -/
def MainEvent.cell : MainEvent → Option (Nat × Nat)
  | .bench _ _ m s => some (m, s)
  | _ => none

/-- The size a call of `run_benchmark` is handed. -/
def MainEvent.size : MainEvent → Option Int
  | .bench _ n _ _ => some n
  | .bench_aprimorado _ n => some n
  | _ => none

/-! ## Binary64 arithmetic, and the aggregation of `run_benchmark` in it -/

/-- A finite non-negative `double`, the value `m * 2 ^ e`: zero (`m = 0`), or a normal
binary64 number with `2 ^ 52 ≤ m < 2 ^ 53`. Signs, subnormal numbers, infinities and NaN
are not represented. -/
structure F64 where
  m : Nat
  e : Int
deriving DecidableEq

/-- The number of binary digits of `p`, by at most `fuel` halvings. -/
def bit_length (fuel p : Nat) : Nat :=
  match fuel with
  | 0 => 0
  | fuel + 1 => if p = 0 then 0 else bit_length fuel (p / 2) + 1

/-- The `double` nearest to the non-negative rational `p / q * 2 ^ e` (`q > 0`), ties to the
even significand: the default rounding of IEEE 754, without overflow or underflow. With
`s` the shift that brings the quotient `p * 2 ^ s / q` into `[2 ^ 52, 2 ^ 53)` (`s0` or
`s0 + 1`, as `p / q` lies within a factor 2 of `2 ^ (52 - s0)`), the significand is that
quotient rounded to an integer. -/
def F64.round (p q : Nat) (e : Int) : F64 :=
  if p = 0 then ⟨0, 0⟩
  else
    let s0 : Int := 52 - ((bit_length p p : Int) - (bit_length q q : Int))
    let s : Int := if p * 2 ^ s0.toNat / (q * 2 ^ (-s0).toNat) < 2 ^ 52 then s0 + 1 else s0
    let num := p * 2 ^ s.toNat
    let den := q * 2 ^ (-s).toNat
    let qt := num / den
    let rem := num % den
    let m := if den < 2 * rem ∨ (2 * rem = den ∧ qt % 2 = 1) then qt + 1 else qt
    if m = 2 ^ 53 then ⟨2 ^ 52, e - s + 1⟩ else ⟨m, e - s⟩

/-- Conversion of a non-negative `int` to `double`, and a literal such as `2.0`. -/
def F64.ofNat (n : Nat) : F64 := F64.round n 1 0

/-- Binary64 `a + b`: the exact sum, rounded. -/
def F64.add (a b : F64) : F64 :=
  let e := min a.e b.e
  F64.round (a.m * 2 ^ (a.e - e).toNat + b.m * 2 ^ (b.e - e).toNat) 1 e

/-- Binary64 `a - b` for `b ≤ a`: the exact difference, rounded. -/
def F64.sub (a b : F64) : F64 :=
  let e := min a.e b.e
  F64.round (a.m * 2 ^ (a.e - e).toNat - b.m * 2 ^ (b.e - e).toNat) 1 e

/-- Binary64 `a * b`: the exact product, rounded. -/
def F64.mul (a b : F64) : F64 := F64.round (a.m * b.m) 1 (a.e + b.e)

/-- Binary64 `a / b` for `b ≠ 0`: the exact quotient, rounded. -/
def F64.div (a b : F64) : F64 := F64.round a.m b.m (a.e - b.e)

/-- The comparison `a < b` of two `double`s. -/
def F64.lt (a b : F64) : Bool :=
  let e := min a.e b.e
  decide (a.m * 2 ^ (a.e - e).toNat < b.m * 2 ^ (b.e - e).toNat)

/-- The literal `1e-9`. -/
def F64.lit_1e_9 : F64 := F64.round 1 (10 ^ 9) 0

/-- `double operations = 2.0 * (double)n * (double)n * (double)n;` in binary64. -/
def operations64 (n : Nat) : F64 :=
  (((F64.ofNat 2).mul (F64.ofNat n)).mul (F64.ofNat n)).mul (F64.ofNat n)

/-- `double gflops = (operations / elapsed) * 1e-9;` in binary64. -/
def run_gflops64 (n : Nat) (elapsed : F64) : F64 :=
  ((operations64 n).div elapsed).mul F64.lit_1e_9

/-- The locals of the measured loop of `run_benchmark` as `double`s. -/
structure Stats64 where
  min_time : F64
  max_time : F64
  total_time : F64
  total_gflops : F64

/-- What one iteration of the measured loop of `run_benchmark` does to its locals, given
the `elapsed` it measured: the statements of `measured_run` on `Stats`, in binary64. -/
def measured_stats64 (n : Nat) (st : Stats64) (elapsed : F64) : Stats64 :=
  let gflops := run_gflops64 n elapsed
  { total_time := st.total_time.add elapsed,
    total_gflops := st.total_gflops.add gflops,
    min_time := if elapsed.lt st.min_time then elapsed else st.min_time,
    max_time := if st.max_time.lt elapsed then elapsed else st.max_time }

/-- The locals of `run_benchmark` after the measured loop has seen the given elapsed times,
from `min_time = 1e9`, `max_time = 0`, `total_time = 0.0`, `total_gflops = 0.0`. -/
def stats64 (n : Nat) (elapsed : List F64) : Stats64 :=
  elapsed.foldl (measured_stats64 n)
    { min_time := F64.ofNat (10 ^ 9), max_time := ⟨0, 0⟩, total_time := ⟨0, 0⟩,
      total_gflops := ⟨0, 0⟩ }

/-- `double avg_time = total_time / NUM_RUNS;` in binary64. -/
def avg_time64 (st : Stats64) : F64 := st.total_time.div (F64.ofNat NUM_RUNS)

/-- `double avg_gflops = total_gflops / NUM_RUNS;` in binary64, the value `run_benchmark`
of `dgemm_aprimorado_2.c` returns. -/
def avg_gflops64 (st : Stats64) : F64 := st.total_gflops.div (F64.ofNat NUM_RUNS)

/-- The value of the variation line, `(max_time - min_time) / avg_time * 50.0`, in
binary64. -/
def variation64 (st : Stats64) : F64 :=
  ((st.max_time.sub st.min_time).div (avg_time64 st)).mul (F64.ofNat 50)

/-- The value `run_benchmark` of `teste.c` returns, in binary64: `total_time` summed from
`0.0`, `avg_time = total_time / NUM_RUNS`, `gflops = (operations / avg_time) * 1e-9`. -/
def teste_gflops64 (n : Nat) (elapsed : List F64) : F64 :=
  let total_time := elapsed.foldl F64.add ⟨0, 0⟩
  let avg_time := total_time.div (F64.ofNat NUM_RUNS)
  ((operations64 n).div avg_time).mul F64.lit_1e_9

/-! ## Lemmas -/

theorem Adds.congr {N : Nat} {f : KState → Option KState} {δ δ' : Nat → ℚ}
    (h : Adds N f δ) (hδ : ∀ p, p < N → δ p = δ' p) : Adds N f δ' := by
  intro s hs
  obtain ⟨s', h1, h2, h3⟩ := h s hs
  exact ⟨s', h1, h2, fun p hp => by rw [h3 p hp, hδ p hp]⟩

theorem sum_Ico_step (g : Nat → ℚ) {x w hi x' : Nat} (hx' : x + w ≤ x') :
    ∑ j ∈ Ico x (min (x + w) hi), g j + ∑ j ∈ Ico (x + w) (min x' hi), g j
      = ∑ j ∈ Ico x (min x' hi), g j := by
  by_cases h : x + w ≤ hi
  · rw [min_eq_left h]
    exact Finset.sum_Ico_consecutive g (by omega) (le_min hx' h)
  · have h1 : min (x + w) hi = hi := min_eq_right (by omega)
    have h2 : min x' hi = hi := min_eq_right (by omega)
    rw [h1, h2, Finset.Ico_eq_empty (by omega : ¬ x + w < hi)]
    simp

theorem forLoop_adds {N : Nat} (cond : Nat → Bool) (w hi : Nat)
    (body : Nat → KState → Option KState) (f : Nat → Nat → ℚ) (hw : 0 < w)
    (hcond : ∀ x, cond x = true → x < hi)
    (hbody : ∀ x, cond x = true →
      Adds N (body x) (fun p => ∑ j ∈ Ico x (min (x + w) hi), f j p)) :
    ∀ (fuel x0 : Nat) (s : KState), hi - x0 < fuel → s.C.length = N →
      ∃ x' s', forLoop fuel cond w body x0 s = some (x', s') ∧ cond x' = false ∧ x0 ≤ x' ∧
        s'.C.length = N ∧
        ∀ p, p < N → s'.C.getD p 0 = s.C.getD p 0 + ∑ j ∈ Ico x0 (min x' hi), f j p := by
  intro fuel
  induction fuel with
  | zero => intro x0 s h; omega
  | succ fuel ih =>
    intro x0 s hfuel hs
    by_cases hc : cond x0 = true
    · have hlt := hcond x0 hc
      obtain ⟨s1, e1, l1, v1⟩ := hbody x0 hc s hs
      obtain ⟨x', s', e2, c2, le2, l2, v2⟩ := ih (x0 + w) s1 (by omega) l1
      refine ⟨x', s', ?_, c2, by omega, l2, ?_⟩
      · simp [forLoop, hc, e1, e2]
      · intro p hp
        rw [v2 p hp, v1 p hp, add_assoc, sum_Ico_step (fun j => f j p) le2]
    · refine ⟨x0, s, ?_, by simpa using hc, le_refl _, hs, ?_⟩
      · simp [forLoop, hc]
      · intro p _
        have : Ico x0 (min x0 hi) = ∅ := Finset.Ico_eq_empty (by simp)
        simp [this]

theorem forLoop_counter_le {σ : Type} (cond : Nat → Bool) (w hi : Nat)
    (body : Nat → σ → Option σ) (hstep : ∀ x, cond x = true → x + w ≤ hi) :
    ∀ (fuel x0 : Nat) (s : σ) (x' : Nat) (s' : σ), x0 ≤ hi →
      forLoop fuel cond w body x0 s = some (x', s') → x' ≤ hi := by
  intro fuel
  induction fuel with
  | zero => intro x0 s x' s' _ h; simp [forLoop] at h
  | succ fuel ih =>
    intro x0 s x' s' h0 h
    by_cases hc : cond x0 = true
    · simp only [forLoop, hc, if_true] at h
      cases hb : body x0 s with
      | none => simp [hb] at h
      | some s1 =>
        rw [hb] at h
        exact ih (x0 + w) s1 x' s' (hstep x0 hc) h
    · simp only [forLoop, hc] at h
      simp at h
      omega

theorem flat_lt {n i j : Nat} (hi : i < n) (hj : j ≤ n) : i * n + j ≤ n * n := by
  have : (i + 1) * n ≤ n * n := Nat.mul_le_mul_right n hi
  have h2 : (i + 1) * n = i * n + n := by ring
  omega

theorem loadA_eq {A : List ℚ} {ai : Nat} (h : ai < A.length) (s : KState) :
    loadA A ai s = some (A.getD ai 0, { s with log := ⟨.load, .A, ai⟩ :: s.log }) := by
  simp [loadA, List.getElem?_eq_getElem h, List.getD_eq_getElem _ _ h]

theorem getD_set_eq (l : List ℚ) (c p : Nat) (v : ℚ) :
    (l.set c v).getD p 0 = if p = c ∧ c < l.length then v else l.getD p 0 := by
  simp only [List.getD_eq_getElem?_getD, List.getElem?_set]
  by_cases h : c = p
  · subst h
    by_cases h2 : c < l.length
    · simp [h2]
    · simp [h2, List.getElem?_eq_none (not_lt.mp h2)]
  · have : ¬ p = c := fun e => h e.symm
    simp [h, this]

theorem accum_eq {B : List ℚ} {r : ℚ} {ci bi : Nat} {s : KState}
    (hc : ci < s.C.length) (hb : bi < B.length) :
    accum B r ci bi s = some
      { C := s.C.set ci (s.C.getD ci 0 + r * B.getD bi 0),
        log := ⟨.store, .C, ci⟩ :: ⟨.load, .B, bi⟩ :: ⟨.load, .C, ci⟩ :: s.log } := by
  simp only [accum, List.getElem?_eq_getElem hc, List.getElem?_eq_getElem hb,
    List.getD_eq_getElem _ _ hc, List.getD_eq_getElem _ _ hb]

theorem accum_adds {n : Nat} {B : List ℚ} (hB : B.length = n * n) (r : ℚ) {i k j : Nat}
    (hi : i < n) (hk : k < n) (hj : j < n) :
    Adds (n * n) (accum B r (i * n + j) (k * n + j))
      (fun p => if p = i * n + j then r * B.getD (k * n + j) 0 else 0) := by
  intro s hs
  have hc : i * n + j < s.C.length := by have := flat_lt hi (Nat.succ_le_of_lt hj); omega
  have hb : k * n + j < B.length := by have := flat_lt hk (Nat.succ_le_of_lt hj); omega
  refine ⟨_, accum_eq hc hb, by simp [hs], ?_⟩
  intro p _
  simp only [getD_set_eq]
  by_cases hp : p = i * n + j
  · subst hp; simp [hc]
  · simp [hp]

theorem accumA_adds {n : Nat} {A B : List ℚ} (hA : A.length = n * n) (hB : B.length = n * n)
    {i k j : Nat} (hi : i < n) (hk : k < n) (hj : j < n) :
    Adds (n * n) (accumA A B (i * n + j) (i * n + k) (k * n + j)) (term n A B i k j) := by
  intro s hs
  have ha : i * n + k < A.length := by have := flat_lt hi (Nat.succ_le_of_lt hk); omega
  simp only [accumA, loadA_eq ha]
  exact accum_adds hB _ hi hk hj _ hs

theorem vload_false (m : List ℚ) (idx : Nat) : vload false m idx = mm256_loadu_pd m idx := rfl

theorem vstore_false (m : List ℚ) (idx : Nat) (v : m256d) :
    vstore false m idx v = mm256_storeu_pd m idx v := rfl

theorem vload_true (m : List ℚ) (idx : Nat) : vload true m idx = mm256_load_pd m idx := rfl

theorem vstore_true (m : List ℚ) (idx : Nat) (v : m256d) :
    vstore true m idx v = mm256_store_pd m idx v := rfl

theorem mm256_loadu_pd_eq {m : List ℚ} {idx : Nat} (h : idx + 3 < m.length) :
    mm256_loadu_pd m idx =
      some ⟨m.getD idx 0, m.getD (idx + 1) 0, m.getD (idx + 2) 0, m.getD (idx + 3) 0⟩ := by
  have h0 : idx < m.length := by omega
  have h1 : idx + 1 < m.length := by omega
  have h2 : idx + 2 < m.length := by omega
  simp only [mm256_loadu_pd, List.getElem?_eq_getElem h0, List.getElem?_eq_getElem h1,
    List.getElem?_eq_getElem h2, List.getElem?_eq_getElem h,
    List.getD_eq_getElem _ _ h0, List.getD_eq_getElem _ _ h1,
    List.getD_eq_getElem _ _ h2, List.getD_eq_getElem _ _ h]

theorem sum_Ico_four (g : Nat → ℚ) (j : Nat) :
    ∑ t ∈ Ico j (j + 4), g t = g j + g (j + 1) + g (j + 2) + g (j + 3) := by
  rw [Finset.sum_Ico_eq_sum_range]
  simp [Finset.sum_range_succ]

theorem getD_set_four (l : List ℚ) (c p : Nat) (v0 v1 v2 v3 : ℚ) (h : c + 3 < l.length) :
    ((((l.set c v0).set (c + 1) v1).set (c + 2) v2).set (c + 3) v3).getD p 0 =
      if p = c then v0 else if p = c + 1 then v1 else if p = c + 2 then v2
      else if p = c + 3 then v3 else l.getD p 0 := by
  have h0 : c < l.length := by omega
  have h1 : c + 1 < l.length := by omega
  have h2 : c + 2 < l.length := by omega
  simp only [getD_set_eq, List.length_set, h0, h1, h2, h, and_true]
  by_cases p0 : p = c
  · subst p0; simp
  by_cases p1 : p = c + 1
  · subst p1; simp
  by_cases p2 : p = c + 2
  · subst p2; simp
  by_cases p3 : p = c + 3
  · subst p3; simp
  · simp [p0, p1, p2, p3]

theorem vecStep_adds {n : Nat} {A B : List ℚ} (hB : B.length = n * n) (fma : Bool)
    {i k j : Nat} (hi : i < n) (hk : k < n) (hj : j + 4 ≤ n) :
    Adds (n * n)
      (vecStep false fma B (mm256_set1_pd (A.getD (i * n + k) 0)) (i * n + j) (k * n + j))
      (fun p => ∑ t ∈ Ico j (j + 4), term n A B i k t p) := by
  intro s hs
  have hc : i * n + j + 3 < s.C.length := by have := flat_lt hi (by omega : j + 4 ≤ n); omega
  have hb : k * n + j + 3 < B.length := by have := flat_lt hk (by omega : j + 4 ≤ n); omega
  simp only [vecStep, vload_false, vstore_false, mm256_loadu_pd_eq hc, mm256_loadu_pd_eq hb,
    mm256_storeu_pd, hc, if_true]
  refine ⟨_, rfl, by simp [hs], ?_⟩
  intro p _
  have e1 : i * n + (j + 1) = i * n + j + 1 := by omega
  have e2 : i * n + (j + 2) = i * n + j + 2 := by omega
  have e3 : i * n + (j + 3) = i * n + j + 3 := by omega
  have f1 : k * n + (j + 1) = k * n + j + 1 := by omega
  have f2 : k * n + (j + 2) = k * n + j + 2 := by omega
  have f3 : k * n + (j + 3) = k * n + j + 3 := by omega
  simp only [sum_Ico_four, term, getD_set_four _ _ _ _ _ _ _ hc, e1, e2, e3, f1, f2, f3]
  generalize i * n + j = c
  generalize k * n + j = b
  generalize A.getD (i * n + k) 0 = a
  by_cases p0 : p = c
  · subst p0
    cases fma <;> simp [mm256_set1_pd, mm256_add_pd, mm256_mul_pd, mm256_fmadd_pd]
    ring
  by_cases p1 : p = c + 1
  · subst p1
    cases fma <;> simp [mm256_set1_pd, mm256_add_pd, mm256_mul_pd, mm256_fmadd_pd]
    ring
  by_cases p2 : p = c + 2
  · subst p2
    cases fma <;> simp [mm256_set1_pd, mm256_add_pd, mm256_mul_pd, mm256_fmadd_pd]
    ring
  by_cases p3 : p = c + 3
  · subst p3
    cases fma <;> simp [mm256_set1_pd, mm256_add_pd, mm256_mul_pd, mm256_fmadd_pd]
    ring
  · simp [p0, p1, p2, p3]

theorem tile_max_eq (T n b : Nat) : tile_max T n b = min (b + T) n := by
  unfold tile_max
  split_ifs with h
  · exact (min_eq_right (by omega)).symm
  · exact (min_eq_left (by omega)).symm

/-- A unit-step loop `for (x = lo; x < hi; x++)` adds the sum of what its iterations add. -/
theorem forLoop_range_adds {N : Nat} (lo hi : Nat) (body : Nat → KState → Option KState)
    (f : Nat → Nat → ℚ) (hbody : ∀ x, x < hi → Adds N (body x) (f x))
    (fuel : Nat) (hfuel : hi - lo < fuel) :
    Adds N (fun s => (forLoop fuel (fun x => decide (x < hi)) 1 body lo s).map Prod.snd)
      (fun p => ∑ x ∈ Ico lo hi, f x p) := by
  intro s hs
  obtain ⟨x', s', e, c, _, l, v⟩ :=
    forLoop_adds (fun x => decide (x < hi)) 1 hi body f Nat.one_pos
      (fun x hx => by simpa using hx)
      (fun x hx => (hbody x (by simpa using hx)).congr (fun p _ => by
        have hx' : x < hi := by simpa using hx
        rw [min_eq_left (by omega : x + 1 ≤ hi)]
        simp))
      fuel lo s hfuel hs
  have hx' : hi ≤ x' := by simpa using c
  refine ⟨s', by simp [e], l, fun p hp => ?_⟩
  rw [v p hp, min_eq_right hx']

/-- A tile loop `for (b = 0; b < n; b += T)` whose iteration `b` covers
`[b, tile_max T n b)` covers `[0, n)`. -/
theorem forLoop_tiles_adds {N : Nat} (T n : Nat) (hT : 0 < T)
    (body : Nat → KState → Option KState) (f : Nat → Nat → ℚ)
    (hbody : ∀ b, b < n → Adds N (body b) (fun p => ∑ x ∈ Ico b (tile_max T n b), f x p)) :
    Adds N (fun s => (forLoop (n + 1) (fun b => decide (b < n)) T body 0 s).map Prod.snd)
      (fun p => ∑ x ∈ Ico 0 n, f x p) := by
  intro s hs
  obtain ⟨x', s', e, c, _, l, v⟩ :=
    forLoop_adds (fun b => decide (b < n)) T n body f hT
      (fun x hx => by simpa using hx)
      (fun x hx => (hbody x (by simpa using hx)).congr (fun p _ => by rw [tile_max_eq]))
      (n + 1) 0 s (by omega) hs
  have hx' : n ≤ x' := by simpa using c
  refine ⟨s', by simp [e], l, fun p hp => ?_⟩
  rw [v p hp, min_eq_right hx']

theorem naive_k_adds {n : Nat} {A B : List ℚ} (hA : A.length = n * n) (hB : B.length = n * n)
    {i k : Nat} (hi : i < n) (hk : k < n) :
    Adds (n * n) (naive_k n A B i k) (fun p => ∑ j ∈ Ico 0 n, term n A B i k j p) := by
  intro s hs
  have ha : i * n + k < A.length := by have := flat_lt hi (Nat.succ_le_of_lt hk); omega
  simp only [naive_k, loadA_eq ha]
  exact forLoop_range_adds 0 n _ (term n A B i k)
    (fun j hj => accum_adds hB _ hi hk hj) (n + 1) (by omega) _ hs

theorem naive_i_adds {n : Nat} {A B : List ℚ} (hA : A.length = n * n) (hB : B.length = n * n)
    {i : Nat} (hi : i < n) :
    Adds (n * n) (naive_i n A B i)
      (fun p => ∑ k ∈ Ico 0 n, ∑ j ∈ Ico 0 n, term n A B i k j p) :=
  forLoop_range_adds 0 n _ (fun k p => ∑ j ∈ Ico 0 n, term n A B i k j p)
    (fun _ hk => naive_k_adds hA hB hi hk) (n + 1) (by omega)

theorem dgemm_naive_adds {n : Nat} {A B : List ℚ} (hA : A.length = n * n)
    (hB : B.length = n * n) : Adds (n * n) (dgemm_naive n A B) (total n A B) :=
  forLoop_range_adds 0 n _ (fun i p => ∑ k ∈ Ico 0 n, ∑ j ∈ Ico 0 n, term n A B i k j p)
    (fun _ hi => naive_i_adds hA hB hi) (n + 1) (by omega)

theorem flat_inj {n i j i' j' : Nat} (hj : j < n) (hj' : j' < n)
    (h : i * n + j = i' * n + j') : i = i' ∧ j = j' := by
  have hn : 0 < n := by omega
  have h1 : (i * n + j) / n = i := by
    rw [Nat.add_comm, Nat.add_mul_div_right _ _ hn, Nat.div_eq_of_lt hj, Nat.zero_add]
  have h2 : (i' * n + j') / n = i' := by
    rw [Nat.add_comm, Nat.add_mul_div_right _ _ hn, Nat.div_eq_of_lt hj', Nat.zero_add]
  have hii : i = i' := by rw [← h1, ← h2, h]
  subst hii
  exact ⟨rfl, by omega⟩

/-- The total at element `(i, j)` is the `(i, j)` entry of the product `A * B`. -/
theorem total_eq {n : Nat} (A B : List ℚ) {i j : Nat} (hi : i < n) (hj : j < n) :
    total n A B (i * n + j) = ∑ k ∈ range n, A.getD (i * n + k) 0 * B.getD (k * n + j) 0 := by
  unfold total
  simp only [← Nat.Ico_zero_eq_range] 
  rw [Finset.sum_eq_single i]
  · refine Finset.sum_congr rfl (fun k _ => ?_)
    rw [Finset.sum_eq_single j]
    · simp [term]
    · intro j' hj' hne
      have : ¬ (i * n + j = i * n + j') := by omega
      simp [term, this]
    · intro h; exact absurd (Finset.mem_Ico.mpr ⟨Nat.zero_le _, hj⟩) h
  · intro i' _ hne
    refine Finset.sum_eq_zero (fun k _ => Finset.sum_eq_zero (fun j' hj' => ?_))
    have hj'' : j' < n := (Finset.mem_Ico.mp hj').2
    have : ¬ (i * n + j = i' * n + j') := fun h => hne (flat_inj hj hj'' h).1.symm
    simp [term, this]
  · intro h; exact absurd (Finset.mem_Ico.mpr ⟨Nat.zero_le _, hi⟩) h

/-- A loop `for (; x + w <= hi; x += w)` whose iteration `x` covers `[x, x + w)` stops at
some `x' ≤ hi` having covered `[lo, x')`. -/
theorem forLoop_vec_adds {N : Nat} (w lo hi : Nat) (hw : 0 < w) (cond : Nat → Bool)
    (hcond : ∀ x, cond x = true → x + w ≤ hi)
    (body : Nat → KState → Option KState) (f : Nat → Nat → ℚ)
    (hbody : ∀ x, x + w ≤ hi → Adds N (body x) (fun p => ∑ t ∈ Ico x (x + w), f t p))
    (hlo : lo ≤ hi) (fuel : Nat) (hfuel : hi - lo < fuel) (s : KState) (hs : s.C.length = N) :
    ∃ x' s', forLoop fuel cond w body lo s = some (x', s') ∧ lo ≤ x' ∧ x' ≤ hi ∧
      s'.C.length = N ∧
      ∀ p, p < N → s'.C.getD p 0 = s.C.getD p 0 + ∑ t ∈ Ico lo x', f t p := by
  obtain ⟨x', s', e, _, le, l, v⟩ :=
    forLoop_adds cond w hi body f hw
      (fun x hx => by have := hcond x hx; omega)
      (fun x hx => (hbody x (hcond x hx)).congr (fun p _ => by
        rw [min_eq_left (hcond x hx)]))
      fuel lo s hfuel hs
  have hx' : x' ≤ hi := forLoop_counter_le cond w hi body hcond fuel lo s x' s' hlo e
  refine ⟨x', s', e, le, hx', l, fun p hp => ?_⟩
  rw [v p hp, min_eq_left hx']

theorem Adds.seq {N : Nat} {f g : KState → Option KState} {δ₁ δ₂ : Nat → ℚ}
    (hf : Adds N f δ₁) (hg : Adds N g δ₂) :
    Adds N (fun s => match f s with
      | none => none
      | some s1 => g s1) (fun p => δ₁ p + δ₂ p) := by
  intro s hs
  obtain ⟨s1, e1, l1, v1⟩ := hf s hs
  obtain ⟨s2, e2, l2, v2⟩ := hg s1 l1
  refine ⟨s2, by simp [e1, e2], l2, fun p hp => ?_⟩
  rw [v2 p hp, v1 p hp, add_assoc]

theorem block_j8_adds {n : Nat} {A B : List ℚ} (hB : B.length = n * n)
    {i k j : Nat} (hi : i < n) (hk : k < n) (hj : j + 8 ≤ n) :
    Adds (n * n) (block_j8 false n B (mm256_set1_pd (A.getD (i * n + k) 0)) i k j)
      (fun p => ∑ t ∈ Ico j (j + 8), term n A B i k t p) := by
  have h1 := vecStep_adds (A := A) hB true hi hk (by omega : j + 4 ≤ n)
  have h2 := vecStep_adds (A := A) hB true hi hk (by omega : (j + 4) + 4 ≤ n)
  rw [← Nat.add_assoc, ← Nat.add_assoc] at h2
  refine (h1.seq h2).congr (fun p _ => ?_)
  exact Finset.sum_Ico_consecutive (fun t => term n A B i k t p) (by omega) (by omega)

/-- The three column phases of one `(i, k)` pair cover `[j_blk, j_max)`. -/
theorem block_k_adds {n : Nat} {A B : List ℚ} (hA : A.length = n * n) (hB : B.length = n * n)
    (fma : Bool) {j_blk j_max i k : Nat} (hi : i < n) (hk : k < n)
    (hjb : j_blk ≤ j_max) (hjm : j_max ≤ n) :
    Adds (n * n) (block_k false fma n A B j_blk j_max i k)
      (fun p => ∑ j ∈ Ico j_blk j_max, term n A B i k j p) := by
  intro s hs
  have ha : i * n + k < A.length := by have := flat_lt hi (Nat.succ_le_of_lt hk); omega
  simp only [block_k, loadA_eq ha]
  -- phase 1: the unrolled 8-wide loop (present only with FMA)
  have ph1 : ∃ j1 s2,
      (if fma = true then
        forLoop (n + 1) (fun j => decide ((j : Int) ≤ (j_max : Int) - 8)) 8
          (block_j8 false n B (mm256_set1_pd (A.getD (i * n + k) 0)) i k) j_blk
          { s with log := ⟨.load, .A, i * n + k⟩ :: s.log }
       else some (j_blk, { s with log := ⟨.load, .A, i * n + k⟩ :: s.log })) = some (j1, s2) ∧
      j_blk ≤ j1 ∧ j1 ≤ j_max ∧ s2.C.length = n * n ∧
      ∀ p, p < n * n → s2.C.getD p 0 = s.C.getD p 0 + ∑ t ∈ Ico j_blk j1, term n A B i k t p := by
    cases fma with
    | true =>
      simp only [if_true]
      exact forLoop_vec_adds 8 j_blk j_max (by omega) _
        (fun x hx => by have : (x : Int) ≤ (j_max : Int) - 8 := by simpa using hx
                        omega)
        _ (term n A B i k) (fun x hx => block_j8_adds hB hi hk (by omega)) hjb (n + 1) (by omega)
        { s with log := ⟨.load, .A, i * n + k⟩ :: s.log } hs
    | false =>
      exact ⟨j_blk, { s with log := ⟨.load, .A, i * n + k⟩ :: s.log }, by simp, le_refl _, hjb, hs,
        fun p _ => by simp⟩
  obtain ⟨j1, s2, e1, l1, u1, len1, v1⟩ := ph1
  -- phase 2: the 4-wide loop
  obtain ⟨j2, s3, e2, l2, u2, len2, v2⟩ :=
    forLoop_vec_adds 4 j1 j_max (by omega)
      (fun j => decide ((j : Int) ≤ (j_max : Int) - 4))
      (fun x hx => by have : (x : Int) ≤ (j_max : Int) - 4 := by simpa using hx
                      omega)
      (fun j => vecStep false fma B (mm256_set1_pd (A.getD (i * n + k) 0)) (i * n + j) (k * n + j))
      (term n A B i k) (fun x hx => vecStep_adds hB fma hi hk (by omega)) u1 (n + 1) (by omega)
      s2 len1
  -- phase 3: the scalar clean-up loop
  obtain ⟨s4, e3, len3, v3⟩ :=
    forLoop_range_adds j2 j_max
      (fun j => accumA A B (i * n + j) (i * n + k) (k * n + j)) (term n A B i k)
      (fun j hj => accumA_adds hA hB hi hk (by omega)) (n + 1) (by omega) s3 len2
  refine ⟨s4, ?_, len3, fun p hp => ?_⟩
  · simp only [e1, e2]
    exact e3
  · rw [v3 p hp, v2 p hp, v1 p hp, add_assoc, add_assoc,
      Finset.sum_Ico_consecutive (fun t => term n A B i k t p) l2 u2,
      Finset.sum_Ico_consecutive (fun t => term n A B i k t p) l1 (by omega)]

theorem avx_k_adds {n : Nat} {A B : List ℚ} (hA : A.length = n * n) (hB : B.length = n * n)
    {i k : Nat} (hi : i < n) (hk : k < n) :
    Adds (n * n) (avx_k false n A B i k) (fun p => ∑ j ∈ Ico 0 n, term n A B i k j p) := by
  intro s hs
  have ha : i * n + k < A.length := by have := flat_lt hi (Nat.succ_le_of_lt hk); omega
  simp only [avx_k, loadA_eq ha]
  obtain ⟨j1, s2, e1, l1, u1, len1, v1⟩ :=
    forLoop_vec_adds 4 0 n (by omega)
      (fun j => decide ((j : Int) ≤ (n : Int) - 4))
      (fun x hx => by have : (x : Int) ≤ (n : Int) - 4 := by simpa using hx
                      omega)
      (fun j =>
        vecStep false false B (mm256_set1_pd (A.getD (i * n + k) 0)) (i * n + j) (k * n + j))
      (term n A B i k) (fun x hx => vecStep_adds hB false hi hk (by omega)) (Nat.zero_le _)
      (n + 1) (by omega) { s with log := ⟨.load, .A, i * n + k⟩ :: s.log } hs
  obtain ⟨s3, e2, len2, v2⟩ :=
    forLoop_range_adds j1 n
      (fun j => accumA A B (i * n + j) (i * n + k) (k * n + j)) (term n A B i k)
      (fun j hj => accumA_adds hA hB hi hk (by omega)) (n + 1) (by omega) s2 len1
  refine ⟨s3, ?_, len2, fun p hp => ?_⟩
  · simp only [e1]
    exact e2
  · rw [v2 p hp, v1 p hp, add_assoc,
      Finset.sum_Ico_consecutive (fun t => term n A B i k t p) l1 u1]

theorem dgemm_avx_adds {n : Nat} {A B : List ℚ} (hA : A.length = n * n)
    (hB : B.length = n * n) : Adds (n * n) (dgemm_avx_with false n A B) (total n A B) :=
  forLoop_range_adds 0 n _ (fun i p => ∑ k ∈ Ico 0 n, ∑ j ∈ Ico 0 n, term n A B i k j p)
    (fun i hi => forLoop_range_adds 0 n _ (fun k p => ∑ j ∈ Ico 0 n, term n A B i k j p)
      (fun _ hk => avx_k_adds hA hB hi hk) (n + 1) (by omega)) (n + 1) (by omega)

theorem tile_max_le (T n b : Nat) : tile_max T n b ≤ n := by
  rw [tile_max_eq]; exact min_le_right _ _

theorem le_tile_max {T n b : Nat} (hb : b < n) : b ≤ tile_max T n b := by
  rw [tile_max_eq]; exact le_min (by omega) (by omega)

theorem sum_rot (s t u : Finset Nat) (g : Nat → Nat → Nat → ℚ) :
    ∑ i ∈ s, ∑ k ∈ t, ∑ j ∈ u, g i k j = ∑ j ∈ u, ∑ i ∈ s, ∑ k ∈ t, g i k j :=
  calc ∑ i ∈ s, ∑ k ∈ t, ∑ j ∈ u, g i k j
      = ∑ i ∈ s, ∑ j ∈ u, ∑ k ∈ t, g i k j :=
        Finset.sum_congr rfl (fun _ _ => Finset.sum_comm)
    _ = ∑ j ∈ u, ∑ i ∈ s, ∑ k ∈ t, g i k j := Finset.sum_comm

/-- One tile adds the terms of its clamped index box. -/
theorem tile_adds {n : Nat} {A B : List ℚ}
    {kbody : Nat → Nat → Nat → Nat → KState → Option KState}
    (hk : ∀ j_blk j_max i k, i < n → k < n → j_blk ≤ j_max → j_max ≤ n →
      Adds (n * n) (kbody j_blk j_max i k) (fun p => ∑ j ∈ Ico j_blk j_max, term n A B i k j p))
    (T : Nat) {i_blk k_blk j_blk : Nat} (hj : j_blk < n) :
    Adds (n * n)
      (fun s => (forLoop (n + 1) (fun i => decide (i < tile_max T n i_blk)) 1 (fun i s =>
        (forLoop (n + 1) (fun k => decide (k < tile_max T n k_blk)) 1
          (kbody j_blk (tile_max T n j_blk) i) k_blk s).map Prod.snd) i_blk s).map Prod.snd)
      (fun p => ∑ i ∈ Ico i_blk (tile_max T n i_blk), ∑ k ∈ Ico k_blk (tile_max T n k_blk),
        ∑ j ∈ Ico j_blk (tile_max T n j_blk), term n A B i k j p) :=
  forLoop_range_adds i_blk (tile_max T n i_blk) _
    (fun i p => ∑ k ∈ Ico k_blk (tile_max T n k_blk),
      ∑ j ∈ Ico j_blk (tile_max T n j_blk), term n A B i k j p)
    (fun i hi =>
      forLoop_range_adds k_blk (tile_max T n k_blk) _
        (fun k p => ∑ j ∈ Ico j_blk (tile_max T n j_blk), term n A B i k j p)
        (fun k hk' => hk j_blk (tile_max T n j_blk) i k
          (by have := tile_max_le T n i_blk; omega) (by have := tile_max_le T n k_blk; omega)
          (le_tile_max hj) (tile_max_le T n j_blk))
        (n + 1) (by have := tile_max_le T n k_blk; omega))
    (n + 1) (by have := tile_max_le T n i_blk; omega)

/-- The clamped tiles partition the iteration space: the tiled loop nest, with any tile
edge `T ≥ 1`, adds the same total as the plain triple loop. -/
theorem tiled_adds {n : Nat} {A B : List ℚ}
    {kbody : Nat → Nat → Nat → Nat → KState → Option KState}
    (hk : ∀ j_blk j_max i k, i < n → k < n → j_blk ≤ j_max → j_max ≤ n →
      Adds (n * n) (kbody j_blk j_max i k) (fun p => ∑ j ∈ Ico j_blk j_max, term n A B i k j p))
    {T : Nat} (hT : 0 < T) : Adds (n * n) (tiled kbody T n) (total n A B) := by
  refine forLoop_tiles_adds T n hT _
    (fun i p => ∑ k ∈ Ico 0 n, ∑ j ∈ Ico 0 n, term n A B i k j p) (fun i_blk _ => ?_)
  refine (forLoop_tiles_adds T n hT _
    (fun k p => ∑ i ∈ Ico i_blk (tile_max T n i_blk), ∑ j ∈ Ico 0 n, term n A B i k j p)
    (fun k_blk _ => ?_)).congr (fun p _ => Finset.sum_comm)
  refine (forLoop_tiles_adds T n hT _
    (fun j p => ∑ i ∈ Ico i_blk (tile_max T n i_blk), ∑ k ∈ Ico k_blk (tile_max T n k_blk),
      term n A B i k j p)
    (fun j_blk hj => ?_)).congr (fun p _ => ?_)
  · exact (tile_adds hk T hj).congr (fun p _ => sum_rot _ _ _ _)
  · rw [← sum_rot]
    exact Finset.sum_comm

theorem dgemm_avx_block_with_adds {n : Nat} {A B : List ℚ} (hA : A.length = n * n)
    (hB : B.length = n * n) {T : Nat} (hT : 0 < T) (fma : Bool) :
    Adds (n * n) (dgemm_avx_block_with false T fma n A B) (total n A B) :=
  tiled_adds (fun _ _ _ _ hi hk hjb hjm => block_k_adds hA hB fma hi hk hjb hjm) hT

theorem prefetch_k_adds {n : Nat} {A B : List ℚ} (hA : A.length = n * n)
    (hB : B.length = n * n) {j_blk j_max i k : Nat} (hi : i < n) (hk : k < n)
    (hjb : j_blk ≤ j_max) (hjm : j_max ≤ n) :
    Adds (n * n) (prefetch_k false n A B j_blk j_max i k)
      (fun p => ∑ j ∈ Ico j_blk j_max, term n A B i k j p) := by
  intro s hs
  have ha : i * n + k < A.length := by have := flat_lt hi (Nat.succ_le_of_lt hk); omega
  simp only [prefetch_k, loadA_eq ha]
  obtain ⟨j2, s3, e2, l2, u2, len2, v2⟩ :=
    forLoop_vec_adds 4 j_blk j_max (by omega)
      (fun j => decide ((j : Int) ≤ (j_max : Int) - 4))
      (fun x hx => by have : (x : Int) ≤ (j_max : Int) - 4 := by simpa using hx
                      omega)
      (fun j s =>
        vecStep false false B (mm256_set1_pd (A.getD (i * n + k) 0)) (i * n + j) (k * n + j)
        (prefetchB (k * n + j + 16) s))
      (term n A B i k)
      (fun x hx s hs => vecStep_adds hB false hi hk (by omega) (prefetchB (k * n + x + 16) s) hs)
      hjb (n + 1) (by omega) { s with log := ⟨.load, .A, i * n + k⟩ :: s.log } hs
  obtain ⟨s4, e3, len3, v3⟩ :=
    forLoop_range_adds j2 j_max
      (fun j => accumA A B (i * n + j) (i * n + k) (k * n + j)) (term n A B i k)
      (fun j hj => accumA_adds hA hB hi hk (by omega)) (n + 1) (by omega) s3 len2
  refine ⟨s4, ?_, len3, fun p hp => ?_⟩
  · simp only [e2]
    exact e3
  · rw [v3 p hp, v2 p hp, add_assoc,
      Finset.sum_Ico_consecutive (fun t => term n A B i k t p) l2 u2]

theorem dgemm_avx_block_prefetch_with_adds {n : Nat} {A B : List ℚ} (hA : A.length = n * n)
    (hB : B.length = n * n) {T : Nat} (hT : 0 < T) :
    Adds (n * n) (dgemm_avx_block_prefetch_with false T n A B) (total n A B) :=
  tiled_adds (fun _ _ _ _ hi hk hjb hjm => prefetch_k_adds hA hB hi hk hjb hjm) hT

/-- Two runs that add the same amounts to the same buffer leave the same buffer. -/
theorem Adds.same_C {N : Nat} {f g : KState → Option KState} {δ : Nat → ℚ}
    (hf : Adds N f δ) (hg : Adds N g δ) (s : KState) (hs : s.C.length = N) :
    ∃ s₁ s₂, f s = some s₁ ∧ g s = some s₂ ∧ s₁.C = s₂.C := by
  obtain ⟨s₁, e1, l1, v1⟩ := hf s hs
  obtain ⟨s₂, e2, l2, v2⟩ := hg s hs
  refine ⟨s₁, s₂, e1, e2, ?_⟩
  apply List.ext_getElem (by rw [l1, l2])
  intro p h1 h2
  have := (v1 p (by omega)).trans (v2 p (by omega)).symm
  rwa [List.getD_eq_getElem _ _ h1, List.getD_eq_getElem _ _ h2] at this

/-- Invariant rule for a unit-step counting loop. -/
theorem forLoop_inv {σ : Type} (hi : Nat) (body : Nat → σ → Option σ) (I : Nat → σ → Prop)
    (hstep : ∀ x s, x < hi → I x s → ∃ s', body x s = some s' ∧ I (x + 1) s') :
    ∀ (fuel x : Nat) (s : σ), x ≤ hi → hi - x < fuel → I x s →
      ∃ s', forLoop fuel (fun x => decide (x < hi)) 1 body x s = some (hi, s') ∧ I hi s' := by
  intro fuel
  induction fuel with
  | zero => intro x s _ h; omega
  | succ fuel ih =>
    intro x s hx hfuel hI
    by_cases hc : x < hi
    · obtain ⟨s1, e1, I1⟩ := hstep x s hc hI
      obtain ⟨s', e2, I2⟩ := ih (x + 1) s1 (by omega) (by omega) I1
      exact ⟨s', by simp [forLoop, hc, e1, e2], I2⟩
    · have : x = hi := by omega
      subst this
      exact ⟨s, by simp [forLoop], hI⟩

theorem clean_matrix_eq {C : List ℚ} {n : Nat} (h : C.length = n * n) :
    clean_matrix C n = some (List.replicate (n * n) 0) := by
  simp [clean_matrix, h, List.drop_eq_nil_of_le (le_of_eq h)]

theorem clean_and_call_spec {func : Kernel} {n : Nat} {A B : List ℚ}
    (hfunc : Returns func n A B) (b : Bench) (hb : b.mem.C.length = n * n) :
    ∃ m, func n A B { b.mem with C := List.replicate (n * n) 0 } = some m ∧
      m.C.length = n * n ∧
      clean_and_call func n A B b =
        some { b with mem := m, calls := List.replicate (n * n) 0 :: b.calls } := by
  obtain ⟨m, e, l⟩ := hfunc { b.mem with C := List.replicate (n * n) 0 } (by simp)
  exact ⟨m, e, l, by simp [clean_and_call, clean_matrix_eq hb, e]⟩

theorem measured_run_spec {func : Kernel} {clock : Nat → ℚ} {n : Nat} {A B : List ℚ}
    (hfunc : Returns func n A B) (b1 : Bench) (r : Nat) (st : Bench × Stats)
    (h : MeasuredInv func clock n A B b1 r st) :
    ∃ st', measured_run func clock n A B r st = some st' ∧
      MeasuredInv func clock n A B b1 (r + 1) st' := by
  obtain ⟨m, e, l⟩ := hfunc ⟨List.replicate (n * n) 0, st.1.mem.log⟩ (by simp)
  have hel : clock (st.1.ticks + 1) - clock st.1.ticks = elapsed_of clock b1.ticks r := by
    simp [elapsed_of, h.ticks]
  have e' : measured_run func clock n A B r st = some
      ({ mem := m, ticks := st.1.ticks + 2,
         calls := List.replicate (n * n) 0 :: st.1.calls,
         out := Line.execucao (r + 1) (elapsed_of clock b1.ticks r)
           (run_gflops n (elapsed_of clock b1.ticks r)) :: st.1.out },
       { total_time := st.2.total_time + elapsed_of clock b1.ticks r,
         total_gflops := st.2.total_gflops + run_gflops n (elapsed_of clock b1.ticks r),
         min_time := if elapsed_of clock b1.ticks r < st.2.min_time
           then elapsed_of clock b1.ticks r else st.2.min_time,
         max_time := if elapsed_of clock b1.ticks r > st.2.max_time
           then elapsed_of clock b1.ticks r else st.2.max_time }) := by
    simp only [measured_run, clean_matrix_eq h.len, e, hel]
  refine ⟨_, e', ?_⟩
  constructor
  · exact l
  · exact ⟨_, rfl, e⟩
  · simp only [h.ticks]; ring
  · simp [h.calls, List.replicate_succ]
  · simp [h.out, List.range_succ]
  · simp [h.total_time, Finset.sum_range_succ]
  · simp [h.total_gflops, Finset.sum_range_succ]
  · simp [h.min_time, List.range_succ]
  · simp [h.max_time, List.range_succ]

/-- What the warm-up and the measured loop compute, for a kernel that returns. -/
theorem measure_spec {func : Kernel} {n : Nat} {A B : List ℚ} (hfunc : Returns func n A B)
    (clock : Nat → ℚ) (name : String) (b : Bench) (hb : b.mem.C.length = n * n) :
    ∃ st, measure func clock n A B name b = some st ∧
      MeasuredInv func clock n A B
        { b with calls := List.replicate (n * n) 0 :: b.calls,
                 out := Line.executando name :: b.out } NUM_RUNS st := by
  obtain ⟨m, e, l, ec⟩ := clean_and_call_spec hfunc
    { b with out := Line.executando name :: b.out } hb
  have hw : forLoop (WARMUP_RUNS + 1) (fun w => decide (w < WARMUP_RUNS)) 1
      (fun _ b => clean_and_call func n A B b) 0
      { b with out := Line.executando name :: b.out } =
      some (1, { mem := m, ticks := b.ticks, calls := List.replicate (n * n) 0 :: b.calls,
                 out := Line.executando name :: b.out }) := by
    simp [forLoop, WARMUP_RUNS, ec]
  obtain ⟨st, e2, inv⟩ := forLoop_inv NUM_RUNS (measured_run func clock n A B)
    (MeasuredInv func clock n A B
      { b with calls := List.replicate (n * n) 0 :: b.calls,
               out := Line.executando name :: b.out })
    (fun r st _ h => measured_run_spec hfunc _ r st h) (NUM_RUNS + 1) 0
    ({ mem := m, ticks := b.ticks, calls := List.replicate (n * n) 0 :: b.calls,
       out := Line.executando name :: b.out },
     { min_time := 10 ^ 9, max_time := 0, total_time := 0, total_gflops := 0 })
    (Nat.zero_le _) (by omega)
    { len := l, last := ⟨_, rfl, e⟩, ticks := rfl, calls := by simp, out := by simp,
      total_time := by simp, total_gflops := by simp, min_time := by simp,
      max_time := by simp }
  exact ⟨st, by simp only [measure, hw, e2, Option.map_some'], inv⟩

theorem Adds.returns {n : Nat} {A B : List ℚ} {func : Kernel} {δ : Nat → ℚ}
    (h : Adds (n * n) (func n A B) δ) : Returns func n A B :=
  fun s hs => let ⟨s', e, l, _⟩ := h s hs; ⟨s', e, l⟩

theorem store_result_spec {result : List MethodResult} {method_idx size_idx : Nat}
    (h : InTable result method_idx size_idx) (name : String) (g t e : ℚ) :
    ∃ result' row', store_result result method_idx size_idx name g t e = some result' ∧
      result'[method_idx]? = some row' ∧ row'.name = name ∧
      row'.gflops[size_idx]? = some g ∧ row'.time[size_idx]? = some t ∧
      row'.efficiency[size_idx]? = some e := by
  obtain ⟨row, hrow, h1, h2, h3⟩ := h
  have hm : method_idx < result.length := by
    by_contra hcon
    rw [List.getElem?_eq_none (not_lt.mp hcon)] at hrow
    exact absurd hrow (by simp)
  refine ⟨result.set method_idx
      { name := name, gflops := row.gflops.set size_idx g, time := row.time.set size_idx t,
        efficiency := row.efficiency.set size_idx e },
    { name := name, gflops := row.gflops.set size_idx g, time := row.time.set size_idx t,
      efficiency := row.efficiency.set size_idx e },
    by simp only [store_result, hrow, h1, h2, h3, and_self, if_true], ?_, rfl, ?_, ?_, ?_⟩
  · simp [List.getElem?_set, hm]
  · simp [List.getElem?_set, h1]
  · simp [List.getElem?_set, h2]
  · simp [List.getElem?_set, h3]

/-- What `run_benchmark` returns, for a kernel that returns and an existing table cell. -/
theorem run_benchmark_spec {func : Kernel} {n : Nat} {A B : List ℚ}
    (hfunc : Returns func n A B) (clock : Nat → ℚ) (name : String) (peak_gflops : ℚ)
    {result : List MethodResult} {method_idx size_idx : Nat}
    (hcell : InTable result method_idx size_idx) (b : Bench) (hb : b.mem.C.length = n * n) :
    ∃ out b1 row,
      run_benchmark func clock n A B name peak_gflops result method_idx size_idx b = some out ∧
      MeasuredInv func clock n A B
        { b with calls := List.replicate (n * n) 0 :: b.calls,
                 out := Line.executando name :: b.out } NUM_RUNS (b1, out.stats) ∧
      out.bench = { b1 with out := (report n out.stats out.avg_time out.avg_gflops
                      out.efficiency peak_gflops) ++ b1.out } ∧
      out.avg_time = out.stats.total_time / (NUM_RUNS : ℚ) ∧
      out.avg_gflops = out.stats.total_gflops / (NUM_RUNS : ℚ) ∧
      out.efficiency = (if peak_gflops > 0 then out.avg_gflops / peak_gflops * 100 else 0) ∧
      out.ret = out.avg_gflops ∧
      out.result[method_idx]? = some row ∧ row.name = name ∧
      row.gflops[size_idx]? = some out.avg_gflops ∧
      row.time[size_idx]? = some out.avg_time ∧
      row.efficiency[size_idx]? = some out.efficiency := by
  obtain ⟨⟨b1, st⟩, e1, inv⟩ := measure_spec hfunc clock name b hb
  obtain ⟨result', row', e2, r1, r2, r3, r4, r5⟩ := store_result_spec hcell name
    (st.total_gflops / (NUM_RUNS : ℚ)) (st.total_time / (NUM_RUNS : ℚ))
    (if peak_gflops > 0 then st.total_gflops / (NUM_RUNS : ℚ) / peak_gflops * 100 else 0)
  have e : run_benchmark func clock n A B name peak_gflops result method_idx size_idx b = some
      { bench := { b1 with out := (report n st (st.total_time / (NUM_RUNS : ℚ))
                     (st.total_gflops / (NUM_RUNS : ℚ))
                     (if peak_gflops > 0 then st.total_gflops / (NUM_RUNS : ℚ) / peak_gflops * 100
                      else 0) peak_gflops) ++ b1.out },
        result := result', ret := st.total_gflops / (NUM_RUNS : ℚ), stats := st,
        avg_time := st.total_time / (NUM_RUNS : ℚ),
        avg_gflops := st.total_gflops / (NUM_RUNS : ℚ),
        efficiency := if peak_gflops > 0 then st.total_gflops / (NUM_RUNS : ℚ) / peak_gflops * 100
          else 0 } := by
    simp only [run_benchmark, e1, e2]
  exact ⟨_, b1, row', e, inv, rfl, rfl, rfl, rfl, rfl, r1, r2, r3, r4, r5⟩

/-- What `run_benchmark` of `dgemm_aprimorado.c` returns, for a kernel that returns. -/
theorem run_benchmark_aprimorado_spec {func : Kernel} {n : Nat} {A B : List ℚ}
    (hfunc : Returns func n A B) (clock : Nat → ℚ) (name : String) (peak_gflops : ℚ)
    (b : Bench) (hb : b.mem.C.length = n * n) :
    ∃ out b1,
      run_benchmark_aprimorado func clock n A B name peak_gflops b = some out ∧
      MeasuredInv func clock n A B
        { b with calls := List.replicate (n * n) 0 :: b.calls,
                 out := Line.executando name :: b.out } NUM_RUNS (b1, out.stats) ∧
      out.bench = { b1 with out := (report n out.stats out.avg_time out.avg_gflops
                      out.efficiency peak_gflops) ++ b1.out } := by
  obtain ⟨⟨b1, st⟩, e1, inv⟩ := measure_spec hfunc clock name b hb
  have e : run_benchmark_aprimorado func clock n A B name peak_gflops b = some
      { bench := { b1 with out := (report n st (st.total_time / (NUM_RUNS : ℚ))
                     (st.total_gflops / (NUM_RUNS : ℚ))
                     (if peak_gflops > 0 then st.total_gflops / (NUM_RUNS : ℚ) / peak_gflops * 100
                      else 0) peak_gflops) ++ b1.out },
        result := [], ret := st.total_gflops / (NUM_RUNS : ℚ), stats := st,
        avg_time := st.total_time / (NUM_RUNS : ℚ),
        avg_gflops := st.total_gflops / (NUM_RUNS : ℚ),
        efficiency := if peak_gflops > 0 then st.total_gflops / (NUM_RUNS : ℚ) / peak_gflops * 100
          else 0 } := by
    simp only [run_benchmark_aprimorado, e1]
  exact ⟨_, b1, e, inv, rfl⟩

/-! ## Aligned against unaligned vector moves -/

/-- An aligned 4-wide step is the unaligned step where both flat indices are multiples of 4,
and a fault elsewhere. -/
theorem vecStep_strict (fma : Bool) (B : List ℚ) (a_vec : m256d) (ci bi : Nat) (s : KState) :
    vecStep true fma B a_vec ci bi s =
      if ci % 4 = 0 ∧ bi % 4 = 0 then vecStep false fma B a_vec ci bi s else none := by
  unfold vecStep
  simp only [vload, vstore, mm256_load_pd, mm256_store_pd, if_true, Bool.false_eq_true, if_false]
  by_cases hc : ci % 4 = 0
  · by_cases hb : bi % 4 = 0
    · simp only [hc, hb, if_true, and_self]
    · simp only [hc, hb, if_true, if_false, and_false]
      cases mm256_loadu_pd s.C ci <;> rfl
  · simp only [hc, if_false, false_and]

theorem vecStep_strict_eq (fma : Bool) (B : List ℚ) (a_vec : m256d) {ci bi : Nat}
    (hc : ci % 4 = 0) (hb : bi % 4 = 0) (s : KState) :
    vecStep true fma B a_vec ci bi s = vecStep false fma B a_vec ci bi s := by
  rw [vecStep_strict, if_pos ⟨hc, hb⟩]

theorem vecStep_strict_none (fma : Bool) (B : List ℚ) (a_vec : m256d) {ci bi : Nat}
    (h : ¬ (ci % 4 = 0 ∧ bi % 4 = 0)) (s : KState) :
    vecStep true fma B a_vec ci bi s = none := by
  rw [vecStep_strict, if_neg h]

theorem vecStep_refines (fma : Bool) (B : List ℚ) (a_vec : m256d) (ci bi : Nat)
    (s s' : KState) (h : vecStep true fma B a_vec ci bi s = some s') :
    vecStep false fma B a_vec ci bi s = some s' := by
  rw [vecStep_strict] at h
  split at h
  · exact h
  · exact absurd h (by simp)

/-- A loop whose body is replaced by one with at least the same results has at least the
same results. -/
theorem forLoop_mono {σ : Type} (cond : Nat → Bool) (step : Nat) (body body' : Nat → σ → Option σ)
    (h : ∀ x s s', cond x = true → body x s = some s' → body' x s = some s') :
    ∀ (fuel x : Nat) (s : σ) (r : Nat × σ),
      forLoop fuel cond step body x s = some r → forLoop fuel cond step body' x s = some r := by
  intro fuel
  induction fuel with
  | zero => intro x s r hr; simp [forLoop] at hr
  | succ fuel ih =>
    intro x s r hr
    by_cases hc : cond x = true
    · simp only [forLoop, hc, if_true] at hr ⊢
      cases hb : body x s with
      | none => rw [hb] at hr; exact absurd hr (by simp)
      | some s1 =>
        rw [hb] at hr
        rw [h x s s1 hc hb]
        exact ih (x + step) s1 r hr
    · simp only [forLoop, hc] at hr ⊢
      exact hr

theorem forLoop_mono_snd {σ : Type} (cond : Nat → Bool) (step : Nat)
    (body body' : Nat → σ → Option σ)
    (h : ∀ x s s', cond x = true → body x s = some s' → body' x s = some s')
    (fuel x : Nat) (s s' : σ)
    (hr : (forLoop fuel cond step body x s).map Prod.snd = some s') :
    (forLoop fuel cond step body' x s).map Prod.snd = some s' := by
  cases e : forLoop fuel cond step body x s with
  | none => rw [e] at hr; exact absurd hr (by simp)
  | some r =>
    rw [e] at hr
    rw [forLoop_mono cond step body body' h fuel x s r e]
    exact hr

/-- Two loops whose bodies agree wherever the counter satisfies an invariant `P` of the
loop agree. -/
theorem forLoop_congr_on {σ : Type} (P : Nat → Prop) (cond : Nat → Bool) (step : Nat)
    (body body' : Nat → σ → Option σ)
    (hstep : ∀ x, cond x = true → P x → P (x + step))
    (h : ∀ x s, cond x = true → P x → body x s = body' x s) :
    ∀ (fuel x : Nat) (s : σ), P x →
      forLoop fuel cond step body x s = forLoop fuel cond step body' x s := by
  intro fuel
  induction fuel with
  | zero => intro x s _; rfl
  | succ fuel ih =>
    intro x s hP
    by_cases hc : cond x = true
    · simp only [forLoop, hc, if_true]
      rw [h x s hc hP]
      cases body' x s with
      | none => rfl
      | some s1 => exact ih (x + step) s1 (hstep x hc hP)
    · simp only [forLoop, hc, Bool.false_eq_true, if_false]

/-- The counter a loop stops at satisfies every invariant `P` of the loop. -/
theorem forLoop_counter_on {σ : Type} (P : Nat → Prop) (cond : Nat → Bool) (step : Nat)
    (body : Nat → σ → Option σ) (hstep : ∀ x, cond x = true → P x → P (x + step)) :
    ∀ (fuel x : Nat) (s : σ) (r : Nat × σ), P x →
      forLoop fuel cond step body x s = some r → P r.1 := by
  intro fuel
  induction fuel with
  | zero => intro x s r _ hr; simp [forLoop] at hr
  | succ fuel ih =>
    intro x s r hP hr
    by_cases hc : cond x = true
    · simp only [forLoop, hc, if_true] at hr
      cases hb : body x s with
      | none => rw [hb] at hr; exact absurd hr (by simp)
      | some s1 =>
        rw [hb] at hr
        exact ih (x + step) s1 r (hstep x hc hP) hr
    · simp only [forLoop, hc] at hr
      simp only [Bool.false_eq_true, if_false, Option.some.injEq] at hr
      subst hr
      exact hP

/-- A loop whose first iteration fails, fails. -/
theorem forLoop_first_none {σ : Type} (cond : Nat → Bool) (step : Nat)
    (body : Nat → σ → Option σ) {fuel x : Nat} {s : σ} (hf : 1 ≤ fuel) (hc : cond x = true)
    (hb : body x s = none) : forLoop fuel cond step body x s = none := by
  obtain ⟨f, rfl⟩ := Nat.exists_eq_add_of_le hf
  rw [Nat.add_comm]
  simp only [forLoop, hc, if_true, hb]

/-- A loop whose second iteration fails on every state, fails. -/
theorem forLoop_second_none {σ : Type} (cond : Nat → Bool) (step : Nat)
    (body : Nat → σ → Option σ) {fuel x : Nat} (s : σ) (hf : 2 ≤ fuel) (hc : cond x = true)
    (hc' : cond (x + step) = true) (hb : ∀ s1, body (x + step) s1 = none) :
    forLoop fuel cond step body x s = none := by
  obtain ⟨f, rfl⟩ := Nat.exists_eq_add_of_le hf
  have e : 2 + f = (f + 1) + 1 := by omega
  rw [e]
  simp only [forLoop, hc, if_true]
  cases body x s with
  | none => rfl
  | some s1 => simp only [hc', if_true, hb]

theorem block_j8_strict_eq (n : Nat) (B : List ℚ) (a_vec : m256d) {i k j : Nat}
    (hc : (i * n + j) % 4 = 0) (hb : (k * n + j) % 4 = 0) (s : KState) :
    block_j8 true n B a_vec i k j s = block_j8 false n B a_vec i k j s := by
  unfold block_j8
  rw [vecStep_strict_eq true B a_vec hc hb]
  cases vecStep false true B a_vec (i * n + j) (k * n + j) s with
  | none => rfl
  | some s1 =>
    exact vecStep_strict_eq true B a_vec (by omega) (by omega) s1

/-- On a tile whose first vector step, if there is one, is aligned in `C` and in `B`, the
`k` body of `dgemm_avx_block` on aligned moves is the `k` body on unaligned moves. -/
theorem block_k_strict_eq (fma : Bool) (n : Nat) (A B : List ℚ) {j_blk j_max i k : Nat}
    (hal : j_blk + 4 ≤ j_max → (i * n + j_blk) % 4 = 0 ∧ (k * n + j_blk) % 4 = 0)
    (s : KState) :
    block_k true fma n A B j_blk j_max i k s = block_k false fma n A B j_blk j_max i k s := by
  unfold block_k
  cases loadA A (i * n + k) s with
  | none => rfl
  | some r =>
    obtain ⟨a, s1⟩ := r
    simp only
    have hs8 : ∀ x, (fun j : Nat => decide ((j : Int) ≤ (j_max : Int) - 8)) x = true →
        (x + 4 ≤ j_max → (i * n + x) % 4 = 0 ∧ (k * n + x) % 4 = 0) →
        (x + 8 + 4 ≤ j_max → (i * n + (x + 8)) % 4 = 0 ∧ (k * n + (x + 8)) % 4 = 0) := by
      intro x hx hP _
      have hx' : (x : Int) ≤ (j_max : Int) - 8 := by simpa using hx
      have := hP (by omega)
      omega
    have hs4 : ∀ x, (fun j : Nat => decide ((j : Int) ≤ (j_max : Int) - 4)) x = true →
        (x + 4 ≤ j_max → (i * n + x) % 4 = 0 ∧ (k * n + x) % 4 = 0) →
        (x + 4 + 4 ≤ j_max → (i * n + (x + 4)) % 4 = 0 ∧ (k * n + (x + 4)) % 4 = 0) := by
      intro x hx hP _
      have hx' : (x : Int) ≤ (j_max : Int) - 4 := by simpa using hx
      have := hP (by omega)
      omega
    have h8 : forLoop (n + 1) (fun j => decide ((j : Int) ≤ (j_max : Int) - 8)) 8
          (block_j8 true n B (mm256_set1_pd a) i k) j_blk s1 =
        forLoop (n + 1) (fun j => decide ((j : Int) ≤ (j_max : Int) - 8)) 8
          (block_j8 false n B (mm256_set1_pd a) i k) j_blk s1 :=
      forLoop_congr_on (fun j => j + 4 ≤ j_max → (i * n + j) % 4 = 0 ∧ (k * n + j) % 4 = 0)
        _ 8 _ _ hs8 (fun x s hx hP => by
          have hx' : (x : Int) ≤ (j_max : Int) - 8 := by simpa using hx
          have := hP (by omega)
          exact block_j8_strict_eq n B _ this.1 this.2 s) (n + 1) j_blk s1 hal
    rw [h8]
    cases e8 : (if fma = true then
        forLoop (n + 1) (fun j => decide ((j : Int) ≤ (j_max : Int) - 8)) 8
          (block_j8 false n B (mm256_set1_pd a) i k) j_blk s1
        else some (j_blk, s1)) with
    | none => rfl
    | some r1 =>
      obtain ⟨j1, s2⟩ := r1
      simp only
      have hP1 : j1 + 4 ≤ j_max → (i * n + j1) % 4 = 0 ∧ (k * n + j1) % 4 = 0 := by
        cases fma with
        | true =>
          simp only [if_true] at e8
          exact forLoop_counter_on
            (fun j => j + 4 ≤ j_max → (i * n + j) % 4 = 0 ∧ (k * n + j) % 4 = 0)
            _ 8 _ hs8 (n + 1) j_blk s1 (j1, s2) hal e8
        | false =>
          simp only [Bool.false_eq_true, if_false, Option.some.injEq, Prod.mk.injEq] at e8
          rw [← e8.1]
          exact hal
      rw [forLoop_congr_on (fun j => j + 4 ≤ j_max → (i * n + j) % 4 = 0 ∧ (k * n + j) % 4 = 0)
        _ 4 (fun j => vecStep true fma B (mm256_set1_pd a) (i * n + j) (k * n + j))
        (fun j => vecStep false fma B (mm256_set1_pd a) (i * n + j) (k * n + j))
        hs4 (fun x s hx hP => by
          have hx' : (x : Int) ≤ (j_max : Int) - 4 := by simpa using hx
          have := hP (by omega)
          exact vecStep_strict_eq fma B _ this.1 this.2 s) (n + 1) j1 s2 hP1]

/-- The same for the `k` body of `dgemm_avx_block_prefetch`. -/
theorem prefetch_k_strict_eq (n : Nat) (A B : List ℚ) {j_blk j_max i k : Nat}
    (hal : j_blk + 4 ≤ j_max → (i * n + j_blk) % 4 = 0 ∧ (k * n + j_blk) % 4 = 0)
    (s : KState) :
    prefetch_k true n A B j_blk j_max i k s = prefetch_k false n A B j_blk j_max i k s := by
  unfold prefetch_k
  cases loadA A (i * n + k) s with
  | none => rfl
  | some r =>
    obtain ⟨a, s1⟩ := r
    simp only
    rw [forLoop_congr_on (fun j => j + 4 ≤ j_max → (i * n + j) % 4 = 0 ∧ (k * n + j) % 4 = 0)
      _ 4 (fun j s => vecStep true false B (mm256_set1_pd a) (i * n + j) (k * n + j)
          (prefetchB (k * n + j + 16) s))
      (fun j s => vecStep false false B (mm256_set1_pd a) (i * n + j) (k * n + j)
          (prefetchB (k * n + j + 16) s))
      (fun x hx hP _ => by
        have hx' : (x : Int) ≤ (j_max : Int) - 4 := by simpa using hx
        have := hP (by omega)
        omega)
      (fun x s hx hP => by
        have hx' : (x : Int) ≤ (j_max : Int) - 4 := by simpa using hx
        have := hP (by omega)
        exact vecStep_strict_eq false B _ this.1 this.2 _) (n + 1) j_blk s1 hal]

/-- The same for the `k` body of `dgemm_avx`, whose vector loop starts at column 0. -/
theorem avx_k_strict_eq (n : Nat) (A B : List ℚ) {i k : Nat}
    (hal : 4 ≤ n → (i * n) % 4 = 0 ∧ (k * n) % 4 = 0) (s : KState) :
    avx_k true n A B i k s = avx_k false n A B i k s := by
  unfold avx_k
  cases loadA A (i * n + k) s with
  | none => rfl
  | some r =>
    obtain ⟨a, s1⟩ := r
    simp only
    rw [forLoop_congr_on (fun j => j + 4 ≤ n → (i * n + j) % 4 = 0 ∧ (k * n + j) % 4 = 0)
      _ 4 (fun j => vecStep true false B (mm256_set1_pd a) (i * n + j) (k * n + j))
      (fun j => vecStep false false B (mm256_set1_pd a) (i * n + j) (k * n + j))
      (fun x hx hP _ => by
        have hx' : (x : Int) ≤ (n : Int) - 4 := by simpa using hx
        have := hP (by omega)
        omega)
      (fun x s hx hP => by
        have hx' : (x : Int) ≤ (n : Int) - 4 := by simpa using hx
        have := hP (by omega)
        exact vecStep_strict_eq false B _ this.1 this.2 s) (n + 1) 0 s1
      (fun h0 => by have := hal (by omega); omega)]

theorem mul_mod_four_of {n : Nat} (h : n % 4 = 0) (i : Nat) : (i * n) % 4 = 0 := by
  simp [Nat.mul_mod, h]

/-- For `n` a multiple of 4 or below 4, `dgemm_avx` is its loop nest on unaligned moves:
every vector access is aligned, or there is none. -/
theorem dgemm_avx_strict_eq {n : Nat} (hn : n % 4 = 0 ∨ n < 4) (A B : List ℚ) (s : KState) :
    dgemm_avx n A B s = dgemm_avx_with false n A B s := by
  have hk : avx_k true n A B = avx_k false n A B := by
    funext i k s
    exact avx_k_strict_eq n A B (fun h4 => by
      rcases hn with h | h
      · exact ⟨mul_mod_four_of h i, mul_mod_four_of h k⟩
      · omega) s
  unfold dgemm_avx dgemm_avx_with
  have hi : avx_i true n A B = avx_i false n A B := by
    funext i s
    unfold avx_i
    rw [hk]
  rw [hi]

/-- Two tile nests agree when the tile edge is a multiple of 4 and their `k` bodies agree
on every tile that starts at a column that is a multiple of 4. -/
theorem tiled_congr_on {kbody kbody' : Nat → Nat → Nat → Nat → KState → Option KState}
    {T n : Nat} (hT : 4 ∣ T)
    (h : ∀ j_blk i k s, 4 ∣ j_blk →
      kbody j_blk (tile_max T n j_blk) i k s = kbody' j_blk (tile_max T n j_blk) i k s)
    (s : KState) : tiled kbody T n s = tiled kbody' T n s := by
  have hj : ∀ (i_blk k_blk : Nat) (s : KState),
      forLoop (n + 1) (fun j_blk => decide (j_blk < n)) T (fun j_blk s =>
        (forLoop (n + 1) (fun i => decide (i < tile_max T n i_blk)) 1 (fun i s =>
          (forLoop (n + 1) (fun k => decide (k < tile_max T n k_blk)) 1
            (kbody j_blk (tile_max T n j_blk) i) k_blk s).map Prod.snd) i_blk s).map Prod.snd)
        0 s =
      forLoop (n + 1) (fun j_blk => decide (j_blk < n)) T (fun j_blk s =>
        (forLoop (n + 1) (fun i => decide (i < tile_max T n i_blk)) 1 (fun i s =>
          (forLoop (n + 1) (fun k => decide (k < tile_max T n k_blk)) 1
            (kbody' j_blk (tile_max T n j_blk) i) k_blk s).map Prod.snd) i_blk s).map Prod.snd)
        0 s := by
    intro i_blk k_blk s
    refine forLoop_congr_on (fun b => 4 ∣ b) _ T _ _ (fun x _ hx => Dvd.dvd.add hx hT)
      (fun j_blk s _ hx => ?_) (n + 1) 0 s (dvd_zero 4)
    have e : kbody j_blk (tile_max T n j_blk) = kbody' j_blk (tile_max T n j_blk) := by
      funext i k s
      exact h j_blk i k s hx
    simp only [e]
  have hk : ∀ (i_blk : Nat),
      (fun k_blk s =>
        (forLoop (n + 1) (fun j_blk => decide (j_blk < n)) T (fun j_blk s =>
          (forLoop (n + 1) (fun i => decide (i < tile_max T n i_blk)) 1 (fun i s =>
            (forLoop (n + 1) (fun k => decide (k < tile_max T n k_blk)) 1
              (kbody j_blk (tile_max T n j_blk) i) k_blk s).map Prod.snd) i_blk s).map Prod.snd)
          0 s).map Prod.snd) =
      (fun k_blk s =>
        (forLoop (n + 1) (fun j_blk => decide (j_blk < n)) T (fun j_blk s =>
          (forLoop (n + 1) (fun i => decide (i < tile_max T n i_blk)) 1 (fun i s =>
            (forLoop (n + 1) (fun k => decide (k < tile_max T n k_blk)) 1
              (kbody' j_blk (tile_max T n j_blk) i) k_blk s).map Prod.snd) i_blk s).map Prod.snd)
          0 s).map Prod.snd) := by
    intro i_blk
    funext k_blk s
    rw [hj i_blk k_blk s]
  show (forLoop (n + 1) (fun i_blk => decide (i_blk < n)) T (fun i_blk s =>
      (forLoop (n + 1) (fun k_blk => decide (k_blk < n)) T (fun k_blk s =>
        (forLoop (n + 1) (fun j_blk => decide (j_blk < n)) T (fun j_blk s =>
          (forLoop (n + 1) (fun i => decide (i < tile_max T n i_blk)) 1 (fun i s =>
            (forLoop (n + 1) (fun k => decide (k < tile_max T n k_blk)) 1
              (kbody j_blk (tile_max T n j_blk) i) k_blk s).map Prod.snd) i_blk s).map Prod.snd)
          0 s).map Prod.snd) 0 s).map Prod.snd) 0 s).map Prod.snd =
    (forLoop (n + 1) (fun i_blk => decide (i_blk < n)) T (fun i_blk s =>
      (forLoop (n + 1) (fun k_blk => decide (k_blk < n)) T (fun k_blk s =>
        (forLoop (n + 1) (fun j_blk => decide (j_blk < n)) T (fun j_blk s =>
          (forLoop (n + 1) (fun i => decide (i < tile_max T n i_blk)) 1 (fun i s =>
            (forLoop (n + 1) (fun k => decide (k < tile_max T n k_blk)) 1
              (kbody' j_blk (tile_max T n j_blk) i) k_blk s).map Prod.snd) i_blk s).map Prod.snd)
          0 s).map Prod.snd) 0 s).map Prod.snd) 0 s).map Prod.snd
  simp only [hk]

theorem tile_aligned {T n : Nat} (hn : n % 4 = 0 ∨ n < 4) {j_blk : Nat} (hj : 4 ∣ j_blk)
    (i k : Nat) :
    j_blk + 4 ≤ tile_max T n j_blk → (i * n + j_blk) % 4 = 0 ∧ (k * n + j_blk) % 4 = 0 := by
  intro h4
  have hle := tile_max_le T n j_blk
  rcases hn with h | h
  · have hi := mul_mod_four_of h i
    have hk := mul_mod_four_of h k
    omega
  · omega

/-- For a tile edge that is a multiple of 4 (`BLOCK_SIZE` is) and `n` a multiple of 4 or
below 4, `dgemm_avx_block` is its loop nest on unaligned moves. -/
theorem dgemm_avx_block_with_strict_eq {T n : Nat} (hT : 4 ∣ T) (hn : n % 4 = 0 ∨ n < 4)
    (fma : Bool) (A B : List ℚ) (s : KState) :
    dgemm_avx_block_with true T fma n A B s = dgemm_avx_block_with false T fma n A B s :=
  tiled_congr_on hT (fun _ i k s hj => block_k_strict_eq fma n A B (tile_aligned hn hj i k) s) s

/-- The same for `dgemm_avx_block_prefetch`. -/
theorem dgemm_avx_block_prefetch_with_strict_eq {T n : Nat} (hT : 4 ∣ T)
    (hn : n % 4 = 0 ∨ n < 4) (A B : List ℚ) (s : KState) :
    dgemm_avx_block_prefetch_with true T n A B s =
      dgemm_avx_block_prefetch_with false T n A B s :=
  tiled_congr_on hT (fun _ i k s hj => prefetch_k_strict_eq n A B (tile_aligned hn hj i k) s) s

theorem block_j8_refines (n : Nat) (B : List ℚ) (a_vec : m256d) (i k j : Nat) (s s' : KState)
    (h : block_j8 true n B a_vec i k j s = some s') :
    block_j8 false n B a_vec i k j s = some s' := by
  unfold block_j8 at h ⊢
  cases e : vecStep true true B a_vec (i * n + j) (k * n + j) s with
  | none => rw [e] at h; exact absurd h (by simp)
  | some s1 =>
    rw [e] at h
    rw [vecStep_refines _ _ _ _ _ _ _ e]
    exact vecStep_refines _ _ _ _ _ _ _ h

/-- Whatever the `k` body of `dgemm_avx_block` returns on aligned moves, it returns on
unaligned moves. -/
theorem block_k_refines (fma : Bool) (n : Nat) (A B : List ℚ) (j_blk j_max i k : Nat)
    (s s' : KState) (h : block_k true fma n A B j_blk j_max i k s = some s') :
    block_k false fma n A B j_blk j_max i k s = some s' := by
  unfold block_k at h ⊢
  cases hl : loadA A (i * n + k) s with
  | none => rw [hl] at h; exact absurd h (by simp)
  | some r =>
    obtain ⟨a, s1⟩ := r
    rw [hl] at h
    simp only at h ⊢
    cases h8 : (if fma = true then
        forLoop (n + 1) (fun j => decide ((j : Int) ≤ (j_max : Int) - 8)) 8
          (block_j8 true n B (mm256_set1_pd a) i k) j_blk s1
        else some (j_blk, s1)) with
    | none => rw [h8] at h; exact absurd h (by simp)
    | some r1 =>
      obtain ⟨j1, s2⟩ := r1
      rw [h8] at h
      simp only at h
      have h8' : (if fma = true then
          forLoop (n + 1) (fun j => decide ((j : Int) ≤ (j_max : Int) - 8)) 8
            (block_j8 false n B (mm256_set1_pd a) i k) j_blk s1
          else some (j_blk, s1)) = some (j1, s2) := by
        cases fma with
        | true =>
          simp only [if_true] at h8 ⊢
          exact forLoop_mono _ 8 _ _ (fun x s s' _ e => block_j8_refines n B _ i k x s s' e)
            (n + 1) j_blk s1 (j1, s2) h8
        | false => exact h8
      rw [h8']
      simp only
      cases hv : forLoop (n + 1) (fun j => decide ((j : Int) ≤ (j_max : Int) - 4)) 4
          (fun j => vecStep true fma B (mm256_set1_pd a) (i * n + j) (k * n + j)) j1 s2 with
      | none => rw [hv] at h; exact absurd h (by simp)
      | some r2 =>
        rw [hv] at h
        rw [forLoop_mono _ 4 _
          (fun j => vecStep false fma B (mm256_set1_pd a) (i * n + j) (k * n + j))
          (fun x s s' _ e => vecStep_refines _ _ _ _ _ s s' e) (n + 1) j1 s2 r2 hv]
        exact h

theorem prefetch_k_refines (n : Nat) (A B : List ℚ) (j_blk j_max i k : Nat)
    (s s' : KState) (h : prefetch_k true n A B j_blk j_max i k s = some s') :
    prefetch_k false n A B j_blk j_max i k s = some s' := by
  unfold prefetch_k at h ⊢
  cases hl : loadA A (i * n + k) s with
  | none => rw [hl] at h; exact absurd h (by simp)
  | some r =>
    obtain ⟨a, s1⟩ := r
    rw [hl] at h
    simp only at h ⊢
    cases hv : forLoop (n + 1) (fun j => decide ((j : Int) ≤ (j_max : Int) - 4)) 4
        (fun j s => vecStep true false B (mm256_set1_pd a) (i * n + j) (k * n + j)
          (prefetchB (k * n + j + 16) s)) j_blk s1 with
    | none => rw [hv] at h; exact absurd h (by simp)
    | some r2 =>
      rw [hv] at h
      rw [forLoop_mono _ 4 _
        (fun j s => vecStep false false B (mm256_set1_pd a) (i * n + j) (k * n + j)
          (prefetchB (k * n + j + 16) s))
        (fun x s s' _ e => vecStep_refines _ _ _ _ _ _ s' e) (n + 1) j_blk s1 r2 hv]
      exact h

/-- A tile nest returns whatever the nest around a `k` body with fewer results returns. -/
theorem tiled_mono {kbody kbody' : Nat → Nat → Nat → Nat → KState → Option KState}
    (T n : Nat)
    (h : ∀ j_blk j_max i k s s', kbody j_blk j_max i k s = some s' →
      kbody' j_blk j_max i k s = some s')
    (s s' : KState) (e : tiled kbody T n s = some s') : tiled kbody' T n s = some s' :=
  forLoop_mono_snd _ T _ _ (fun i_blk s s' _ e =>
    forLoop_mono_snd _ T _ _ (fun k_blk s s' _ e =>
      forLoop_mono_snd _ T _ _ (fun _ s s' _ e =>
        forLoop_mono_snd _ 1 _ _ (fun _ s s' _ e =>
          forLoop_mono_snd _ 1 _ _ (fun _ _ _ _ e => h _ _ _ _ _ _ e)
            (n + 1) k_blk s s' e) (n + 1) i_blk s s' e) (n + 1) 0 s s' e) (n + 1) 0 s s' e)
    (n + 1) 0 s s' e

/-- Whatever `dgemm_avx_block` returns, at any tile edge, its loop nest on unaligned moves
returns. -/
theorem dgemm_avx_block_with_refines (T : Nat) (fma : Bool) (n : Nat) (A B : List ℚ)
    (s s' : KState) (h : dgemm_avx_block_with true T fma n A B s = some s') :
    dgemm_avx_block_with false T fma n A B s = some s' :=
  tiled_mono T n (block_k_refines fma n A B) s s' h

/-- Whatever `dgemm_avx_block_prefetch` returns, at any tile edge, its loop nest on
unaligned moves returns. -/
theorem dgemm_avx_block_prefetch_with_refines (T n : Nat) (A B : List ℚ)
    (s s' : KState) (h : dgemm_avx_block_prefetch_with true T n A B s = some s') :
    dgemm_avx_block_prefetch_with false T n A B s = some s' :=
  tiled_mono T n (prefetch_k_refines n A B) s s' h

/-- The `k` body of `dgemm_avx_block` faults on a tile of at least 4 columns whose first
vector step is misaligned in `C` or in `B`. -/
theorem block_k_faults (fma : Bool) (n : Nat) (A B : List ℚ) {j_blk j_max i k : Nat}
    (h4 : j_blk + 4 ≤ j_max)
    (hmis : ¬ ((i * n + j_blk) % 4 = 0 ∧ (k * n + j_blk) % 4 = 0)) (s : KState) :
    block_k true fma n A B j_blk j_max i k s = none := by
  unfold block_k
  cases loadA A (i * n + k) s with
  | none => rfl
  | some r =>
    obtain ⟨a, s1⟩ := r
    simp only
    have hv : ∀ s2, forLoop (n + 1) (fun j => decide ((j : Int) ≤ (j_max : Int) - 4)) 4
        (fun j => vecStep true fma B (mm256_set1_pd a) (i * n + j) (k * n + j)) j_blk s2 =
          none := fun s2 =>
      forLoop_first_none _ 4 _ (by omega) (by simp; omega) (vecStep_strict_none fma B _ hmis s2)
    cases fma with
    | false =>
      simp only [Bool.false_eq_true, if_false, hv]
    | true =>
      simp only [if_true]
      by_cases h8 : j_blk + 8 ≤ j_max
      · rw [forLoop_first_none _ 8 (block_j8 true n B (mm256_set1_pd a) i k) (by omega)
          (by simp; omega) (by unfold block_j8; rw [vecStep_strict_none true B _ hmis s1])]
      · have e : forLoop (n + 1) (fun j => decide ((j : Int) ≤ (j_max : Int) - 8)) 8
            (block_j8 true n B (mm256_set1_pd a) i k) j_blk s1 = some (j_blk, s1) := by
          have hc : decide ((j_blk : Int) ≤ (j_max : Int) - 8) = false := by simp; omega
          simp only [forLoop, hc, Bool.false_eq_true, if_false]
        rw [e]
        simp only [hv]

theorem prefetch_k_faults (n : Nat) (A B : List ℚ) {j_blk j_max i k : Nat}
    (h4 : j_blk + 4 ≤ j_max)
    (hmis : ¬ ((i * n + j_blk) % 4 = 0 ∧ (k * n + j_blk) % 4 = 0)) (s : KState) :
    prefetch_k true n A B j_blk j_max i k s = none := by
  unfold prefetch_k
  cases loadA A (i * n + k) s with
  | none => rfl
  | some r =>
    obtain ⟨a, s1⟩ := r
    simp only
    rw [forLoop_first_none _ 4 (fun j s => vecStep true false B (mm256_set1_pd a) (i * n + j)
        (k * n + j) (prefetchB (k * n + j + 16) s)) (by omega) (by simp; omega)
      (vecStep_strict_none false B _ hmis _)]

theorem avx_k_faults (n : Nat) (A B : List ℚ) {i k : Nat} (h4 : 4 ≤ n)
    (hmis : ¬ ((i * n) % 4 = 0 ∧ (k * n) % 4 = 0)) (s : KState) :
    avx_k true n A B i k s = none := by
  unfold avx_k
  cases loadA A (i * n + k) s with
  | none => rfl
  | some r =>
    obtain ⟨a, s1⟩ := r
    simp only
    rw [forLoop_first_none _ 4 (fun j => vecStep true false B (mm256_set1_pd a) (i * n + j)
        (k * n + j)) (by omega) (by simp; omega)
      (vecStep_strict_none false B _ (by simpa using hmis) _)]

/-- For `n ≥ 4` not a multiple of 4, `dgemm_avx` faults, whatever the buffers: in row 0 the
step `k = 1` starts with the aligned load of `B[n]`. -/
theorem dgemm_avx_faults {n : Nat} (hn : ¬ (n % 4 = 0 ∨ n < 4)) (A B : List ℚ) (s : KState) :
    dgemm_avx n A B s = none := by
  have h4 : 4 ≤ n := by omega
  have hk : ∀ s1, avx_k true n A B 0 (0 + 1) s1 = none := fun s1 =>
    avx_k_faults n A B h4 (by simp; omega) s1
  have hi : avx_i true n A B 0 s = none := by
    unfold avx_i
    rw [forLoop_second_none _ 1 _ s (by omega) (by simp; omega) (by simp; omega) hk]
    rfl
  unfold dgemm_avx dgemm_avx_with
  rw [forLoop_first_none _ 1 _ (by omega) (by simp; omega) hi]
  rfl

/-- A tile nest with tiles at least 2 wide faults when its `k` body faults at the second
step of the first row of the first tile. -/
theorem tiled_faults {kbody : Nat → Nat → Nat → Nat → KState → Option KState} {T n : Nat}
    (hn : 2 ≤ n) (hT : 2 ≤ T) (hb : ∀ s1, kbody 0 (tile_max T n 0) 0 (0 + 1) s1 = none)
    (s : KState) : tiled kbody T n s = none := by
  have hm : 2 ≤ tile_max T n 0 := by unfold tile_max; split <;> omega
  unfold tiled
  rw [forLoop_first_none _ T _ (by omega) (by simp; omega)]
  · rfl
  rw [forLoop_first_none _ T _ (by omega) (by simp; omega)]
  · rfl
  rw [forLoop_first_none _ T _ (by omega) (by simp; omega)]
  · rfl
  simp only
  rw [forLoop_first_none _ 1 _ (by omega) (by simp; omega)]
  · rfl
  rw [forLoop_second_none _ 1 _ s (by omega) (by simp; omega) (by simp; omega) hb]
  rfl

theorem tile_misaligned {T n : Nat} (hT : 4 ∣ T) (hT0 : 0 < T) (hn : ¬ (n % 4 = 0 ∨ n < 4)) :
    2 ≤ n ∧ 2 ≤ T ∧ 0 + 4 ≤ tile_max T n 0 ∧
      ¬ ((0 * n + 0) % 4 = 0 ∧ ((0 + 1) * n + 0) % 4 = 0) := by
  have h4 : 4 ≤ T := Nat.le_of_dvd hT0 hT
  refine ⟨by omega, by omega, ?_, by simp; omega⟩
  unfold tile_max
  split <;> omega

/-- For a tile edge that is a positive multiple of 4 (`BLOCK_SIZE` is) and `n ≥ 4` not a
multiple of 4, `dgemm_avx_block` faults, whatever the buffers: in row 0 of the first tile
the step `k = 1` starts with the aligned load of `B[n]`. -/
theorem dgemm_avx_block_with_faults {T n : Nat} (hT : 4 ∣ T) (hT0 : 0 < T)
    (hn : ¬ (n % 4 = 0 ∨ n < 4)) (fma : Bool) (A B : List ℚ) (s : KState) :
    dgemm_avx_block_with true T fma n A B s = none := by
  obtain ⟨h2, hT2, hm, hmis⟩ := tile_misaligned hT hT0 hn
  exact tiled_faults h2 hT2 (fun s1 => block_k_faults fma n A B hm hmis s1) s

/-- The same for `dgemm_avx_block_prefetch`. -/
theorem dgemm_avx_block_prefetch_with_faults {T n : Nat} (hT : 4 ∣ T) (hT0 : 0 < T)
    (hn : ¬ (n % 4 = 0 ∨ n < 4)) (A B : List ℚ) (s : KState) :
    dgemm_avx_block_prefetch_with true T n A B s = none := by
  obtain ⟨h2, hT2, hm, hmis⟩ := tile_misaligned hT hT0 hn
  exact tiled_faults h2 hT2 (fun s1 => prefetch_k_faults n A B hm hmis s1) s

/-- The `k` body of `dgemm_avx_block` on the aligned moves of the source, in terms of the
body on unaligned moves: the same where the tile has no vector step or its first one is
aligned in `C` and in `B`, a fault elsewhere. -/
theorem block_k_eq_ite (fma : Bool) (n : Nat) (A B : List ℚ) (j_blk j_max i k : Nat)
    (s : KState) :
    block_k true fma n A B j_blk j_max i k s =
      if j_blk + 4 ≤ j_max → (i * n + j_blk) % 4 = 0 ∧ (k * n + j_blk) % 4 = 0
      then block_k false fma n A B j_blk j_max i k s else none := by
  split
  · next h => exact block_k_strict_eq fma n A B h s
  · next h =>
    rw [Classical.not_imp] at h
    exact block_k_faults fma n A B h.1 h.2 s

/-- The kernel `dgemm_avx` in terms of its loop nest on unaligned moves: the same for `n` a
multiple of 4 or below 4, a fault for every other `n`. -/
theorem dgemm_avx_eq_ite (n : Nat) (A B : List ℚ) (s : KState) :
    dgemm_avx n A B s = if n % 4 = 0 ∨ n < 4 then dgemm_avx_with false n A B s else none := by
  split
  · next h => exact dgemm_avx_strict_eq h A B s
  · next h => exact dgemm_avx_faults h A B s

/-- The kernel `dgemm_avx_block` at a tile edge that is a positive multiple of 4, in terms
of its loop nest on unaligned moves. -/
theorem dgemm_avx_block_with_eq_ite {T : Nat} (hT : 4 ∣ T) (hT0 : 0 < T) (fma : Bool) (n : Nat)
    (A B : List ℚ) (s : KState) :
    dgemm_avx_block_with true T fma n A B s =
      if n % 4 = 0 ∨ n < 4 then dgemm_avx_block_with false T fma n A B s else none := by
  split
  · next h => exact dgemm_avx_block_with_strict_eq hT h fma A B s
  · next h => exact dgemm_avx_block_with_faults hT hT0 h fma A B s

/-- The kernel `dgemm_avx_block_prefetch` at a tile edge that is a positive multiple of 4,
in terms of its loop nest on unaligned moves. -/
theorem dgemm_avx_block_prefetch_with_eq_ite {T : Nat} (hT : 4 ∣ T) (hT0 : 0 < T) (n : Nat)
    (A B : List ℚ) (s : KState) :
    dgemm_avx_block_prefetch_with true T n A B s =
      if n % 4 = 0 ∨ n < 4 then dgemm_avx_block_prefetch_with false T n A B s else none := by
  split
  · next h => exact dgemm_avx_block_prefetch_with_strict_eq hT h A B s
  · next h => exact dgemm_avx_block_prefetch_with_faults hT hT0 h A B s

theorem block_size_dvd : 4 ∣ BLOCK_SIZE ∧ 0 < BLOCK_SIZE := by decide

/-- The kernel `dgemm_avx_block` as compiled, in terms of its loop nest on unaligned
moves. -/
theorem dgemm_avx_block_eq_ite (fma : Bool) (n : Nat) (A B : List ℚ) (s : KState) :
    dgemm_avx_block fma n A B s =
      if n % 4 = 0 ∨ n < 4 then dgemm_avx_block_with false BLOCK_SIZE fma n A B s else none :=
  dgemm_avx_block_with_eq_ite block_size_dvd.1 block_size_dvd.2 fma n A B s

/-- The kernel `dgemm_avx_block_prefetch` as compiled, in terms of its loop nest on
unaligned moves. -/
theorem dgemm_avx_block_prefetch_eq_ite (n : Nat) (A B : List ℚ) (s : KState) :
    dgemm_avx_block_prefetch n A B s =
      if n % 4 = 0 ∨ n < 4 then dgemm_avx_block_prefetch_with false BLOCK_SIZE n A B s
      else none :=
  dgemm_avx_block_prefetch_with_eq_ite block_size_dvd.1 block_size_dvd.2 n A B s

/-- On sizes below 4 or multiples of 4, `dgemm_avx` returns on `n × n` buffers. -/
theorem dgemm_avx_returns {n : Nat} (hn : n % 4 = 0 ∨ n < 4) {A B : List ℚ}
    (hA : A.length = n * n) (hB : B.length = n * n) : Returns dgemm_avx n A B := by
  intro s hs
  obtain ⟨s', e, l, -⟩ := dgemm_avx_adds hA hB s hs
  exact ⟨s', by rw [dgemm_avx_eq_ite, if_pos hn, e], l⟩

/-- A function with no more results than `g` returns what `g` returns, or nothing. -/
theorem some_or_none {f g : KState → Option KState} {s s₁ : KState}
    (h : ∀ s', f s = some s' → g s = some s') (e : g s = some s₁) :
    f s = some s₁ ∨ f s = none := by
  cases hf : f s with
  | none => exact Or.inr rfl
  | some t =>
    have := h t hf
    rw [e] at this
    cases this
    exact Or.inl rfl

/-- The first tile faults when its `k` body faults at the second step of its first row. -/
theorem tile_body_faults {kbody : Nat → Nat → Nat → Nat → KState → Option KState} {T n : Nat}
    (hn : 2 ≤ n) (hT : 2 ≤ T) (hb : ∀ s1, kbody 0 (tile_max T n 0) 0 (0 + 1) s1 = none)
    (s : KState) : tile_body kbody T n 0 0 0 s = none := by
  have hm : 2 ≤ tile_max T n 0 := by unfold tile_max; split <;> omega
  unfold tile_body
  simp only
  rw [forLoop_first_none _ 1 _ (by omega) (by simp; omega)]
  · rfl
  rw [forLoop_second_none _ 1 _ s (by omega) (by simp; omega) (by simp; omega) hb]
  rfl

/-! ## Claims C1 – C4: the kernels -/

/-- C1: `dgemm_naive` computes `C += A * B`. For every `n` and all buffers `A`, `B`, `C` of
length `n * n`, over exact rational arithmetic, the kernel returns, `C` keeps its length,
and every element `(i, j)` with `i, j < n` ends as
`C[i*n+j] + Σ_{k < n} A[i*n+k] * B[k*n+j]`. -/
theorem dgemm_naive_computes (n : Nat) (A B C : List ℚ) (log : List Access)
    (hA : A.length = n * n) (hB : B.length = n * n) (hC : C.length = n * n) :
    ∃ s', dgemm_naive n A B ⟨C, log⟩ = some s' ∧ s'.C.length = n * n ∧
      ∀ i j, i < n → j < n →
        s'.C[i * n + j]? = some (C.getD (i * n + j) 0 +
          ∑ k ∈ range n, A.getD (i * n + k) 0 * B.getD (k * n + j) 0) := by
  obtain ⟨s', e, l, v⟩ := dgemm_naive_adds hA hB ⟨C, log⟩ hC
  refine ⟨s', e, l, fun i j hi hj => ?_⟩
  have hp : i * n + j < n * n := by have := flat_lt hi (Nat.succ_le_of_lt hj); omega
  have := v (i * n + j) hp
  rw [total_eq A B hi hj, List.getD_eq_getElem _ _ (by omega : i * n + j < s'.C.length)] at this
  rw [List.getElem?_eq_getElem (by omega : i * n + j < s'.C.length), this]

/-- Witness for C1: a 2 × 2 instance. -/
theorem dgemm_naive_computes_witness :
    ∃ s', dgemm_naive 2 [1, 2, 3, 4] [5, 6, 7, 8] ⟨[9, 10, 11, 12], []⟩ = some s' ∧
      s'.C.length = 2 * 2 ∧
      ∀ i j, i < 2 → j < 2 →
        s'.C[i * 2 + j]? = some (([9, 10, 11, 12] : List ℚ).getD (i * 2 + j) 0 +
          ∑ k ∈ range 2, ([1, 2, 3, 4] : List ℚ).getD (i * 2 + k) 0 *
            ([5, 6, 7, 8] : List ℚ).getD (k * 2 + j) 0) :=
  dgemm_naive_computes 2 [1, 2, 3, 4] [5, 6, 7, 8] [9, 10, 11, 12] [] rfl rfl rfl

/-- C2: the vectorized kernel against the naive kernel. For every `n` and all `A`, `B`, `C`
of length `n * n`, with the 4-lane multiply and add taken lane-wise: `dgemm_naive` returns;
the loop nest of `dgemm_avx` on unaligned moves returns too and leaves the same `C`, whether
4 divides `n` or not (its 4-wide loop and its scalar remainder loop cover every column
once); and `dgemm_avx` itself, on the aligned moves of the source, returns that very state
when `n` is a multiple of 4 or below 4, and faults for every other `n` (5, 6, 7, 9, ...),
leaving no `C` to compare. -/
theorem dgemm_avx_agrees_naive (n : Nat) (A B C : List ℚ) (log : List Access)
    (hA : A.length = n * n) (hB : B.length = n * n) (hC : C.length = n * n) :
    ∃ s₀ s₁, dgemm_naive n A B ⟨C, log⟩ = some s₀ ∧
      dgemm_avx_with false n A B ⟨C, log⟩ = some s₁ ∧ s₁.C = s₀.C ∧
      dgemm_avx n A B ⟨C, log⟩ = if n % 4 = 0 ∨ n < 4 then some s₁ else none := by
  obtain ⟨s₁, s₀, e1, e0, h⟩ :=
    (dgemm_avx_adds hA hB).same_C (dgemm_naive_adds hA hB) ⟨C, log⟩ hC
  exact ⟨s₀, s₁, e0, e1, h, by rw [dgemm_avx_eq_ite, e1]⟩

/-- Witness for C2: `n = 8`, where `dgemm_avx` returns, and `n = 5`, where it faults. -/
theorem dgemm_avx_agrees_naive_witness :
    (∃ s₀ s₁, dgemm_naive 8 (alloc_matrix 8) (alloc_matrix 8) ⟨alloc_matrix 8, []⟩ = some s₀ ∧
      dgemm_avx_with false 8 (alloc_matrix 8) (alloc_matrix 8) ⟨alloc_matrix 8, []⟩ = some s₁ ∧
      s₁.C = s₀.C ∧
      dgemm_avx 8 (alloc_matrix 8) (alloc_matrix 8) ⟨alloc_matrix 8, []⟩ =
        if 8 % 4 = 0 ∨ 8 < 4 then some s₁ else none) ∧
    (∃ s₀ s₁, dgemm_naive 5 (alloc_matrix 5) (alloc_matrix 5) ⟨alloc_matrix 5, []⟩ = some s₀ ∧
      dgemm_avx_with false 5 (alloc_matrix 5) (alloc_matrix 5) ⟨alloc_matrix 5, []⟩ = some s₁ ∧
      s₁.C = s₀.C ∧
      dgemm_avx 5 (alloc_matrix 5) (alloc_matrix 5) ⟨alloc_matrix 5, []⟩ =
        if 5 % 4 = 0 ∨ 5 < 4 then some s₁ else none) :=
  ⟨dgemm_avx_agrees_naive 8 (alloc_matrix 8) (alloc_matrix 8) (alloc_matrix 8) []
    (by simp [alloc_matrix]) (by simp [alloc_matrix]) (by simp [alloc_matrix]),
   dgemm_avx_agrees_naive 5 (alloc_matrix 5) (alloc_matrix 5) (alloc_matrix 5) []
    (by simp [alloc_matrix]) (by simp [alloc_matrix]) (by simp [alloc_matrix])⟩

/-- C3: the blocked and unrolled kernel against the naive kernel. With `BLOCK_SIZE` a
parameter `T ≥ 1` (larger than, equal to or smaller than `n`), for either build (`fma` or
not) and all `A`, `B`, `C` of length `n * n`, over exact arithmetic: `dgemm_naive` returns;
the loop nests of `dgemm_avx_block` and of `dgemm_avx_block_prefetch` on unaligned moves
return too and leave the same `C`, whether `T` or 4 divides `n` or not. On the aligned moves
of the source, each kernel returns that very state or faults, at every `T`; for `T` a
multiple of 4 (`BLOCK_SIZE` is 32) it returns when `n` is a multiple of 4 or below 4, and
faults for every other `n` (5, 6, 7, 9, ..., 33, ...), leaving no `C` to compare. -/
theorem dgemm_avx_block_agrees_naive (T : Nat) (hT : 1 ≤ T) (fma : Bool) (n : Nat)
    (A B C : List ℚ) (log : List Access)
    (hA : A.length = n * n) (hB : B.length = n * n) (hC : C.length = n * n) :
    ∃ s₀ s₁ s₂, dgemm_naive n A B ⟨C, log⟩ = some s₀ ∧
      dgemm_avx_block_with false T fma n A B ⟨C, log⟩ = some s₁ ∧
      dgemm_avx_block_prefetch_with false T n A B ⟨C, log⟩ = some s₂ ∧
      s₁.C = s₀.C ∧ s₂.C = s₀.C ∧
      (dgemm_avx_block_with true T fma n A B ⟨C, log⟩ = some s₁ ∨
        dgemm_avx_block_with true T fma n A B ⟨C, log⟩ = none) ∧
      (dgemm_avx_block_prefetch_with true T n A B ⟨C, log⟩ = some s₂ ∨
        dgemm_avx_block_prefetch_with true T n A B ⟨C, log⟩ = none) ∧
      (4 ∣ T →
        dgemm_avx_block_with true T fma n A B ⟨C, log⟩ =
          (if n % 4 = 0 ∨ n < 4 then some s₁ else none) ∧
        dgemm_avx_block_prefetch_with true T n A B ⟨C, log⟩ =
          (if n % 4 = 0 ∨ n < 4 then some s₂ else none)) := by
  obtain ⟨s₁, s₀, e1, e0, h1⟩ :=
    (dgemm_avx_block_with_adds hA hB hT fma).same_C (dgemm_naive_adds hA hB) ⟨C, log⟩ hC
  obtain ⟨s₂, s₀', e2, e0', h2⟩ :=
    (dgemm_avx_block_prefetch_with_adds hA hB hT).same_C (dgemm_naive_adds hA hB) ⟨C, log⟩ hC
  rw [e0] at e0'
  cases e0'
  refine ⟨s₀, s₁, s₂, e0, e1, e2, h1, h2, ?_, ?_, fun h4 => ⟨?_, ?_⟩⟩
  · exact some_or_none (dgemm_avx_block_with_refines T fma n A B ⟨C, log⟩) e1
  · exact some_or_none (dgemm_avx_block_prefetch_with_refines T n A B ⟨C, log⟩) e2
  · rw [dgemm_avx_block_with_eq_ite h4 hT, e1]
  · rw [dgemm_avx_block_prefetch_with_eq_ite h4 hT, e2]

/-- Witness for C3: the code's tile edge 32 and the FMA build, on a 64 × 64 problem, where
the kernels return, and on a 33 × 33 problem, where they fault. -/
theorem dgemm_avx_block_agrees_naive_witness :
    (∃ s₀ s₁ s₂,
      dgemm_naive 64 (alloc_matrix 64) (alloc_matrix 64) ⟨alloc_matrix 64, []⟩ = some s₀ ∧
      dgemm_avx_block_with false BLOCK_SIZE true 64 (alloc_matrix 64) (alloc_matrix 64)
        ⟨alloc_matrix 64, []⟩ = some s₁ ∧
      dgemm_avx_block_prefetch_with false BLOCK_SIZE 64 (alloc_matrix 64) (alloc_matrix 64)
        ⟨alloc_matrix 64, []⟩ = some s₂ ∧
      s₁.C = s₀.C ∧ s₂.C = s₀.C ∧
      (dgemm_avx_block_with true BLOCK_SIZE true 64 (alloc_matrix 64) (alloc_matrix 64)
          ⟨alloc_matrix 64, []⟩ = some s₁ ∨
        dgemm_avx_block_with true BLOCK_SIZE true 64 (alloc_matrix 64) (alloc_matrix 64)
          ⟨alloc_matrix 64, []⟩ = none) ∧
      (dgemm_avx_block_prefetch_with true BLOCK_SIZE 64 (alloc_matrix 64) (alloc_matrix 64)
          ⟨alloc_matrix 64, []⟩ = some s₂ ∨
        dgemm_avx_block_prefetch_with true BLOCK_SIZE 64 (alloc_matrix 64) (alloc_matrix 64)
          ⟨alloc_matrix 64, []⟩ = none) ∧
      (4 ∣ BLOCK_SIZE →
        dgemm_avx_block_with true BLOCK_SIZE true 64 (alloc_matrix 64) (alloc_matrix 64)
          ⟨alloc_matrix 64, []⟩ = (if 64 % 4 = 0 ∨ 64 < 4 then some s₁ else none) ∧
        dgemm_avx_block_prefetch_with true BLOCK_SIZE 64 (alloc_matrix 64) (alloc_matrix 64)
          ⟨alloc_matrix 64, []⟩ = (if 64 % 4 = 0 ∨ 64 < 4 then some s₂ else none))) ∧
    (∃ s₀ s₁ s₂,
      dgemm_naive 33 (alloc_matrix 33) (alloc_matrix 33) ⟨alloc_matrix 33, []⟩ = some s₀ ∧
      dgemm_avx_block_with false BLOCK_SIZE true 33 (alloc_matrix 33) (alloc_matrix 33)
        ⟨alloc_matrix 33, []⟩ = some s₁ ∧
      dgemm_avx_block_prefetch_with false BLOCK_SIZE 33 (alloc_matrix 33) (alloc_matrix 33)
        ⟨alloc_matrix 33, []⟩ = some s₂ ∧
      s₁.C = s₀.C ∧ s₂.C = s₀.C ∧
      (dgemm_avx_block_with true BLOCK_SIZE true 33 (alloc_matrix 33) (alloc_matrix 33)
          ⟨alloc_matrix 33, []⟩ = some s₁ ∨
        dgemm_avx_block_with true BLOCK_SIZE true 33 (alloc_matrix 33) (alloc_matrix 33)
          ⟨alloc_matrix 33, []⟩ = none) ∧
      (dgemm_avx_block_prefetch_with true BLOCK_SIZE 33 (alloc_matrix 33) (alloc_matrix 33)
          ⟨alloc_matrix 33, []⟩ = some s₂ ∨
        dgemm_avx_block_prefetch_with true BLOCK_SIZE 33 (alloc_matrix 33) (alloc_matrix 33)
          ⟨alloc_matrix 33, []⟩ = none) ∧
      (4 ∣ BLOCK_SIZE →
        dgemm_avx_block_with true BLOCK_SIZE true 33 (alloc_matrix 33) (alloc_matrix 33)
          ⟨alloc_matrix 33, []⟩ = (if 33 % 4 = 0 ∨ 33 < 4 then some s₁ else none) ∧
        dgemm_avx_block_prefetch_with true BLOCK_SIZE 33 (alloc_matrix 33) (alloc_matrix 33)
          ⟨alloc_matrix 33, []⟩ = (if 33 % 4 = 0 ∨ 33 < 4 then some s₂ else none))) :=
  ⟨dgemm_avx_block_agrees_naive BLOCK_SIZE (by decide) true 64 (alloc_matrix 64)
    (alloc_matrix 64) (alloc_matrix 64) []
    (by simp [alloc_matrix]) (by simp [alloc_matrix]) (by simp [alloc_matrix]),
   dgemm_avx_block_agrees_naive BLOCK_SIZE (by decide) true 33 (alloc_matrix 33)
    (alloc_matrix 33) (alloc_matrix 33) []
    (by simp [alloc_matrix]) (by simp [alloc_matrix]) (by simp [alloc_matrix])⟩

/-- C4, at the failing input `n = 5`: on buffers as `alloc_matrix(5)` fills them, the loop
nests of `dgemm_avx` and of `dgemm_avx_block`, freed of the alignment requirement, return
having issued a vector load of `C` at flat index 5 (row 1, column 0), which is not
divisible by 4, a vector store to the same index, and before them a vector load of `B` at
flat index 5 (row 0 of `C`, `k = 1`); on the aligned moves of the source `dgemm_avx` and
`dgemm_avx_block` fault. -/
theorem vector_access_misaligned_at_5 :
    (∃ s, dgemm_avx_with false 5 (alloc_matrix 5) (alloc_matrix 5) ⟨alloc_matrix 5, []⟩ =
        some s ∧
      (⟨Kind.vload, Buf.C, 5⟩ : Access) ∈ s.log ∧ (⟨Kind.vstore, Buf.C, 5⟩ : Access) ∈ s.log ∧
      (⟨Kind.vload, Buf.B, 5⟩ : Access) ∈ s.log) ∧
    (∃ s, dgemm_avx_block_with false BLOCK_SIZE true 5 (alloc_matrix 5) (alloc_matrix 5)
        ⟨alloc_matrix 5, []⟩ = some s ∧
      (⟨Kind.vload, Buf.C, 5⟩ : Access) ∈ s.log ∧ (⟨Kind.vstore, Buf.C, 5⟩ : Access) ∈ s.log ∧
      (⟨Kind.vload, Buf.B, 5⟩ : Access) ∈ s.log) ∧
    ¬ (4 ∣ 5) ∧
    dgemm_avx 5 (alloc_matrix 5) (alloc_matrix 5) ⟨alloc_matrix 5, []⟩ = none ∧
    dgemm_avx_block true 5 (alloc_matrix 5) (alloc_matrix 5) ⟨alloc_matrix 5, []⟩ = none ∧
    dgemm_avx_block false 5 (alloc_matrix 5) (alloc_matrix 5) ⟨alloc_matrix 5, []⟩ = none := by
  have h1 : ((dgemm_avx_with false 5 (alloc_matrix 5) (alloc_matrix 5)
      ⟨alloc_matrix 5, []⟩).map
      fun s => decide ((⟨Kind.vload, Buf.C, 5⟩ : Access) ∈ s.log ∧
        (⟨Kind.vstore, Buf.C, 5⟩ : Access) ∈ s.log ∧
        (⟨Kind.vload, Buf.B, 5⟩ : Access) ∈ s.log)) = some true := by decide
  have h2 : ((dgemm_avx_block_with false BLOCK_SIZE true 5 (alloc_matrix 5) (alloc_matrix 5)
      ⟨alloc_matrix 5, []⟩).map
      fun s => decide ((⟨Kind.vload, Buf.C, 5⟩ : Access) ∈ s.log ∧
        (⟨Kind.vstore, Buf.C, 5⟩ : Access) ∈ s.log ∧
        (⟨Kind.vload, Buf.B, 5⟩ : Access) ∈ s.log)) = some true := by decide
  refine ⟨?_, ?_, by decide, dgemm_avx_faults (by decide) _ _ _,
    dgemm_avx_block_with_faults (by decide) (by decide) (by decide) _ _ _ _,
    dgemm_avx_block_with_faults (by decide) (by decide) (by decide) _ _ _ _⟩
  · cases h : dgemm_avx_with false 5 (alloc_matrix 5) (alloc_matrix 5)
        ⟨alloc_matrix 5, []⟩ with
    | none => rw [h] at h1; exact absurd h1 (by simp)
    | some s =>
      rw [h] at h1
      exact ⟨s, rfl, by simpa using h1⟩
  · cases h : dgemm_avx_block_with false BLOCK_SIZE true 5 (alloc_matrix 5) (alloc_matrix 5)
        ⟨alloc_matrix 5, []⟩ with
    | none => rw [h] at h2; exact absurd h2 (by simp)
    | some s =>
      rw [h] at h2
      exact ⟨s, rfl, by simpa using h2⟩

/-! ## Claims C5 – C10: the measurement harness -/

theorem run_gflops_eq (n : Nat) (T : ℚ) :
    run_gflops n T = 2 * (n : ℚ) ^ 3 / T * (10 : ℚ) ^ (-9 : ℤ) := by
  have h : (10 : ℚ) ^ (-9 : ℤ) = 1 / 10 ^ 9 := by norm_num [zpow_neg]
  rw [h]
  unfold run_gflops operations
  ring

/-- C6: per-run throughput. For every size `n` and measured elapsed times `T r > 0`, the
GFLOPS value `run_benchmark` computes (and prints) for run `r` is
`2 * n^3 / T r * 10^-9`, in `dgemm_aprimorado_2.c` and in `dgemm_aprimorado.c`; for
`n = 128` that is `4194304 / T * 10^-9`. The operation count is formed from `n` as a
`double`: it is the exact integer `2 * n^3`, which for the configured sizes (up to 2048)
stays below `2^53` although it passes the 32-bit `INT_MAX` at 2048. -/
theorem run_benchmark_per_run_gflops (func : Kernel) (clock : Nat → ℚ) (n : Nat)
    (A B : List ℚ) (name : String) (peak_gflops : ℚ) (result : List MethodResult)
    (method_idx size_idx : Nat) (b : Bench) (T : Nat → ℚ)
    (hfunc : Returns func n A B) (hC : b.mem.C.length = n * n)
    (hcell : InTable result method_idx size_idx)
    (hclock : ∀ r, r < NUM_RUNS → clock (b.ticks + 2 * r + 1) - clock (b.ticks + 2 * r) = T r)
    (_hT : ∀ r, r < NUM_RUNS → 0 < T r) :
    ∃ out out',
      run_benchmark func clock n A B name peak_gflops result method_idx size_idx b = some out ∧
      run_benchmark_aprimorado func clock n A B name peak_gflops b = some out' ∧
      out.bench.out =
        report n out.stats out.avg_time out.avg_gflops out.efficiency peak_gflops ++
        ((List.range NUM_RUNS).map (fun r =>
          Line.execucao (r + 1) (T r) (2 * (n : ℚ) ^ 3 / T r * (10 : ℚ) ^ (-9 : ℤ)))).reverse ++
        Line.executando name :: b.out ∧
      out'.bench.out =
        report n out'.stats out'.avg_time out'.avg_gflops out'.efficiency peak_gflops ++
        ((List.range NUM_RUNS).map (fun r =>
          Line.execucao (r + 1) (T r) (2 * (n : ℚ) ^ 3 / T r * (10 : ℚ) ^ (-9 : ℤ)))).reverse ++
        Line.executando name :: b.out ∧
      (∀ t : ℚ, run_gflops 128 t = 4194304 / t * (10 : ℚ) ^ (-9 : ℤ)) ∧
      operations n = ((2 * n ^ 3 : Nat) : ℚ) ∧
      (n ≤ 2048 → 2 * n ^ 3 < 2 ^ 53) ∧ 2 ^ 31 - 1 < 2 * 2048 ^ 3 := by
  obtain ⟨out, b1, row, e, inv, hb, -⟩ :=
    run_benchmark_spec hfunc clock name peak_gflops hcell b hC
  obtain ⟨out', b1', e', inv', hb'⟩ :=
    run_benchmark_aprimorado_spec hfunc clock name peak_gflops b hC
  have hruns : (List.range NUM_RUNS).map (fun q => Line.execucao (q + 1)
      (elapsed_of clock b.ticks q) (run_gflops n (elapsed_of clock b.ticks q))) =
      (List.range NUM_RUNS).map (fun r =>
        Line.execucao (r + 1) (T r) (2 * (n : ℚ) ^ 3 / T r * (10 : ℚ) ^ (-9 : ℤ))) := by
    apply List.map_congr_left
    intro r hr
    have hr' : r < NUM_RUNS := List.mem_range.mp hr
    have : elapsed_of clock b.ticks r = T r := hclock r hr'
    rw [this, run_gflops_eq]
  refine ⟨out, out', e, e', ?_, ?_, ?_, ?_, ?_, by norm_num⟩
  · have := inv.out
    simp only at this
    rw [hb, this, hruns]
    simp
  · have := inv'.out
    simp only at this
    rw [hb', this, hruns]
    simp
  · intro t
    rw [run_gflops_eq]
    norm_num
  · unfold operations
    push_cast
    ring
  · intro hn
    calc 2 * n ^ 3 ≤ 2 * 2048 ^ 3 := by
          have := Nat.pow_le_pow_left hn 3
          omega
      _ < 2 ^ 53 := by norm_num

/-- Witness for C6: `dgemm_naive` on 1 × 1 buffers, a clock that advances one second per
reading. -/
theorem run_benchmark_per_run_gflops_witness :
    ∃ out out',
      run_benchmark dgemm_naive (fun t => (t : ℚ)) 1 [2] [3] "Naive (IKJ)" 384 init_results 0 0
        ⟨⟨[7], []⟩, 0, [], []⟩ = some out ∧
      run_benchmark_aprimorado dgemm_naive (fun t => (t : ℚ)) 1 [2] [3] "Naive (IKJ)" 384
        ⟨⟨[7], []⟩, 0, [], []⟩ = some out' ∧
      out.bench.out =
        report 1 out.stats out.avg_time out.avg_gflops out.efficiency 384 ++
        ((List.range NUM_RUNS).map (fun r =>
          Line.execucao (r + 1) ((fun _ => (1 : ℚ)) r)
            (2 * ((1 : Nat) : ℚ) ^ 3 / (fun _ => (1 : ℚ)) r * (10 : ℚ) ^ (-9 : ℤ)))).reverse ++
        Line.executando "Naive (IKJ)" :: [] ∧
      out'.bench.out =
        report 1 out'.stats out'.avg_time out'.avg_gflops out'.efficiency 384 ++
        ((List.range NUM_RUNS).map (fun r =>
          Line.execucao (r + 1) ((fun _ => (1 : ℚ)) r)
            (2 * ((1 : Nat) : ℚ) ^ 3 / (fun _ => (1 : ℚ)) r * (10 : ℚ) ^ (-9 : ℤ)))).reverse ++
        Line.executando "Naive (IKJ)" :: [] ∧
      (∀ t : ℚ, run_gflops 128 t = 4194304 / t * (10 : ℚ) ^ (-9 : ℤ)) ∧
      operations 1 = ((2 * 1 ^ 3 : Nat) : ℚ) ∧
      (1 ≤ 2048 → 2 * 1 ^ 3 < 2 ^ 53) ∧ 2 ^ 31 - 1 < 2 * 2048 ^ 3 :=
  run_benchmark_per_run_gflops dgemm_naive (fun t => (t : ℚ)) 1 [2] [3] "Naive (IKJ)" 384
    init_results 0 0 ⟨⟨[7], []⟩, 0, [], []⟩ (fun _ => 1)
    (dgemm_naive_adds rfl rfl).returns rfl ⟨_, rfl, by decide, by decide, by decide⟩
    (fun r _ => by push_cast; ring) (fun _ _ => by norm_num)

theorem elapsed_of_congr {clock : Nat → ℚ} {t0 : Nat} {T : Nat → ℚ}
    (h : ∀ r, r < NUM_RUNS → clock (t0 + 2 * r + 1) - clock (t0 + 2 * r) = T r) :
    ∀ r, r < NUM_RUNS → elapsed_of clock t0 r = T r := h

theorem sum_range_five (g : Nat → ℚ) :
    ∑ r ∈ range NUM_RUNS, g r = g 0 + g 1 + g 2 + g 3 + g 4 := by
  simp [NUM_RUNS, Finset.sum_range_succ]

/-- C7: aggregate statistics are arithmetic means. For every sequence of `NUM_RUNS = 5`
measured elapsed times `t 0 .. t 4`, all positive, `run_benchmark` stores
`time[size_idx] = (t 0 + ... + t 4) / 5` and stores and returns
`gflops[size_idx] = (g 0 + ... + g 4) / 5` with `g r = 2 * n^3 / t r * 10^-9`. The ten
clock readings behind the `t r` are those of the measured runs: the warm-up takes none. -/
theorem run_benchmark_means (func : Kernel) (clock : Nat → ℚ) (n : Nat)
    (A B : List ℚ) (name : String) (peak_gflops : ℚ) (result : List MethodResult)
    (method_idx size_idx : Nat) (b : Bench) (t : Nat → ℚ)
    (hfunc : Returns func n A B) (hC : b.mem.C.length = n * n)
    (hcell : InTable result method_idx size_idx)
    (hclock : ∀ r, r < NUM_RUNS → clock (b.ticks + 2 * r + 1) - clock (b.ticks + 2 * r) = t r)
    (_ht : ∀ r, r < NUM_RUNS → 0 < t r) :
    ∃ out row,
      run_benchmark func clock n A B name peak_gflops result method_idx size_idx b = some out ∧
      out.result[method_idx]? = some row ∧
      row.time[size_idx]? = some ((t 0 + t 1 + t 2 + t 3 + t 4) / 5) ∧
      row.gflops[size_idx]? = some
        ((2 * (n : ℚ) ^ 3 / t 0 * (10 : ℚ) ^ (-9 : ℤ) + 2 * (n : ℚ) ^ 3 / t 1 * (10 : ℚ) ^ (-9 : ℤ)
          + 2 * (n : ℚ) ^ 3 / t 2 * (10 : ℚ) ^ (-9 : ℤ) + 2 * (n : ℚ) ^ 3 / t 3 * (10 : ℚ) ^ (-9 : ℤ)
          + 2 * (n : ℚ) ^ 3 / t 4 * (10 : ℚ) ^ (-9 : ℤ)) / 5) ∧
      out.ret =
        (2 * (n : ℚ) ^ 3 / t 0 * (10 : ℚ) ^ (-9 : ℤ) + 2 * (n : ℚ) ^ 3 / t 1 * (10 : ℚ) ^ (-9 : ℤ)
          + 2 * (n : ℚ) ^ 3 / t 2 * (10 : ℚ) ^ (-9 : ℤ) + 2 * (n : ℚ) ^ 3 / t 3 * (10 : ℚ) ^ (-9 : ℤ)
          + 2 * (n : ℚ) ^ 3 / t 4 * (10 : ℚ) ^ (-9 : ℤ)) / 5 ∧
      out.bench.ticks = b.ticks + 2 * NUM_RUNS := by
  obtain ⟨out, b1, row, e, inv, hb, hat, hag, -, hret, hrow, -, hg, ht, -⟩ :=
    run_benchmark_spec hfunc clock name peak_gflops hcell b hC
  have htime : out.avg_time = (t 0 + t 1 + t 2 + t 3 + t 4) / 5 := by
    have h := inv.total_time
    simp only at h
    rw [hat, h, sum_range_five]
    simp only [elapsed_of_congr hclock _ (by decide : 0 < NUM_RUNS),
      elapsed_of_congr hclock _ (by decide : 1 < NUM_RUNS),
      elapsed_of_congr hclock _ (by decide : 2 < NUM_RUNS),
      elapsed_of_congr hclock _ (by decide : 3 < NUM_RUNS),
      elapsed_of_congr hclock _ (by decide : 4 < NUM_RUNS)]
    norm_num [NUM_RUNS]
  have hgf : out.avg_gflops =
      (2 * (n : ℚ) ^ 3 / t 0 * (10 : ℚ) ^ (-9 : ℤ) + 2 * (n : ℚ) ^ 3 / t 1 * (10 : ℚ) ^ (-9 : ℤ)
        + 2 * (n : ℚ) ^ 3 / t 2 * (10 : ℚ) ^ (-9 : ℤ) + 2 * (n : ℚ) ^ 3 / t 3 * (10 : ℚ) ^ (-9 : ℤ)
        + 2 * (n : ℚ) ^ 3 / t 4 * (10 : ℚ) ^ (-9 : ℤ)) / 5 := by
    have h := inv.total_gflops
    simp only at h
    rw [hag, h, sum_range_five]
    simp only [elapsed_of_congr hclock _ (by decide : 0 < NUM_RUNS),
      elapsed_of_congr hclock _ (by decide : 1 < NUM_RUNS),
      elapsed_of_congr hclock _ (by decide : 2 < NUM_RUNS),
      elapsed_of_congr hclock _ (by decide : 3 < NUM_RUNS),
      elapsed_of_congr hclock _ (by decide : 4 < NUM_RUNS), run_gflops_eq]
    norm_num [NUM_RUNS]
  refine ⟨out, row, e, hrow, ?_, ?_, ?_, ?_⟩
  · rw [ht, htime]
  · rw [hg, hgf]
  · rw [hret, hgf]
  · rw [hb]
    exact inv.ticks

/-- Witness for C7: `dgemm_naive` on 1 × 1 buffers, a clock that advances one second per
reading. -/
theorem run_benchmark_means_witness :
    ∃ out row,
      run_benchmark dgemm_naive (fun t => (t : ℚ)) 1 [2] [3] "Naive (IKJ)" 384 init_results 0 0
        ⟨⟨[7], []⟩, 0, [], []⟩ = some out ∧
      out.result[0]? = some row ∧
      row.time[0]? = some (((1 : ℚ) + 1 + 1 + 1 + 1) / 5) ∧
      row.gflops[0]? = some
        ((2 * ((1 : Nat) : ℚ) ^ 3 / 1 * (10 : ℚ) ^ (-9 : ℤ) + 2 * ((1 : Nat) : ℚ) ^ 3 / 1 * (10 : ℚ) ^ (-9 : ℤ)
          + 2 * ((1 : Nat) : ℚ) ^ 3 / 1 * (10 : ℚ) ^ (-9 : ℤ) + 2 * ((1 : Nat) : ℚ) ^ 3 / 1 * (10 : ℚ) ^ (-9 : ℤ)
          + 2 * ((1 : Nat) : ℚ) ^ 3 / 1 * (10 : ℚ) ^ (-9 : ℤ)) / 5) ∧
      out.ret =
        (2 * ((1 : Nat) : ℚ) ^ 3 / 1 * (10 : ℚ) ^ (-9 : ℤ) + 2 * ((1 : Nat) : ℚ) ^ 3 / 1 * (10 : ℚ) ^ (-9 : ℤ)
          + 2 * ((1 : Nat) : ℚ) ^ 3 / 1 * (10 : ℚ) ^ (-9 : ℤ) + 2 * ((1 : Nat) : ℚ) ^ 3 / 1 * (10 : ℚ) ^ (-9 : ℤ)
          + 2 * ((1 : Nat) : ℚ) ^ 3 / 1 * (10 : ℚ) ^ (-9 : ℤ)) / 5 ∧
      out.bench.ticks = 0 + 2 * NUM_RUNS :=
  run_benchmark_means dgemm_naive (fun t => (t : ℚ)) 1 [2] [3] "Naive (IKJ)" 384
    init_results 0 0 ⟨⟨[7], []⟩, 0, [], []⟩ (fun _ => 1)
    (dgemm_naive_adds rfl rfl).returns rfl ⟨_, rfl, by decide, by decide, by decide⟩
    (fun r _ => by push_cast; ring) (fun _ _ => by norm_num)

theorem foldl_min_const (t : ℚ) (m0 : ℚ) (k : Nat) :
    (List.range (k + 1)).foldl (fun m _ => if t < m then t else m) m0 =
      if t < m0 then t else m0 := by
  induction k with
  | zero => simp [List.range_succ]
  | succ k ih =>
    rw [List.range_succ, List.foldl_append, ih]
    by_cases h : t < m0
    · simp [h]
    · simp [h]

theorem foldl_max_const (t : ℚ) (m0 : ℚ) (k : Nat) :
    (List.range (k + 1)).foldl (fun m _ => if t > m then t else m) m0 =
      if t > m0 then t else m0 := by
  induction k with
  | zero => simp [List.range_succ]
  | succ k ih =>
    rw [List.range_succ, List.foldl_append, ih]
    by_cases h : t > m0
    · simp [h]
    · simp [h]

/-- With every measured run taking exactly `t`, the loop locals end as: total `5 * t`,
minimum `t` if `t < 10^9` else `10^9`, maximum `t` if `t > 0` else `0`. -/
theorem stats_of_equal_runs {func : Kernel} {clock : Nat → ℚ} {n : Nat} {A B : List ℚ}
    {b0 b1 : Bench} {st : Stats} (inv : MeasuredInv func clock n A B b0 NUM_RUNS (b1, st))
    {t : ℚ} (hclock : ∀ r, r < NUM_RUNS → elapsed_of clock b0.ticks r = t) :
    st.total_time = 5 * t ∧ st.min_time = (if t < 10 ^ 9 then t else 10 ^ 9) ∧
      st.max_time = (if t > 0 then t else 0) := by
  have hmin : ∀ m0 : ℚ, (List.range NUM_RUNS).foldl (fun m q =>
      if elapsed_of clock b0.ticks q < m then elapsed_of clock b0.ticks q else m) m0 =
      (List.range NUM_RUNS).foldl (fun m _ => if t < m then t else m) m0 := by
    intro m0
    simp [NUM_RUNS, List.range_succ, hclock 0 (by decide), hclock 1 (by decide),
      hclock 2 (by decide), hclock 3 (by decide), hclock 4 (by decide)]
  have hmax : ∀ m0 : ℚ, (List.range NUM_RUNS).foldl (fun m q =>
      if elapsed_of clock b0.ticks q > m then elapsed_of clock b0.ticks q else m) m0 =
      (List.range NUM_RUNS).foldl (fun m _ => if t > m then t else m) m0 := by
    intro m0
    simp [NUM_RUNS, List.range_succ, hclock 0 (by decide), hclock 1 (by decide),
      hclock 2 (by decide), hclock 3 (by decide), hclock 4 (by decide)]
  refine ⟨?_, ?_, ?_⟩
  · have h := inv.total_time
    simp only at h
    rw [h, sum_range_five, hclock 0 (by decide), hclock 1 (by decide),
      hclock 2 (by decide), hclock 3 (by decide), hclock 4 (by decide)]
    ring
  · have h := inv.min_time
    simp only at h
    rw [h, hmin]
    exact foldl_min_const t _ 4
  · have h := inv.max_time
    simp only at h
    rw [h, hmax]
    exact foldl_max_const t _ 4

/-- C8 as stated fails: with every measured run taking exactly `t = 2 * 10^9` seconds
(a clock that advances `2 * 10^9` during each kernel call), `run_benchmark` returns with
`min_time = 10^9`, its initial value, not `t`. -/
theorem equal_runs_min_time_counterexample :
    ∃ out,
      run_benchmark dgemm_naive (fun k => 2 * 10 ^ 9 * (((k + 1) / 2 : Nat) : ℚ)) 1 [2] [3]
        "Naive (IKJ)" 384 init_results 0 0 ⟨⟨[7], []⟩, 0, [], []⟩ = some out ∧
      (∀ r, r < NUM_RUNS →
        (fun k => 2 * 10 ^ 9 * (((k + 1) / 2 : Nat) : ℚ)) (0 + 2 * r + 1) -
          (fun k => 2 * 10 ^ 9 * (((k + 1) / 2 : Nat) : ℚ)) (0 + 2 * r) = 2 * 10 ^ 9) ∧
      out.stats.min_time = 10 ^ 9 ∧ out.stats.min_time ≠ 2 * 10 ^ 9 := by
  have hclock : ∀ r, r < NUM_RUNS →
      (fun k => 2 * 10 ^ 9 * (((k + 1) / 2 : Nat) : ℚ)) (0 + 2 * r + 1) -
        (fun k => 2 * 10 ^ 9 * (((k + 1) / 2 : Nat) : ℚ)) (0 + 2 * r) = 2 * 10 ^ 9 := by
    intro r _
    have h1 : (0 + 2 * r + 1 + 1) / 2 = r + 1 := by omega
    have h2 : (0 + 2 * r + 1) / 2 = r := by omega
    simp only [h1, h2]
    push_cast
    ring
  obtain ⟨out, b1, row, e, inv, -⟩ :=
    @run_benchmark_spec dgemm_naive 1 [2] [3]
      (dgemm_naive_adds rfl rfl).returns (fun k => 2 * 10 ^ 9 * (((k + 1) / 2 : Nat) : ℚ))
      "Naive (IKJ)" 384 init_results 0 0
      ⟨_, rfl, by decide, by decide, by decide⟩ ⟨⟨[7], []⟩, 0, [], []⟩ rfl
  have hmin := (stats_of_equal_runs inv (t := 2 * 10 ^ 9) hclock).2.1
  have hval : out.stats.min_time = 10 ^ 9 := by
    rw [hmin]
    norm_num
  exact ⟨out, e, hclock, hval, by rw [hval]; norm_num⟩

/-- C8, amended: given identical per-run elapsed times, mean = min = max. For every
elapsed time `t` with `0 ≤ t ≤ 10^9`, if all `NUM_RUNS` measured runs of `run_benchmark`
take exactly `t`, then `avg_time = t`, `min_time = t` and `max_time = t`. -/
theorem run_benchmark_equal_runs (func : Kernel) (clock : Nat → ℚ) (n : Nat)
    (A B : List ℚ) (name : String) (peak_gflops : ℚ) (result : List MethodResult)
    (method_idx size_idx : Nat) (b : Bench) (t : ℚ)
    (hfunc : Returns func n A B) (hC : b.mem.C.length = n * n)
    (hcell : InTable result method_idx size_idx)
    (hclock : ∀ r, r < NUM_RUNS → clock (b.ticks + 2 * r + 1) - clock (b.ticks + 2 * r) = t)
    (h0 : 0 ≤ t) (h1 : t ≤ 10 ^ 9) :
    ∃ out,
      run_benchmark func clock n A B name peak_gflops result method_idx size_idx b = some out ∧
      out.avg_time = t ∧ out.stats.min_time = t ∧ out.stats.max_time = t := by
  obtain ⟨out, b1, row, e, inv, -, hat, -⟩ :=
    run_benchmark_spec hfunc clock name peak_gflops hcell b hC
  obtain ⟨htot, hmin, hmax⟩ := stats_of_equal_runs inv (t := t) hclock
  refine ⟨out, e, ?_, ?_, ?_⟩
  · rw [hat, htot]
    norm_num [NUM_RUNS]
  · rw [hmin]
    split_ifs with h
    · rfl
    · exact le_antisymm (not_lt.mp h) h1
  · rw [hmax]
    split_ifs with h
    · rfl
    · exact le_antisymm h0 (not_lt.mp h)

/-- Witness for amended C8: every run takes one second. -/
theorem run_benchmark_equal_runs_witness :
    ∃ out,
      run_benchmark dgemm_naive (fun t => (t : ℚ)) 1 [2] [3] "Naive (IKJ)" 384 init_results 0 0
        ⟨⟨[7], []⟩, 0, [], []⟩ = some out ∧
      out.avg_time = 1 ∧ out.stats.min_time = 1 ∧ out.stats.max_time = 1 :=
  run_benchmark_equal_runs dgemm_naive (fun t => (t : ℚ)) 1 [2] [3] "Naive (IKJ)" 384
    init_results 0 0 ⟨⟨[7], []⟩, 0, [], []⟩ 1
    (dgemm_naive_adds rfl rfl).returns rfl ⟨_, rfl, by decide, by decide, by decide⟩
    (fun r _ => by push_cast; ring) (by norm_num) (by norm_num)

/-- C9: efficiency is guarded against a non-positive peak. For every peak `p`,
`run_benchmark` stores the mean GFLOPS `g` in `gflops[size_idx]` and stores
`efficiency[size_idx] = g / p * 100` when `p > 0`, and exactly `0` when `p ≤ 0`. -/
theorem run_benchmark_efficiency_guard (func : Kernel) (clock : Nat → ℚ) (n : Nat)
    (A B : List ℚ) (name : String) (p : ℚ) (result : List MethodResult)
    (method_idx size_idx : Nat) (b : Bench)
    (hfunc : Returns func n A B) (hC : b.mem.C.length = n * n)
    (hcell : InTable result method_idx size_idx) :
    ∃ out row g,
      run_benchmark func clock n A B name p result method_idx size_idx b = some out ∧
      out.result[method_idx]? = some row ∧ out.avg_gflops = g ∧
      row.gflops[size_idx]? = some g ∧
      (0 < p → row.efficiency[size_idx]? = some (g / p * 100)) ∧
      (p ≤ 0 → row.efficiency[size_idx]? = some 0) := by
  obtain ⟨out, b1, row, e, -, -, -, -, heff, -, hrow, -, hg, -, he⟩ :=
    run_benchmark_spec hfunc clock name p hcell b hC
  refine ⟨out, row, out.avg_gflops, e, hrow, rfl, hg, fun hp => ?_, fun hp => ?_⟩
  · rw [he, heff, if_pos hp]
  · rw [he, heff, if_neg (not_lt.mpr hp)]

/-- Witness for C9: a zero peak, as `dgemm_aprimorado.c` passes for the naive method. -/
theorem run_benchmark_efficiency_guard_witness :
    ∃ out row g,
      run_benchmark dgemm_naive (fun t => (t : ℚ)) 1 [2] [3] "Naive (IKJ)" 0 init_results 0 0
        ⟨⟨[7], []⟩, 0, [], []⟩ = some out ∧
      out.result[0]? = some row ∧ out.avg_gflops = g ∧
      row.gflops[0]? = some g ∧
      ((0 : ℚ) < 0 → row.efficiency[0]? = some (g / 0 * 100)) ∧
      ((0 : ℚ) ≤ 0 → row.efficiency[0]? = some 0) :=
  run_benchmark_efficiency_guard dgemm_naive (fun t => (t : ℚ)) 1 [2] [3] "Naive (IKJ)" 0
    init_results 0 0 ⟨⟨[7], []⟩, 0, [], []⟩
    (dgemm_naive_adds rfl rfl).returns rfl ⟨_, rfl, by decide, by decide, by decide⟩

/-- C10: the peak estimate. For every core count `c` and frequency `f`,
`estimate_peak_gflops(c, f) = f * c * 8 * 2 = 16 * f * c`, and
`estimate_peak_gflops(8, 3.0) = 384.0`. -/
theorem estimate_peak_gflops_formula (c : Int) (f : ℚ) :
    estimate_peak_gflops c f = f * (c : ℚ) * 8 * 2 ∧
      estimate_peak_gflops c f = 16 * f * (c : ℚ) ∧
      estimate_peak_gflops 8 3 = 384 := by
  refine ⟨rfl, ?_, ?_⟩
  · unfold estimate_peak_gflops; ring
  · unfold estimate_peak_gflops; norm_num

/-! ## Claims C15 – C17: buffers -/

/-- C15: `clean_matrix` zeroes the whole buffer. For every `n` and every prior content of a
buffer `C` of length `n * n`, `clean_matrix(C, n)` returns a buffer of the same length
whose `n * n` elements are all exactly `0`. -/
theorem clean_matrix_zeroes (n : Nat) (C : List ℚ) (hC : C.length = n * n) :
    ∃ C', clean_matrix C n = some C' ∧ C'.length = C.length ∧
      ∀ p, p < n * n → C'[p]? = some 0 := by
  refine ⟨List.replicate (n * n) 0, clean_matrix_eq hC, by simp [hC], fun p hp => ?_⟩
  rw [List.getElem?_eq_getElem (by simpa using hp)]
  simp

/-- Witness for C15: a 2 × 2 buffer as `alloc_matrix` fills it. -/
theorem clean_matrix_zeroes_witness :
    ∃ C', clean_matrix (alloc_matrix 2) 2 = some C' ∧ C'.length = (alloc_matrix 2).length ∧
      ∀ p, p < 2 * 2 → C'[p]? = some 0 :=
  clean_matrix_zeroes 2 (alloc_matrix 2) (by simp [alloc_matrix])

/-- C16: the deterministic fill pattern. For every `n`, `alloc_matrix(n, name)` returns a
buffer of length `n * n` whose element at flat index `i` is `((i mod 100) + 1) * 0.01`;
hence every value lies in `[0.01, 1.00]`, the pattern has period 100 in `i`, and two
allocations with the same `n` are element-wise identical (the buffer depends on `n` only). -/
theorem alloc_matrix_pattern (n : Nat) :
    (alloc_matrix n).length = n * n ∧
    (∀ i, i < n * n →
      (alloc_matrix n)[i]? = some ((((i % 100 + 1 : Nat) : ℚ)) * (1 / 100))) ∧
    (∀ v ∈ alloc_matrix n, (1 : ℚ) / 100 ≤ v ∧ v ≤ 1) ∧
    (∀ i, i + 100 < n * n → (alloc_matrix n)[i + 100]? = (alloc_matrix n)[i]?) ∧
    (∀ m, m = n → ∀ i : Nat, (alloc_matrix m)[i]? = (alloc_matrix n)[i]?) := by
  refine ⟨by simp [alloc_matrix], fun i hi => ?_, fun v hv => ?_, fun i hi => ?_,
    fun m hm i => by rw [hm]⟩
  · simp [alloc_matrix, List.getElem?_map, List.getElem?_range hi]
  · simp only [alloc_matrix, List.mem_map, List.mem_range] at hv
    obtain ⟨i, _, rfl⟩ := hv
    have h1 : (1 : ℚ) ≤ ((i % 100 + 1 : Nat) : ℚ) := by exact_mod_cast Nat.succ_le_succ (Nat.zero_le _)
    have h2 : ((i % 100 + 1 : Nat) : ℚ) ≤ 100 := by
      exact_mod_cast (Nat.succ_le_of_lt (Nat.mod_lt i (by norm_num)))
    constructor <;> linarith
  · have hi' : i < n * n := by omega
    simp [alloc_matrix, List.getElem?_map, List.getElem?_range hi, List.getElem?_range hi']

/-- C17 as stated fails: in `teste.c` two allocations of the same `n = 1` yield different
buffers when `rand()` returns different values, be it under two seeds (`rand()` constantly
0 against constantly 1) or for two successive allocations in one run. -/
theorem alloc_matrix_teste_depends_on_rand :
    (alloc_matrix_teste (fun _ => 0) 0 1).1 ≠ (alloc_matrix_teste (fun _ => 1) 0 1).1 ∧
    (alloc_matrix_teste (fun k => k) 0 1).1 ≠
      (alloc_matrix_teste (fun k => k) (alloc_matrix_teste (fun k => k) 0 1).2 1).1 := by
  constructor <;> norm_num [alloc_matrix_teste]

/-- C17, amended: in `teste.c` the buffer produced by `alloc_matrix(n)` is a function of
`n`, the flat index and the values `rand()` returns during the call. It has `n * n`
elements, element `i` is `(r_i mod 100) / 10` for the `i`-th value `r_i` drawn, so lies in
`[0, 9.9]`; two allocations of the same `n` that draw the same values yield identical
buffers. -/
theorem alloc_matrix_teste_determined (rnd₁ rnd₂ : Nat → Nat) (c₁ c₂ n : Nat)
    (h : ∀ i, i < n * n → rnd₁ (c₁ + i) = rnd₂ (c₂ + i)) :
    (alloc_matrix_teste rnd₁ c₁ n).1 = (alloc_matrix_teste rnd₂ c₂ n).1 ∧
    (alloc_matrix_teste rnd₁ c₁ n).1.length = n * n ∧
    (∀ i, i < n * n → (alloc_matrix_teste rnd₁ c₁ n).1[i]? =
      some ((((rnd₁ (c₁ + i) % 100 : Nat) : ℚ)) / 10)) ∧
    (∀ v ∈ (alloc_matrix_teste rnd₁ c₁ n).1, 0 ≤ v ∧ v ≤ 99 / 10) ∧
    (alloc_matrix_teste rnd₁ c₁ n).2 = c₁ + n * n := by
  refine ⟨?_, by simp [alloc_matrix_teste], fun i hi => ?_, fun v hv => ?_, rfl⟩
  · simp only [alloc_matrix_teste]
    apply List.map_congr_left
    intro i hi
    rw [h i (List.mem_range.mp hi)]
  · simp [alloc_matrix_teste, List.getElem?_map, List.getElem?_range hi]
  · simp only [alloc_matrix_teste, List.mem_map, List.mem_range] at hv
    obtain ⟨i, _, rfl⟩ := hv
    have h2 : ((rnd₁ (c₁ + i) % 100 : Nat) : ℚ) ≤ 99 := by
      exact_mod_cast (Nat.le_of_lt_succ (Nat.mod_lt _ (by norm_num)))
    have h1 : (0 : ℚ) ≤ ((rnd₁ (c₁ + i) % 100 : Nat) : ℚ) := by positivity
    constructor
    · positivity
    · linarith

/-- Witness for amended C17: the same `rand()` sequence read from the same position. -/
theorem alloc_matrix_teste_determined_witness :
    (alloc_matrix_teste (fun k => 7 * k + 3) 4 2).1 =
      (alloc_matrix_teste (fun k => 7 * k + 3) 4 2).1 ∧
    (alloc_matrix_teste (fun k => 7 * k + 3) 4 2).1.length = 2 * 2 ∧
    (∀ i, i < 2 * 2 → (alloc_matrix_teste (fun k => 7 * k + 3) 4 2).1[i]? =
      some (((((fun k => 7 * k + 3) (4 + i) % 100 : Nat) : ℚ)) / 10)) ∧
    (∀ v ∈ (alloc_matrix_teste (fun k => 7 * k + 3) 4 2).1, 0 ≤ v ∧ v ≤ 99 / 10) ∧
    (alloc_matrix_teste (fun k => 7 * k + 3) 4 2).2 = 4 + 2 * 2 :=
  alloc_matrix_teste_determined (fun k => 7 * k + 3) (fun k => 7 * k + 3) 4 4 2 (fun _ _ => rfl)

/-! ## Claim C19: the result table -/

theorem store_result_frame {result result' : List MethodResult} {method_idx size_idx : Nat}
    {name : String} {g t e : ℚ}
    (h : store_result result method_idx size_idx name g t e = some result') :
    ∃ row0 row, result[method_idx]? = some row0 ∧ result'[method_idx]? = some row ∧
      result'.length = result.length ∧
      (∀ s', s' ≠ size_idx → row.gflops[s']? = row0.gflops[s']? ∧
        row.time[s']? = row0.time[s']? ∧ row.efficiency[s']? = row0.efficiency[s']?) ∧
      (∀ m', m' ≠ method_idx → result'[m']? = result[m']?) := by
  unfold store_result at h
  cases hrow : result[method_idx]? with
  | none => rw [hrow] at h; exact absurd h (by simp)
  | some row0 =>
    rw [hrow] at h
    simp only at h
    split_ifs at h with hc
    cases h
    have hm : method_idx < result.length := by
      by_contra hcon
      rw [List.getElem?_eq_none (not_lt.mp hcon)] at hrow
      exact absurd hrow (by simp)
    refine ⟨row0, MethodResult.mk name (row0.gflops.set size_idx g)
        (row0.time.set size_idx t) (row0.efficiency.set size_idx e), rfl, by simp [List.getElem?_set, hm], by simp, fun s' hs' => ?_, fun m' hm' => ?_⟩
    · have : ¬ size_idx = s' := fun e => hs' e.symm
      simp [List.getElem?_set, this]
    · have : ¬ method_idx = m' := fun e => hm' e.symm
      simp [List.getElem?_set, this]

/-- C19: `run_benchmark` writes exactly one results cell. For every results table of
`MAX_METHODS` rows with `MAX_SIZES` entries per array, `method_idx = m < MAX_METHODS` and
`size_idx = s < MAX_SIZES` (and a name that fits the 50-byte field), after `run_benchmark`
the entries `gflops`, `time` and `efficiency` at `(m, s)` hold the computed mean GFLOPS,
mean time and efficiency; the entries of row `m` at every other size are unchanged, and
every other row (its name included) is unchanged. -/
theorem run_benchmark_writes_one_cell (func : Kernel) (clock : Nat → ℚ) (n : Nat)
    (A B : List ℚ) (name : String) (peak_gflops : ℚ) (result : List MethodResult)
    (m s : Nat) (b : Bench)
    (hfunc : Returns func n A B) (hC : b.mem.C.length = n * n)
    (hlen : result.length = MAX_METHODS)
    (hrows : ∀ row ∈ result, row.gflops.length = MAX_SIZES ∧ row.time.length = MAX_SIZES ∧
      row.efficiency.length = MAX_SIZES)
    (hm : m < MAX_METHODS) (hs : s < MAX_SIZES) (_hname : name.utf8ByteSize < 50) :
    ∃ out row0 row,
      run_benchmark func clock n A B name peak_gflops result m s b = some out ∧
      result[m]? = some row0 ∧ out.result[m]? = some row ∧
      out.result.length = result.length ∧
      row.gflops[s]? = some out.avg_gflops ∧ row.time[s]? = some out.avg_time ∧
      row.efficiency[s]? = some out.efficiency ∧
      (∀ s', s' ≠ s → row.gflops[s']? = row0.gflops[s']? ∧
        row.time[s']? = row0.time[s']? ∧ row.efficiency[s']? = row0.efficiency[s']?) ∧
      (∀ m', m' ≠ m → out.result[m']? = result[m']?) := by
  have hm' : m < result.length := by rw [hlen]; exact hm
  have hcell : InTable result m s := by
    obtain ⟨h1, h2, h3⟩ := hrows result[m] (List.getElem_mem hm')
    exact ⟨result[m], List.getElem?_eq_getElem hm', by omega, by omega, by omega⟩
  obtain ⟨out, b1, row, e, -, -, -, -, -, -, hrow, -, hg, ht, he⟩ :=
    run_benchmark_spec hfunc clock name peak_gflops hcell b hC
  have hstore : store_result result m s name out.avg_gflops out.avg_time out.efficiency =
      some out.result := by
    unfold run_benchmark at e
    cases hmeas : measure func clock n A B name b with
    | none => rw [hmeas] at e; exact absurd e (by simp)
    | some r =>
      obtain ⟨b2, st⟩ := r
      rw [hmeas] at e
      simp only at e
      cases hst : store_result result m s name (st.total_gflops / (NUM_RUNS : ℚ))
          (st.total_time / (NUM_RUNS : ℚ))
          (if peak_gflops > 0 then st.total_gflops / (NUM_RUNS : ℚ) / peak_gflops * 100 else 0) with
      | none => rw [hst] at e; exact absurd e (by simp)
      | some r' =>
        rw [hst] at e
        simp only [Option.some.injEq] at e
        subst e
        exact hst
  obtain ⟨row0, row', h0, h1, hl, hfr, hot⟩ := store_result_frame hstore
  rw [hrow] at h1
  cases h1
  exact ⟨out, row0, row, e, h0, hrow, hl, hg, ht, he, hfr, hot⟩

/-- Witness for C19: the table as `main` sets it up, written for method 1 at size 2. -/
theorem run_benchmark_writes_one_cell_witness :
    ∃ out row0 row,
      run_benchmark dgemm_avx (fun t => (t : ℚ)) 1 [2] [3] "AVX (Pure)" 384 init_results 1 2
        ⟨⟨[7], []⟩, 0, [], []⟩ = some out ∧
      init_results[1]? = some row0 ∧ out.result[1]? = some row ∧
      out.result.length = init_results.length ∧
      row.gflops[2]? = some out.avg_gflops ∧ row.time[2]? = some out.avg_time ∧
      row.efficiency[2]? = some out.efficiency ∧
      (∀ s', s' ≠ 2 → row.gflops[s']? = row0.gflops[s']? ∧
        row.time[s']? = row0.time[s']? ∧ row.efficiency[s']? = row0.efficiency[s']?) ∧
      (∀ m', m' ≠ 1 → out.result[m']? = init_results[m']?) :=
  run_benchmark_writes_one_cell dgemm_avx (fun t => (t : ℚ)) 1 [2] [3] "AVX (Pure)" 384
    init_results 1 2 ⟨⟨[7], []⟩, 0, [], []⟩ (dgemm_avx_returns (by decide) rfl rfl) rfl rfl
    (fun row hrow => by
      simp only [init_results, List.mem_replicate] at hrow
      rw [hrow.2]
      exact ⟨by simp, by simp, by simp⟩)
    (by decide) (by decide) (by decide)

/-! ## Claim C18: what the kernels touch -/

/-- Invariant rule for any loop: what every iteration preserves, the loop preserves. -/
theorem forLoop_preserves {σ : Type} (I : σ → Prop) (cond : Nat → Bool) (step : Nat)
    (body : Nat → σ → Option σ)
    (h : ∀ x s s', cond x = true → I s → body x s = some s' → I s') :
    ∀ (fuel x : Nat) (s : σ) (r : Nat × σ), I s →
      forLoop fuel cond step body x s = some r → I r.2 := by
  intro fuel
  induction fuel with
  | zero => intro x s r _ hr; simp [forLoop] at hr
  | succ fuel ih =>
    intro x s r hI hr
    by_cases hc : cond x = true
    · simp only [forLoop, hc, if_true] at hr
      cases hb : body x s with
      | none => rw [hb] at hr; exact absurd hr (by simp)
      | some s1 =>
        rw [hb] at hr
        exact ih (x + step) s1 r (h x s s1 hc hI hb) hr
    · simp only [forLoop, hc] at hr
      simp only [Bool.false_eq_true, if_false, Option.some.injEq] at hr
      subst hr
      exact hI

theorem forLoop_keeps {n : Nat} (cond : Nat → Bool) (step : Nat)
    (body : Nat → KState → Option KState) (h : ∀ x, cond x = true → Keeps n (body x))
    (fuel x : Nat) :
    Keeps n (fun s => (forLoop fuel cond step body x s).map Prod.snd) := by
  intro s s' hs e
  simp only at e
  cases hr : forLoop fuel cond step body x s with
  | none => rw [hr] at e; exact absurd e (by simp)
  | some r =>
    rw [hr] at e
    simp only [Option.map_some', Option.some.injEq] at e
    subst e
    exact forLoop_preserves (fun s => LogOk n s.log) cond step body (fun x s s' hc hI hb => h x hc s s' hI hb)
      fuel x s r hs hr

theorem LogOk.cons {n : Nat} {log : List Access} {a : Access}
    (h : LogOk n log) (ha : Access.ok n a) : LogOk n (a :: log) := by
  intro b hb
  rcases List.mem_cons.mp hb with rfl | hb
  · exact ha
  · exact h b hb

theorem loadA_keeps {n : Nat} {A : List ℚ} {ai : Nat} (hai : ai < n * n) {s s' : KState}
    {a : ℚ} (hs : LogOk n s.log) (e : loadA A ai s = some (a, s')) : LogOk n s'.log := by
  unfold loadA at e
  cases h : A[ai]? with
  | none => rw [h] at e; exact absurd e (by simp)
  | some v =>
    rw [h] at e
    simp only [Option.some.injEq, Prod.mk.injEq] at e
    obtain ⟨-, rfl⟩ := e
    exact LogOk.cons hs (by simpa [Access.ok] using hai)

theorem accum_keeps {n : Nat} {B : List ℚ} {r : ℚ} {ci bi : Nat} (hci : ci < n * n)
    (hbi : bi < n * n) : Keeps n (accum B r ci bi) := by
  intro s s' hs e
  unfold accum at e
  split at e
  · simp only [Option.some.injEq] at e
    subst e
    refine LogOk.cons (LogOk.cons (LogOk.cons hs ?_) ?_) ?_
    · simpa [Access.ok] using hci
    · simpa [Access.ok] using hbi
    · simpa [Access.ok] using hci
  · exact absurd e (by simp)

theorem accumA_keeps {n : Nat} {A B : List ℚ} {ci ai bi : Nat} (hci : ci < n * n)
    (hai : ai < n * n) (hbi : bi < n * n) : Keeps n (accumA A B ci ai bi) := by
  intro s s' hs e
  unfold accumA at e
  cases h : loadA A ai s with
  | none => rw [h] at e; exact absurd e (by simp)
  | some r =>
    obtain ⟨a, s1⟩ := r
    rw [h] at e
    exact accum_keeps hci hbi s1 s' (loadA_keeps hai hs h) e

theorem vecStep_keeps {n : Nat} {B : List ℚ} {fma : Bool} {a_vec : m256d} {ci bi : Nat}
    (hci : ci + 3 < n * n) (hbi : bi + 3 < n * n) : Keeps n (vecStep false fma B a_vec ci bi) := by
  intro s s' hs e
  unfold vecStep at e
  split at e
  · simp only at e
    split at e
    · exact absurd e (by simp)
    · simp only [Option.some.injEq] at e
      subst e
      refine LogOk.cons (LogOk.cons (LogOk.cons hs ?_) ?_) ?_
      · simpa [Access.ok] using hci
      · simpa [Access.ok] using hbi
      · simpa [Access.ok] using hci
  · exact absurd e (by simp)

theorem naive_k_keeps {n : Nat} (A B : List ℚ) {i k : Nat} (hi : i < n) (hk : k < n) :
    Keeps n (naive_k n A B i k) := by
  intro s s' hs e
  unfold naive_k at e
  cases h : loadA A (i * n + k) s with
  | none => rw [h] at e; exact absurd e (by simp)
  | some r =>
    obtain ⟨a, s1⟩ := r
    rw [h] at e
    have h1 := loadA_keeps (by have := flat_lt hi (Nat.succ_le_of_lt hk); omega) hs h
    exact forLoop_keeps _ 1 _ (fun j hj => by
      have hj' : j < n := by simpa using hj
      exact accum_keeps (by have := flat_lt hi (Nat.succ_le_of_lt hj'); omega)
        (by have := flat_lt hk (Nat.succ_le_of_lt hj'); omega)) (n + 1) 0 s1 s' h1 e

theorem dgemm_naive_keeps (n : Nat) (A B : List ℚ) : Keeps n (dgemm_naive n A B) :=
  forLoop_keeps _ 1 _ (fun i hi =>
    forLoop_keeps _ 1 _ (fun k hk =>
      naive_k_keeps A B (by simpa using hi) (by simpa using hk)) (n + 1) 0) (n + 1) 0

/-- The 4-wide loop and the scalar loop over columns below `j_max ≤ n` keep the log ok. -/
theorem vec_loop_keeps {n : Nat} (B : List ℚ) (fma : Bool) (a_vec : m256d) {i k j_max : Nat}
    (hi : i < n) (hk : k < n) (hjm : j_max ≤ n) (fuel x : Nat) :
    Keeps n (fun s => (forLoop fuel (fun j => decide ((j : Int) ≤ (j_max : Int) - 4)) 4
      (fun j => vecStep false fma B a_vec (i * n + j) (k * n + j)) x s).map Prod.snd) :=
  forLoop_keeps _ 4 _ (fun j hj => by
    have hj' : (j : Int) ≤ (j_max : Int) - 4 := by simpa using hj
    exact vecStep_keeps (by have := flat_lt hi (by omega : j + 4 ≤ n); omega)
      (by have := flat_lt hk (by omega : j + 4 ≤ n); omega)) fuel x

theorem scalar_loop_keeps {n : Nat} (A B : List ℚ) {i k j_max : Nat}
    (hi : i < n) (hk : k < n) (hjm : j_max ≤ n) (fuel x : Nat) :
    Keeps n (fun s => (forLoop fuel (fun j => decide (j < j_max)) 1
      (fun j => accumA A B (i * n + j) (i * n + k) (k * n + j)) x s).map Prod.snd) :=
  forLoop_keeps _ 1 _ (fun j hj => by
    have hj' : j < j_max := by simpa using hj
    exact accumA_keeps (by have := flat_lt hi (by omega : j + 1 ≤ n); omega)
      (by have := flat_lt hi (Nat.succ_le_of_lt hk); omega)
      (by have := flat_lt hk (by omega : j + 1 ≤ n); omega)) fuel x

theorem Keeps.of_map_snd {n : Nat} {f : KState → Option (Nat × KState)}
    (h : Keeps n (fun s => (f s).map Prod.snd)) {s : KState} {r : Nat × KState}
    (hs : LogOk n s.log) (e : f s = some r) : LogOk n r.2.log :=
  h s r.2 hs (by simp [e])

theorem avx_k_keeps {n : Nat} (A B : List ℚ) {i k : Nat} (hi : i < n) (hk : k < n) :
    Keeps n (avx_k false n A B i k) := by
  intro s s' hs e
  unfold avx_k at e
  cases h : loadA A (i * n + k) s with
  | none => rw [h] at e; exact absurd e (by simp)
  | some r =>
    obtain ⟨a, s1⟩ := r
    rw [h] at e
    have h1 := loadA_keeps (by have := flat_lt hi (Nat.succ_le_of_lt hk); omega) hs h
    simp only at e
    cases hv : forLoop (n + 1) (fun j => decide ((j : Int) ≤ (n : Int) - 4)) 4
        (fun j => vecStep false false B (mm256_set1_pd a) (i * n + j) (k * n + j)) 0 s1 with
    | none => rw [hv] at e; exact absurd e (by simp)
    | some r2 =>
      obtain ⟨j, s2⟩ := r2
      rw [hv] at e
      have h2 : LogOk n s2.log :=
        (vec_loop_keeps B false (mm256_set1_pd a) hi hk (le_refl n) (n + 1) 0).of_map_snd h1 hv
      exact scalar_loop_keeps A B hi hk (le_refl n) (n + 1) j s2 s' h2 e

theorem dgemm_avx_keeps (n : Nat) (A B : List ℚ) : Keeps n (dgemm_avx_with false n A B) :=
  forLoop_keeps _ 1 _ (fun i hi =>
    forLoop_keeps _ 1 _ (fun k hk =>
      avx_k_keeps A B (by simpa using hi) (by simpa using hk)) (n + 1) 0) (n + 1) 0

theorem block_j8_keeps {n : Nat} (B : List ℚ) (a_vec : m256d) {i k j : Nat}
    (hi : i < n) (hk : k < n) (hj : j + 8 ≤ n) : Keeps n (block_j8 false n B a_vec i k j) := by
  intro s s' hs e
  unfold block_j8 at e
  cases h : vecStep false true B a_vec (i * n + j) (k * n + j) s with
  | none => rw [h] at e; exact absurd e (by simp)
  | some s1 =>
    rw [h] at e
    have h1 := vecStep_keeps (by have := flat_lt hi (by omega : j + 4 ≤ n); omega)
      (by have := flat_lt hk (by omega : j + 4 ≤ n); omega) s s1 hs h
    exact vecStep_keeps (by have := flat_lt hi (by omega : j + 8 ≤ n); omega)
      (by have := flat_lt hk (by omega : j + 8 ≤ n); omega) s1 s' h1 e

theorem block_k_keeps {n : Nat} (A B : List ℚ) (fma : Bool) {j_blk j_max i k : Nat}
    (hi : i < n) (hk : k < n) (hjm : j_max ≤ n) :
    Keeps n (block_k false fma n A B j_blk j_max i k) := by
  intro s s' hs e
  unfold block_k at e
  cases h : loadA A (i * n + k) s with
  | none => rw [h] at e; exact absurd e (by simp)
  | some r =>
    obtain ⟨a, s1⟩ := r
    rw [h] at e
    have h1 := loadA_keeps (by have := flat_lt hi (Nat.succ_le_of_lt hk); omega) hs h
    simp only at e
    cases h8 : (if fma = true then
        forLoop (n + 1) (fun j => decide ((j : Int) ≤ (j_max : Int) - 8)) 8
          (block_j8 false n B (mm256_set1_pd a) i k) j_blk s1
        else some (j_blk, s1)) with
    | none => rw [h8] at e; exact absurd e (by simp)
    | some r1 =>
      obtain ⟨j1, s2⟩ := r1
      rw [h8] at e
      simp only at e
      have h2 : LogOk n s2.log := by
        cases fma with
        | true =>
          simp only [if_true] at h8
          exact (forLoop_keeps _ 8 _ (fun j hj => by
            have hj' : (j : Int) ≤ (j_max : Int) - 8 := by simpa using hj
            exact block_j8_keeps B (mm256_set1_pd a) hi hk (by omega)) (n + 1) j_blk).of_map_snd
            h1 h8
        | false =>
          simp only [Bool.false_eq_true, if_false, Option.some.injEq, Prod.mk.injEq] at h8
          rw [← h8.2]
          exact h1
      cases hv : forLoop (n + 1) (fun j => decide ((j : Int) ≤ (j_max : Int) - 4)) 4
          (fun j => vecStep false fma B (mm256_set1_pd a) (i * n + j) (k * n + j)) j1 s2 with
      | none => rw [hv] at e; exact absurd e (by simp)
      | some r2 =>
        obtain ⟨j2, s3⟩ := r2
        rw [hv] at e
        have h3 : LogOk n s3.log :=
          (vec_loop_keeps B fma (mm256_set1_pd a) hi hk hjm (n + 1) j1).of_map_snd h2 hv
        exact scalar_loop_keeps A B hi hk hjm (n + 1) j2 s3 s' h3 e

theorem tiled_keeps {n : Nat} {kbody : Nat → Nat → Nat → Nat → KState → Option KState}
    (hk : ∀ j_blk j_max i k, i < n → k < n → j_max ≤ n → Keeps n (kbody j_blk j_max i k))
    (T : Nat) : Keeps n (tiled kbody T n) :=
  forLoop_keeps _ T _ (fun i_blk _ =>
    forLoop_keeps _ T _ (fun k_blk _ =>
      forLoop_keeps _ T _ (fun j_blk _ =>
        forLoop_keeps _ 1 _ (fun i hi =>
          forLoop_keeps _ 1 _ (fun k hk' =>
            hk j_blk (tile_max T n j_blk) i k
              (by have : i < tile_max T n i_blk := by simpa using hi
                  have := tile_max_le T n i_blk; omega)
              (by have : k < tile_max T n k_blk := by simpa using hk'
                  have := tile_max_le T n k_blk; omega)
              (tile_max_le T n j_blk)) (n + 1) k_blk) (n + 1) i_blk) (n + 1) 0) (n + 1) 0)
    (n + 1) 0

theorem dgemm_avx_block_with_keeps (T : Nat) (fma : Bool) (n : Nat) (A B : List ℚ) :
    Keeps n (dgemm_avx_block_with false T fma n A B) :=
  tiled_keeps (fun _ _ _ _ hi hk hjm => block_k_keeps A B fma hi hk hjm) T

theorem LogOk.writesOnlyC {n : Nat} {log : List Access} (h : LogOk n log) :
    WritesOnlyC n log := by
  intro a ha
  have hok := h a ha
  obtain ⟨kind, buf, idx⟩ := a
  cases kind <;> cases buf <;> simp_all [Access.ok]

/-- A kernel that returns and keeps the log ok, started on an empty log, writes only `C`. -/
theorem writes_only_C_of {n : Nat} {f : KState → Option KState} {δ : Nat → ℚ}
    (hadds : Adds (n * n) f δ) (hkeeps : Keeps n f) {C : List ℚ} (hC : C.length = n * n) :
    ∃ s', f ⟨C, []⟩ = some s' ∧ s'.C.length = n * n ∧ WritesOnlyC n s'.log := by
  obtain ⟨s', e, l, -⟩ := hadds ⟨C, []⟩ hC
  exact ⟨s', e, l, (hkeeps ⟨C, []⟩ s' (fun a ha => absurd ha (by simp)) e).writesOnlyC⟩

/-- C18: the kernels are side-effect-free on their inputs. For every `n` and buffers `A`,
`B`, `C` of length `n * n` (three separate buffers), `dgemm_naive`, and the loop nests of
`dgemm_avx` and of `dgemm_avx_block` on unaligned moves, return having written only
elements of `C` at indices below `n * n`: every scalar or vector store issued is to `C` and
inside it, and every access to `A` or `B` is a read. On the aligned moves of the source,
`dgemm_avx` and `dgemm_avx_block` return that very state when `n` is a multiple of 4 or
below 4, and fault for every other `n`, after a part of these accesses. -/
theorem kernels_write_only_C (n : Nat) (A B C : List ℚ) (fma : Bool)
    (hA : A.length = n * n) (hB : B.length = n * n) (hC : C.length = n * n) :
    (∃ s', dgemm_naive n A B ⟨C, []⟩ = some s' ∧ s'.C.length = n * n ∧
      WritesOnlyC n s'.log) ∧
    (∃ s', dgemm_avx_with false n A B ⟨C, []⟩ = some s' ∧ s'.C.length = n * n ∧
      WritesOnlyC n s'.log ∧
      dgemm_avx n A B ⟨C, []⟩ = if n % 4 = 0 ∨ n < 4 then some s' else none) ∧
    (∃ s', dgemm_avx_block_with false BLOCK_SIZE fma n A B ⟨C, []⟩ = some s' ∧
      s'.C.length = n * n ∧ WritesOnlyC n s'.log ∧
      dgemm_avx_block fma n A B ⟨C, []⟩ = if n % 4 = 0 ∨ n < 4 then some s' else none) := by
  obtain ⟨s₁, e1, l1, w1⟩ :=
    writes_only_C_of (dgemm_avx_adds hA hB) (dgemm_avx_keeps n A B) hC
  obtain ⟨s₂, e2, l2, w2⟩ :=
    writes_only_C_of (dgemm_avx_block_with_adds hA hB (by decide) fma)
      (dgemm_avx_block_with_keeps BLOCK_SIZE fma n A B) hC
  exact ⟨writes_only_C_of (dgemm_naive_adds hA hB) (dgemm_naive_keeps n A B) hC,
    ⟨s₁, e1, l1, w1, by rw [dgemm_avx_eq_ite, e1]⟩,
    ⟨s₂, e2, l2, w2, by rw [dgemm_avx_block_eq_ite, e2]⟩⟩

/-- Witness for C18: 8 × 8 buffers, where the kernels return, and 5 × 5 buffers, where
vector and scalar stores both occur and `dgemm_avx` and `dgemm_avx_block` fault. -/
theorem kernels_write_only_C_witness :
    ((∃ s', dgemm_naive 8 (alloc_matrix 8) (alloc_matrix 8) ⟨alloc_matrix 8, []⟩ = some s' ∧
      s'.C.length = 8 * 8 ∧ WritesOnlyC 8 s'.log) ∧
    (∃ s', dgemm_avx_with false 8 (alloc_matrix 8) (alloc_matrix 8) ⟨alloc_matrix 8, []⟩ =
        some s' ∧ s'.C.length = 8 * 8 ∧ WritesOnlyC 8 s'.log ∧
      dgemm_avx 8 (alloc_matrix 8) (alloc_matrix 8) ⟨alloc_matrix 8, []⟩ =
        if 8 % 4 = 0 ∨ 8 < 4 then some s' else none) ∧
    (∃ s', dgemm_avx_block_with false BLOCK_SIZE true 8 (alloc_matrix 8) (alloc_matrix 8)
        ⟨alloc_matrix 8, []⟩ = some s' ∧ s'.C.length = 8 * 8 ∧ WritesOnlyC 8 s'.log ∧
      dgemm_avx_block true 8 (alloc_matrix 8) (alloc_matrix 8) ⟨alloc_matrix 8, []⟩ =
        if 8 % 4 = 0 ∨ 8 < 4 then some s' else none)) ∧
    ((∃ s', dgemm_naive 5 (alloc_matrix 5) (alloc_matrix 5) ⟨alloc_matrix 5, []⟩ = some s' ∧
      s'.C.length = 5 * 5 ∧ WritesOnlyC 5 s'.log) ∧
    (∃ s', dgemm_avx_with false 5 (alloc_matrix 5) (alloc_matrix 5) ⟨alloc_matrix 5, []⟩ =
        some s' ∧ s'.C.length = 5 * 5 ∧ WritesOnlyC 5 s'.log ∧
      dgemm_avx 5 (alloc_matrix 5) (alloc_matrix 5) ⟨alloc_matrix 5, []⟩ =
        if 5 % 4 = 0 ∨ 5 < 4 then some s' else none) ∧
    (∃ s', dgemm_avx_block_with false BLOCK_SIZE true 5 (alloc_matrix 5) (alloc_matrix 5)
        ⟨alloc_matrix 5, []⟩ = some s' ∧ s'.C.length = 5 * 5 ∧ WritesOnlyC 5 s'.log ∧
      dgemm_avx_block true 5 (alloc_matrix 5) (alloc_matrix 5) ⟨alloc_matrix 5, []⟩ =
        if 5 % 4 = 0 ∨ 5 < 4 then some s' else none)) :=
  ⟨kernels_write_only_C 8 (alloc_matrix 8) (alloc_matrix 8) (alloc_matrix 8) true
    (by simp [alloc_matrix]) (by simp [alloc_matrix]) (by simp [alloc_matrix]),
   kernels_write_only_C 5 (alloc_matrix 5) (alloc_matrix 5) (alloc_matrix 5) true
    (by simp [alloc_matrix]) (by simp [alloc_matrix]) (by simp [alloc_matrix])⟩

/-! ## Claim C20: the order of accumulation -/

theorem updates_skip_loadA (ai : Nat) (log : List Access) :
    updates (⟨.load, .A, ai⟩ :: log) = updates log := by
  simp [updates]

theorem updates_skip_prefetch (bi : Nat) (log : List Access) :
    updates (⟨.prefetch, .B, bi⟩ :: log) = updates log := by
  simp [updates]

theorem updates_scalar (c b : Nat) (log : List Access) :
    updates (⟨.store, .C, c⟩ :: ⟨.load, .B, b⟩ :: ⟨.load, .C, c⟩ :: log) =
      (c, b) :: updates log := by
  simp [updates]

theorem updates_vector (c b : Nat) (log : List Access) :
    updates (⟨.vstore, .C, c⟩ :: ⟨.vload, .B, b⟩ :: ⟨.vload, .C, c⟩ :: log) =
      (c + 3, b + 3) :: (c + 2, b + 2) :: (c + 1, b + 1) :: (c, b) :: updates log := by
  simp [updates]

theorem flat_div {n k j : Nat} (hj : j < n) : (k * n + j) / n = k := by
  have hn : 0 < n := by omega
  rw [Nat.add_comm, Nat.add_mul_div_right _ _ hn, Nat.div_eq_of_lt hj, Nat.zero_add]

theorem flat_eq_iff {n i j i' j' : Nat} (hj : j < n) (hj' : j' < n) :
    i * n + j = i' * n + j' ↔ i = i' ∧ j = j' :=
  ⟨flat_inj hj hj', fun h => by rw [h.1, h.2]⟩

theorem k_order_of_updates (n i j : Nat) (log : List Access) (U : List (Nat × Nat))
    {log' : List Access} (h : updates log' = U ++ updates log) :
    k_order n i j log' = k_order n i j log ++
      ((U.filter (fun u => decide (u.1 = i * n + j))).map (fun u => u.2 / n)).reverse := by
  simp [k_order, h, List.filter_append]

/-- One scalar update `(i, k, j)` adds `k` to the order of element `(i, j)` and nothing to
the order of any other element. -/
theorem accum_orders {n i0 j0 : Nat} (hj0 : j0 < n) (B : List ℚ) (r : ℚ) {i k j : Nat}
    (hj : j < n) :
    Orders n i0 j0 (accum B r (i * n + j) (k * n + j))
      (if i = i0 ∧ j = j0 then [k] else []) := by
  intro s s' e
  unfold accum at e
  split at e
  · simp only [Option.some.injEq] at e
    subst e
    rw [k_order_of_updates n i0 j0 s.log [(i * n + j, k * n + j)] (by simp [updates_scalar])]
    simp only [List.filter_cons, List.filter_nil, flat_eq_iff hj hj0]
    by_cases h : i = i0 ∧ j = j0
    · simp [h, flat_div hj0]
    · simp [h]
  · exact absurd e (by simp)

theorem accumA_orders {n i0 j0 : Nat} (hj0 : j0 < n) (A B : List ℚ) {i k j : Nat}
    (hj : j < n) :
    Orders n i0 j0 (accumA A B (i * n + j) (i * n + k) (k * n + j))
      (if i = i0 ∧ j = j0 then [k] else []) := by
  intro s s' e
  unfold accumA loadA at e
  cases h : A[i * n + k]? with
  | none => rw [h] at e; exact absurd e (by simp)
  | some a =>
    rw [h] at e
    simp only at e
    have h1 : Orders n i0 j0 (accum B a (i * n + j) (k * n + j))
        (if i = i0 ∧ j = j0 then [k] else []) := accum_orders hj0 B a hj
    rw [h1 _ s' e]
    simp [k_order, updates_skip_loadA]

/-- One 4-wide step at `(i, k, j)` adds `k` to the order of the elements `(i, j) ..
(i, j + 3)` and nothing to the order of any other element. -/
theorem vecStep_orders {n i0 j0 : Nat} (hj0 : j0 < n) (fma : Bool) (B : List ℚ)
    (a_vec : m256d) {i k j : Nat} (hj : j + 4 ≤ n) :
    Orders n i0 j0 (vecStep false fma B a_vec (i * n + j) (k * n + j))
      (if i = i0 ∧ j ≤ j0 ∧ j0 < j + 4 then [k] else []) := by
  intro s s' e
  unfold vecStep at e
  split at e
  · simp only at e
    split at e
    · exact absurd e (by simp)
    · simp only [Option.some.injEq] at e
      subst e
      rw [k_order_of_updates n i0 j0 s.log
        [(i * n + j + 3, k * n + j + 3), (i * n + j + 2, k * n + j + 2),
         (i * n + j + 1, k * n + j + 1), (i * n + j, k * n + j)]
        (by simp [updates_vector])]
      have e0 : i * n + (j) = i0 * n + j0 ↔ i = i0 ∧ j = j0 :=
        flat_eq_iff (by omega) hj0
      have e1 : i * n + (j + 1) = i0 * n + j0 ↔ i = i0 ∧ j + 1 = j0 :=
        flat_eq_iff (by omega) hj0
      have e2 : i * n + (j + 2) = i0 * n + j0 ↔ i = i0 ∧ j + 2 = j0 :=
        flat_eq_iff (by omega) hj0
      have e3 : i * n + (j + 3) = i0 * n + j0 ↔ i = i0 ∧ j + 3 = j0 :=
        flat_eq_iff (by omega) hj0
      have d0 := flat_div (k := k) (by omega : j < n)
      have d1 := flat_div (k := k) (by omega : j + 1 < n)
      have d2 := flat_div (k := k) (by omega : j + 2 < n)
      have d3 := flat_div (k := k) (by omega : j + 3 < n)
      simp only [Nat.add_assoc] at e1 e2 e3 d1 d2 d3 ⊢
      simp only [List.filter_cons, List.filter_nil, e0, e1, e2, e3]
      by_cases hi : i = i0
      · subst hi
        by_cases h0 : j = j0
        · subst h0; simp [d0]
        by_cases h1 : j + 1 = j0
        · subst h1; simp [d1]
        by_cases h2 : j + 2 = j0
        · subst h2; simp [d2]
        by_cases h3 : j + 3 = j0
        · subst h3; simp [d3]
        · have : ¬ (j ≤ j0 ∧ j0 < j + 4) := by omega
          simp [h0, h1, h2, h3, this]
      · simp [hi]
  · exact absurd e (by simp)

theorem Orders.relist {n i j : Nat} {f : KState → Option KState} {L L' : List Nat}
    (h : Orders n i j f L) (e : L = L') : Orders n i j f L' := e ▸ h

theorem span_additive : Additive span := by
  constructor
  · intro a b h
    simp [span, Nat.sub_eq_zero_of_le h]
  · intro a b c hab hbc
    unfold span
    have := List.range'_append a (b - a) (c - b) 1
    rw [Nat.mul_comm, Nat.mul_one] at this
    have e1 : a + (b - a) = b := by omega
    have e2 : c - b + (b - a) = c - a := by omega
    rw [e1, e2] at this
    exact this

theorem span_succ (k : Nat) : span k (k + 1) = [k] := by
  simp [span]

theorem at_point_additive (x : Nat) (L : List Nat) : Additive (at_point x L) := by
  constructor
  · intro a b h
    have : ¬ (a ≤ x ∧ x < b) := by omega
    simp [at_point, this]
  · intro a b c hab hbc
    unfold at_point
    by_cases h1 : a ≤ x ∧ x < b
    · have h2 : ¬ (b ≤ x ∧ x < c) := by omega
      have h3 : a ≤ x ∧ x < c := by omega
      simp [h1, h2, h3]
    · by_cases h2 : b ≤ x ∧ x < c
      · have h3 : a ≤ x ∧ x < c := by omega
        simp [h1, h2, h3]
      · have h3 : ¬ (a ≤ x ∧ x < c) := by omega
        simp [h1, h2, h3]

theorem Additive.at_point {F : Nat → Nat → List Nat} (h : Additive F) (x lo hi : Nat) :
    Additive (fun a b => at_point x (F a b) lo hi) := by
  constructor
  · intro a b hba
    simp [h.1 a b hba, DGEMM.at_point]
  · intro a b c hab hbc
    simp only [DGEMM.at_point]
    split_ifs
    · exact h.2 a b c hab hbc
    · rfl

theorem Additive.ite {F : Nat → Nat → List Nat} (h : Additive F) (c : Prop) [Decidable c] :
    Additive (fun a b => if c then F a b else []) := by
  constructor
  · intro a b hba
    simp [h.1 a b hba]
  · intro a b d hab hbd
    split_ifs
    · exact h.2 a b d hab hbd
    · rfl

/-- Order rule for any counting loop whose iteration `x` covers `[x, min (x + w) hi)`. -/
theorem forLoop_orders {n i0 j0 : Nat} (cond : Nat → Bool) (w hi : Nat)
    (body : Nat → KState → Option KState) (F : Nat → Nat → List Nat)
    (hcond : ∀ x, cond x = true → x < hi) (hF : Additive F)
    (hbody : ∀ x, cond x = true → Orders n i0 j0 (body x) (F x (min (x + w) hi))) :
    ∀ (fuel x0 : Nat) (s : KState) (r : Nat × KState),
      forLoop fuel cond w body x0 s = some r →
      x0 ≤ r.1 ∧ cond r.1 = false ∧
        k_order n i0 j0 r.2.log = k_order n i0 j0 s.log ++ F x0 (min r.1 hi) := by
  intro fuel
  induction fuel with
  | zero => intro x0 s r hr; simp [forLoop] at hr
  | succ fuel ih =>
    intro x0 s r hr
    by_cases hc : cond x0 = true
    · simp only [forLoop, hc, if_true] at hr
      cases hb : body x0 s with
      | none => rw [hb] at hr; exact absurd hr (by simp)
      | some s1 =>
        rw [hb] at hr
        obtain ⟨le, cf, ko⟩ := ih (x0 + w) s1 r hr
        have hlt := hcond x0 hc
        refine ⟨by omega, cf, ?_⟩
        rw [ko, hbody x0 hc s s1 hb, List.append_assoc]
        congr 1
        by_cases h : x0 + w ≤ hi
        · rw [min_eq_left h]
          exact hF.2 _ _ _ (by omega) (le_min le h)
        · have h1 : min (x0 + w) hi = hi := min_eq_right (by omega)
          have h2 : min r.1 hi = hi := min_eq_right (by omega)
          rw [h1, h2, hF.1 (x0 + w) hi (by omega), List.append_nil]
    · simp only [forLoop, hc] at hr
      simp only [Bool.false_eq_true, if_false, Option.some.injEq] at hr
      subst hr
      refine ⟨le_refl _, by simpa using hc, ?_⟩
      rw [hF.1 x0 (min x0 hi) (min_le_left _ _), List.append_nil]

theorem forLoop_range_orders {n i0 j0 : Nat} (lo hi : Nat)
    (body : Nat → KState → Option KState) (F : Nat → Nat → List Nat) (hF : Additive F)
    (hbody : ∀ x, x < hi → Orders n i0 j0 (body x) (F x (x + 1))) (fuel : Nat) :
    Orders n i0 j0 (fun s => (forLoop fuel (fun x => decide (x < hi)) 1 body lo s).map Prod.snd)
      (F lo hi) := by
  intro s s' e
  simp only at e
  cases hr : forLoop fuel (fun x => decide (x < hi)) 1 body lo s with
  | none => rw [hr] at e; exact absurd e (by simp)
  | some r =>
    rw [hr] at e
    simp only [Option.map_some', Option.some.injEq] at e
    subst e
    obtain ⟨le, cf, ko⟩ := forLoop_orders (fun x => decide (x < hi)) 1 hi body F
      (fun x hx => by simpa using hx) hF
      (fun x hx => by
        have hx' : x < hi := by simpa using hx
        rw [min_eq_left (by omega : x + 1 ≤ hi)]
        exact hbody x hx') fuel lo s r hr
    have hx' : hi ≤ r.1 := by simpa using cf
    rw [ko, min_eq_right hx']

theorem forLoop_tiles_orders {n i0 j0 : Nat} (T N : Nat)
    (body : Nat → KState → Option KState) (F : Nat → Nat → List Nat) (hF : Additive F)
    (hbody : ∀ b, b < N → Orders n i0 j0 (body b) (F b (tile_max T N b))) (fuel : Nat) :
    Orders n i0 j0 (fun s => (forLoop fuel (fun b => decide (b < N)) T body 0 s).map Prod.snd)
      (F 0 N) := by
  intro s s' e
  simp only at e
  cases hr : forLoop fuel (fun b => decide (b < N)) T body 0 s with
  | none => rw [hr] at e; exact absurd e (by simp)
  | some r =>
    rw [hr] at e
    simp only [Option.map_some', Option.some.injEq] at e
    subst e
    obtain ⟨le, cf, ko⟩ := forLoop_orders (fun b => decide (b < N)) T N body F
      (fun x hx => by simpa using hx) hF
      (fun x hx => by
        rw [← tile_max_eq]
        exact hbody x (by simpa using hx)) fuel 0 s r hr
    have hx' : N ≤ r.1 := by simpa using cf
    rw [ko, min_eq_right hx']

theorem forLoop_vec_orders {n i0 j0 : Nat} (w lo hi : Nat) (cond : Nat → Bool)
    (hcond : ∀ x, cond x = true → x + w ≤ hi)
    (body : Nat → KState → Option KState) (F : Nat → Nat → List Nat) (hF : Additive F)
    (hbody : ∀ x, x + w ≤ hi → Orders n i0 j0 (body x) (F x (x + w)))
    (hlo : lo ≤ hi) (hw : 0 < w) (fuel : Nat) (s : KState) (r : Nat × KState)
    (hr : forLoop fuel cond w body lo s = some r) :
    lo ≤ r.1 ∧ r.1 ≤ hi ∧ k_order n i0 j0 r.2.log = k_order n i0 j0 s.log ++ F lo r.1 := by
  obtain ⟨le, -, ko⟩ := forLoop_orders cond w hi body F
    (fun x hx => by have := hcond x hx; omega) hF
    (fun x hx => by
      rw [min_eq_left (hcond x hx)]
      exact hbody x (hcond x hx)) fuel lo s r hr
  have hx' : r.1 ≤ hi := forLoop_counter_le cond w hi body hcond fuel lo s r.1 r.2 hlo hr
  exact ⟨le, hx', by rw [ko, min_eq_left hx']⟩

theorem at_point_unit (x : Nat) (L : List Nat) (j : Nat) :
    at_point x L j (j + 1) = if j = x then L else [] := by
  unfold at_point
  by_cases h : j = x
  · subst h; simp
  · have : ¬ (j ≤ x ∧ x < j + 1) := by omega
    simp [h, this]

theorem at_point_full {x N : Nat} (hx : x < N) (L : List Nat) : at_point x L 0 N = L := by
  simp [at_point, hx]

theorem k_order_loadA {n i0 j0 : Nat} {A : List ℚ} {ai : Nat} {s s1 : KState} {a : ℚ}
    (e : loadA A ai s = some (a, s1)) : k_order n i0 j0 s1.log = k_order n i0 j0 s.log := by
  unfold loadA at e
  cases h : A[ai]? with
  | none => rw [h] at e; exact absurd e (by simp)
  | some v =>
    rw [h] at e
    simp only [Option.some.injEq, Prod.mk.injEq] at e
    obtain ⟨-, rfl⟩ := e
    simp [k_order, updates_skip_loadA]

theorem scalar_loop_orders {n i0 j0 : Nat} (hj0 : j0 < n) (A B : List ℚ) {i k j_max : Nat}
    (hjm : j_max ≤ n) (lo fuel : Nat) :
    Orders n i0 j0 (fun s => (forLoop fuel (fun j => decide (j < j_max)) 1
      (fun j => accumA A B (i * n + j) (i * n + k) (k * n + j)) lo s).map Prod.snd)
      (at_point j0 (if i = i0 then [k] else []) lo j_max) :=
  forLoop_range_orders lo j_max _ (at_point j0 (if i = i0 then [k] else []))
    (at_point_additive _ _)
    (fun j hj => (accumA_orders hj0 A B (by omega : j < n)).relist (by
      rw [at_point_unit]
      by_cases h1 : i = i0 <;> by_cases h2 : j = j0 <;> simp [h1, h2])) fuel

theorem vecStep_orders_at {n i0 j0 : Nat} (hj0 : j0 < n) (fma : Bool) (B : List ℚ)
    (a_vec : m256d) {i k j : Nat} (hj : j + 4 ≤ n) :
    Orders n i0 j0 (vecStep false fma B a_vec (i * n + j) (k * n + j))
      (at_point j0 (if i = i0 then [k] else []) j (j + 4)) :=
  (vecStep_orders hj0 fma B a_vec hj).relist (by
    unfold at_point
    by_cases h1 : i = i0 <;> by_cases h2 : j ≤ j0 ∧ j0 < j + 4 <;> simp [h1, h2])

theorem block_j8_orders {n i0 j0 : Nat} (hj0 : j0 < n) (B : List ℚ) (a_vec : m256d)
    {i k j : Nat} (hj : j + 8 ≤ n) :
    Orders n i0 j0 (block_j8 false n B a_vec i k j)
      (at_point j0 (if i = i0 then [k] else []) j (j + 8)) := by
  intro s s' e
  unfold block_j8 at e
  cases h : vecStep false true B a_vec (i * n + j) (k * n + j) s with
  | none => rw [h] at e; exact absurd e (by simp)
  | some s1 =>
    rw [h] at e
    have o1 : Orders n i0 j0 (vecStep false true B a_vec (i * n + j) (k * n + j))
        (at_point j0 (if i = i0 then [k] else []) j (j + 4)) :=
      vecStep_orders_at hj0 true B a_vec (by omega)
    have o2 : Orders n i0 j0 (vecStep false true B a_vec (i * n + (j + 4)) (k * n + (j + 4)))
        (at_point j0 (if i = i0 then [k] else []) (j + 4) (j + 4 + 4)) :=
      vecStep_orders_at hj0 true B a_vec (by omega)
    have h1 := o1 s s1 h
    have h2 := o2 s1 s' (by rw [← Nat.add_assoc, ← Nat.add_assoc]; exact e)
    rw [h2, h1, List.append_assoc,
      (at_point_additive j0 (if i = i0 then [k] else [])).2 j (j + 4) (j + 4 + 4)
        (by omega) (by omega)]

/-- The three column phases of one `(i, k)` pair add `k` to the order of element `(i, j)`
when `j` is among the columns `[j_blk, j_max)`, once. -/
theorem block_k_orders {n i0 j0 : Nat} (hj0 : j0 < n) (A B : List ℚ) (fma : Bool)
    {j_blk j_max i k : Nat} (hjb : j_blk ≤ j_max) (hjm : j_max ≤ n) :
    Orders n i0 j0 (block_k false fma n A B j_blk j_max i k)
      (at_point j0 (if i = i0 then [k] else []) j_blk j_max) := by
  intro s s' e
  unfold block_k at e
  cases h : loadA A (i * n + k) s with
  | none => rw [h] at e; exact absurd e (by simp)
  | some r =>
    obtain ⟨a, s1⟩ := r
    rw [h] at e
    have h1 : k_order n i0 j0 s1.log = k_order n i0 j0 s.log := k_order_loadA h
    simp only at e
    cases h8 : (if fma = true then
        forLoop (n + 1) (fun j => decide ((j : Int) ≤ (j_max : Int) - 8)) 8
          (block_j8 false n B (mm256_set1_pd a) i k) j_blk s1
        else some (j_blk, s1)) with
    | none => rw [h8] at e; exact absurd e (by simp)
    | some r1 =>
      rw [h8] at e
      simp only at e
      have p1 : j_blk ≤ r1.1 ∧ r1.1 ≤ j_max ∧ k_order n i0 j0 r1.2.log =
          k_order n i0 j0 s1.log ++ at_point j0 (if i = i0 then [k] else []) j_blk r1.1 := by
        cases fma with
        | true =>
          simp only [if_true] at h8
          exact forLoop_vec_orders 8 j_blk j_max _
            (fun x hx => by have : (x : Int) ≤ (j_max : Int) - 8 := by simpa using hx
                            omega)
            _ _ (at_point_additive _ _)
            (fun x hx => block_j8_orders hj0 B _ (by omega)) hjb (by omega) _ s1 r1 h8
        | false =>
          simp only [Bool.false_eq_true, if_false, Option.some.injEq] at h8
          subst h8
          exact ⟨le_refl _, hjb, by
            rw [(at_point_additive j0 _).1 j_blk j_blk (le_refl _), List.append_nil]⟩
      obtain ⟨l1, u1, k1⟩ := p1
      cases hv : forLoop (n + 1) (fun j => decide ((j : Int) ≤ (j_max : Int) - 4)) 4
          (fun j => vecStep false fma B (mm256_set1_pd a) (i * n + j) (k * n + j)) r1.1 r1.2 with
      | none => rw [hv] at e; exact absurd e (by simp)
      | some r2 =>
        rw [hv] at e
        have p2 : r1.1 ≤ r2.1 ∧ r2.1 ≤ j_max ∧ k_order n i0 j0 r2.2.log =
            k_order n i0 j0 r1.2.log ++ at_point j0 (if i = i0 then [k] else []) r1.1 r2.1 :=
          forLoop_vec_orders 4 r1.1 j_max _
            (fun x hx => by have : (x : Int) ≤ (j_max : Int) - 4 := by simpa using hx
                            omega)
            _ (at_point j0 (if i = i0 then [k] else [])) (at_point_additive _ _)
            (fun x hx => vecStep_orders_at hj0 fma B _ (by omega)) u1 (by omega) _ r1.2 r2 hv
        obtain ⟨l2, u2, k2⟩ := p2
        have o3 : Orders n i0 j0 (fun s => (forLoop (n + 1) (fun j => decide (j < j_max)) 1
            (fun j => accumA A B (i * n + j) (i * n + k) (k * n + j)) r2.1 s).map Prod.snd)
            (at_point j0 (if i = i0 then [k] else []) r2.1 j_max) :=
          scalar_loop_orders hj0 A B hjm r2.1 (n + 1)
        have k3 := o3 r2.2 s' e
        rw [k3, k2, k1, h1, List.append_assoc, List.append_assoc,
          (at_point_additive j0 _).2 r1.1 r2.1 j_max l2 u2,
          (at_point_additive j0 _).2 j_blk r1.1 j_max l1 u1]

theorem naive_k_orders {n i0 j0 : Nat} (hj0 : j0 < n) (A B : List ℚ) (i k : Nat) :
    Orders n i0 j0 (naive_k n A B i k) (if i = i0 then [k] else []) := by
  intro s s' e
  unfold naive_k at e
  cases h : loadA A (i * n + k) s with
  | none => rw [h] at e; exact absurd e (by simp)
  | some r =>
    obtain ⟨a, s1⟩ := r
    rw [h] at e
    have h1 : k_order n i0 j0 s1.log = k_order n i0 j0 s.log := k_order_loadA h
    have o : Orders n i0 j0 (fun s => (forLoop (n + 1) (fun j => decide (j < n)) 1
        (naive_j n B a i k) 0 s).map Prod.snd)
        (at_point j0 (if i = i0 then [k] else []) 0 n) :=
      forLoop_range_orders 0 n _ (at_point j0 (if i = i0 then [k] else []))
        (at_point_additive _ _)
        (fun j hj => (accum_orders hj0 B a hj).relist (by
          rw [at_point_unit]
          by_cases h1 : i = i0 <;> by_cases h2 : j = j0 <;> simp [h1, h2])) (n + 1)
    rw [o s1 s' e, h1, at_point_full hj0]

theorem avx_k_orders {n i0 j0 : Nat} (hj0 : j0 < n) (A B : List ℚ) (i k : Nat) :
    Orders n i0 j0 (avx_k false n A B i k) (if i = i0 then [k] else []) := by
  intro s s' e
  unfold avx_k at e
  cases h : loadA A (i * n + k) s with
  | none => rw [h] at e; exact absurd e (by simp)
  | some r =>
    obtain ⟨a, s1⟩ := r
    rw [h] at e
    have h1 : k_order n i0 j0 s1.log = k_order n i0 j0 s.log := k_order_loadA h
    simp only at e
    cases hv : forLoop (n + 1) (fun j => decide ((j : Int) ≤ (n : Int) - 4)) 4
        (fun j => vecStep false false B (mm256_set1_pd a) (i * n + j) (k * n + j)) 0 s1 with
    | none => rw [hv] at e; exact absurd e (by simp)
    | some r2 =>
      rw [hv] at e
      have p2 : 0 ≤ r2.1 ∧ r2.1 ≤ n ∧ k_order n i0 j0 r2.2.log =
          k_order n i0 j0 s1.log ++ at_point j0 (if i = i0 then [k] else []) 0 r2.1 :=
        forLoop_vec_orders 4 0 n _
          (fun x hx => by have : (x : Int) ≤ (n : Int) - 4 := by simpa using hx
                          omega)
          _ (at_point j0 (if i = i0 then [k] else [])) (at_point_additive _ _)
          (fun x hx => vecStep_orders_at hj0 false B _ (by omega)) (Nat.zero_le _) (by omega)
          _ s1 r2 hv
      obtain ⟨l2, u2, k2⟩ := p2
      have o3 : Orders n i0 j0 (fun s => (forLoop (n + 1) (fun j => decide (j < n)) 1
          (fun j => accumA A B (i * n + j) (i * n + k) (k * n + j)) r2.1 s).map Prod.snd)
          (at_point j0 (if i = i0 then [k] else []) r2.1 n) :=
        scalar_loop_orders hj0 A B (le_refl n) r2.1 (n + 1)
      rw [o3 r2.2 s' e, k2, h1, List.append_assoc,
        (at_point_additive j0 _).2 0 r2.1 n l2 u2, at_point_full hj0]

theorem prefetch_k_orders {n i0 j0 : Nat} (hj0 : j0 < n) (A B : List ℚ)
    {j_blk j_max i k : Nat} (hjb : j_blk ≤ j_max) (hjm : j_max ≤ n) :
    Orders n i0 j0 (prefetch_k false n A B j_blk j_max i k)
      (at_point j0 (if i = i0 then [k] else []) j_blk j_max) := by
  intro s s' e
  unfold prefetch_k at e
  cases h : loadA A (i * n + k) s with
  | none => rw [h] at e; exact absurd e (by simp)
  | some r =>
    obtain ⟨a, s1⟩ := r
    rw [h] at e
    have h1 : k_order n i0 j0 s1.log = k_order n i0 j0 s.log := k_order_loadA h
    simp only at e
    cases hv : forLoop (n + 1) (fun j => decide ((j : Int) ≤ (j_max : Int) - 4)) 4
        (fun j s => vecStep false false B (mm256_set1_pd a) (i * n + j) (k * n + j)
          (prefetchB (k * n + j + 16) s)) j_blk s1 with
    | none => rw [hv] at e; exact absurd e (by simp)
    | some r2 =>
      rw [hv] at e
      have p2 : j_blk ≤ r2.1 ∧ r2.1 ≤ j_max ∧ k_order n i0 j0 r2.2.log =
          k_order n i0 j0 s1.log ++ at_point j0 (if i = i0 then [k] else []) j_blk r2.1 :=
        forLoop_vec_orders 4 j_blk j_max _
          (fun x hx => by have : (x : Int) ≤ (j_max : Int) - 4 := by simpa using hx
                          omega)
          _ (at_point j0 (if i = i0 then [k] else [])) (at_point_additive _ _)
          (fun x hx t t' ht => by
            have o : Orders n i0 j0
                (vecStep false false B (mm256_set1_pd a) (i * n + x) (k * n + x))
                (at_point j0 (if i = i0 then [k] else []) x (x + 4)) :=
              vecStep_orders_at hj0 false B _ (by omega)
            rw [o _ t' ht]
            simp [prefetchB, k_order, updates_skip_prefetch])
          hjb (by omega) _ s1 r2 hv
      obtain ⟨l2, u2, k2⟩ := p2
      have o3 : Orders n i0 j0 (fun s => (forLoop (n + 1) (fun j => decide (j < j_max)) 1
          (fun j => accumA A B (i * n + j) (i * n + k) (k * n + j)) r2.1 s).map Prod.snd)
          (at_point j0 (if i = i0 then [k] else []) r2.1 j_max) :=
        scalar_loop_orders hj0 A B hjm r2.1 (n + 1)
      rw [o3 r2.2 s' e, k2, h1, List.append_assoc,
        (at_point_additive j0 _).2 j_blk r2.1 j_max l2 u2]

/-- The plain loop nest `for i, for k` around a `k` body that adds `k` to the order of
`(i, j)` for every `j`: element `(i0, j0)` receives `0, 1, ..., n - 1` in ascending order. -/
theorem plain_orders {n i0 j0 : Nat} (hi0 : i0 < n)
    {kbody : Nat → Nat → KState → Option KState}
    (hk : ∀ i k, Orders n i0 j0 (kbody i k) (if i = i0 then [k] else [])) :
    Orders n i0 j0 (fun s => (forLoop (n + 1) (fun i => decide (i < n)) 1 (fun i s =>
      (forLoop (n + 1) (fun k => decide (k < n)) 1 (kbody i) 0 s).map Prod.snd) 0 s).map
      Prod.snd) (List.range n) :=
  (forLoop_range_orders 0 n _ (at_point i0 (span 0 n)) (at_point_additive _ _)
    (fun i _ =>
      (forLoop_range_orders 0 n _ (fun a b => if i = i0 then span a b else [])
        (span_additive.ite _)
        (fun k _ => (hk i k).relist (by simp only [span_succ])) (n + 1)).relist (by
          rw [at_point_unit])) (n + 1)).relist (by
      rw [at_point_full hi0, span, Nat.sub_zero, List.range_eq_range'])

/-- The tiled loop nest, for any tile edge: element `(i0, j0)` receives
`0, 1, ..., n - 1` in ascending order, because the `k` tiles are visited in ascending
order before the next `i` tile, and only one `j` tile contains `j0`. -/
theorem tiled_orders {n i0 j0 : Nat} (hi0 : i0 < n) (hj0 : j0 < n)
    {kbody : Nat → Nat → Nat → Nat → KState → Option KState}
    (hk : ∀ j_blk j_max i k, j_blk ≤ j_max → j_max ≤ n →
      Orders n i0 j0 (kbody j_blk j_max i k)
        (at_point j0 (if i = i0 then [k] else []) j_blk j_max))
    (T : Nat) : Orders n i0 j0 (tiled kbody T n) (List.range n) := by
  refine (forLoop_tiles_orders T n _ (at_point i0 (span 0 n)) (at_point_additive _ _)
    (fun i_blk _ => ?_) (n + 1)).relist (by
      rw [at_point_full hi0, span, Nat.sub_zero, List.range_eq_range'])
  refine forLoop_tiles_orders T n _
    (fun a b => at_point i0 (span a b) i_blk (tile_max T n i_blk))
    (span_additive.at_point _ _ _) (fun k_blk _ => ?_) (n + 1)
  refine (forLoop_tiles_orders T n _
    (fun a b => at_point i0 (at_point j0 (span k_blk (tile_max T n k_blk)) a b)
      i_blk (tile_max T n i_blk))
    ((at_point_additive _ _).at_point _ _ _) (fun j_blk hj => ?_) (n + 1)).relist (by
      rw [at_point_full hj0])
  refine (forLoop_range_orders i_blk (tile_max T n i_blk) _
    (at_point i0 (at_point j0 (span k_blk (tile_max T n k_blk)) j_blk (tile_max T n j_blk)))
    (at_point_additive _ _) (fun i _ => ?_) (n + 1))
  refine (forLoop_range_orders k_blk (tile_max T n k_blk) _
    (fun a b => at_point j0 (if i = i0 then span a b else []) j_blk (tile_max T n j_blk))
    ((span_additive.ite _).at_point _ _ _)
    (fun k _ => (hk j_blk (tile_max T n j_blk) i k (le_tile_max hj) (tile_max_le T n j_blk)).relist
      (by simp only [span_succ])) (n + 1)).relist (by
      rw [at_point_unit]
      unfold at_point
      by_cases h1 : i = i0 <;> simp [h1])

theorem dgemm_naive_orders {n i0 j0 : Nat} (hi0 : i0 < n) (hj0 : j0 < n) (A B : List ℚ) :
    Orders n i0 j0 (dgemm_naive n A B) (List.range n) :=
  plain_orders hi0 (fun i k => naive_k_orders hj0 A B i k)

theorem dgemm_avx_orders {n i0 j0 : Nat} (hi0 : i0 < n) (hj0 : j0 < n) (A B : List ℚ) :
    Orders n i0 j0 (dgemm_avx_with false n A B) (List.range n) :=
  plain_orders hi0 (fun i k => avx_k_orders hj0 A B i k)

theorem dgemm_avx_block_with_orders {n i0 j0 : Nat} (hi0 : i0 < n) (hj0 : j0 < n)
    (T : Nat) (fma : Bool) (A B : List ℚ) :
    Orders n i0 j0 (dgemm_avx_block_with false T fma n A B) (List.range n) :=
  tiled_orders hi0 hj0 (fun _ _ _ _ hjb hjm => block_k_orders hj0 A B fma hjb hjm) T

theorem dgemm_avx_block_prefetch_with_orders {n i0 j0 : Nat} (hi0 : i0 < n) (hj0 : j0 < n)
    (T : Nat) (A B : List ℚ) :
    Orders n i0 j0 (dgemm_avx_block_prefetch_with false T n A B) (List.range n) :=
  tiled_orders hi0 hj0 (fun _ _ _ _ hjb hjm => prefetch_k_orders hj0 A B hjb hjm) T

theorem k_order_nil (n i j : Nat) : k_order n i j [] = [] := by
  simp [k_order, updates]

/-- A run from an empty log that orders `L` leaves exactly `L` as the order. -/
theorem Orders.from_empty {n i j : Nat} {f : KState → Option KState} {L : List Nat}
    (h : Orders n i j f L) {C : List ℚ} {s' : KState} (e : f ⟨C, []⟩ = some s') :
    k_order n i j s'.log = L := by
  rw [h _ s' e, k_order_nil, List.nil_append]

/-- C20 as stated fails: there is no size `n`, no build and no output element `(i, j)` for
which the blocked kernel (`dgemm_avx_block`, or `dgemm_avx_block_prefetch` of `teste.c`)
returns having added the products into `C[i][j]` in an order of `k` different from the one
`dgemm_naive` uses. -/
theorem blocking_reorders_counterexample :
    ¬ ∃ (n i j : Nat) (fma : Bool) (A B C : List ℚ) (s₁ s₂ : KState),
      A.length = n * n ∧ B.length = n * n ∧ C.length = n * n ∧ i < n ∧ j < n ∧
      dgemm_naive n A B ⟨C, []⟩ = some s₁ ∧
      (dgemm_avx_block fma n A B ⟨C, []⟩ = some s₂ ∨
        dgemm_avx_block_prefetch n A B ⟨C, []⟩ = some s₂) ∧
      k_order n i j s₂.log ≠ k_order n i j s₁.log := by
  rintro ⟨n, i, j, fma, A, B, C, s₁, s₂, -, -, -, hi, hj, e1, e2, hne⟩
  apply hne
  rw [(dgemm_naive_orders hi hj A B).from_empty e1]
  rcases e2 with e2 | e2
  · exact (dgemm_avx_block_with_orders hi hj BLOCK_SIZE fma A B).from_empty
      (dgemm_avx_block_with_refines _ _ _ _ _ _ _ e2)
  · exact (dgemm_avx_block_prefetch_with_orders hi hj BLOCK_SIZE A B).from_empty
      (dgemm_avx_block_prefetch_with_refines _ _ _ _ _ _ e2)

/-- C20, amended: blocking does not reorder the partial sums of any output element. For
every `n`, every tile edge `T ≥ 1`, either build and every output element `(i, j)`, the
loop nest of the blocked kernel (`dgemm_avx_block`, and `dgemm_avx_block_prefetch` of
`teste.c`) on unaligned moves returns having added the products `A[i][k] * B[k][j]` into
`C[i][j]` in the ascending order `k = 0, 1, ..., n - 1`, the order `dgemm_naive` uses. On
the aligned moves of the source each blocked kernel returns that very state or faults, at
every `T`; for `T` a multiple of 4 (`BLOCK_SIZE` is 32) it returns when `n` is a multiple
of 4 or below 4 and faults for every other `n`. -/
theorem blocking_keeps_k_order (T : Nat) (hT : 1 ≤ T) (fma : Bool) (n : Nat)
    (A B C : List ℚ) (i j : Nat)
    (hA : A.length = n * n) (hB : B.length = n * n) (hC : C.length = n * n)
    (hi : i < n) (hj : j < n) :
    ∃ s₀ s₁ s₂, dgemm_naive n A B ⟨C, []⟩ = some s₀ ∧
      dgemm_avx_block_with false T fma n A B ⟨C, []⟩ = some s₁ ∧
      dgemm_avx_block_prefetch_with false T n A B ⟨C, []⟩ = some s₂ ∧
      k_order n i j s₀.log = List.range n ∧
      k_order n i j s₁.log = List.range n ∧
      k_order n i j s₂.log = List.range n ∧
      (dgemm_avx_block_with true T fma n A B ⟨C, []⟩ = some s₁ ∨
        dgemm_avx_block_with true T fma n A B ⟨C, []⟩ = none) ∧
      (dgemm_avx_block_prefetch_with true T n A B ⟨C, []⟩ = some s₂ ∨
        dgemm_avx_block_prefetch_with true T n A B ⟨C, []⟩ = none) ∧
      (4 ∣ T →
        dgemm_avx_block_with true T fma n A B ⟨C, []⟩ =
          (if n % 4 = 0 ∨ n < 4 then some s₁ else none) ∧
        dgemm_avx_block_prefetch_with true T n A B ⟨C, []⟩ =
          (if n % 4 = 0 ∨ n < 4 then some s₂ else none)) := by
  obtain ⟨s₀, e0, -⟩ := dgemm_naive_adds hA hB ⟨C, []⟩ hC
  obtain ⟨s₁, e1, -⟩ := dgemm_avx_block_with_adds hA hB hT fma ⟨C, []⟩ hC
  obtain ⟨s₂, e2, -⟩ := dgemm_avx_block_prefetch_with_adds hA hB hT ⟨C, []⟩ hC
  refine ⟨s₀, s₁, s₂, e0, e1, e2, (dgemm_naive_orders hi hj A B).from_empty e0,
    (dgemm_avx_block_with_orders hi hj T fma A B).from_empty e1,
    (dgemm_avx_block_prefetch_with_orders hi hj T A B).from_empty e2, ?_, ?_,
    fun h4 => ⟨?_, ?_⟩⟩
  · exact some_or_none (dgemm_avx_block_with_refines T fma n A B ⟨C, []⟩) e1
  · exact some_or_none (dgemm_avx_block_prefetch_with_refines T n A B ⟨C, []⟩) e2
  · rw [dgemm_avx_block_with_eq_ite h4 hT, e1]
  · rw [dgemm_avx_block_prefetch_with_eq_ite h4 hT, e2]

/-- Witness for amended C20: tile edge 2 on a 5 × 5 problem, element `(3, 4)`. -/
theorem blocking_keeps_k_order_witness :
    ∃ s₀ s₁ s₂,
      dgemm_naive 5 (alloc_matrix 5) (alloc_matrix 5) ⟨alloc_matrix 5, []⟩ = some s₀ ∧
      dgemm_avx_block_with false 2 true 5 (alloc_matrix 5) (alloc_matrix 5)
        ⟨alloc_matrix 5, []⟩ = some s₁ ∧
      dgemm_avx_block_prefetch_with false 2 5 (alloc_matrix 5) (alloc_matrix 5)
        ⟨alloc_matrix 5, []⟩ = some s₂ ∧
      k_order 5 3 4 s₀.log = List.range 5 ∧
      k_order 5 3 4 s₁.log = List.range 5 ∧
      k_order 5 3 4 s₂.log = List.range 5 ∧
      (dgemm_avx_block_with true 2 true 5 (alloc_matrix 5) (alloc_matrix 5)
          ⟨alloc_matrix 5, []⟩ = some s₁ ∨
        dgemm_avx_block_with true 2 true 5 (alloc_matrix 5) (alloc_matrix 5)
          ⟨alloc_matrix 5, []⟩ = none) ∧
      (dgemm_avx_block_prefetch_with true 2 5 (alloc_matrix 5) (alloc_matrix 5)
          ⟨alloc_matrix 5, []⟩ = some s₂ ∨
        dgemm_avx_block_prefetch_with true 2 5 (alloc_matrix 5) (alloc_matrix 5)
          ⟨alloc_matrix 5, []⟩ = none) ∧
      (4 ∣ 2 →
        dgemm_avx_block_with true 2 true 5 (alloc_matrix 5) (alloc_matrix 5)
          ⟨alloc_matrix 5, []⟩ = (if 5 % 4 = 0 ∨ 5 < 4 then some s₁ else none) ∧
        dgemm_avx_block_prefetch_with true 2 5 (alloc_matrix 5) (alloc_matrix 5)
          ⟨alloc_matrix 5, []⟩ = (if 5 % 4 = 0 ∨ 5 < 4 then some s₂ else none)) :=
  blocking_keeps_k_order 2 (by decide) true 5 (alloc_matrix 5) (alloc_matrix 5)
    (alloc_matrix 5) 3 4 (by simp [alloc_matrix]) (by simp [alloc_matrix])
    (by simp [alloc_matrix]) (by decide) (by decide)

/-! ## Claims C11 – C14: the report -/

/-- A unit-step loop whose body is total folds the body over its range. -/
theorem forLoop_fold {σ : Type} (hi : Nat) (body : Nat → σ → Option σ) (f : Nat → σ → σ)
    (hbody : ∀ x, x < hi → ∀ st, body x st = some (f x st)) :
    ∀ (fuel lo : Nat) (st : σ), hi - lo < fuel →
      ∃ x', forLoop fuel (fun x => decide (x < hi)) 1 body lo st =
        some (x', (List.range' lo (hi - lo)).foldl (fun st x => f x st) st) := by
  intro fuel
  induction fuel with
  | zero => intro lo st h; omega
  | succ fuel ih =>
    intro lo st hfuel
    by_cases hc : lo < hi
    · obtain ⟨x', e⟩ := ih (lo + 1) (f lo st) (by omega)
      refine ⟨x', ?_⟩
      have hsub : hi - lo = (hi - (lo + 1)) + 1 := by omega
      rw [hsub, List.range'_succ, List.foldl_cons]
      simp only [forLoop, hc, decide_True, if_true, hbody lo hc st]
      exact e
    · refine ⟨lo, ?_⟩
      have : hi - lo = 0 := by omega
      simp [forLoop, hc, this]

theorem foldl_append_flatMap (g : Nat → List Tok) (l : List Nat) (out : List Tok) :
    l.foldl (fun out x => out ++ g x) out = out ++ l.flatMap g := by
  induction l generalizing out with
  | nil => simp
  | cons a l ih => simp [List.foldl_cons, ih, List.flatMap_cons, List.append_assoc]

/-- A unit-step loop whose iteration `x` prints `g x` prints them in order. -/
theorem forLoop_emit (hi : Nat) (body : Nat → List Tok → Option (List Tok))
    (g : Nat → List Tok) (hbody : ∀ x, x < hi → ∀ out, body x out = some (out ++ g x))
    (lo : Nat) (out : List Tok) :
    ∃ x', forLoop (hi + 1) (fun x => decide (x < hi)) 1 body lo out =
      some (x', out ++ (List.range' lo (hi - lo)).flatMap g) := by
  obtain ⟨x', e⟩ := forLoop_fold hi body (fun x out => out ++ g x) hbody (hi + 1) lo out
    (by omega)
  exact ⟨x', by rw [e, foldl_append_flatMap]⟩

theorem TableOK.row {results : List MethodResult} {num_methods num_sizes : Nat}
    {sizes : List Int} (h : TableOK results num_methods sizes num_sizes) {m : Nat}
    (hm : m < num_methods) :
    ∃ row, results[m]? = some row ∧ num_sizes ≤ row.gflops.length ∧
      num_sizes ≤ row.time.length ∧ num_sizes ≤ row.efficiency.length := by
  have hm' : m < results.length := by have := h.2.1; omega
  exact ⟨results[m], List.getElem?_eq_getElem hm', h.2.2 _ (List.getElem_mem hm')⟩

theorem getElem?_eq_some_getD {l : List ℚ} {s : Nat} (h : s < l.length) :
    l[s]? = some (l.getD s 0) := by
  rw [List.getElem?_eq_getElem h, List.getD_eq_getElem _ _ h]

theorem gflops_cell_eq {results : List MethodResult} {num_methods num_sizes : Nat}
    {sizes : List Int} (h : TableOK results num_methods sizes num_sizes) {s m : Nat}
    (hs : s < num_sizes) (hm : m < num_methods) (out : List Tok) :
    gflops_cell results s m out = some (out ++ [gflops_tok results s m]) := by
  obtain ⟨row, hrow, h1, -, h3⟩ := h.row hm
  simp only [gflops_cell, gflops_tok, gflops_at, efficiency_at, hrow,
    getElem?_eq_some_getD (by omega : s < row.gflops.length),
    getElem?_eq_some_getD (by omega : s < row.efficiency.length)]
  split_ifs <;> rfl

theorem time_cell_eq {results : List MethodResult} {num_methods num_sizes : Nat}
    {sizes : List Int} (h : TableOK results num_methods sizes num_sizes) {s m : Nat}
    (hs : s < num_sizes) (hm : m < num_methods) (out : List Tok) :
    time_cell results s m out = some (out ++ [time_tok results s m]) := by
  obtain ⟨row, hrow, -, h2, -⟩ := h.row hm
  simp only [time_cell, time_tok, time_at, hrow,
    getElem?_eq_some_getD (by omega : s < row.time.length)]
  split_ifs <;> rfl

theorem speedup_cell_eq {results : List MethodResult} {num_methods num_sizes : Nat}
    {sizes : List Int} (h : TableOK results num_methods sizes num_sizes) {s m : Nat}
    (hs : s < num_sizes) (hm : m < num_methods) (out : List Tok) :
    speedup_cell results s m out = some (out ++ [speedup_tok results s m]) := by
  obtain ⟨row, hrow, h1, -, -⟩ := h.row hm
  obtain ⟨row0, hrow0, h01, -, -⟩ := h.row (by omega : 0 < num_methods)
  simp only [speedup_cell, speedup_tok, gflops_at, hrow, hrow0,
    getElem?_eq_some_getD (by omega : s < row.gflops.length),
    getElem?_eq_some_getD (by omega : s < row0.gflops.length)]
  generalize row0.gflops.getD s 0 = g0
  generalize row.gflops.getD s 0 = g
  by_cases h0 : g0 > 0
  · by_cases h1 : g > 0
    · simp only [h0, h1, if_true, and_self]
    · simp only [h0, h1, if_true, if_false, and_false]
  · simp only [h0, if_false, false_and]

theorem flatMap_singleton_eq_map (f : Nat → Tok) (l : List Nat) :
    l.flatMap (fun m => [f m]) = l.map f := by
  induction l with
  | nil => rfl
  | cons a l ih => simp [List.flatMap_cons, ih]

theorem table_row_eq {cell : Nat → Nat → List Tok → Option (List Tok)} {cell_tok : Nat → Nat → Tok}
    {num_methods num_sizes s : Nat} {sizes : List Int} (hsz : num_sizes ≤ sizes.length)
    (hs : s < num_sizes)
    (hcell : ∀ m, m < num_methods → ∀ out, cell s m out = some (out ++ [cell_tok s m]))
    (first : Nat) (out : List Tok) :
    table_row cell first num_methods sizes num_sizes s out =
      some (out ++ row_toks cell_tok first num_methods sizes num_sizes s) := by
  have hsize : sizes[s]? = some (sizes.getD s 0) := by
    have h : s < sizes.length := by omega
    rw [List.getElem?_eq_getElem h, List.getD_eq_getElem _ _ h]
  obtain ⟨x', e⟩ := forLoop_emit num_methods (cell s) (fun m => [cell_tok s m]) hcell first
    (out ++ [Tok.size_cell (sizes.getD s 0)])
  simp only [table_row, hsize, e, row_toks, flatMap_singleton_eq_map]
  split_ifs <;> simp [List.append_assoc]

theorem print_table_eq {cell : Nat → Nat → List Tok → Option (List Tok)}
    {cell_tok : Nat → Nat → Tok} {results : List MethodResult} {num_methods num_sizes : Nat}
    {sizes : List Int} (h : TableOK results num_methods sizes num_sizes)
    (hcell : ∀ s m, s < num_sizes → m < num_methods → ∀ out,
      cell s m out = some (out ++ [cell_tok s m]))
    (title : String) (first : Nat) (out : List Tok) :
    print_table title cell first results num_methods sizes num_sizes out =
      some (out ++ table_toks title cell_tok first results num_methods sizes num_sizes) := by
  obtain ⟨x1, e1⟩ := forLoop_emit num_methods
    (fun m out =>
      match results[m]? with
      | none => none
      | some row => some (out ++ [Tok.name_cell row.name]))
    (fun m => [Tok.name_cell (name_at results m)])
    (fun m hm out => by
      obtain ⟨row, hrow, -⟩ := h.row hm
      simp only [hrow, name_at])
    first (out ++ [Tok.box_top, Tok.title title, Tok.box_head, Tok.size_head])
  obtain ⟨x2, e2⟩ := forLoop_emit num_sizes
    (table_row cell first num_methods sizes num_sizes)
    (row_toks cell_tok first num_methods sizes num_sizes)
    (fun s hs out => table_row_eq h.1 hs (fun m hm => hcell s m hs hm) first out) 0
    (out ++ [Tok.box_top, Tok.title title, Tok.box_head, Tok.size_head] ++
      (List.range' first (num_methods - first)).flatMap
        (fun m => [Tok.name_cell (name_at results m)]) ++ [Tok.newline, Tok.box_mid])
  simp only [print_table, e1, e2]
  simp [table_toks, flatMap_singleton_eq_map, List.append_assoc]

theorem resumo_step_eq {results : List MethodResult} {num_methods num_sizes : Nat}
    {sizes : List Int} (h : TableOK results num_methods sizes num_sizes) {m s : Nat}
    (hm : m < num_methods) (hs : s < num_sizes) (st : Resumo) :
    resumo_step results m s st =
      some (if gflops_at results m s > 0 then resumo_update (gflops_at results m s) st
            else st) := by
  obtain ⟨row, hrow, h1, -, -⟩ := h.row hm
  simp only [resumo_step, gflops_at, hrow,
    getElem?_eq_some_getD (by omega : s < row.gflops.length)]
  split_ifs <;> rfl

theorem foldl_filter_update (h : Nat → ℚ) (l : List Nat) (st : Resumo) :
    l.foldl (fun st s => if h s > 0 then resumo_update (h s) st else st) st =
      ((l.map h).filter (fun g => decide (g > 0))).foldl (fun st g => resumo_update g st) st := by
  induction l generalizing st with
  | nil => rfl
  | cons a l ih =>
    rw [List.foldl_cons, ih, List.map_cons, List.filter_cons]
    by_cases ha : h a > 0
    · simp [ha]
    · simp [ha]

theorem foldl_update_fields (L : List ℚ) (st : Resumo) :
    (L.foldl (fun st g => resumo_update g st) st).max_gflops =
        L.foldl (fun a g => if g > a then g else a) st.max_gflops ∧
    (L.foldl (fun st g => resumo_update g st) st).min_gflops =
        L.foldl (fun a g => if g < a then g else a) st.min_gflops ∧
    (L.foldl (fun st g => resumo_update g st) st).avg_gflops = st.avg_gflops + L.sum ∧
    (L.foldl (fun st g => resumo_update g st) st).valid_sizes = st.valid_sizes + L.length := by
  induction L generalizing st with
  | nil => simp
  | cons g L ih =>
    obtain ⟨h1, h2, h3, h4⟩ := ih (resumo_update g st)
    simp only [List.foldl_cons]
    rw [h1, h2, h3, h4]
    refine ⟨rfl, rfl, ?_, ?_⟩
    · simp only [resumo_update, List.sum_cons]
      ring
    · simp only [resumo_update, List.length_cons]
      omega

/-- The summary block of one method, from its valid samples. -/
theorem print_resumo_method_eq {results : List MethodResult} {num_methods num_sizes : Nat}
    {sizes : List Int} (h : TableOK results num_methods sizes num_sizes) {m : Nat}
    (hm : m < num_methods) (peak_gflops : ℚ) (out : List Tok) :
    print_resumo_method results num_sizes peak_gflops m out =
      some (out ++ resumo_toks results num_sizes peak_gflops m) := by
  obtain ⟨row, hrow, -⟩ := h.row hm
  obtain ⟨x', e⟩ := forLoop_fold num_sizes (resumo_step results m)
    (fun s st => if gflops_at results m s > 0 then resumo_update (gflops_at results m s) st
      else st)
    (fun s hs st => resumo_step_eq h hm hs st) (num_sizes + 1) 0
    { max_gflops := 0, min_gflops := 10 ^ 9, avg_gflops := 0, valid_sizes := 0 } (by omega)
  rw [Nat.sub_zero, foldl_filter_update (gflops_at results m)] at e
  obtain ⟨h1, h2, h3, h4⟩ := foldl_update_fields (valid_samples results m num_sizes)
    { max_gflops := 0, min_gflops := 10 ^ 9, avg_gflops := 0, valid_sizes := 0 }
  simp only [zero_add, Nat.zero_add] at h1 h2 h3 h4
  have hname : name_at results m = row.name := by simp [name_at, hrow]
  unfold valid_samples at h1 h2 h3 h4
  simp only [print_resumo_method, hrow, e, h1, h2, h3, h4, resumo_toks, hname, valid_samples]
  by_cases hv : ((List.range' 0 num_sizes).map (gflops_at results m)).filter
      (fun g => decide (g > 0)) = []
  · simp [hv]
  · have : 0 < (((List.range' 0 num_sizes).map (gflops_at results m)).filter
        (fun g => decide (g > 0))).length := List.length_pos.mpr hv
    simp [hv, this]

/-- What `print_results_matrix` prints, for a table it can read. -/
theorem print_results_matrix_eq {results : List MethodResult} {num_methods num_sizes : Nat}
    {sizes : List Int} (h : TableOK results num_methods sizes num_sizes) (peak_gflops : ℚ)
    (out : List Tok) :
    print_results_matrix results num_methods sizes num_sizes peak_gflops out =
      some (out ++ report_toks results num_methods sizes num_sizes peak_gflops) := by
  obtain ⟨x', e⟩ := forLoop_emit num_methods
    (print_resumo_method results num_sizes peak_gflops)
    (resumo_toks results num_sizes peak_gflops)
    (fun m hm out => print_resumo_method_eq h hm peak_gflops out) 0
    (out ++ table_toks "MATRIZ DE RESULTADOS - DGEMM BENCHMARK" (gflops_tok results) 0 results
        num_methods sizes num_sizes
      ++ table_toks "TEMPOS DE EXECUÇÃO (segundos)" (time_tok results) 0 results num_methods
        sizes num_sizes
      ++ table_toks "SPEEDUP RELATIVO (vs Naive)" (speedup_tok results) 1 results num_methods
        sizes num_sizes
      ++ [Tok.summary_head])
  simp only [print_results_matrix,
    print_table_eq h (fun s m hs hm => gflops_cell_eq h hs hm),
    print_table_eq h (fun s m hs hm => time_cell_eq h hs hm),
    print_table_eq h (fun s m hs hm => speedup_cell_eq h hs hm), e, report_toks,
    Option.map_some', Nat.sub_zero]
  simp [List.append_assoc]

/-- The cells of a table: a token that is none of the table's fixed pieces is in the table
exactly when it is the cell of some row `s` and column `m`. -/
theorem mem_table_toks (t : Tok) (title : String) (cell_tok : Nat → Nat → Tok) (first : Nat)
    (results : List MethodResult) (num_methods : Nat) (sizes : List Int) (num_sizes : Nat)
    (h1 : t ≠ Tok.box_top) (h2 : ∀ x, t ≠ Tok.title x) (h3 : t ≠ Tok.box_head)
    (h4 : t ≠ Tok.size_head) (h5 : ∀ x, t ≠ Tok.name_cell x) (h6 : t ≠ Tok.newline)
    (h7 : t ≠ Tok.box_mid) (h8 : ∀ x, t ≠ Tok.size_cell x) (h9 : t ≠ Tok.row_sep)
    (h10 : t ≠ Tok.box_end) :
    t ∈ table_toks title cell_tok first results num_methods sizes num_sizes ↔
      ∃ s m, s < num_sizes ∧ first ≤ m ∧ m < num_methods ∧ t = cell_tok s m := by
  have h5' : ∀ x, ¬ Tok.name_cell x = t := fun x e => h5 x e.symm
  have hsep : ∀ s : Nat, t ∉ (if (s : Int) < (num_sizes : Int) - 1 then [Tok.newline, Tok.row_sep]
      else [Tok.newline]) := by
    intro s
    split_ifs <;> simp [h6, h9]
  simp only [table_toks, row_toks, List.mem_append, List.mem_cons, List.mem_flatMap,
    List.mem_map, List.mem_range'_1, List.mem_singleton, List.not_mem_nil, or_false,
    h1, h2, h3, h4, h5', h6, h7, h8, h10, hsep, false_or, or_false, and_false, exists_false]
  constructor
  · rintro ⟨s, hs, m, hm, h⟩
    exact ⟨s, m, by omega, hm.1, by omega, h.symm⟩
  · rintro ⟨s, m, hs, hf, hm, h⟩
    exact ⟨s, ⟨Nat.zero_le _, by omega⟩, m, ⟨hf, by omega⟩, h.symm⟩

theorem mem_report_toks (t : Tok) (results : List MethodResult) (num_methods : Nat)
    (sizes : List Int) (num_sizes : Nat) (peak_gflops : ℚ) :
    t ∈ report_toks results num_methods sizes num_sizes peak_gflops ↔
      t ∈ table_toks "MATRIZ DE RESULTADOS - DGEMM BENCHMARK" (gflops_tok results) 0 results
        num_methods sizes num_sizes ∨
      t ∈ table_toks "TEMPOS DE EXECUÇÃO (segundos)" (time_tok results) 0 results num_methods
        sizes num_sizes ∨
      t ∈ table_toks "SPEEDUP RELATIVO (vs Naive)" (speedup_tok results) 1 results num_methods
        sizes num_sizes ∨
      t = Tok.summary_head ∨
      ∃ m, m < num_methods ∧ t ∈ resumo_toks results num_sizes peak_gflops m := by
  simp only [report_toks, List.mem_append, List.mem_cons, List.mem_flatMap, List.mem_range'_1,
    Nat.zero_le, true_and, Nat.zero_add, or_assoc]

/-- Where the speedup table shows a quotient: in row `s`, column `m ≥ 1`, exactly when both
`results[0].gflops[s]` and `results[m].gflops[s]` are `> 0`, and then their quotient. -/
theorem speedup_cell_mem_report (results : List MethodResult) (num_methods : Nat)
    (sizes : List Int) (num_sizes : Nat) (peak_gflops : ℚ) (s m : Nat) (x : ℚ) :
    Tok.speedup_cell s m x ∈ report_toks results num_methods sizes num_sizes peak_gflops ↔
      s < num_sizes ∧ 1 ≤ m ∧ m < num_methods ∧ 0 < gflops_at results 0 s ∧
        0 < gflops_at results m s ∧ x = gflops_at results m s / gflops_at results 0 s := by
  rw [mem_report_toks,
    mem_table_toks _ _ _ _ _ _ _ _ (by simp) (by simp) (by simp) (by simp) (by simp) (by simp)
      (by simp) (by simp) (by simp) (by simp),
    mem_table_toks _ _ _ _ _ _ _ _ (by simp) (by simp) (by simp) (by simp) (by simp) (by simp)
      (by simp) (by simp) (by simp) (by simp),
    mem_table_toks _ _ _ _ _ _ _ _ (by simp) (by simp) (by simp) (by simp) (by simp) (by simp)
      (by simp) (by simp) (by simp) (by simp)]
  constructor
  · rintro (⟨s', m', -, -, -, h⟩ | ⟨s', m', -, -, -, h⟩ | ⟨s', m', hs, hf, hm, h⟩ | h | ⟨m', -, h⟩)
    · unfold gflops_tok at h; split_ifs at h
    · unfold time_tok at h; split_ifs at h
    · unfold speedup_tok at h
      split_ifs at h with hc
      simp only [Tok.speedup_cell.injEq] at h
      obtain ⟨rfl, rfl, rfl⟩ := h
      exact ⟨hs, hf, hm, hc.1, hc.2, rfl⟩
    · exact absurd h (by simp)
    · unfold resumo_toks at h
      split_ifs at h <;> simp at h
  · rintro ⟨hs, hf, hm, h0, h1, rfl⟩
    refine Or.inr (Or.inr (Or.inl ⟨s, m, hs, hf, hm, ?_⟩))
    simp [speedup_tok, h0, h1]

/-- Where the speedup table shows `"N/A"`: in row `s`, column `m ≥ 1`, exactly when
`results[0].gflops[s]` or `results[m].gflops[s]` is not `> 0`. -/
theorem speedup_na_mem_report (results : List MethodResult) (num_methods : Nat)
    (sizes : List Int) (num_sizes : Nat) (peak_gflops : ℚ) (s m : Nat) :
    Tok.speedup_na s m ∈ report_toks results num_methods sizes num_sizes peak_gflops ↔
      s < num_sizes ∧ 1 ≤ m ∧ m < num_methods ∧
        ¬ (0 < gflops_at results 0 s ∧ 0 < gflops_at results m s) := by
  rw [mem_report_toks,
    mem_table_toks _ _ _ _ _ _ _ _ (by simp) (by simp) (by simp) (by simp) (by simp) (by simp)
      (by simp) (by simp) (by simp) (by simp),
    mem_table_toks _ _ _ _ _ _ _ _ (by simp) (by simp) (by simp) (by simp) (by simp) (by simp)
      (by simp) (by simp) (by simp) (by simp),
    mem_table_toks _ _ _ _ _ _ _ _ (by simp) (by simp) (by simp) (by simp) (by simp) (by simp)
      (by simp) (by simp) (by simp) (by simp)]
  constructor
  · rintro (⟨s', m', -, -, -, h⟩ | ⟨s', m', -, -, -, h⟩ | ⟨s', m', hs, hf, hm, h⟩ | h | ⟨m', -, h⟩)
    · unfold gflops_tok at h; split_ifs at h
    · unfold time_tok at h; split_ifs at h
    · unfold speedup_tok at h
      split_ifs at h with hc
      simp only [Tok.speedup_na.injEq] at h
      obtain ⟨rfl, rfl⟩ := h
      exact ⟨hs, hf, hm, hc⟩
    · exact absurd h (by simp)
    · unfold resumo_toks at h
      split_ifs at h <;> simp at h
  · rintro ⟨hs, hf, hm, hc⟩
    refine Or.inr (Or.inr (Or.inl ⟨s, m, hs, hf, hm, ?_⟩))
    simp only [speedup_tok, hc, if_false]

theorem stat_not_in_tables (t : Tok) (results : List MethodResult) (num_methods : Nat)
    (sizes : List Int) (num_sizes : Nat)
    (ht : (∃ m x, t = Tok.maximo m x) ∨ (∃ m x, t = Tok.minimo m x) ∨
      (∃ m x, t = Tok.media m x) ∨ (∃ m x, t = Tok.eficiencia_media m x)) :
    t ∉ table_toks "MATRIZ DE RESULTADOS - DGEMM BENCHMARK" (gflops_tok results) 0 results
        num_methods sizes num_sizes ∧
    t ∉ table_toks "TEMPOS DE EXECUÇÃO (segundos)" (time_tok results) 0 results num_methods
        sizes num_sizes ∧
    t ∉ table_toks "SPEEDUP RELATIVO (vs Naive)" (speedup_tok results) 1 results num_methods
        sizes num_sizes ∧
    t ≠ Tok.summary_head := by
  rcases ht with ⟨m, x, rfl⟩ | ⟨m, x, rfl⟩ | ⟨m, x, rfl⟩ | ⟨m, x, rfl⟩ <;>
  · rw [mem_table_toks _ _ _ _ _ _ _ _ (by simp) (by simp) (by simp) (by simp) (by simp)
        (by simp) (by simp) (by simp) (by simp) (by simp),
      mem_table_toks _ _ _ _ _ _ _ _ (by simp) (by simp) (by simp) (by simp) (by simp)
        (by simp) (by simp) (by simp) (by simp) (by simp),
      mem_table_toks _ _ _ _ _ _ _ _ (by simp) (by simp) (by simp) (by simp) (by simp)
        (by simp) (by simp) (by simp) (by simp) (by simp)]
    refine ⟨?_, ?_, ?_, by simp⟩
    · rintro ⟨s', m', -, -, -, h⟩
      unfold gflops_tok at h; split_ifs at h
    · rintro ⟨s', m', -, -, -, h⟩
      unfold time_tok at h; split_ifs at h
    · rintro ⟨s', m', -, -, -, h⟩
      unfold speedup_tok at h; split_ifs at h

/-- The statistic lines of the summary: the block of method `m` has them exactly when
`m` has a valid sample, and then they are the running maximum from 0, the running minimum
from `1e9`, the sum over the count, and that mean over the peak times 100. -/
theorem stats_mem_report (results : List MethodResult) (num_methods : Nat)
    (sizes : List Int) (num_sizes : Nat) (peak_gflops : ℚ) (m : Nat) (x : ℚ) :
    (Tok.maximo m x ∈ report_toks results num_methods sizes num_sizes peak_gflops ↔
      m < num_methods ∧ valid_samples results m num_sizes ≠ [] ∧
        x = (valid_samples results m num_sizes).foldl (fun a g => if g > a then g else a) 0) ∧
    (Tok.minimo m x ∈ report_toks results num_methods sizes num_sizes peak_gflops ↔
      m < num_methods ∧ valid_samples results m num_sizes ≠ [] ∧
        x = (valid_samples results m num_sizes).foldl (fun a g => if g < a then g else a)
          (10 ^ 9)) ∧
    (Tok.media m x ∈ report_toks results num_methods sizes num_sizes peak_gflops ↔
      m < num_methods ∧ valid_samples results m num_sizes ≠ [] ∧
        x = (valid_samples results m num_sizes).sum /
          ((valid_samples results m num_sizes).length : ℚ)) ∧
    (Tok.eficiencia_media m x ∈ report_toks results num_methods sizes num_sizes peak_gflops ↔
      m < num_methods ∧ valid_samples results m num_sizes ≠ [] ∧
        x = (valid_samples results m num_sizes).sum /
          ((valid_samples results m num_sizes).length : ℚ) / peak_gflops * 100) := by
  refine ⟨?_, ?_, ?_, ?_⟩
  · obtain ⟨n1, n2, n3, n4⟩ := stat_not_in_tables (Tok.maximo m x) results num_methods sizes
      num_sizes (Or.inl ⟨m, x, rfl⟩)
    simp only [mem_report_toks, n1, n2, n3, n4, false_or]
    constructor
    · rintro ⟨m', hm', h⟩
      unfold resumo_toks at h
      split_ifs at h with hv
      · simp at h
      · simp only [List.mem_cons, Tok.maximo.injEq, List.mem_singleton, List.not_mem_nil,
          or_false, false_or, reduceCtorEq] at h
        obtain ⟨rfl, rfl⟩ := h
        exact ⟨hm', hv, rfl⟩
    · rintro ⟨hm, hv, rfl⟩
      exact ⟨m, hm, by simp [resumo_toks, hv]⟩
  · obtain ⟨n1, n2, n3, n4⟩ := stat_not_in_tables (Tok.minimo m x) results num_methods sizes
      num_sizes (Or.inr (Or.inl ⟨m, x, rfl⟩))
    simp only [mem_report_toks, n1, n2, n3, n4, false_or]
    constructor
    · rintro ⟨m', hm', h⟩
      unfold resumo_toks at h
      split_ifs at h with hv
      · simp at h
      · simp only [List.mem_cons, Tok.minimo.injEq, List.mem_singleton, List.not_mem_nil,
          or_false, false_or, reduceCtorEq] at h
        obtain ⟨rfl, rfl⟩ := h
        exact ⟨hm', hv, rfl⟩
    · rintro ⟨hm, hv, rfl⟩
      exact ⟨m, hm, by simp [resumo_toks, hv]⟩
  · obtain ⟨n1, n2, n3, n4⟩ := stat_not_in_tables (Tok.media m x) results num_methods sizes
      num_sizes (Or.inr (Or.inr (Or.inl ⟨m, x, rfl⟩)))
    simp only [mem_report_toks, n1, n2, n3, n4, false_or]
    constructor
    · rintro ⟨m', hm', h⟩
      unfold resumo_toks at h
      split_ifs at h with hv
      · simp at h
      · simp only [List.mem_cons, Tok.media.injEq, List.mem_singleton, List.not_mem_nil,
          or_false, false_or, reduceCtorEq] at h
        obtain ⟨rfl, rfl⟩ := h
        exact ⟨hm', hv, rfl⟩
    · rintro ⟨hm, hv, rfl⟩
      exact ⟨m, hm, by simp [resumo_toks, hv]⟩
  · obtain ⟨n1, n2, n3, n4⟩ := stat_not_in_tables (Tok.eficiencia_media m x) results
      num_methods sizes num_sizes (Or.inr (Or.inr (Or.inr ⟨m, x, rfl⟩)))
    simp only [mem_report_toks, n1, n2, n3, n4, false_or]
    constructor
    · rintro ⟨m', hm', h⟩
      unfold resumo_toks at h
      split_ifs at h with hv
      · simp at h
      · simp only [List.mem_cons, Tok.eficiencia_media.injEq, List.mem_singleton,
          List.not_mem_nil, or_false, false_or, reduceCtorEq] at h
        obtain ⟨rfl, rfl⟩ := h
        exact ⟨hm', hv, rfl⟩
    · rintro ⟨hm, hv, rfl⟩
      exact ⟨m, hm, by simp [resumo_toks, hv]⟩

theorem one_size_table_ok (g0 g1 g2 t0 t1 t2 e0 e1 e2 : ℚ) (n : Int) :
    TableOK (one_size_table g0 g1 g2 t0 t1 t2 e0 e1 e2) MAX_METHODS [n] 1 := by
  simp [TableOK, one_size_table, MAX_METHODS]

theorem one_size_table_gflops (g0 g1 g2 t0 t1 t2 e0 e1 e2 : ℚ) :
    gflops_at (one_size_table g0 g1 g2 t0 t1 t2 e0 e1 e2) 0 0 = g0 ∧
    gflops_at (one_size_table g0 g1 g2 t0 t1 t2 e0 e1 e2) 1 0 = g1 ∧
    gflops_at (one_size_table g0 g1 g2 t0 t1 t2 e0 e1 e2) 2 0 = g2 := by
  simp [gflops_at, one_size_table]

/-! ## Claims C11 – C14: the report of `print_results_matrix` -/

/-- C11, counterexample: a naive throughput `g0 = 1` and a method throughput `g1 = 0` (and
`g2 = 2`) at size index 0. `print_results_matrix` returns, and its speedup table shows
`"N/A"` for method 1, not the quotient `g1 / g0 = 0`; method 2 shows `2 / 1`. With a
non-zero but negative naive throughput the ternary of `dgemm_aprimorado.c` gives `0`, not
`g1 / g0`. -/
theorem speedup_zero_throughput_counterexample :
    ∃ out, print_results_matrix (one_size_table 1 0 2 1 1 1 0 0 0) MAX_METHODS [64] 1 384 [] =
        some out ∧
      gflops_at (one_size_table 1 0 2 1 1 1 0 0 0) 0 0 = 1 ∧
      gflops_at (one_size_table 1 0 2 1 1 1 0 0 0) 1 0 = 0 ∧
      Tok.speedup_na 0 1 ∈ out ∧ (∀ x, Tok.speedup_cell 0 1 x ∉ out) ∧
      Tok.speedup_cell 0 2 (2 / 1) ∈ out ∧
      speedup_avx (-1) 1 = 0 ∧ speedup_avx (-1) 1 ≠ 1 / (-1) := by
  obtain ⟨h0, h1, h2⟩ := one_size_table_gflops 1 0 2 1 1 1 0 0 0
  refine ⟨_, print_results_matrix_eq (one_size_table_ok _ _ _ _ _ _ _ _ _ 64) 384 [],
    h0, h1, ?_, ?_, ?_, ?_, ?_⟩
  · rw [List.nil_append, speedup_na_mem_report]
    refine ⟨by decide, by decide, by decide, ?_⟩
    rw [h1]; norm_num
  · intro x
    rw [List.nil_append, speedup_cell_mem_report]
    rintro ⟨-, -, -, -, h, -⟩
    rw [h1] at h
    exact lt_irrefl _ h
  · rw [List.nil_append, speedup_cell_mem_report]
    refine ⟨by decide, by decide, by decide, ?_, ?_, ?_⟩
    · rw [h0]; norm_num
    · rw [h2]; norm_num
    · rw [h0, h2]
  · norm_num [speedup_avx]
  · norm_num [speedup_avx]

/-- C11, amended: speedup relative to the naive method, for positive throughputs. For every
result table, every size index `s < num_sizes` and throughputs `g0, g1, g2 > 0` of the
three methods at `s`, `print_results_matrix` returns and row `s` of its speedup table shows
exactly the quotients `g1 / g0` (method 1) and `g2 / g0` (method 2), never `"N/A"`; both
are `> 0`; and the ternaries of `dgemm_aprimorado.c` give the same quotients. -/
theorem print_results_matrix_speedups (results : List MethodResult) (sizes : List Int)
    (num_sizes : Nat) (peak_gflops : ℚ) (s : Nat) (g0 g1 g2 : ℚ)
    (h : TableOK results MAX_METHODS sizes num_sizes) (hs : s < num_sizes)
    (e0 : gflops_at results 0 s = g0) (e1 : gflops_at results 1 s = g1)
    (e2 : gflops_at results 2 s = g2) (h0 : 0 < g0) (h1 : 0 < g1) (h2 : 0 < g2) :
    ∃ out, print_results_matrix results MAX_METHODS sizes num_sizes peak_gflops [] = some out ∧
      (∀ m x, Tok.speedup_cell s m x ∈ out ↔ (m = 1 ∧ x = g1 / g0) ∨ (m = 2 ∧ x = g2 / g0)) ∧
      (∀ m, Tok.speedup_na s m ∉ out) ∧
      0 < g1 / g0 ∧ 0 < g2 / g0 ∧
      speedup_avx g0 g1 = g1 / g0 ∧ speedup_block g0 g2 = g2 / g0 := by
  refine ⟨_, print_results_matrix_eq h peak_gflops [], ?_, ?_, div_pos h1 h0, div_pos h2 h0,
    by simp [speedup_avx, h0], by simp [speedup_block, h0]⟩
  · intro m x
    rw [List.nil_append, speedup_cell_mem_report]
    constructor
    · rintro ⟨-, hm1, hm3, -, -, hx⟩
      have hm : m = 1 ∨ m = 2 := by simp only [MAX_METHODS] at hm3; omega
      rcases hm with rfl | rfl
      · exact Or.inl ⟨rfl, by rw [hx, e0, e1]⟩
      · exact Or.inr ⟨rfl, by rw [hx, e0, e2]⟩
    · rintro (⟨rfl, rfl⟩ | ⟨rfl, rfl⟩)
      · exact ⟨hs, le_refl _, by decide, by rw [e0]; exact h0, by rw [e1]; exact h1,
          by rw [e0, e1]⟩
      · exact ⟨hs, by decide, by decide, by rw [e0]; exact h0, by rw [e2]; exact h2,
          by rw [e0, e2]⟩
  · intro m
    rw [List.nil_append, speedup_na_mem_report]
    rintro ⟨-, hm1, hm3, hna⟩
    have hm : m = 1 ∨ m = 2 := by simp only [MAX_METHODS] at hm3; omega
    rcases hm with rfl | rfl
    · rw [e0, e1] at hna
      exact hna ⟨h0, h1⟩
    · rw [e0, e2] at hna
      exact hna ⟨h0, h2⟩

/-- Witness for C11 (amended): throughputs 1, 3 and 4 at the single size 64. -/
theorem print_results_matrix_speedups_witness :
    ∃ out, print_results_matrix (one_size_table 1 3 4 1 1 1 0 0 0) MAX_METHODS [64] 1 384 [] =
        some out ∧
      (∀ m x, Tok.speedup_cell 0 m x ∈ out ↔ (m = 1 ∧ x = 3 / 1) ∨ (m = 2 ∧ x = 4 / 1)) ∧
      (∀ m, Tok.speedup_na 0 m ∉ out) ∧
      (0 : ℚ) < 3 / 1 ∧ (0 : ℚ) < 4 / 1 ∧
      speedup_avx 1 3 = 3 / 1 ∧ speedup_block 1 4 = 4 / 1 :=
  print_results_matrix_speedups (one_size_table 1 3 4 1 1 1 0 0 0) [64] 1 384 0 1 3 4
    (one_size_table_ok _ _ _ _ _ _ _ _ _ 64) (by decide)
    (one_size_table_gflops 1 3 4 1 1 1 0 0 0).1 (one_size_table_gflops 1 3 4 1 1 1 0 0 0).2.1
    (one_size_table_gflops 1 3 4 1 1 1 0 0 0).2.2 (by norm_num) (by norm_num) (by norm_num)

/-- The running maximum `if (g > max) max = g` over a list, from `a`: it is `a` or an
element, it is at least `a`, and it bounds every element. -/
theorem foldl_max_spec (l : List ℚ) (a : ℚ) :
    (l.foldl (fun a g => if g > a then g else a) a = a ∨
      l.foldl (fun a g => if g > a then g else a) a ∈ l) ∧
    a ≤ l.foldl (fun a g => if g > a then g else a) a ∧
    ∀ v ∈ l, v ≤ l.foldl (fun a g => if g > a then g else a) a := by
  induction l generalizing a with
  | nil => simp
  | cons g l ih =>
    simp only [List.foldl_cons]
    obtain ⟨h1, h2, h3⟩ := ih (if g > a then g else a)
    have ha : a ≤ (if g > a then g else a) := by split_ifs with hc <;> [exact le_of_lt hc; exact le_refl _]
    have hg : g ≤ (if g > a then g else a) := by
      split_ifs with hc <;> [exact le_refl _; exact not_lt.mp hc]
    refine ⟨?_, le_trans ha h2, ?_⟩
    · rcases h1 with h1 | h1
      · rw [h1]
        split_ifs
        · exact Or.inr (List.mem_cons_self _ _)
        · exact Or.inl rfl
      · exact Or.inr (List.mem_cons_of_mem _ h1)
    · intro v hv
      rcases List.mem_cons.mp hv with rfl | hv
      · exact le_trans hg h2
      · exact h3 v hv

/-- The running minimum `if (g < min) min = g` over a list, from `a`: it is `a` or an
element, it is at most `a`, and it is below every element. -/
theorem foldl_min_spec (l : List ℚ) (a : ℚ) :
    (l.foldl (fun a g => if g < a then g else a) a = a ∨
      l.foldl (fun a g => if g < a then g else a) a ∈ l) ∧
    l.foldl (fun a g => if g < a then g else a) a ≤ a ∧
    ∀ v ∈ l, l.foldl (fun a g => if g < a then g else a) a ≤ v := by
  induction l generalizing a with
  | nil => simp
  | cons g l ih =>
    simp only [List.foldl_cons]
    obtain ⟨h1, h2, h3⟩ := ih (if g < a then g else a)
    have ha : (if g < a then g else a) ≤ a := by split_ifs with hc <;> [exact le_of_lt hc; exact le_refl _]
    have hg : (if g < a then g else a) ≤ g := by
      split_ifs with hc <;> [exact le_refl _; exact not_lt.mp hc]
    refine ⟨?_, le_trans h2 ha, ?_⟩
    · rcases h1 with h1 | h1
      · rw [h1]
        split_ifs
        · exact Or.inr (List.mem_cons_self _ _)
        · exact Or.inl rfl
      · exact Or.inr (List.mem_cons_of_mem _ h1)
    · intro v hv
      rcases List.mem_cons.mp hv with rfl | hv
      · exact le_trans h2 hg
      · exact h3 v hv

theorem map_getD_range (l : List ℚ) (k : Nat) (hk : k ≤ l.length) :
    (List.range' 0 k).map (fun s => l.getD s 0) = l.take k := by
  apply List.ext_getElem?
  intro i
  by_cases hi : i < k
  · have hl : i < l.length := lt_of_lt_of_le hi hk
    simp [List.getElem?_take, hi, List.getElem?_range', hl, List.getD_eq_getElem?_getD]
  · have h1 : (List.take k l).length ≤ i := by simp; omega
    have h2 : ((List.range' 0 k).map (fun s => l.getD s 0)).length ≤ i := by simp; omega
    rw [List.getElem?_eq_none h1, List.getElem?_eq_none h2]

/-- The valid samples of method `m` are the entries `> 0` among the first `num_sizes` of
its row, in order. -/
theorem valid_samples_eq_row {results : List MethodResult} {m num_sizes : Nat}
    {row : MethodResult} (hrow : results[m]? = some row) (hk : num_sizes ≤ row.gflops.length) :
    valid_samples results m num_sizes =
      (row.gflops.take num_sizes).filter (fun g => decide (g > 0)) := by
  have e : gflops_at results m = fun s => row.gflops.getD s 0 := by
    funext s; simp [gflops_at, hrow]
  rw [valid_samples, e, map_getD_range _ _ hk]

theorem filter_pos_of_filter_ne_zero (l : List ℚ) :
    l.filter (fun g => decide (g > 0)) =
      (l.filter (fun g => decide (g ≠ 0))).filter (fun g => decide (g > 0)) := by
  rw [List.filter_filter]
  apply List.filter_congr
  intro x _
  by_cases hx : x > 0
  · simp [hx, ne_of_gt hx]
  · simp [hx]

theorem TableOK.row_of {results : List MethodResult} {num_methods num_sizes : Nat}
    {sizes : List Int} (h : TableOK results num_methods sizes num_sizes) {m : Nat}
    {row : MethodResult} (hrow : results[m]? = some row) : num_sizes ≤ row.gflops.length := by
  obtain ⟨hlt, e⟩ := List.getElem?_eq_some_iff.mp hrow
  exact (h.2.2 row (e ▸ List.getElem_mem hlt)).1

/-- C12: zero or missing sizes are excluded from the summary statistics. For every method
row and every `num_sizes`, with `pos` the entries `> 0` among the first `num_sizes` of the
row: `print_results_matrix` returns; the mean it prints is `sum pos / length pos`; when `pos`
is empty none of the four statistic lines is printed; and a second table whose row has the
same non-zero entries in the same order (zeros inserted or removed anywhere) prints the
same maximum, minimum and mean. -/
theorem summary_excludes_zero_entries (results : List MethodResult) (num_methods : Nat)
    (sizes : List Int) (num_sizes : Nat) (peak_gflops : ℚ) (m : Nat) (row : MethodResult)
    (h : TableOK results num_methods sizes num_sizes) (hm : m < num_methods)
    (hrow : results[m]? = some row) :
    ∃ out, print_results_matrix results num_methods sizes num_sizes peak_gflops [] = some out ∧
      (∀ x, Tok.media m x ∈ out ↔
        (row.gflops.take num_sizes).filter (fun g => decide (g > 0)) ≠ [] ∧
        x = ((row.gflops.take num_sizes).filter (fun g => decide (g > 0))).sum /
          ((((row.gflops.take num_sizes).filter (fun g => decide (g > 0))).length : Nat) : ℚ)) ∧
      ((row.gflops.take num_sizes).filter (fun g => decide (g > 0)) = [] →
        ∀ x, Tok.maximo m x ∉ out ∧ Tok.minimo m x ∉ out ∧ Tok.media m x ∉ out ∧
          Tok.eficiencia_media m x ∉ out) ∧
      (∀ (results' : List MethodResult) (sizes' : List Int) (num_sizes' : Nat)
          (row' : MethodResult),
        TableOK results' num_methods sizes' num_sizes' → results'[m]? = some row' →
        (row'.gflops.take num_sizes').filter (fun g => decide (g ≠ 0)) =
          (row.gflops.take num_sizes).filter (fun g => decide (g ≠ 0)) →
        ∃ out', print_results_matrix results' num_methods sizes' num_sizes' peak_gflops [] =
            some out' ∧
          ∀ x, (Tok.maximo m x ∈ out' ↔ Tok.maximo m x ∈ out) ∧
            (Tok.minimo m x ∈ out' ↔ Tok.minimo m x ∈ out) ∧
            (Tok.media m x ∈ out' ↔ Tok.media m x ∈ out)) := by
  have hk : num_sizes ≤ row.gflops.length := (TableOK.row_of h hrow)
  have hv := valid_samples_eq_row hrow hk
  refine ⟨_, print_results_matrix_eq h peak_gflops [], ?_, ?_, ?_⟩
  · intro x
    rw [List.nil_append, (stats_mem_report results num_methods sizes num_sizes peak_gflops m
      x).2.2.1, hv]
    simp only [hm, true_and]
  · intro he x
    simp only [List.nil_append,
      (stats_mem_report results num_methods sizes num_sizes peak_gflops m x).1,
      (stats_mem_report results num_methods sizes num_sizes peak_gflops m x).2.1,
      (stats_mem_report results num_methods sizes num_sizes peak_gflops m x).2.2.1,
      (stats_mem_report results num_methods sizes num_sizes peak_gflops m x).2.2.2, hv, he]
    simp
  · intro results' sizes' num_sizes' row' h' hrow' hsame
    have hk' : num_sizes' ≤ row'.gflops.length := (TableOK.row_of h' hrow')
    have hv' : valid_samples results' m num_sizes' = valid_samples results m num_sizes := by
      rw [valid_samples_eq_row hrow' hk', hv, filter_pos_of_filter_ne_zero, hsame,
        ← filter_pos_of_filter_ne_zero]
    refine ⟨_, print_results_matrix_eq h' peak_gflops [], fun x => ?_⟩
    simp only [List.nil_append,
      (stats_mem_report results num_methods sizes num_sizes peak_gflops m x).1,
      (stats_mem_report results num_methods sizes num_sizes peak_gflops m x).2.1,
      (stats_mem_report results num_methods sizes num_sizes peak_gflops m x).2.2.1,
      (stats_mem_report results' num_methods sizes' num_sizes' peak_gflops m x).1,
      (stats_mem_report results' num_methods sizes' num_sizes' peak_gflops m x).2.1,
      (stats_mem_report results' num_methods sizes' num_sizes' peak_gflops m x).2.2.1, hv',
      and_self]

/-- Witness for C12: the naive row of a table with one measured size. -/
theorem summary_excludes_zero_entries_witness :
    ∃ out, print_results_matrix (one_size_table 1 3 4 1 1 1 0 0 0) MAX_METHODS [64] 1 384 [] =
        some out ∧
      (∀ x, Tok.media 0 x ∈ out ↔
        (([1, 0, 0, 0, 0, 0, 0] : List ℚ).take 1).filter (fun g => decide (g > 0)) ≠ [] ∧
        x = ((([1, 0, 0, 0, 0, 0, 0] : List ℚ).take 1).filter (fun g => decide (g > 0))).sum /
          ((((([1, 0, 0, 0, 0, 0, 0] : List ℚ).take 1).filter
            (fun g => decide (g > 0))).length : Nat) : ℚ)) ∧
      ((([1, 0, 0, 0, 0, 0, 0] : List ℚ).take 1).filter (fun g => decide (g > 0)) = [] →
        ∀ x, Tok.maximo 0 x ∉ out ∧ Tok.minimo 0 x ∉ out ∧ Tok.media 0 x ∉ out ∧
          Tok.eficiencia_media 0 x ∉ out) ∧
      (∀ (results' : List MethodResult) (sizes' : List Int) (num_sizes' : Nat)
          (row' : MethodResult),
        TableOK results' MAX_METHODS sizes' num_sizes' → results'[0]? = some row' →
        (row'.gflops.take num_sizes').filter (fun g => decide (g ≠ 0)) =
          (([1, 0, 0, 0, 0, 0, 0] : List ℚ).take 1).filter (fun g => decide (g ≠ 0)) →
        ∃ out', print_results_matrix results' MAX_METHODS sizes' num_sizes' 384 [] =
            some out' ∧
          ∀ x, (Tok.maximo 0 x ∈ out' ↔ Tok.maximo 0 x ∈ out) ∧
            (Tok.minimo 0 x ∈ out' ↔ Tok.minimo 0 x ∈ out) ∧
            (Tok.media 0 x ∈ out' ↔ Tok.media 0 x ∈ out)) :=
  summary_excludes_zero_entries (one_size_table 1 3 4 1 1 1 0 0 0) MAX_METHODS [64] 1 384 0
    { name := "Naive (IKJ)", gflops := [1, 0, 0, 0, 0, 0, 0], time := [1, 0, 0, 0, 0, 0, 0],
      efficiency := [0, 0, 0, 0, 0, 0, 0] }
    (one_size_table_ok _ _ _ _ _ _ _ _ _ 64) (by decide) rfl

/-- C13, counterexample: a row whose only valid entry is `2 * 10^9`. The summary prints the
maximum `2 * 10^9` and the minimum `10^9`, the initial value of `min_gflops`, which is not
an entry of the row. -/
theorem summary_min_sentinel_counterexample :
    ∃ out, print_results_matrix (one_size_table (2 * 10 ^ 9) 3 4 1 1 1 0 0 0) MAX_METHODS
        [64] 1 384 [] = some out ∧
      valid_samples (one_size_table (2 * 10 ^ 9) 3 4 1 1 1 0 0 0) 0 1 = [2 * 10 ^ 9] ∧
      Tok.maximo 0 (2 * 10 ^ 9) ∈ out ∧ Tok.minimo 0 (10 ^ 9) ∈ out ∧
      ∀ x, Tok.minimo 0 x ∈ out → x ≠ 2 * 10 ^ 9 := by
  have hv : valid_samples (one_size_table (2 * 10 ^ 9) 3 4 1 1 1 0 0 0) 0 1 = [2 * 10 ^ 9] := by
    have hr : (one_size_table (2 * 10 ^ 9) 3 4 1 1 1 0 0 0)[0]? = some
        (MethodResult.mk "Naive (IKJ)" [2 * 10 ^ 9, 0, 0, 0, 0, 0, 0] [1, 0, 0, 0, 0, 0, 0]
          [0, 0, 0, 0, 0, 0, 0]) := rfl
    rw [valid_samples_eq_row hr (by simp)]
    norm_num
  refine ⟨_, print_results_matrix_eq (one_size_table_ok _ _ _ _ _ _ _ _ _ 64) 384 [], hv,
    ?_, ?_, ?_⟩
  · rw [List.nil_append, (stats_mem_report _ _ _ _ _ _ _).1, hv]
    refine ⟨by decide, by simp, ?_⟩
    norm_num
  · rw [List.nil_append, (stats_mem_report _ _ _ _ _ _ _).2.1, hv]
    refine ⟨by decide, by simp, ?_⟩
    norm_num
  · intro x hx
    rw [List.nil_append, (stats_mem_report _ _ _ _ _ _ _).2.1, hv] at hx
    rw [hx.2.2]
    norm_num

/-- C13, amended: summary maximum and minimum are the true extremes, for rows with a valid
entry that is at most `10^9`. For every method row with an entry `g` among its first
`num_sizes` such that `0 < g ≤ 10^9`, `print_results_matrix` returns and prints, for that
method, one maximum `mx` and one minimum `mn`, both valid entries of the row, with
`mn ≤ v ≤ mx` for every valid entry `v`. -/
theorem summary_extremes (results : List MethodResult) (num_methods : Nat)
    (sizes : List Int) (num_sizes : Nat) (peak_gflops : ℚ) (m : Nat) (row : MethodResult)
    (g : ℚ) (h : TableOK results num_methods sizes num_sizes) (hm : m < num_methods)
    (hrow : results[m]? = some row) (hg : g ∈ row.gflops.take num_sizes) (hpos : 0 < g)
    (hle : g ≤ 10 ^ 9) :
    ∃ out mx mn,
      print_results_matrix results num_methods sizes num_sizes peak_gflops [] = some out ∧
      (∀ x, Tok.maximo m x ∈ out ↔ x = mx) ∧ (∀ x, Tok.minimo m x ∈ out ↔ x = mn) ∧
      (mx ∈ row.gflops.take num_sizes ∧ 0 < mx) ∧ (mn ∈ row.gflops.take num_sizes ∧ 0 < mn) ∧
      ∀ v ∈ row.gflops.take num_sizes, 0 < v → mn ≤ v ∧ v ≤ mx := by
  have hk : num_sizes ≤ row.gflops.length := (TableOK.row_of h hrow)
  have hv := valid_samples_eq_row hrow hk
  have hmem : ∀ v, v ∈ valid_samples results m num_sizes ↔
      v ∈ row.gflops.take num_sizes ∧ 0 < v := by
    intro v; rw [hv]; simp
  have hgv : g ∈ valid_samples results m num_sizes := (hmem g).2 ⟨hg, hpos⟩
  have hne : valid_samples results m num_sizes ≠ [] := List.ne_nil_of_mem hgv
  obtain ⟨a1, a2, a3⟩ := foldl_max_spec (valid_samples results m num_sizes) 0
  obtain ⟨b1, b2, b3⟩ := foldl_min_spec (valid_samples results m num_sizes) (10 ^ 9)
  refine ⟨_, _, _, print_results_matrix_eq h peak_gflops [], fun x => ?_, fun x => ?_,
    ?_, ?_, fun v hv1 hv2 => ⟨b3 v ((hmem v).2 ⟨hv1, hv2⟩), a3 v ((hmem v).2 ⟨hv1, hv2⟩)⟩⟩
  · rw [List.nil_append, (stats_mem_report _ _ _ _ _ _ _).1]
    simp only [hm, hne, true_and, ne_eq, not_false_eq_true]
  · rw [List.nil_append, (stats_mem_report _ _ _ _ _ _ _).2.1]
    simp only [hm, hne, true_and, ne_eq, not_false_eq_true]
  · rcases a1 with a1 | a1
    · have := a3 g hgv
      rw [a1] at this
      exact absurd hpos (not_lt.mpr this)
    · exact (hmem _).1 a1
  · rcases b1 with b1 | b1
    · have h1 := b3 g hgv
      rw [b1] at h1
      have hg9 : g = 10 ^ 9 := le_antisymm hle h1
      rw [b1, ← hg9]
      exact ⟨hg, hpos⟩
    · exact (hmem _).1 b1

/-- Witness for C13 (amended): the naive row of a table with one measured size. -/
theorem summary_extremes_witness :
    ∃ out mx mn,
      print_results_matrix (one_size_table 1 3 4 1 1 1 0 0 0) MAX_METHODS [64] 1 384 [] =
        some out ∧
      (∀ x, Tok.maximo 0 x ∈ out ↔ x = mx) ∧ (∀ x, Tok.minimo 0 x ∈ out ↔ x = mn) ∧
      (mx ∈ ([1, 0, 0, 0, 0, 0, 0] : List ℚ).take 1 ∧ 0 < mx) ∧
      (mn ∈ ([1, 0, 0, 0, 0, 0, 0] : List ℚ).take 1 ∧ 0 < mn) ∧
      ∀ v ∈ ([1, 0, 0, 0, 0, 0, 0] : List ℚ).take 1, 0 < v → mn ≤ v ∧ v ≤ mx :=
  summary_extremes (one_size_table 1 3 4 1 1 1 0 0 0) MAX_METHODS [64] 1 384 0
    { name := "Naive (IKJ)", gflops := [1, 0, 0, 0, 0, 0, 0], time := [1, 0, 0, 0, 0, 0, 0],
      efficiency := [0, 0, 0, 0, 0, 0, 0] } 1
    (one_size_table_ok _ _ _ _ _ _ _ _ _ 64) (by decide) rfl (by simp) (by norm_num)
    (by norm_num)

theorem valid_samples_eq_map (results : List MethodResult) (m num_sizes : Nat) :
    valid_samples results m num_sizes =
      (valid_sizes results m num_sizes).map (gflops_at results m) := by
  rw [valid_samples, valid_sizes, List.filter_map]
  rfl

theorem sum_map_div_mul (l : List Nat) (f : Nat → ℚ) (p c : ℚ) :
    (l.map (fun s => f s / p * c)).sum = (l.map f).sum / p * c := by
  induction l with
  | nil => simp
  | cons a l ih => simp only [List.map_cons, List.sum_cons, ih]; ring

theorem mem_valid_sizes {results : List MethodResult} {m num_sizes s : Nat}
    (h : s ∈ valid_sizes results m num_sizes) : s < num_sizes ∧ 0 < gflops_at results m s := by
  simp only [valid_sizes, List.mem_filter, List.mem_range', decide_eq_true_eq] at h
  obtain ⟨⟨i, hi, rfl⟩, hg⟩ := h
  exact ⟨by omega, hg⟩

/-- C14: the summary's mean efficiency against the stored efficiencies. For every peak `p`
and every method row with a valid size whose `efficiency[s]` are what `run_benchmark` stores
for that `p` (`gflops[s] / p * 100` when `p > 0`, else `0`), `print_results_matrix` returns
and prints one mean efficiency `x` for the method. When `p > 0`, `x` is the arithmetic mean
of `efficiency[s]` over the valid sizes. When `p < 0`, that mean is `0` but the printed `x`
is negative: the summary divides by `p` without the guard of `run_benchmark`. -/
theorem summary_efficiency_unguarded (results : List MethodResult) (num_methods : Nat)
    (sizes : List Int) (num_sizes : Nat) (p : ℚ) (m : Nat)
    (h : TableOK results num_methods sizes num_sizes) (hm : m < num_methods)
    (hv : valid_samples results m num_sizes ≠ [])
    (heff : ∀ s, s < num_sizes → efficiency_at results m s =
      if p > 0 then gflops_at results m s / p * 100 else 0) :
    ∃ out x, print_results_matrix results num_methods sizes num_sizes p [] = some out ∧
      (∀ y, Tok.eficiencia_media m y ∈ out ↔ y = x) ∧
      (0 < p → x = efficiency_mean results m num_sizes) ∧
      (p < 0 → x < 0 ∧ efficiency_mean results m num_sizes = 0) := by
  refine ⟨_, (valid_samples results m num_sizes).sum /
      ((valid_samples results m num_sizes).length : ℚ) / p * 100,
    print_results_matrix_eq h p [], fun y => ?_, fun hp => ?_, fun hp => ⟨?_, ?_⟩⟩
  · rw [List.nil_append, (stats_mem_report _ _ _ _ _ _ _).2.2.2]
    simp only [hm, hv, true_and, ne_eq, not_false_eq_true]
  · have e : (valid_sizes results m num_sizes).map (efficiency_at results m) =
        (valid_sizes results m num_sizes).map (fun s => gflops_at results m s / p * 100) := by
      apply List.map_congr_left
      intro s hs
      rw [heff s (mem_valid_sizes hs).1, if_pos hp]
    rw [efficiency_mean, e, sum_map_div_mul, valid_samples_eq_map, List.length_map]
    ring
  · have hpos : ∀ v ∈ valid_samples results m num_sizes, 0 < v := by
      intro v hv'
      simp only [valid_samples, List.mem_filter, decide_eq_true_eq] at hv'
      exact hv'.2
    have hsum : 0 < (valid_samples results m num_sizes).sum := List.sum_pos _ hpos hv
    have hlen : (0 : ℚ) < ((valid_samples results m num_sizes).length : ℚ) := by
      exact_mod_cast List.length_pos.mpr hv
    exact mul_neg_of_neg_of_pos (div_neg_of_pos_of_neg (div_pos hsum hlen) hp) (by norm_num)
  · have e : (valid_sizes results m num_sizes).map (efficiency_at results m) =
        (valid_sizes results m num_sizes).map (fun _ => (0 : ℚ)) := by
      apply List.map_congr_left
      intro s hs
      rw [heff s (mem_valid_sizes hs).1, if_neg (not_lt.mpr (le_of_lt hp))]
    rw [efficiency_mean, e]
    simp

/-- Witness for C14: peak `-1`, a naive row with `gflops[0] = 2` and the `efficiency[0] = 0`
that `run_benchmark` stores for a non-positive peak. -/
theorem summary_efficiency_unguarded_witness :
    ∃ out x, print_results_matrix (one_size_table 2 3 4 1 1 1 0 0 0) MAX_METHODS [64] 1 (-1) [] =
        some out ∧
      (∀ y, Tok.eficiencia_media 0 y ∈ out ↔ y = x) ∧
      ((0 : ℚ) < -1 → x = efficiency_mean (one_size_table 2 3 4 1 1 1 0 0 0) 0 1) ∧
      ((-1 : ℚ) < 0 → x < 0 ∧ efficiency_mean (one_size_table 2 3 4 1 1 1 0 0 0) 0 1 = 0) :=
  summary_efficiency_unguarded (one_size_table 2 3 4 1 1 1 0 0 0) MAX_METHODS [64] 1 (-1) 0
    (one_size_table_ok _ _ _ _ _ _ _ _ _ 64) (by decide)
    (by
      have hr : (one_size_table 2 3 4 1 1 1 0 0 0)[0]? = some
          (MethodResult.mk "Naive (IKJ)" [2, 0, 0, 0, 0, 0, 0] [1, 0, 0, 0, 0, 0, 0]
            [0, 0, 0, 0, 0, 0, 0]) := rfl
      rw [valid_samples_eq_row hr (by simp)]
      norm_num)
    (by
      intro s hs
      have hs0 : s = 0 := by omega
      subst hs0
      norm_num [efficiency_at, gflops_at, one_size_table])

/-! ## Claim C21: the frequency lookup -/

theorem read_freq_no_info (sscanf_mhz : List Char → Option ℚ) (atof : List Char → ℚ)
    (lines : List (List Char)) (freq : ℚ)
    (h : ∀ line ∈ lines, strstr line "cpu MHz".toList = none ∧
      (strstr line "model name".toList = none ∨ strstr line "GHz".toList = none)) :
    read_freq sscanf_mhz atof lines freq = freq := by
  induction lines with
  | nil => rfl
  | cons line rest ih =>
    obtain ⟨h1, h2⟩ := h line (List.mem_cons_self _ _)
    have ih' := ih (fun l hl => h l (List.mem_cons_of_mem _ hl))
    unfold read_freq
    rw [h1]
    rcases h2 with h2 | h2
    · rw [h2]
      simpa using ih'
    · rw [h2]
      by_cases hm : (strstr line "model name".toList).isSome = true
      · simpa [hm] using ih'
      · simpa [hm] using ih'

/-- C21: the frequency lookup when no frequency is available. `get_cpu_freq` always
returns a value. When `/proc/cpuinfo` cannot be opened it returns the fallback `2.5`. When
the file opens but no line contains `"cpu MHz"` and no line contains both `"model name"`
and `"GHz"`, `freq` keeps its initial `0.0` and the function returns `0`, not `2.5`. -/
theorem get_cpu_freq_without_info (sscanf_mhz : List Char → Option ℚ)
    (atof : List Char → ℚ) (lines : List (List Char))
    (h : ∀ line ∈ lines, strstr line "cpu MHz".toList = none ∧
      (strstr line "model name".toList = none ∨ strstr line "GHz".toList = none)) :
    get_cpu_freq sscanf_mhz atof none = 5 / 2 ∧
    get_cpu_freq sscanf_mhz atof (some lines) = 0 ∧
    get_cpu_freq sscanf_mhz atof (some lines) ≠ 5 / 2 := by
  have e : get_cpu_freq sscanf_mhz atof (some lines) = 0 := by
    simp only [get_cpu_freq, read_freq_no_info sscanf_mhz atof lines 0 h]
    norm_num
  exact ⟨rfl, e, by rw [e]; norm_num⟩

/-- Witness for C21: a `/proc/cpuinfo` with a model name that carries no `"GHz"` and with
no `"cpu MHz"` line. -/
theorem get_cpu_freq_without_info_witness :
    get_cpu_freq (fun _ => none) (fun _ => 0) none = 5 / 2 ∧
    get_cpu_freq (fun _ => none) (fun _ => 0)
      (some ["processor : 0".toList, "model name : AMD EPYC 7B13".toList,
        "flags : fpu avx avx2 fma".toList]) = 0 ∧
    get_cpu_freq (fun _ => none) (fun _ => 0)
      (some ["processor : 0".toList, "model name : AMD EPYC 7B13".toList,
        "flags : fpu avx avx2 fma".toList]) ≠ 5 / 2 :=
  get_cpu_freq_without_info (fun _ => none) (fun _ => 0)
    ["processor : 0".toList, "model name : AMD EPYC 7B13".toList,
      "flags : fpu avx avx2 fma".toList] (by decide)

/-! ## Claims C22, C23: which products are added, and how often -/

theorem bspan_additive (n j : Nat) : Additive (bspan n j) := by
  constructor
  · intro a b h
    simp [bspan, span_additive.1 a b h]
  · intro a b c hab hbc
    simp only [bspan, ← List.map_append, span_additive.2 a b c hab hbc]

theorem bspan_succ (n j k : Nat) : bspan n j k (k + 1) = [k * n + j] := by
  simp [bspan, span_succ]

theorem at_point_from_zero (x : Nat) (L : List Nat) (N : Nat) :
    at_point x L 0 N = if x < N then L else [] := by
  simp [at_point]

theorem bspan_full (n j : Nat) : bspan n j 0 n = (List.range n).map (fun k => k * n + j) := by
  simp [bspan, span, List.range_eq_range']

theorem b_order_of_updates (n i j : Nat) (log : List Access) (U : List (Nat × Nat))
    {log' : List Access} (h : updates log' = U ++ updates log) :
    b_order n i j log' = b_order n i j log ++
      ((U.filter (fun u => decide (u.1 = i * n + j))).map (fun u => u.2)).reverse := by
  simp [b_order, h, List.filter_append]

/-- One scalar update `(i, k, j)` adds `k * n + j` to the feed of element `(i, j)` and
nothing to the feed of any other element. -/
theorem accum_feeds {n i0 j0 : Nat} (hj0 : j0 < n) (B : List ℚ) (r : ℚ) {i k j : Nat}
    (hj : j < n) :
    Feeds n i0 j0 (accum B r (i * n + j) (k * n + j))
      (if i = i0 ∧ j = j0 then [k * n + j0] else []) := by
  intro s s' e
  unfold accum at e
  split at e
  · simp only [Option.some.injEq] at e
    subst e
    rw [b_order_of_updates n i0 j0 s.log [(i * n + j, k * n + j)] (by simp [updates_scalar])]
    simp only [List.filter_cons, List.filter_nil, flat_eq_iff hj hj0]
    by_cases h : i = i0 ∧ j = j0
    · simp [h, flat_div hj0]
    · simp [h]
  · exact absurd e (by simp)

theorem accumA_feeds {n i0 j0 : Nat} (hj0 : j0 < n) (A B : List ℚ) {i k j : Nat}
    (hj : j < n) :
    Feeds n i0 j0 (accumA A B (i * n + j) (i * n + k) (k * n + j))
      (if i = i0 ∧ j = j0 then [k * n + j0] else []) := by
  intro s s' e
  unfold accumA loadA at e
  cases h : A[i * n + k]? with
  | none => rw [h] at e; exact absurd e (by simp)
  | some a =>
    rw [h] at e
    simp only at e
    have h1 : Feeds n i0 j0 (accum B a (i * n + j) (k * n + j))
        (if i = i0 ∧ j = j0 then [k * n + j0] else []) := accum_feeds hj0 B a hj
    rw [h1 _ s' e]
    simp [b_order, updates_skip_loadA]

/-- One 4-wide step at `(i, k, j)` adds `k * n + j` to the feed of the elements `(i, j) ..
(i, j + 3)` and nothing to the feed of any other element. -/
theorem vecStep_feeds {n i0 j0 : Nat} (hj0 : j0 < n) (fma : Bool) (B : List ℚ)
    (a_vec : m256d) {i k j : Nat} (hj : j + 4 ≤ n) :
    Feeds n i0 j0 (vecStep false fma B a_vec (i * n + j) (k * n + j))
      (if i = i0 ∧ j ≤ j0 ∧ j0 < j + 4 then [k * n + j0] else []) := by
  intro s s' e
  unfold vecStep at e
  split at e
  · simp only at e
    split at e
    · exact absurd e (by simp)
    · simp only [Option.some.injEq] at e
      subst e
      rw [b_order_of_updates n i0 j0 s.log
        [(i * n + j + 3, k * n + j + 3), (i * n + j + 2, k * n + j + 2),
         (i * n + j + 1, k * n + j + 1), (i * n + j, k * n + j)]
        (by simp [updates_vector])]
      have e0 : i * n + (j) = i0 * n + j0 ↔ i = i0 ∧ j = j0 :=
        flat_eq_iff (by omega) hj0
      have e1 : i * n + (j + 1) = i0 * n + j0 ↔ i = i0 ∧ j + 1 = j0 :=
        flat_eq_iff (by omega) hj0
      have e2 : i * n + (j + 2) = i0 * n + j0 ↔ i = i0 ∧ j + 2 = j0 :=
        flat_eq_iff (by omega) hj0
      have e3 : i * n + (j + 3) = i0 * n + j0 ↔ i = i0 ∧ j + 3 = j0 :=
        flat_eq_iff (by omega) hj0
      have d0 := flat_div (k := k) (by omega : j < n)
      have d1 := flat_div (k := k) (by omega : j + 1 < n)
      have d2 := flat_div (k := k) (by omega : j + 2 < n)
      have d3 := flat_div (k := k) (by omega : j + 3 < n)
      simp only [Nat.add_assoc] at e1 e2 e3 d1 d2 d3 ⊢
      simp only [List.filter_cons, List.filter_nil, e0, e1, e2, e3]
      by_cases hi : i = i0
      · subst hi
        by_cases h0 : j = j0
        · subst h0; simp [d0]
        by_cases h1 : j + 1 = j0
        · subst h1; simp [d1]
        by_cases h2 : j + 2 = j0
        · subst h2; simp [d2]
        by_cases h3 : j + 3 = j0
        · subst h3; simp [d3]
        · have : ¬ (j ≤ j0 ∧ j0 < j + 4) := by omega
          simp [h0, h1, h2, h3, this]
      · simp [hi]
  · exact absurd e (by simp)

theorem Feeds.recast {n i j : Nat} {f : KState → Option KState} {L L' : List Nat}
    (h : Feeds n i j f L) (e : L = L') : Feeds n i j f L' := e ▸ h

/-- Feed rule for any counting loop whose iteration `x` covers `[x, min (x + w) hi)`. -/
theorem forLoop_feeds {n i0 j0 : Nat} (cond : Nat → Bool) (w hi : Nat)
    (body : Nat → KState → Option KState) (F : Nat → Nat → List Nat)
    (hcond : ∀ x, cond x = true → x < hi) (hF : Additive F)
    (hbody : ∀ x, cond x = true → Feeds n i0 j0 (body x) (F x (min (x + w) hi))) :
    ∀ (fuel x0 : Nat) (s : KState) (r : Nat × KState),
      forLoop fuel cond w body x0 s = some r →
      x0 ≤ r.1 ∧ cond r.1 = false ∧
        b_order n i0 j0 r.2.log = b_order n i0 j0 s.log ++ F x0 (min r.1 hi) := by
  intro fuel
  induction fuel with
  | zero => intro x0 s r hr; simp [forLoop] at hr
  | succ fuel ih =>
    intro x0 s r hr
    by_cases hc : cond x0 = true
    · simp only [forLoop, hc, if_true] at hr
      cases hb : body x0 s with
      | none => rw [hb] at hr; exact absurd hr (by simp)
      | some s1 =>
        rw [hb] at hr
        obtain ⟨le, cf, ko⟩ := ih (x0 + w) s1 r hr
        have hlt := hcond x0 hc
        refine ⟨by omega, cf, ?_⟩
        rw [ko, hbody x0 hc s s1 hb, List.append_assoc]
        congr 1
        by_cases h : x0 + w ≤ hi
        · rw [min_eq_left h]
          exact hF.2 _ _ _ (by omega) (le_min le h)
        · have h1 : min (x0 + w) hi = hi := min_eq_right (by omega)
          have h2 : min r.1 hi = hi := min_eq_right (by omega)
          rw [h1, h2, hF.1 (x0 + w) hi (by omega), List.append_nil]
    · simp only [forLoop, hc] at hr
      simp only [Bool.false_eq_true, if_false, Option.some.injEq] at hr
      subst hr
      refine ⟨le_refl _, by simpa using hc, ?_⟩
      rw [hF.1 x0 (min x0 hi) (min_le_left _ _), List.append_nil]

theorem forLoop_range_feeds {n i0 j0 : Nat} (lo hi : Nat)
    (body : Nat → KState → Option KState) (F : Nat → Nat → List Nat) (hF : Additive F)
    (hbody : ∀ x, x < hi → Feeds n i0 j0 (body x) (F x (x + 1))) (fuel : Nat) :
    Feeds n i0 j0 (fun s => (forLoop fuel (fun x => decide (x < hi)) 1 body lo s).map Prod.snd)
      (F lo hi) := by
  intro s s' e
  simp only at e
  cases hr : forLoop fuel (fun x => decide (x < hi)) 1 body lo s with
  | none => rw [hr] at e; exact absurd e (by simp)
  | some r =>
    rw [hr] at e
    simp only [Option.map_some', Option.some.injEq] at e
    subst e
    obtain ⟨le, cf, ko⟩ := forLoop_feeds (fun x => decide (x < hi)) 1 hi body F
      (fun x hx => by simpa using hx) hF
      (fun x hx => by
        have hx' : x < hi := by simpa using hx
        rw [min_eq_left (by omega : x + 1 ≤ hi)]
        exact hbody x hx') fuel lo s r hr
    have hx' : hi ≤ r.1 := by simpa using cf
    rw [ko, min_eq_right hx']

theorem forLoop_tiles_feeds {n i0 j0 : Nat} (T N : Nat)
    (body : Nat → KState → Option KState) (F : Nat → Nat → List Nat) (hF : Additive F)
    (hbody : ∀ b, b < N → Feeds n i0 j0 (body b) (F b (tile_max T N b))) (fuel : Nat) :
    Feeds n i0 j0 (fun s => (forLoop fuel (fun b => decide (b < N)) T body 0 s).map Prod.snd)
      (F 0 N) := by
  intro s s' e
  simp only at e
  cases hr : forLoop fuel (fun b => decide (b < N)) T body 0 s with
  | none => rw [hr] at e; exact absurd e (by simp)
  | some r =>
    rw [hr] at e
    simp only [Option.map_some', Option.some.injEq] at e
    subst e
    obtain ⟨le, cf, ko⟩ := forLoop_feeds (fun b => decide (b < N)) T N body F
      (fun x hx => by simpa using hx) hF
      (fun x hx => by
        rw [← tile_max_eq]
        exact hbody x (by simpa using hx)) fuel 0 s r hr
    have hx' : N ≤ r.1 := by simpa using cf
    rw [ko, min_eq_right hx']

theorem forLoop_vec_feeds {n i0 j0 : Nat} (w lo hi : Nat) (cond : Nat → Bool)
    (hcond : ∀ x, cond x = true → x + w ≤ hi)
    (body : Nat → KState → Option KState) (F : Nat → Nat → List Nat) (hF : Additive F)
    (hbody : ∀ x, x + w ≤ hi → Feeds n i0 j0 (body x) (F x (x + w)))
    (hlo : lo ≤ hi) (hw : 0 < w) (fuel : Nat) (s : KState) (r : Nat × KState)
    (hr : forLoop fuel cond w body lo s = some r) :
    lo ≤ r.1 ∧ r.1 ≤ hi ∧ b_order n i0 j0 r.2.log = b_order n i0 j0 s.log ++ F lo r.1 := by
  obtain ⟨le, -, ko⟩ := forLoop_feeds cond w hi body F
    (fun x hx => by have := hcond x hx; omega) hF
    (fun x hx => by
      rw [min_eq_left (hcond x hx)]
      exact hbody x (hcond x hx)) fuel lo s r hr
  have hx' : r.1 ≤ hi := forLoop_counter_le cond w hi body hcond fuel lo s r.1 r.2 hlo hr
  exact ⟨le, hx', by rw [ko, min_eq_left hx']⟩

theorem b_order_loadA {n i0 j0 : Nat} {A : List ℚ} {ai : Nat} {s s1 : KState} {a : ℚ}
    (e : loadA A ai s = some (a, s1)) : b_order n i0 j0 s1.log = b_order n i0 j0 s.log := by
  unfold loadA at e
  cases h : A[ai]? with
  | none => rw [h] at e; exact absurd e (by simp)
  | some v =>
    rw [h] at e
    simp only [Option.some.injEq, Prod.mk.injEq] at e
    obtain ⟨-, rfl⟩ := e
    simp [b_order, updates_skip_loadA]

theorem scalar_loop_feeds {n i0 j0 : Nat} (hj0 : j0 < n) (A B : List ℚ) {i k j_max : Nat}
    (hjm : j_max ≤ n) (lo fuel : Nat) :
    Feeds n i0 j0 (fun s => (forLoop fuel (fun j => decide (j < j_max)) 1
      (fun j => accumA A B (i * n + j) (i * n + k) (k * n + j)) lo s).map Prod.snd)
      (at_point j0 (if i = i0 then [k * n + j0] else []) lo j_max) :=
  forLoop_range_feeds lo j_max _ (at_point j0 (if i = i0 then [k * n + j0] else []))
    (at_point_additive _ _)
    (fun j hj => (accumA_feeds hj0 A B (by omega : j < n)).recast (by
      rw [at_point_unit]
      by_cases h1 : i = i0 <;> by_cases h2 : j = j0 <;> simp [h1, h2])) fuel

theorem vecStep_feeds_at {n i0 j0 : Nat} (hj0 : j0 < n) (fma : Bool) (B : List ℚ)
    (a_vec : m256d) {i k j : Nat} (hj : j + 4 ≤ n) :
    Feeds n i0 j0 (vecStep false fma B a_vec (i * n + j) (k * n + j))
      (at_point j0 (if i = i0 then [k * n + j0] else []) j (j + 4)) :=
  (vecStep_feeds hj0 fma B a_vec hj).recast (by
    unfold at_point
    by_cases h1 : i = i0 <;> by_cases h2 : j ≤ j0 ∧ j0 < j + 4 <;> simp [h1, h2])

theorem block_j8_feeds {n i0 j0 : Nat} (hj0 : j0 < n) (B : List ℚ) (a_vec : m256d)
    {i k j : Nat} (hj : j + 8 ≤ n) :
    Feeds n i0 j0 (block_j8 false n B a_vec i k j)
      (at_point j0 (if i = i0 then [k * n + j0] else []) j (j + 8)) := by
  intro s s' e
  unfold block_j8 at e
  cases h : vecStep false true B a_vec (i * n + j) (k * n + j) s with
  | none => rw [h] at e; exact absurd e (by simp)
  | some s1 =>
    rw [h] at e
    have o1 : Feeds n i0 j0 (vecStep false true B a_vec (i * n + j) (k * n + j))
        (at_point j0 (if i = i0 then [k * n + j0] else []) j (j + 4)) :=
      vecStep_feeds_at hj0 true B a_vec (by omega)
    have o2 : Feeds n i0 j0 (vecStep false true B a_vec (i * n + (j + 4)) (k * n + (j + 4)))
        (at_point j0 (if i = i0 then [k * n + j0] else []) (j + 4) (j + 4 + 4)) :=
      vecStep_feeds_at hj0 true B a_vec (by omega)
    have h1 := o1 s s1 h
    have h2 := o2 s1 s' (by rw [← Nat.add_assoc, ← Nat.add_assoc]; exact e)
    rw [h2, h1, List.append_assoc,
      (at_point_additive j0 (if i = i0 then [k * n + j0] else [])).2 j (j + 4) (j + 4 + 4)
        (by omega) (by omega)]

/-- The three column phases of one `(i, k)` pair add `k * n + j` to the feed of element
`(i, j)` when `j` is among the columns `[j_blk, j_max)`, once. -/
theorem block_k_feeds {n i0 j0 : Nat} (hj0 : j0 < n) (A B : List ℚ) (fma : Bool)
    {j_blk j_max i k : Nat} (hjb : j_blk ≤ j_max) (hjm : j_max ≤ n) :
    Feeds n i0 j0 (block_k false fma n A B j_blk j_max i k)
      (at_point j0 (if i = i0 then [k * n + j0] else []) j_blk j_max) := by
  intro s s' e
  unfold block_k at e
  cases h : loadA A (i * n + k) s with
  | none => rw [h] at e; exact absurd e (by simp)
  | some r =>
    obtain ⟨a, s1⟩ := r
    rw [h] at e
    have h1 : b_order n i0 j0 s1.log = b_order n i0 j0 s.log := b_order_loadA h
    simp only at e
    cases h8 : (if fma = true then
        forLoop (n + 1) (fun j => decide ((j : Int) ≤ (j_max : Int) - 8)) 8
          (block_j8 false n B (mm256_set1_pd a) i k) j_blk s1
        else some (j_blk, s1)) with
    | none => rw [h8] at e; exact absurd e (by simp)
    | some r1 =>
      rw [h8] at e
      simp only at e
      have p1 : j_blk ≤ r1.1 ∧ r1.1 ≤ j_max ∧ b_order n i0 j0 r1.2.log =
          b_order n i0 j0 s1.log ++ at_point j0 (if i = i0 then [k * n + j0] else []) j_blk r1.1 := by
        cases fma with
        | true =>
          simp only [if_true] at h8
          exact forLoop_vec_feeds 8 j_blk j_max _
            (fun x hx => by have : (x : Int) ≤ (j_max : Int) - 8 := by simpa using hx
                            omega)
            _ _ (at_point_additive _ _)
            (fun x hx => block_j8_feeds hj0 B _ (by omega)) hjb (by omega) _ s1 r1 h8
        | false =>
          simp only [Bool.false_eq_true, if_false, Option.some.injEq] at h8
          subst h8
          exact ⟨le_refl _, hjb, by
            rw [(at_point_additive j0 _).1 j_blk j_blk (le_refl _), List.append_nil]⟩
      obtain ⟨l1, u1, k1⟩ := p1
      cases hv : forLoop (n + 1) (fun j => decide ((j : Int) ≤ (j_max : Int) - 4)) 4
          (fun j => vecStep false fma B (mm256_set1_pd a) (i * n + j) (k * n + j)) r1.1 r1.2 with
      | none => rw [hv] at e; exact absurd e (by simp)
      | some r2 =>
        rw [hv] at e
        have p2 : r1.1 ≤ r2.1 ∧ r2.1 ≤ j_max ∧ b_order n i0 j0 r2.2.log =
            b_order n i0 j0 r1.2.log ++ at_point j0 (if i = i0 then [k * n + j0] else []) r1.1 r2.1 :=
          forLoop_vec_feeds 4 r1.1 j_max _
            (fun x hx => by have : (x : Int) ≤ (j_max : Int) - 4 := by simpa using hx
                            omega)
            _ (at_point j0 (if i = i0 then [k * n + j0] else [])) (at_point_additive _ _)
            (fun x hx => vecStep_feeds_at hj0 fma B _ (by omega)) u1 (by omega) _ r1.2 r2 hv
        obtain ⟨l2, u2, k2⟩ := p2
        have o3 : Feeds n i0 j0 (fun s => (forLoop (n + 1) (fun j => decide (j < j_max)) 1
            (fun j => accumA A B (i * n + j) (i * n + k) (k * n + j)) r2.1 s).map Prod.snd)
            (at_point j0 (if i = i0 then [k * n + j0] else []) r2.1 j_max) :=
          scalar_loop_feeds hj0 A B hjm r2.1 (n + 1)
        have k3 := o3 r2.2 s' e
        rw [k3, k2, k1, h1, List.append_assoc, List.append_assoc,
          (at_point_additive j0 _).2 r1.1 r2.1 j_max l2 u2,
          (at_point_additive j0 _).2 j_blk r1.1 j_max l1 u1]

theorem naive_k_feeds {n i0 j0 : Nat} (hj0 : j0 < n) (A B : List ℚ) (i k : Nat) :
    Feeds n i0 j0 (naive_k n A B i k) (if i = i0 then [k * n + j0] else []) := by
  intro s s' e
  unfold naive_k at e
  cases h : loadA A (i * n + k) s with
  | none => rw [h] at e; exact absurd e (by simp)
  | some r =>
    obtain ⟨a, s1⟩ := r
    rw [h] at e
    have h1 : b_order n i0 j0 s1.log = b_order n i0 j0 s.log := b_order_loadA h
    have o : Feeds n i0 j0 (fun s => (forLoop (n + 1) (fun j => decide (j < n)) 1
        (naive_j n B a i k) 0 s).map Prod.snd)
        (at_point j0 (if i = i0 then [k * n + j0] else []) 0 n) :=
      forLoop_range_feeds 0 n _ (at_point j0 (if i = i0 then [k * n + j0] else []))
        (at_point_additive _ _)
        (fun j hj => (accum_feeds hj0 B a hj).recast (by
          rw [at_point_unit]
          by_cases h1 : i = i0 <;> by_cases h2 : j = j0 <;> simp [h1, h2])) (n + 1)
    rw [o s1 s' e, h1, at_point_full hj0]

theorem avx_k_feeds {n i0 j0 : Nat} (hj0 : j0 < n) (A B : List ℚ) (i k : Nat) :
    Feeds n i0 j0 (avx_k false n A B i k) (if i = i0 then [k * n + j0] else []) := by
  intro s s' e
  unfold avx_k at e
  cases h : loadA A (i * n + k) s with
  | none => rw [h] at e; exact absurd e (by simp)
  | some r =>
    obtain ⟨a, s1⟩ := r
    rw [h] at e
    have h1 : b_order n i0 j0 s1.log = b_order n i0 j0 s.log := b_order_loadA h
    simp only at e
    cases hv : forLoop (n + 1) (fun j => decide ((j : Int) ≤ (n : Int) - 4)) 4
        (fun j => vecStep false false B (mm256_set1_pd a) (i * n + j) (k * n + j)) 0 s1 with
    | none => rw [hv] at e; exact absurd e (by simp)
    | some r2 =>
      rw [hv] at e
      have p2 : 0 ≤ r2.1 ∧ r2.1 ≤ n ∧ b_order n i0 j0 r2.2.log =
          b_order n i0 j0 s1.log ++ at_point j0 (if i = i0 then [k * n + j0] else []) 0 r2.1 :=
        forLoop_vec_feeds 4 0 n _
          (fun x hx => by have : (x : Int) ≤ (n : Int) - 4 := by simpa using hx
                          omega)
          _ (at_point j0 (if i = i0 then [k * n + j0] else [])) (at_point_additive _ _)
          (fun x hx => vecStep_feeds_at hj0 false B _ (by omega)) (Nat.zero_le _) (by omega)
          _ s1 r2 hv
      obtain ⟨l2, u2, k2⟩ := p2
      have o3 : Feeds n i0 j0 (fun s => (forLoop (n + 1) (fun j => decide (j < n)) 1
          (fun j => accumA A B (i * n + j) (i * n + k) (k * n + j)) r2.1 s).map Prod.snd)
          (at_point j0 (if i = i0 then [k * n + j0] else []) r2.1 n) :=
        scalar_loop_feeds hj0 A B (le_refl n) r2.1 (n + 1)
      rw [o3 r2.2 s' e, k2, h1, List.append_assoc,
        (at_point_additive j0 _).2 0 r2.1 n l2 u2, at_point_full hj0]

theorem prefetch_k_feeds {n i0 j0 : Nat} (hj0 : j0 < n) (A B : List ℚ)
    {j_blk j_max i k : Nat} (hjb : j_blk ≤ j_max) (hjm : j_max ≤ n) :
    Feeds n i0 j0 (prefetch_k false n A B j_blk j_max i k)
      (at_point j0 (if i = i0 then [k * n + j0] else []) j_blk j_max) := by
  intro s s' e
  unfold prefetch_k at e
  cases h : loadA A (i * n + k) s with
  | none => rw [h] at e; exact absurd e (by simp)
  | some r =>
    obtain ⟨a, s1⟩ := r
    rw [h] at e
    have h1 : b_order n i0 j0 s1.log = b_order n i0 j0 s.log := b_order_loadA h
    simp only at e
    cases hv : forLoop (n + 1) (fun j => decide ((j : Int) ≤ (j_max : Int) - 4)) 4
        (fun j s => vecStep false false B (mm256_set1_pd a) (i * n + j) (k * n + j)
          (prefetchB (k * n + j + 16) s)) j_blk s1 with
    | none => rw [hv] at e; exact absurd e (by simp)
    | some r2 =>
      rw [hv] at e
      have p2 : j_blk ≤ r2.1 ∧ r2.1 ≤ j_max ∧ b_order n i0 j0 r2.2.log =
          b_order n i0 j0 s1.log ++ at_point j0 (if i = i0 then [k * n + j0] else []) j_blk r2.1 :=
        forLoop_vec_feeds 4 j_blk j_max _
          (fun x hx => by have : (x : Int) ≤ (j_max : Int) - 4 := by simpa using hx
                          omega)
          _ (at_point j0 (if i = i0 then [k * n + j0] else [])) (at_point_additive _ _)
          (fun x hx t t' ht => by
            have o : Feeds n i0 j0 (vecStep false false B (mm256_set1_pd a) (i * n + x) (k * n + x))
                (at_point j0 (if i = i0 then [k * n + j0] else []) x (x + 4)) :=
              vecStep_feeds_at hj0 false B _ (by omega)
            rw [o _ t' ht]
            simp [prefetchB, b_order, updates_skip_prefetch])
          hjb (by omega) _ s1 r2 hv
      obtain ⟨l2, u2, k2⟩ := p2
      have o3 : Feeds n i0 j0 (fun s => (forLoop (n + 1) (fun j => decide (j < j_max)) 1
          (fun j => accumA A B (i * n + j) (i * n + k) (k * n + j)) r2.1 s).map Prod.snd)
          (at_point j0 (if i = i0 then [k * n + j0] else []) r2.1 j_max) :=
        scalar_loop_feeds hj0 A B hjm r2.1 (n + 1)
      rw [o3 r2.2 s' e, k2, h1, List.append_assoc,
        (at_point_additive j0 _).2 j_blk r2.1 j_max l2 u2]

/-- The plain loop nest `for i, for k` around a `k` body that adds `k * n + j` to the feed
of `(i, j)` for every `j`: element `(i0, j0)` with `i0 < n` is fed `B[k * n + j0]` for
`k = 0, 1, ..., n - 1` in ascending order, and a row `i0 ≥ n` is fed nothing. -/
theorem plain_feeds {n i0 j0 : Nat}
    {kbody : Nat → Nat → KState → Option KState}
    (hk : ∀ i k, Feeds n i0 j0 (kbody i k) (if i = i0 then [k * n + j0] else [])) :
    Feeds n i0 j0 (fun s => (forLoop (n + 1) (fun i => decide (i < n)) 1 (fun i s =>
      (forLoop (n + 1) (fun k => decide (k < n)) 1 (kbody i) 0 s).map Prod.snd) 0 s).map
      Prod.snd) (if i0 < n then (List.range n).map (fun k => k * n + j0) else []) :=
  (forLoop_range_feeds 0 n _ (at_point i0 (bspan n j0 0 n)) (at_point_additive _ _)
    (fun i _ =>
      (forLoop_range_feeds 0 n _ (fun a b => if i = i0 then bspan n j0 a b else [])
        ((bspan_additive n j0).ite _)
        (fun k _ => (hk i k).recast (by simp only [bspan_succ])) (n + 1)).recast (by
          rw [at_point_unit])) (n + 1)).recast (by
      rw [at_point_from_zero, bspan_full])

/-- The tiled loop nest, for any tile edge: element `(i0, j0)` with `i0 < n` is fed
`B[k * n + j0]` for `k = 0, 1, ..., n - 1` in ascending order, because the `k` tiles are
visited in ascending order before the next `i` tile, and only one `j` tile contains `j0`. -/
theorem tiled_feeds {n i0 j0 : Nat} (hj0 : j0 < n)
    {kbody : Nat → Nat → Nat → Nat → KState → Option KState}
    (hk : ∀ j_blk j_max i k, j_blk ≤ j_max → j_max ≤ n →
      Feeds n i0 j0 (kbody j_blk j_max i k)
        (at_point j0 (if i = i0 then [k * n + j0] else []) j_blk j_max))
    (T : Nat) : Feeds n i0 j0 (tiled kbody T n)
      (if i0 < n then (List.range n).map (fun k => k * n + j0) else []) := by
  refine (forLoop_tiles_feeds T n _ (at_point i0 (bspan n j0 0 n)) (at_point_additive _ _)
    (fun i_blk _ => ?_) (n + 1)).recast (by
      rw [at_point_from_zero, bspan_full])
  refine forLoop_tiles_feeds T n _
    (fun a b => at_point i0 (bspan n j0 a b) i_blk (tile_max T n i_blk))
    ((bspan_additive n j0).at_point _ _ _) (fun k_blk _ => ?_) (n + 1)
  refine (forLoop_tiles_feeds T n _
    (fun a b => at_point i0 (at_point j0 (bspan n j0 k_blk (tile_max T n k_blk)) a b)
      i_blk (tile_max T n i_blk))
    ((at_point_additive _ _).at_point _ _ _) (fun j_blk hj => ?_) (n + 1)).recast (by
      rw [at_point_full hj0])
  refine (forLoop_range_feeds i_blk (tile_max T n i_blk) _
    (at_point i0 (at_point j0 (bspan n j0 k_blk (tile_max T n k_blk)) j_blk (tile_max T n j_blk)))
    (at_point_additive _ _) (fun i _ => ?_) (n + 1))
  refine (forLoop_range_feeds k_blk (tile_max T n k_blk) _
    (fun a b => at_point j0 (if i = i0 then bspan n j0 a b else []) j_blk (tile_max T n j_blk))
    (((bspan_additive n j0).ite _).at_point _ _ _)
    (fun k _ => (hk j_blk (tile_max T n j_blk) i k (le_tile_max hj) (tile_max_le T n j_blk)).recast
      (by simp only [bspan_succ])) (n + 1)).recast (by
      rw [at_point_unit]
      unfold at_point
      by_cases h1 : i = i0 <;> simp [h1])

theorem dgemm_naive_feeds {n i0 j0 : Nat} (hj0 : j0 < n) (A B : List ℚ) :
    Feeds n i0 j0 (dgemm_naive n A B)
      (if i0 < n then (List.range n).map (fun k => k * n + j0) else []) :=
  plain_feeds (fun i k => naive_k_feeds hj0 A B i k)

theorem dgemm_avx_feeds {n i0 j0 : Nat} (hj0 : j0 < n) (A B : List ℚ) :
    Feeds n i0 j0 (dgemm_avx_with false n A B)
      (if i0 < n then (List.range n).map (fun k => k * n + j0) else []) :=
  plain_feeds (fun i k => avx_k_feeds hj0 A B i k)

theorem dgemm_avx_block_with_feeds {n i0 j0 : Nat} (hj0 : j0 < n)
    (T : Nat) (fma : Bool) (A B : List ℚ) :
    Feeds n i0 j0 (dgemm_avx_block_with false T fma n A B)
      (if i0 < n then (List.range n).map (fun k => k * n + j0) else []) :=
  tiled_feeds hj0 (fun _ _ _ _ hjb hjm => block_k_feeds hj0 A B fma hjb hjm) T

theorem dgemm_avx_block_prefetch_with_feeds {n i0 j0 : Nat} (hj0 : j0 < n)
    (T : Nat) (A B : List ℚ) :
    Feeds n i0 j0 (dgemm_avx_block_prefetch_with false T n A B)
      (if i0 < n then (List.range n).map (fun k => k * n + j0) else []) :=
  tiled_feeds hj0 (fun _ _ _ _ hjb hjm => prefetch_k_feeds hj0 A B hjb hjm) T

theorem b_order_nil (n i j : Nat) : b_order n i j [] = [] := by
  simp [b_order, updates]

/-- A run from an empty log that feeds `L` leaves exactly `L` as the feed. -/
theorem Feeds.on_empty_log {n i j : Nat} {f : KState → Option KState} {L : List Nat}
    (h : Feeds n i j f L) {C : List ℚ} {s' : KState} (e : f ⟨C, []⟩ = some s') :
    b_order n i j s'.log = L := by
  rw [h _ s' e, b_order_nil, List.nil_append]

theorem count_pair_eq (U : List (Nat × Nat)) (c b : Nat) :
    U.count (c, b) = (((U.filter (fun u => decide (u.1 = c))).map (fun u => u.2)).reverse).count b := by
  rw [List.count_reverse]
  induction U with
  | nil => simp
  | cons u U ih =>
    obtain ⟨u1, u2⟩ := u
    by_cases h1 : u1 = c
    · by_cases h2 : u2 = b
      · simp [List.count_cons, List.filter_cons, h1, h2, ih]
      · simp [List.count_cons, List.filter_cons, h1, h2, ih]
    · simp [List.count_cons, List.filter_cons, h1, ih]

theorem length_eq_sum_filter (U : List (Nat × Nat)) (N : Nat) (h : ∀ u ∈ U, u.1 < N) :
    U.length = ∑ c ∈ range N, (U.filter (fun u => decide (u.1 = c))).length := by
  induction U with
  | nil => simp
  | cons u U ih =>
    have hu : u.1 < N := h u (List.mem_cons_self _ _)
    have e : ∀ c, ((u :: U).filter (fun u => decide (u.1 = c))).length =
        (U.filter (fun u => decide (u.1 = c))).length + if u.1 = c then 1 else 0 := by
      intro c
      by_cases hc : u.1 = c
      · simp [List.filter_cons, hc]
      · simp [List.filter_cons, hc]
    simp only [e, Finset.sum_add_distrib, Finset.sum_ite_eq, Finset.mem_range, hu, if_true,
      List.length_cons]
    rw [← ih (fun v hv => h v (List.mem_cons_of_mem _ hv))]

/-- From the feeds of all elements to the census of the updates: when every element
`(i, j)` of an `n × n` output is fed `B[k * n + j]` for `k = 0, ..., n - 1` and nothing is
fed to a row beyond the matrix, every triple `(i, k, j)` occurs as exactly one update and
there are `n ^ 3` updates in all. -/
theorem updates_census {n : Nat} {log : List Access} (hn' : 0 < n)
    (h : ∀ i0 j0, j0 < n → b_order n i0 j0 log =
      if i0 < n then (List.range n).map (fun k => k * n + j0) else []) :
    (∀ i k j, i < n → k < n → j < n → (updates log).count (i * n + j, k * n + j) = 1) ∧
    (updates log).length = n ^ 3 := by
  constructor
  · intro i k j hi hk hj
    have hb := h i j hj
    rw [if_pos hi] at hb
    unfold b_order at hb
    rw [count_pair_eq, hb]
    apply List.count_eq_one_of_mem
    · apply List.Nodup.map _ (List.nodup_range n)
      intro a b hab
      simp only at hab
      exact Nat.eq_of_mul_eq_mul_right hn' (by omega)
    · exact List.mem_map.mpr ⟨k, List.mem_range.mpr hk, rfl⟩
  · have hsplit : ∀ c : Nat, (c / n) * n + c % n = c := by
      intro c
      rw [Nat.mul_comm]
      exact Nat.div_add_mod c n
    have hlt : ∀ u ∈ updates log, u.1 < n * n := by
      intro u hu
      by_contra hcon
      have hi0 : ¬ (u.1 / n < n) := by
        intro hlt
        have := Nat.div_lt_iff_lt_mul hn' |>.mp hlt
        omega
      have hb := h (u.1 / n) (u.1 % n) (Nat.mod_lt _ hn')
      rw [if_neg hi0] at hb
      have hmem : u.2 ∈ b_order n (u.1 / n) (u.1 % n) log := by
        unfold b_order
        rw [hsplit]
        simp only [List.mem_reverse, List.mem_map, List.mem_filter, decide_eq_true_eq]
        exact ⟨u, ⟨hu, rfl⟩, rfl⟩
      rw [hb] at hmem
      exact absurd hmem (by simp)
    rw [length_eq_sum_filter _ _ hlt]
    have hterm : ∀ c ∈ range (n * n),
        ((updates log).filter (fun u => decide (u.1 = c))).length = n := by
      intro c hc
      have hc' : c < n * n := Finset.mem_range.mp hc
      have hi0 : c / n < n := (Nat.div_lt_iff_lt_mul hn').mpr hc'
      have hb := h (c / n) (c % n) (Nat.mod_lt _ hn')
      rw [if_pos hi0] at hb
      unfold b_order at hb
      rw [hsplit] at hb
      have := congrArg List.length hb
      simpa using this
    rw [Finset.sum_congr rfl hterm]
    simp [Finset.sum_const, Finset.card_range]
    ring

/-- A kernel that returns, feeds every element `(i, j)` of the output the column `j` of `B`
once per `k`, and does nothing at all for `n = 0`, performs exactly the `n ^ 3` updates
`(i, k, j)`, which is half the operation count `2 * n ^ 3` of the GFLOPS formula. -/
theorem census_of_feeds {n : Nat} {f : KState → Option KState} {δ : Nat → ℚ}
    (hadds : Adds (n * n) f δ)
    (hfeeds : ∀ i0 j0, j0 < n → Feeds n i0 j0 f
      (if i0 < n then (List.range n).map (fun k => k * n + j0) else []))
    (h0 : n = 0 → ∀ s, f s = some s) {C : List ℚ} (hC : C.length = n * n) :
    ∃ s', f ⟨C, []⟩ = some s' ∧
      (∀ i k j, i < n → k < n → j < n → (updates s'.log).count (i * n + j, k * n + j) = 1) ∧
      (updates s'.log).length = n ^ 3 ∧
      operations n = 2 * (((updates s'.log).length : Nat) : ℚ) := by
  obtain ⟨s', e, -, -⟩ := hadds ⟨C, []⟩ hC
  have key : (∀ i k j, i < n → k < n → j < n →
      (updates s'.log).count (i * n + j, k * n + j) = 1) ∧ (updates s'.log).length = n ^ 3 := by
    by_cases hn : n = 0
    · have e' := h0 hn ⟨C, []⟩
      rw [e] at e'
      simp only [Option.some.injEq] at e'
      subst hn
      rw [e']
      exact ⟨fun i k j hi => absurd hi (by omega), by simp [updates]⟩
    · exact updates_census (Nat.pos_of_ne_zero hn)
        (fun i0 j0 hj0 => (hfeeds i0 j0 hj0).on_empty_log e)
  refine ⟨s', e, key.1, key.2, ?_⟩
  rw [key.2]
  unfold operations
  push_cast
  ring

theorem dgemm_naive_zero (A B : List ℚ) (s : KState) : dgemm_naive 0 A B s = some s := by
  simp [dgemm_naive, forLoop]

theorem dgemm_avx_zero (A B : List ℚ) (s : KState) : dgemm_avx_with false 0 A B s = some s := by
  simp [dgemm_avx_with, forLoop]

theorem tiled_zero (kbody : Nat → Nat → Nat → Nat → KState → Option KState) (T : Nat)
    (s : KState) : tiled kbody T 0 s = some s := by
  simp [tiled, forLoop]

/-- C22: the unrolled, vector and scalar column phases of a tile. For every size `n`, either
build, every column range `[j_blk, j_max)` with `j_blk ≤ j_max ≤ n` and every `(i, k)`, the
`k` body of `dgemm_avx_block` (8-wide fused loop when built with FMA, 4-wide loop, scalar
clean-up loop) on unaligned moves returns; the updates it performs are exactly one
`C[i*n+j] += A[i*n+k] * B[k*n+j]` for each `j` in `[j_blk, j_max)`: element `(i0, j0)` is
fed `B[k*n+j0]` once when `i0 = i` and `j_blk ≤ j0 < j_max`, and nothing otherwise; and the
buffer changes accordingly. On the aligned moves of the source the `k` body returns that
very state when the range is shorter than 4 or `i*n + j_blk` and `k*n + j_blk` are
multiples of 4, and faults otherwise, before any column of the range is updated. Hence the
loop nests built with FMA and without it produce the same `C` on unaligned moves for every
`n`; the two builds of `dgemm_avx_block` itself return these states when `n` is a multiple
of 4 or below 4, and both fault for every other `n`. -/
theorem block_k_covers_columns (n : Nat) (A B : List ℚ) (fma : Bool)
    (j_blk j_max i k : Nat) (s : KState)
    (hA : A.length = n * n) (hB : B.length = n * n) (hs : s.C.length = n * n)
    (hi : i < n) (hk : k < n) (hjb : j_blk ≤ j_max) (hjm : j_max ≤ n) :
    (∃ s', block_k false fma n A B j_blk j_max i k s = some s' ∧
      (∀ i0 j0, j0 < n → b_order n i0 j0 s'.log = b_order n i0 j0 s.log ++
        (if i0 = i ∧ j_blk ≤ j0 ∧ j0 < j_max then [k * n + j0] else [])) ∧
      (∀ p, p < n * n →
        s'.C.getD p 0 = s.C.getD p 0 + ∑ j ∈ Ico j_blk j_max, term n A B i k j p) ∧
      block_k true fma n A B j_blk j_max i k s =
        if j_blk + 4 ≤ j_max → (i * n + j_blk) % 4 = 0 ∧ (k * n + j_blk) % 4 = 0
        then some s' else none) ∧
    (∀ C : List ℚ, C.length = n * n →
      ∃ s₁ s₂, dgemm_avx_block_with false BLOCK_SIZE true n A B ⟨C, []⟩ = some s₁ ∧
        dgemm_avx_block_with false BLOCK_SIZE false n A B ⟨C, []⟩ = some s₂ ∧ s₁.C = s₂.C ∧
        dgemm_avx_block true n A B ⟨C, []⟩ =
          (if n % 4 = 0 ∨ n < 4 then some s₁ else none) ∧
        dgemm_avx_block false n A B ⟨C, []⟩ =
          (if n % 4 = 0 ∨ n < 4 then some s₂ else none)) := by
  constructor
  · obtain ⟨s', e, -, v⟩ := block_k_adds hA hB fma hi hk hjb hjm s hs
    refine ⟨s', e, fun i0 j0 hj0 => ?_, v, by rw [block_k_eq_ite, e]⟩
    rw [block_k_feeds hj0 A B fma hjb hjm s s' e]
    congr 1
    unfold at_point
    by_cases h1 : i = i0
    · subst h1
      by_cases h2 : j_blk ≤ j0 ∧ j0 < j_max
      · simp [h2]
      · simp [h2]
    · have h1' : ¬ i0 = i := fun h => h1 h.symm
      simp [h1, h1']
  · intro C hC
    obtain ⟨s₁, s₂, e1, e2, h⟩ := Adds.same_C
      (dgemm_avx_block_with_adds hA hB (by decide : 0 < BLOCK_SIZE) true)
      (dgemm_avx_block_with_adds hA hB (by decide : 0 < BLOCK_SIZE) false) ⟨C, []⟩ hC
    exact ⟨s₁, s₂, e1, e2, h, by rw [dgemm_avx_block_eq_ite, e1],
      by rw [dgemm_avx_block_eq_ite, e2]⟩

/-- Witness for C22: row 1, `k = 2` over the 12 columns of a 12 × 12 problem, where the
8-wide and the 4-wide loop run and the body returns, and over the 13 columns of a 13 × 13
problem, where the body faults at its first vector step. -/
theorem block_k_covers_columns_witness :
    ((∃ s', block_k false true 12 (alloc_matrix 12) (alloc_matrix 12) 0 12 1 2
        ⟨alloc_matrix 12, []⟩ = some s' ∧
      (∀ i0 j0, j0 < 12 → b_order 12 i0 j0 s'.log =
        b_order 12 i0 j0 (KState.mk (alloc_matrix 12) []).log ++
        (if i0 = 1 ∧ 0 ≤ j0 ∧ j0 < 12 then [2 * 12 + j0] else [])) ∧
      (∀ p, p < 12 * 12 →
        s'.C.getD p 0 = (KState.mk (alloc_matrix 12) []).C.getD p 0 +
          ∑ j ∈ Ico 0 12, term 12 (alloc_matrix 12) (alloc_matrix 12) 1 2 j p) ∧
      block_k true true 12 (alloc_matrix 12) (alloc_matrix 12) 0 12 1 2
          ⟨alloc_matrix 12, []⟩ =
        if 0 + 4 ≤ 12 → (1 * 12 + 0) % 4 = 0 ∧ (2 * 12 + 0) % 4 = 0
        then some s' else none) ∧
    (∀ C : List ℚ, C.length = 12 * 12 →
      ∃ s₁ s₂, dgemm_avx_block_with false BLOCK_SIZE true 12 (alloc_matrix 12)
          (alloc_matrix 12) ⟨C, []⟩ = some s₁ ∧
        dgemm_avx_block_with false BLOCK_SIZE false 12 (alloc_matrix 12)
          (alloc_matrix 12) ⟨C, []⟩ = some s₂ ∧ s₁.C = s₂.C ∧
        dgemm_avx_block true 12 (alloc_matrix 12) (alloc_matrix 12) ⟨C, []⟩ =
          (if 12 % 4 = 0 ∨ 12 < 4 then some s₁ else none) ∧
        dgemm_avx_block false 12 (alloc_matrix 12) (alloc_matrix 12) ⟨C, []⟩ =
          (if 12 % 4 = 0 ∨ 12 < 4 then some s₂ else none))) ∧
    ((∃ s', block_k false true 13 (alloc_matrix 13) (alloc_matrix 13) 0 13 1 2
        ⟨alloc_matrix 13, []⟩ = some s' ∧
      (∀ i0 j0, j0 < 13 → b_order 13 i0 j0 s'.log =
        b_order 13 i0 j0 (KState.mk (alloc_matrix 13) []).log ++
        (if i0 = 1 ∧ 0 ≤ j0 ∧ j0 < 13 then [2 * 13 + j0] else [])) ∧
      (∀ p, p < 13 * 13 →
        s'.C.getD p 0 = (KState.mk (alloc_matrix 13) []).C.getD p 0 +
          ∑ j ∈ Ico 0 13, term 13 (alloc_matrix 13) (alloc_matrix 13) 1 2 j p) ∧
      block_k true true 13 (alloc_matrix 13) (alloc_matrix 13) 0 13 1 2
          ⟨alloc_matrix 13, []⟩ =
        if 0 + 4 ≤ 13 → (1 * 13 + 0) % 4 = 0 ∧ (2 * 13 + 0) % 4 = 0
        then some s' else none) ∧
    (∀ C : List ℚ, C.length = 13 * 13 →
      ∃ s₁ s₂, dgemm_avx_block_with false BLOCK_SIZE true 13 (alloc_matrix 13)
          (alloc_matrix 13) ⟨C, []⟩ = some s₁ ∧
        dgemm_avx_block_with false BLOCK_SIZE false 13 (alloc_matrix 13)
          (alloc_matrix 13) ⟨C, []⟩ = some s₂ ∧ s₁.C = s₂.C ∧
        dgemm_avx_block true 13 (alloc_matrix 13) (alloc_matrix 13) ⟨C, []⟩ =
          (if 13 % 4 = 0 ∨ 13 < 4 then some s₁ else none) ∧
        dgemm_avx_block false 13 (alloc_matrix 13) (alloc_matrix 13) ⟨C, []⟩ =
          (if 13 % 4 = 0 ∨ 13 < 4 then some s₂ else none))) :=
  ⟨block_k_covers_columns 12 (alloc_matrix 12) (alloc_matrix 12) true 0 12 1 2
    ⟨alloc_matrix 12, []⟩ (by simp [alloc_matrix]) (by simp [alloc_matrix])
    (by simp [alloc_matrix]) (by decide) (by decide) (by decide) (by decide),
   block_k_covers_columns 13 (alloc_matrix 13) (alloc_matrix 13) true 0 13 1 2
    ⟨alloc_matrix 13, []⟩ (by simp [alloc_matrix]) (by simp [alloc_matrix])
    (by simp [alloc_matrix]) (by decide) (by decide) (by decide) (by decide)⟩

/-- C23: the number of scalar multiply-add updates. For every `n` and buffers of length
`n * n`, `dgemm_naive`, and the loop nests of `dgemm_avx` (a vector operation counting as
its 4 lane updates) and of `dgemm_avx_block` on unaligned moves, return, and in the updates
each performed every triple `(i, k, j)` of `[0, n)^3` occurs exactly once as
`C[i*n+j] += A[i*n+k] * B[k*n+j]`; there are `n ^ 3` updates in all, so the operation count
`2 * n ^ 3` of the GFLOPS formula is the number of multiplies plus adds executed. On the
aligned moves of the source, `dgemm_avx` and `dgemm_avx_block` return these very states
when `n` is a multiple of 4 or below 4, and fault for every other `n`, short of the `n ^ 3`
updates. -/
theorem kernels_update_each_triple_once (n : Nat) (A B C : List ℚ) (fma : Bool)
    (hA : A.length = n * n) (hB : B.length = n * n) (hC : C.length = n * n) :
    ∃ s₀ s₁ s₂, dgemm_naive n A B ⟨C, []⟩ = some s₀ ∧
      dgemm_avx_with false n A B ⟨C, []⟩ = some s₁ ∧
      dgemm_avx_block_with false BLOCK_SIZE fma n A B ⟨C, []⟩ = some s₂ ∧
      (∀ s ∈ [s₀, s₁, s₂],
        (∀ i k j, i < n → k < n → j < n →
          (updates s.log).count (i * n + j, k * n + j) = 1) ∧
        (updates s.log).length = n ^ 3 ∧
        operations n = 2 * (((updates s.log).length : Nat) : ℚ)) ∧
      dgemm_avx n A B ⟨C, []⟩ = (if n % 4 = 0 ∨ n < 4 then some s₁ else none) ∧
      dgemm_avx_block fma n A B ⟨C, []⟩ = (if n % 4 = 0 ∨ n < 4 then some s₂ else none) := by
  obtain ⟨s₀, e0, c0⟩ := census_of_feeds (dgemm_naive_adds hA hB)
    (fun _ _ hj0 => dgemm_naive_feeds hj0 A B)
    (fun hn s => by subst hn; exact dgemm_naive_zero A B s) hC
  obtain ⟨s₁, e1, c1⟩ := census_of_feeds (dgemm_avx_adds hA hB)
    (fun _ _ hj0 => dgemm_avx_feeds hj0 A B)
    (fun hn s => by subst hn; exact dgemm_avx_zero A B s) hC
  obtain ⟨s₂, e2, c2⟩ := census_of_feeds
    (dgemm_avx_block_with_adds hA hB (by decide : 0 < BLOCK_SIZE) fma)
    (fun _ _ hj0 => dgemm_avx_block_with_feeds hj0 BLOCK_SIZE fma A B)
    (fun hn s => by subst hn; exact tiled_zero _ _ s) hC
  refine ⟨s₀, s₁, s₂, e0, e1, e2, ?_, by rw [dgemm_avx_eq_ite, e1],
    by rw [dgemm_avx_block_eq_ite, e2]⟩
  intro s hs
  simp only [List.mem_cons, List.mem_singleton, List.not_mem_nil, or_false] at hs
  rcases hs with rfl | rfl | rfl
  · exact c0
  · exact c1
  · exact c2

/-- Witness for C23: 8 × 8 buffers, where the kernels return, and 5 × 5 buffers, where
`dgemm_avx` and `dgemm_avx_block` fault. -/
theorem kernels_update_each_triple_once_witness :
    (∃ s₀ s₁ s₂,
      dgemm_naive 8 (alloc_matrix 8) (alloc_matrix 8) ⟨alloc_matrix 8, []⟩ = some s₀ ∧
      dgemm_avx_with false 8 (alloc_matrix 8) (alloc_matrix 8) ⟨alloc_matrix 8, []⟩ =
        some s₁ ∧
      dgemm_avx_block_with false BLOCK_SIZE true 8 (alloc_matrix 8) (alloc_matrix 8)
        ⟨alloc_matrix 8, []⟩ = some s₂ ∧
      (∀ s ∈ [s₀, s₁, s₂],
        (∀ i k j, i < 8 → k < 8 → j < 8 →
          (updates s.log).count (i * 8 + j, k * 8 + j) = 1) ∧
        (updates s.log).length = 8 ^ 3 ∧
        operations 8 = 2 * (((updates s.log).length : Nat) : ℚ)) ∧
      dgemm_avx 8 (alloc_matrix 8) (alloc_matrix 8) ⟨alloc_matrix 8, []⟩ =
        (if 8 % 4 = 0 ∨ 8 < 4 then some s₁ else none) ∧
      dgemm_avx_block true 8 (alloc_matrix 8) (alloc_matrix 8) ⟨alloc_matrix 8, []⟩ =
        (if 8 % 4 = 0 ∨ 8 < 4 then some s₂ else none)) ∧
    (∃ s₀ s₁ s₂,
      dgemm_naive 5 (alloc_matrix 5) (alloc_matrix 5) ⟨alloc_matrix 5, []⟩ = some s₀ ∧
      dgemm_avx_with false 5 (alloc_matrix 5) (alloc_matrix 5) ⟨alloc_matrix 5, []⟩ =
        some s₁ ∧
      dgemm_avx_block_with false BLOCK_SIZE true 5 (alloc_matrix 5) (alloc_matrix 5)
        ⟨alloc_matrix 5, []⟩ = some s₂ ∧
      (∀ s ∈ [s₀, s₁, s₂],
        (∀ i k j, i < 5 → k < 5 → j < 5 →
          (updates s.log).count (i * 5 + j, k * 5 + j) = 1) ∧
        (updates s.log).length = 5 ^ 3 ∧
        operations 5 = 2 * (((updates s.log).length : Nat) : ℚ)) ∧
      dgemm_avx 5 (alloc_matrix 5) (alloc_matrix 5) ⟨alloc_matrix 5, []⟩ =
        (if 5 % 4 = 0 ∨ 5 < 4 then some s₁ else none) ∧
      dgemm_avx_block true 5 (alloc_matrix 5) (alloc_matrix 5) ⟨alloc_matrix 5, []⟩ =
        (if 5 % 4 = 0 ∨ 5 < 4 then some s₂ else none)) :=
  ⟨kernels_update_each_triple_once 8 (alloc_matrix 8) (alloc_matrix 8) (alloc_matrix 8) true
    (by simp [alloc_matrix]) (by simp [alloc_matrix]) (by simp [alloc_matrix]),
   kernels_update_each_triple_once 5 (alloc_matrix 5) (alloc_matrix 5) (alloc_matrix 5) true
    (by simp [alloc_matrix]) (by simp [alloc_matrix]) (by simp [alloc_matrix])⟩

/-! ## Claim C24: the tiles -/

theorem lt_ceil_div_iff {T : Nat} (hT : 0 < T) (n q : Nat) :
    q < (n + T - 1) / T ↔ q * T < n := by
  rw [Nat.lt_iff_add_one_le, Nat.le_div_iff_mul_le hT, Nat.add_mul, Nat.one_mul]
  omega

/-- A tile loop `for (b = 0; b < n; b += T)` runs its body on the tile origins in
ascending order. -/
theorem forLoop_tiles_run {σ : Type} {T : Nat} (hT : 0 < T) (n : Nat)
    (body : Nat → σ → Option σ) :
    ∀ (fuel q : Nat) (s : σ), (n + T - 1) / T - q < fuel →
      (forLoop fuel (fun b => decide (b < n)) T body (q * T) s).map Prod.snd =
        run_list body ((List.range' q ((n + T - 1) / T - q)).map (fun q => q * T)) s := by
  intro fuel
  induction fuel with
  | zero => intro q s h; omega
  | succ fuel ih =>
    intro q s hfuel
    by_cases hq : q < (n + T - 1) / T
    · have hc : q * T < n := (lt_ceil_div_iff hT n q).mp hq
      have hsub : (n + T - 1) / T - q = ((n + T - 1) / T - (q + 1)) + 1 := by omega
      rw [hsub, List.range'_succ, List.map_cons]
      simp only [forLoop, hc, decide_True, if_true, run_list]
      cases hb : body (q * T) s with
      | none => rfl
      | some s1 =>
        have h := ih (q + 1) s1 (by omega)
        rw [Nat.add_mul, Nat.one_mul] at h
        exact h
    · have hc : ¬ q * T < n := fun h => hq ((lt_ceil_div_iff hT n q).mpr h)
      have hsub : (n + T - 1) / T - q = 0 := by omega
      rw [hsub]
      simp [forLoop, hc, run_list]

theorem forLoop_tiles_run_zero {σ : Type} {T : Nat} (hT : 0 < T) (n : Nat)
    (body : Nat → σ → Option σ) (s : σ) :
    (forLoop (n + 1) (fun b => decide (b < n)) T body 0 s).map Prod.snd =
      run_list body (tile_starts T n) s := by
  have hle : (n + T - 1) / T ≤ n := by
    by_contra hcon
    have h1 := (lt_ceil_div_iff hT n n).mp (by omega)
    have h2 : n ≤ n * T := Nat.le_mul_of_pos_right n hT
    omega
  have h := forLoop_tiles_run hT n body (n + 1) 0 s (by omega)
  rw [Nat.zero_mul, Nat.sub_zero] at h
  rw [h, tile_starts, List.range_eq_range']

theorem run_list_append {α σ : Type} (body : α → σ → Option σ) (l₁ l₂ : List α) (s : σ) :
    run_list body (l₁ ++ l₂) s =
      match run_list body l₁ s with
      | none => none
      | some s' => run_list body l₂ s' := by
  induction l₁ generalizing s with
  | nil => simp [run_list]
  | cons x xs ih =>
    simp only [List.cons_append, run_list]
    cases body x s with
    | none => rfl
    | some s1 => exact ih s1

theorem run_list_flatMap {α β σ : Type} (body : β → σ → Option σ) (f : α → List β)
    (l : List α) (s : σ) :
    run_list body (l.flatMap f) s = run_list (fun x s => run_list body (f x) s) l s := by
  induction l generalizing s with
  | nil => simp [run_list]
  | cons x xs ih =>
    simp only [List.flatMap_cons, run_list_append, run_list]
    cases run_list body (f x) s with
    | none => rfl
    | some s1 => exact ih s1

theorem run_list_map {α β σ : Type} (body : β → σ → Option σ) (g : α → β)
    (l : List α) (s : σ) :
    run_list body (l.map g) s = run_list (fun x s => body (g x) s) l s := by
  induction l generalizing s with
  | nil => simp [run_list]
  | cons x xs ih =>
    simp only [List.map_cons, run_list]
    cases body (g x) s with
    | none => rfl
    | some s1 => exact ih s1

theorem forLoop_tiles_run_as {σ : Type} {T : Nat} (hT : 0 < T) (n : Nat)
    (body body' : Nat → σ → Option σ) (h : ∀ x s, body x s = body' x s) (s : σ) :
    (forLoop (n + 1) (fun b => decide (b < n)) T body 0 s).map Prod.snd =
      run_list body' (tile_starts T n) s := by
  have e : body = body' := funext fun x => funext fun s => h x s
  subst e
  exact forLoop_tiles_run_zero hT n body s

/-- The tile nest runs the tile body on the tiles in `i → k → j` nesting order. -/
theorem tiled_eq_run_tiles (kbody : Nat → Nat → Nat → Nat → KState → Option KState)
    {T : Nat} (hT : 0 < T) (n : Nat) (s : KState) :
    tiled kbody T n s =
      run_list (fun t s => tile_body kbody T n t.1 t.2.1 t.2.2 s) (tiles T n) s := by
  unfold tiled
  rw [tiles, run_list_flatMap]
  refine forLoop_tiles_run_as hT n _ _ (fun i_blk s => ?_) s
  rw [run_list_flatMap]
  refine forLoop_tiles_run_as hT n _ _ (fun k_blk s => ?_) s
  rw [run_list_map]
  exact forLoop_tiles_run_as hT n _ _ (fun j_blk s => rfl) s

theorem length_flatMap_const {α β : Type} (f : α → List β) (c : Nat)
    (h : ∀ x, (f x).length = c) (l : List α) : (l.flatMap f).length = l.length * c := by
  induction l with
  | nil => simp
  | cons x xs ih => simp [List.flatMap_cons, h, ih, Nat.add_mul, Nat.add_comm]

theorem tile_starts_length (T n : Nat) : (tile_starts T n).length = (n + T - 1) / T := by
  simp [tile_starts]

theorem mem_tile_starts {T : Nat} (hT : 0 < T) {n b : Nat} (h : b ∈ tile_starts T n) :
    T ∣ b ∧ b < n := by
  simp only [tile_starts, List.mem_map, List.mem_range] at h
  obtain ⟨q, hq, rfl⟩ := h
  exact ⟨Dvd.intro_left q rfl, (lt_ceil_div_iff hT n q).mp hq⟩

/-- C24: tile clamping. For every `n ≥ 1` and tile edge `T ≥ 1` (`dgemm_avx_block` is
`T = BLOCK_SIZE`), what the blocked kernel does is to run the tile body on the tiles of
`tiles T n` one after the other: these are `ceil (n / T) ^ 3` tiles, in `i → k → j` nesting
order, each origin a multiple of `T` below `n`; the tile body runs over `[b, tile_max b)`
on each axis, and `tile_max b` is `min (b + T) n`. When `n ≤ T` there is exactly one tile,
with origin `(0, 0, 0)` and all three ranges `[0, n)`. On buffers of length `n * n` the
loop nest on unaligned moves returns after the last tile. On the aligned moves of the
source, for `T` a multiple of 4 (`BLOCK_SIZE` is 32), the kernel returns that very state
when `n` is a multiple of 4 or below 4, and for every other `n` faults inside the first
tile, so that no tile is completed. -/
theorem dgemm_avx_block_tiles (T : Nat) (fma : Bool) (n : Nat) (A B : List ℚ) (s : KState)
    (hT : 1 ≤ T) (hn : 1 ≤ n) (hA : A.length = n * n) (hB : B.length = n * n)
    (hs : s.C.length = n * n) :
    (∃ s', dgemm_avx_block_with false T fma n A B s = some s' ∧
      run_list (fun t s => tile_body (block_k false fma n A B) T n t.1 t.2.1 t.2.2 s)
        (tiles T n) s = some s' ∧
      (4 ∣ T → dgemm_avx_block_with true T fma n A B s =
        if n % 4 = 0 ∨ n < 4 then some s' else none)) ∧
    dgemm_avx_block_with true T fma n A B s =
      run_list (fun t s => tile_body (block_k true fma n A B) T n t.1 t.2.1 t.2.2 s)
        (tiles T n) s ∧
    (4 ∣ T → ¬ (n % 4 = 0 ∨ n < 4) →
      tile_body (block_k true fma n A B) T n 0 0 0 s = none) ∧
    (tiles T n).length = ((n + T - 1) / T) ^ 3 ∧
    (∀ q, (n + T - 1) / T ≤ q ↔ n ≤ q * T) ∧
    (∀ t ∈ tiles T n, (T ∣ t.1 ∧ t.1 < n) ∧ (T ∣ t.2.1 ∧ t.2.1 < n) ∧
      (T ∣ t.2.2 ∧ t.2.2 < n)) ∧
    (∀ b, tile_max T n b = min (b + T) n) ∧
    (n ≤ T → tiles T n = [(0, 0, 0)] ∧ tile_max T n 0 = n) := by
  have hT' : 0 < T := hT
  refine ⟨?_, tiled_eq_run_tiles (block_k true fma n A B) hT' n s, ?_, ?_, ?_, ?_,
    fun b => tile_max_eq T n b, ?_⟩
  · obtain ⟨s', e, -, -⟩ := dgemm_avx_block_with_adds hA hB hT' fma s hs
    refine ⟨s', e, ?_, fun h4 => by rw [dgemm_avx_block_with_eq_ite h4 hT', e]⟩
    rw [← e]
    exact (tiled_eq_run_tiles (block_k false fma n A B) hT' n s).symm
  · intro h4 hmis
    obtain ⟨h2, hT2, hm, hal⟩ := tile_misaligned h4 hT' hmis
    exact tile_body_faults h2 hT2 (fun s1 => block_k_faults fma n A B hm hal s1) s
  · unfold tiles
    rw [length_flatMap_const _ (((n + T - 1) / T) * ((n + T - 1) / T)), tile_starts_length]
    · ring
    · intro i_blk
      rw [length_flatMap_const _ ((n + T - 1) / T), tile_starts_length]
      intro k_blk
      rw [List.length_map, tile_starts_length]
  · intro q
    constructor
    · intro h
      by_contra hcon
      have := (lt_ceil_div_iff hT' n q).mpr (by omega)
      omega
    · intro h
      by_contra hcon
      have := (lt_ceil_div_iff hT' n q).mp (by omega)
      omega
  · intro t ht
    simp only [tiles, List.mem_flatMap, List.mem_map] at ht
    obtain ⟨ib, hib, kb, hkb, jb, hjb, rfl⟩ := ht
    exact ⟨mem_tile_starts hT' hib, mem_tile_starts hT' hkb, mem_tile_starts hT' hjb⟩
  · intro hle
    have hm : (n + T - 1) / T = 1 := by
      apply Nat.div_eq_of_lt_le
      · omega
      · omega
    constructor
    · simp [tiles, tile_starts, hm, List.range_succ]
    · unfold tile_max
      split_ifs with h
      · rfl
      · omega

/-- Witness for C24: `dgemm_avx_block` proper, tile edge `BLOCK_SIZE`, on the 40 × 40
problem, 8 tiles after which the kernel returns, and on the 5 × 5 problem, one tile inside
which it faults. -/
theorem dgemm_avx_block_tiles_witness :
    ((∃ s', dgemm_avx_block_with false BLOCK_SIZE true 40 (alloc_matrix 40) (alloc_matrix 40)
        ⟨alloc_matrix 40, []⟩ = some s' ∧
      run_list (fun t s => tile_body (block_k false true 40 (alloc_matrix 40) (alloc_matrix 40))
        BLOCK_SIZE 40 t.1 t.2.1 t.2.2 s) (tiles BLOCK_SIZE 40) ⟨alloc_matrix 40, []⟩ = some s' ∧
      (4 ∣ BLOCK_SIZE → dgemm_avx_block_with true BLOCK_SIZE true 40 (alloc_matrix 40)
          (alloc_matrix 40) ⟨alloc_matrix 40, []⟩ =
        if 40 % 4 = 0 ∨ 40 < 4 then some s' else none)) ∧
    dgemm_avx_block_with true BLOCK_SIZE true 40 (alloc_matrix 40) (alloc_matrix 40)
        ⟨alloc_matrix 40, []⟩ =
      run_list (fun t s => tile_body (block_k true true 40 (alloc_matrix 40) (alloc_matrix 40))
        BLOCK_SIZE 40 t.1 t.2.1 t.2.2 s) (tiles BLOCK_SIZE 40) ⟨alloc_matrix 40, []⟩ ∧
    (4 ∣ BLOCK_SIZE → ¬ (40 % 4 = 0 ∨ 40 < 4) →
      tile_body (block_k true true 40 (alloc_matrix 40) (alloc_matrix 40)) BLOCK_SIZE 40 0 0 0
        ⟨alloc_matrix 40, []⟩ = none) ∧
    (tiles BLOCK_SIZE 40).length = ((40 + BLOCK_SIZE - 1) / BLOCK_SIZE) ^ 3 ∧
    (∀ q, (40 + BLOCK_SIZE - 1) / BLOCK_SIZE ≤ q ↔ 40 ≤ q * BLOCK_SIZE) ∧
    (∀ t ∈ tiles BLOCK_SIZE 40, (BLOCK_SIZE ∣ t.1 ∧ t.1 < 40) ∧
      (BLOCK_SIZE ∣ t.2.1 ∧ t.2.1 < 40) ∧ (BLOCK_SIZE ∣ t.2.2 ∧ t.2.2 < 40)) ∧
    (∀ b, tile_max BLOCK_SIZE 40 b = min (b + BLOCK_SIZE) 40) ∧
    (40 ≤ BLOCK_SIZE → tiles BLOCK_SIZE 40 = [(0, 0, 0)] ∧ tile_max BLOCK_SIZE 40 0 = 40)) ∧
    ((∃ s', dgemm_avx_block_with false BLOCK_SIZE true 5 (alloc_matrix 5) (alloc_matrix 5)
        ⟨alloc_matrix 5, []⟩ = some s' ∧
      run_list (fun t s => tile_body (block_k false true 5 (alloc_matrix 5) (alloc_matrix 5))
        BLOCK_SIZE 5 t.1 t.2.1 t.2.2 s) (tiles BLOCK_SIZE 5) ⟨alloc_matrix 5, []⟩ = some s' ∧
      (4 ∣ BLOCK_SIZE → dgemm_avx_block_with true BLOCK_SIZE true 5 (alloc_matrix 5)
          (alloc_matrix 5) ⟨alloc_matrix 5, []⟩ =
        if 5 % 4 = 0 ∨ 5 < 4 then some s' else none)) ∧
    dgemm_avx_block_with true BLOCK_SIZE true 5 (alloc_matrix 5) (alloc_matrix 5)
        ⟨alloc_matrix 5, []⟩ =
      run_list (fun t s => tile_body (block_k true true 5 (alloc_matrix 5) (alloc_matrix 5))
        BLOCK_SIZE 5 t.1 t.2.1 t.2.2 s) (tiles BLOCK_SIZE 5) ⟨alloc_matrix 5, []⟩ ∧
    (4 ∣ BLOCK_SIZE → ¬ (5 % 4 = 0 ∨ 5 < 4) →
      tile_body (block_k true true 5 (alloc_matrix 5) (alloc_matrix 5)) BLOCK_SIZE 5 0 0 0
        ⟨alloc_matrix 5, []⟩ = none) ∧
    (tiles BLOCK_SIZE 5).length = ((5 + BLOCK_SIZE - 1) / BLOCK_SIZE) ^ 3 ∧
    (∀ q, (5 + BLOCK_SIZE - 1) / BLOCK_SIZE ≤ q ↔ 5 ≤ q * BLOCK_SIZE) ∧
    (∀ t ∈ tiles BLOCK_SIZE 5, (BLOCK_SIZE ∣ t.1 ∧ t.1 < 5) ∧
      (BLOCK_SIZE ∣ t.2.1 ∧ t.2.1 < 5) ∧ (BLOCK_SIZE ∣ t.2.2 ∧ t.2.2 < 5)) ∧
    (∀ b, tile_max BLOCK_SIZE 5 b = min (b + BLOCK_SIZE) 5) ∧
    (5 ≤ BLOCK_SIZE → tiles BLOCK_SIZE 5 = [(0, 0, 0)] ∧ tile_max BLOCK_SIZE 5 0 = 5)) :=
  ⟨dgemm_avx_block_tiles BLOCK_SIZE true 40 (alloc_matrix 40) (alloc_matrix 40)
    ⟨alloc_matrix 40, []⟩ (by decide) (by decide) (by simp [alloc_matrix])
    (by simp [alloc_matrix]) (by simp [alloc_matrix]),
   dgemm_avx_block_tiles BLOCK_SIZE true 5 (alloc_matrix 5) (alloc_matrix 5)
    ⟨alloc_matrix 5, []⟩ (by decide) (by decide) (by simp [alloc_matrix])
    (by simp [alloc_matrix]) (by simp [alloc_matrix])⟩

/-! ## Claim C25: all accesses are in bounds -/

theorem prefetch_k_keeps {n : Nat} (A B : List ℚ) {j_blk j_max i k : Nat}
    (hi : i < n) (hk : k < n) (hjm : j_max ≤ n) :
    Keeps n (prefetch_k false n A B j_blk j_max i k) := by
  intro s s' hs e
  unfold prefetch_k at e
  cases h : loadA A (i * n + k) s with
  | none => rw [h] at e; exact absurd e (by simp)
  | some r =>
    obtain ⟨a, s1⟩ := r
    rw [h] at e
    have h1 := loadA_keeps (by have := flat_lt hi (Nat.succ_le_of_lt hk); omega) hs h
    simp only at e
    cases hv : forLoop (n + 1) (fun j => decide ((j : Int) ≤ (j_max : Int) - 4)) 4
        (fun j s => vecStep false false B (mm256_set1_pd a) (i * n + j) (k * n + j)
          (prefetchB (k * n + j + 16) s)) j_blk s1 with
    | none => rw [hv] at e; exact absurd e (by simp)
    | some r2 =>
      obtain ⟨j2, s3⟩ := r2
      rw [hv] at e
      have h3 : LogOk n s3.log :=
        (forLoop_keeps _ 4 _ (fun j hj t t' ht et => by
          have hj' : (j : Int) ≤ (j_max : Int) - 4 := by simpa using hj
          exact vecStep_keeps (by have := flat_lt hi (by omega : j + 4 ≤ n); omega)
            (by have := flat_lt hk (by omega : j + 4 ≤ n); omega)
            (prefetchB (k * n + j + 16) t) t'
            (LogOk.cons ht (by simp [Access.ok])) et) (n + 1) j_blk).of_map_snd h1 hv
      exact scalar_loop_keeps A B hi hk hjm (n + 1) j2 s3 s' h3 e

theorem dgemm_avx_block_prefetch_with_keeps (T n : Nat) (A B : List ℚ) :
    Keeps n (dgemm_avx_block_prefetch_with false T n A B) :=
  tiled_keeps (fun _ _ _ _ hi hk hjm => prefetch_k_keeps A B hi hk hjm) T

theorem LogOk.inBounds {n : Nat} {log : List Access} (h : LogOk n log) : InBounds n log := by
  intro a ha
  have hok := h a ha
  obtain ⟨kind, buf, idx⟩ := a
  cases kind <;> simp_all [Access.ok]

/-- A kernel that returns and keeps the log ok, started on an empty log, stays in bounds. -/
theorem in_bounds_of {n : Nat} {f : KState → Option KState} {δ : Nat → ℚ}
    (hadds : Adds (n * n) f δ) (hkeeps : Keeps n f) {C : List ℚ} (hC : C.length = n * n) :
    ∃ s', f ⟨C, []⟩ = some s' ∧ InBounds n s'.log := by
  obtain ⟨s', e, -, -⟩ := hadds ⟨C, []⟩ hC
  exact ⟨s', e, (hkeeps ⟨C, []⟩ s' (fun a ha => absurd ha (by simp)) e).inBounds⟩

/-- The prefetch hint of `dgemm_avx_block_prefetch` is not an access in this sense: on the
4 × 4 problem its hints name `&B[16]` to `&B[28]`, at and beyond the end of the 16 elements
of `B`. -/
theorem prefetch_hint_beyond_buffer :
    ∃ s', dgemm_avx_block_prefetch 4 (alloc_matrix 4) (alloc_matrix 4)
        ⟨alloc_matrix 4, []⟩ = some s' ∧
      ⟨.prefetch, .B, 16⟩ ∈ s'.log ∧ ⟨.prefetch, .B, 28⟩ ∈ s'.log ∧ InBounds 4 s'.log := by
  obtain ⟨s', e, hb⟩ := in_bounds_of
    (dgemm_avx_block_prefetch_with_adds (n := 4) (A := alloc_matrix 4) (B := alloc_matrix 4)
      (by simp [alloc_matrix]) (by simp [alloc_matrix]) (by decide : 0 < BLOCK_SIZE))
    (dgemm_avx_block_prefetch_with_keeps BLOCK_SIZE 4 (alloc_matrix 4) (alloc_matrix 4))
    (C := alloc_matrix 4) (by simp [alloc_matrix])
  have h : ∃ s', dgemm_avx_block_prefetch_with false BLOCK_SIZE 4 (alloc_matrix 4)
        (alloc_matrix 4) ⟨alloc_matrix 4, []⟩ = some s' ∧
      ⟨.prefetch, .B, 16⟩ ∈ s'.log ∧ ⟨.prefetch, .B, 28⟩ ∈ s'.log := by decide
  obtain ⟨s'', e', h1, h2⟩ := h
  have hs : s'' = s' := by
    have e2 : dgemm_avx_block_prefetch_with false BLOCK_SIZE 4 (alloc_matrix 4)
        (alloc_matrix 4) ⟨alloc_matrix 4, []⟩ = some s' := e
    rw [e'] at e2
    exact Option.some.inj e2
  subst hs
  exact ⟨s'', by rw [dgemm_avx_block_prefetch_eq_ite, if_pos (by decide), e'], h1, h2, hb⟩

/-- C25: all kernel loads and stores are in bounds. For every `n` and buffers `A`, `B`,
`C` of length exactly `n * n`, `dgemm_naive`, and the loop nests of `dgemm_avx`,
`dgemm_avx_block` (either build) and `dgemm_avx_block_prefetch` on unaligned moves, return,
so no indexing took the out-of-range branch, and every access issued is in bounds: a scalar
load or store at a flat index below `n * n`, a 4-element vector load or store at `x` with
`x + 3 < n * n`. On the aligned moves of the source, `dgemm_avx`, `dgemm_avx_block` and
`dgemm_avx_block_prefetch` return that very state when `n` is a multiple of 4 or below 4,
and fault for every other `n`, after a part of these accesses. -/
theorem kernels_accesses_in_bounds (n : Nat) (A B C : List ℚ) (fma : Bool)
    (hA : A.length = n * n) (hB : B.length = n * n) (hC : C.length = n * n) :
    (∃ s', dgemm_naive n A B ⟨C, []⟩ = some s' ∧ InBounds n s'.log) ∧
    (∃ s', dgemm_avx_with false n A B ⟨C, []⟩ = some s' ∧ InBounds n s'.log ∧
      dgemm_avx n A B ⟨C, []⟩ = if n % 4 = 0 ∨ n < 4 then some s' else none) ∧
    (∃ s', dgemm_avx_block_with false BLOCK_SIZE fma n A B ⟨C, []⟩ = some s' ∧
      InBounds n s'.log ∧
      dgemm_avx_block fma n A B ⟨C, []⟩ = if n % 4 = 0 ∨ n < 4 then some s' else none) ∧
    (∃ s', dgemm_avx_block_prefetch_with false BLOCK_SIZE n A B ⟨C, []⟩ = some s' ∧
      InBounds n s'.log ∧
      dgemm_avx_block_prefetch n A B ⟨C, []⟩ =
        if n % 4 = 0 ∨ n < 4 then some s' else none) := by
  obtain ⟨s₁, e1, b1⟩ := in_bounds_of (dgemm_avx_adds hA hB) (dgemm_avx_keeps n A B) hC
  obtain ⟨s₂, e2, b2⟩ := in_bounds_of (dgemm_avx_block_with_adds hA hB (by decide) fma)
    (dgemm_avx_block_with_keeps BLOCK_SIZE fma n A B) hC
  obtain ⟨s₃, e3, b3⟩ := in_bounds_of (dgemm_avx_block_prefetch_with_adds hA hB (by decide))
    (dgemm_avx_block_prefetch_with_keeps BLOCK_SIZE n A B) hC
  exact ⟨in_bounds_of (dgemm_naive_adds hA hB) (dgemm_naive_keeps n A B) hC,
    ⟨s₁, e1, b1, by rw [dgemm_avx_eq_ite, e1]⟩,
    ⟨s₂, e2, b2, by rw [dgemm_avx_block_eq_ite, e2]⟩,
    ⟨s₃, e3, b3, by rw [dgemm_avx_block_prefetch_eq_ite, e3]⟩⟩

/-- Witness for C25: 8 × 8 buffers, where the kernels return, and 5 × 5 buffers, where
vector and scalar accesses both occur and the vector kernels fault. -/
theorem kernels_accesses_in_bounds_witness :
    ((∃ s', dgemm_naive 8 (alloc_matrix 8) (alloc_matrix 8) ⟨alloc_matrix 8, []⟩ = some s' ∧
      InBounds 8 s'.log) ∧
    (∃ s', dgemm_avx_with false 8 (alloc_matrix 8) (alloc_matrix 8) ⟨alloc_matrix 8, []⟩ =
        some s' ∧ InBounds 8 s'.log ∧
      dgemm_avx 8 (alloc_matrix 8) (alloc_matrix 8) ⟨alloc_matrix 8, []⟩ =
        if 8 % 4 = 0 ∨ 8 < 4 then some s' else none) ∧
    (∃ s', dgemm_avx_block_with false BLOCK_SIZE true 8 (alloc_matrix 8) (alloc_matrix 8)
        ⟨alloc_matrix 8, []⟩ = some s' ∧ InBounds 8 s'.log ∧
      dgemm_avx_block true 8 (alloc_matrix 8) (alloc_matrix 8) ⟨alloc_matrix 8, []⟩ =
        if 8 % 4 = 0 ∨ 8 < 4 then some s' else none) ∧
    (∃ s', dgemm_avx_block_prefetch_with false BLOCK_SIZE 8 (alloc_matrix 8) (alloc_matrix 8)
        ⟨alloc_matrix 8, []⟩ = some s' ∧ InBounds 8 s'.log ∧
      dgemm_avx_block_prefetch 8 (alloc_matrix 8) (alloc_matrix 8) ⟨alloc_matrix 8, []⟩ =
        if 8 % 4 = 0 ∨ 8 < 4 then some s' else none)) ∧
    ((∃ s', dgemm_naive 5 (alloc_matrix 5) (alloc_matrix 5) ⟨alloc_matrix 5, []⟩ = some s' ∧
      InBounds 5 s'.log) ∧
    (∃ s', dgemm_avx_with false 5 (alloc_matrix 5) (alloc_matrix 5) ⟨alloc_matrix 5, []⟩ =
        some s' ∧ InBounds 5 s'.log ∧
      dgemm_avx 5 (alloc_matrix 5) (alloc_matrix 5) ⟨alloc_matrix 5, []⟩ =
        if 5 % 4 = 0 ∨ 5 < 4 then some s' else none) ∧
    (∃ s', dgemm_avx_block_with false BLOCK_SIZE true 5 (alloc_matrix 5) (alloc_matrix 5)
        ⟨alloc_matrix 5, []⟩ = some s' ∧ InBounds 5 s'.log ∧
      dgemm_avx_block true 5 (alloc_matrix 5) (alloc_matrix 5) ⟨alloc_matrix 5, []⟩ =
        if 5 % 4 = 0 ∨ 5 < 4 then some s' else none) ∧
    (∃ s', dgemm_avx_block_prefetch_with false BLOCK_SIZE 5 (alloc_matrix 5) (alloc_matrix 5)
        ⟨alloc_matrix 5, []⟩ = some s' ∧ InBounds 5 s'.log ∧
      dgemm_avx_block_prefetch 5 (alloc_matrix 5) (alloc_matrix 5) ⟨alloc_matrix 5, []⟩ =
        if 5 % 4 = 0 ∨ 5 < 4 then some s' else none)) :=
  ⟨kernels_accesses_in_bounds 8 (alloc_matrix 8) (alloc_matrix 8) (alloc_matrix 8) true
    (by simp [alloc_matrix]) (by simp [alloc_matrix]) (by simp [alloc_matrix]),
   kernels_accesses_in_bounds 5 (alloc_matrix 5) (alloc_matrix 5) (alloc_matrix 5) true
    (by simp [alloc_matrix]) (by simp [alloc_matrix]) (by simp [alloc_matrix])⟩

/-! ## Claim C26: minimum, maximum and the variation -/

/-- After the measured loop, for samples strictly between `0` and `10^9`: the tracked
minimum and maximum are samples, and they bound every sample. -/
theorem stats_min_max {func : Kernel} {clock : Nat → ℚ} {n : Nat} {A B : List ℚ}
    {b0 b1 : Bench} {st : Stats} (inv : MeasuredInv func clock n A B b0 NUM_RUNS (b1, st))
    {t : Nat → ℚ} (hclock : ∀ r, r < NUM_RUNS → elapsed_of clock b0.ticks r = t r)
    (ht : ∀ r, r < NUM_RUNS → 0 < t r ∧ t r < 10 ^ 9) :
    (∃ r, r < NUM_RUNS ∧ st.min_time = t r) ∧ (∀ r, r < NUM_RUNS → st.min_time ≤ t r) ∧
    (∃ r, r < NUM_RUNS ∧ st.max_time = t r) ∧ (∀ r, r < NUM_RUNS → t r ≤ st.max_time) := by
  have hmap : (List.range NUM_RUNS).map (elapsed_of clock b0.ticks) =
      (List.range NUM_RUNS).map t :=
    List.map_congr_left (fun r hr => hclock r (List.mem_range.mp hr))
  have hmin : st.min_time =
      ((List.range NUM_RUNS).map t).foldl (fun a g => if g < a then g else a) (10 ^ 9) := by
    have h := inv.min_time
    simp only at h
    rw [h, ← hmap, List.foldl_map]
  have hmax : st.max_time =
      ((List.range NUM_RUNS).map t).foldl (fun a g => if g > a then g else a) 0 := by
    have h := inv.max_time
    simp only at h
    rw [h, ← hmap, List.foldl_map]
  have hmem : ∀ r, r < NUM_RUNS → t r ∈ (List.range NUM_RUNS).map t :=
    fun r hr => List.mem_map.mpr ⟨r, List.mem_range.mpr hr, rfl⟩
  obtain ⟨a1, -, a3⟩ := foldl_min_spec ((List.range NUM_RUNS).map t) (10 ^ 9)
  obtain ⟨b1', -, b3⟩ := foldl_max_spec ((List.range NUM_RUNS).map t) 0
  rw [← hmin] at a1 a3
  rw [← hmax] at b1' b3
  refine ⟨?_, fun r hr => a3 _ (hmem r hr), ?_, fun r hr => b3 _ (hmem r hr)⟩
  · rcases a1 with a1 | a1
    · have h0 := a3 _ (hmem 0 (by decide))
      have := (ht 0 (by decide)).2
      rw [a1] at h0
      exact absurd this (not_lt.mpr h0)
    · obtain ⟨r, hr, e⟩ := List.mem_map.mp a1
      exact ⟨r, List.mem_range.mp hr, e.symm⟩
  · rcases b1' with b1' | b1'
    · have h0 := b3 _ (hmem 0 (by decide))
      have := (ht 0 (by decide)).1
      rw [b1'] at h0
      exact absurd this (not_lt.mpr h0)
    · obtain ⟨r, hr, e⟩ := List.mem_map.mp b1'
      exact ⟨r, List.mem_range.mp hr, e.symm⟩

/-- C26 as stated fails in binary64, the arithmetic of the source. With the five elapsed
times all equal to the `double` nearest `0.007` (inside `(0, 10^9)`), `min_time` and
`max_time` are that sample and `avg_time` is one unit in the last place above it, so
`avg_time > max_time`; with all five equal to the `double` nearest `0.243`, `avg_time` is
one unit in the last place below `min_time`; and with four samples of the `double` nearest
`1e-20` and one of `1.0`, the variation value is exactly `250 = 50 * NUM_RUNS`, not below
it. -/
theorem min_max_bracket_binary64_counterexample :
    (F64.lt ⟨0, 0⟩ (F64.round 7 1000 0) = true ∧
      F64.lt (F64.round 7 1000 0) (F64.ofNat (10 ^ 9)) = true ∧
      (stats64 128 (List.replicate NUM_RUNS (F64.round 7 1000 0))).min_time =
        ⟨8070450532247929, -60⟩ ∧
      (stats64 128 (List.replicate NUM_RUNS (F64.round 7 1000 0))).max_time =
        ⟨8070450532247929, -60⟩ ∧
      avg_time64 (stats64 128 (List.replicate NUM_RUNS (F64.round 7 1000 0))) =
        ⟨8070450532247930, -60⟩ ∧
      F64.lt (stats64 128 (List.replicate NUM_RUNS (F64.round 7 1000 0))).max_time
        (avg_time64 (stats64 128 (List.replicate NUM_RUNS (F64.round 7 1000 0)))) = true) ∧
    (F64.lt ⟨0, 0⟩ (F64.round 243 1000 0) = true ∧
      F64.lt (F64.round 243 1000 0) (F64.ofNat (10 ^ 9)) = true ∧
      (stats64 128 (List.replicate NUM_RUNS (F64.round 243 1000 0))).min_time =
        ⟨8754997675608244, -55⟩ ∧
      avg_time64 (stats64 128 (List.replicate NUM_RUNS (F64.round 243 1000 0))) =
        ⟨8754997675608243, -55⟩ ∧
      F64.lt (avg_time64 (stats64 128 (List.replicate NUM_RUNS (F64.round 243 1000 0))))
        (stats64 128 (List.replicate NUM_RUNS (F64.round 243 1000 0))).min_time = true) ∧
    (F64.lt ⟨0, 0⟩ (F64.round 1 (10 ^ 20) 0) = true ∧
      F64.lt (F64.ofNat 1) (F64.ofNat (10 ^ 9)) = true ∧
      F64.lt (stats64 128 (List.replicate 4 (F64.round 1 (10 ^ 20) 0) ++ [F64.ofNat 1])).min_time
        (stats64 128 (List.replicate 4 (F64.round 1 (10 ^ 20) 0) ++ [F64.ofNat 1])).max_time =
          true ∧
      variation64 (stats64 128 (List.replicate 4 (F64.round 1 (10 ^ 20) 0) ++ [F64.ofNat 1])) =
        F64.ofNat (50 * NUM_RUNS)) := by
  have a1 : (stats64 128 (List.replicate NUM_RUNS (F64.round 7 1000 0))).max_time =
      ⟨8070450532247929, -60⟩ := by
    set_option maxRecDepth 100000 in decide
  have a2 : avg_time64 (stats64 128 (List.replicate NUM_RUNS (F64.round 7 1000 0))) =
      ⟨8070450532247930, -60⟩ := by
    set_option maxRecDepth 100000 in decide
  have b1 : (stats64 128 (List.replicate NUM_RUNS (F64.round 243 1000 0))).min_time =
      ⟨8754997675608244, -55⟩ := by
    set_option maxRecDepth 100000 in decide
  have b2 : avg_time64 (stats64 128 (List.replicate NUM_RUNS (F64.round 243 1000 0))) =
      ⟨8754997675608243, -55⟩ := by
    set_option maxRecDepth 100000 in decide
  have c1 : (stats64 128 (List.replicate 4 (F64.round 1 (10 ^ 20) 0) ++
      [F64.ofNat 1])).min_time = ⟨6646139978924579, -119⟩ := by
    set_option maxRecDepth 100000 in decide
  have c2 : (stats64 128 (List.replicate 4 (F64.round 1 (10 ^ 20) 0) ++
      [F64.ofNat 1])).max_time = ⟨4503599627370496, -52⟩ := by
    set_option maxRecDepth 100000 in decide
  refine ⟨⟨?_, ?_, ?_, a1, a2, ?_⟩, ⟨?_, ?_, b1, b2, ?_⟩, ⟨?_, ?_, ?_, ?_⟩⟩
  · set_option maxRecDepth 100000 in decide
  · set_option maxRecDepth 100000 in decide
  · set_option maxRecDepth 100000 in decide
  · rw [a1, a2]; decide
  · set_option maxRecDepth 100000 in decide
  · set_option maxRecDepth 100000 in decide
  · rw [b1, b2]; decide
  · set_option maxRecDepth 100000 in decide
  · set_option maxRecDepth 100000 in decide
  · rw [c1, c2]; decide
  · set_option maxRecDepth 100000 in decide

/-- C26, amended: over exact arithmetic, the tracked minimum and maximum bracket the mean.
For every sequence of `NUM_RUNS = 5` elapsed times `t 0 .. t 4`, all strictly between `0`
and `10^9`, `run_benchmark`
returns with `min_time` and `max_time` equal to the smallest and the largest
sample, `min_time ≤ avg_time ≤ max_time`, and the variation value
`(max_time - min_time) / avg_time * 50` at least `0` and below `50 * NUM_RUNS`; that value
is the one printed when `max_time > min_time`. -/
theorem run_benchmark_min_max_bracket (func : Kernel) (clock : Nat → ℚ) (n : Nat)
    (A B : List ℚ) (name : String) (peak_gflops : ℚ) (result : List MethodResult)
    (method_idx size_idx : Nat) (b : Bench) (t : Nat → ℚ)
    (hfunc : Returns func n A B) (hC : b.mem.C.length = n * n)
    (hcell : InTable result method_idx size_idx)
    (hclock : ∀ r, r < NUM_RUNS → clock (b.ticks + 2 * r + 1) - clock (b.ticks + 2 * r) = t r)
    (ht : ∀ r, r < NUM_RUNS → 0 < t r ∧ t r < 10 ^ 9) :
    ∃ out,
      run_benchmark func clock n A B name peak_gflops result method_idx size_idx b = some out ∧
      (∃ r, r < NUM_RUNS ∧ out.stats.min_time = t r) ∧
      (∀ r, r < NUM_RUNS → out.stats.min_time ≤ t r) ∧
      (∃ r, r < NUM_RUNS ∧ out.stats.max_time = t r) ∧
      (∀ r, r < NUM_RUNS → t r ≤ out.stats.max_time) ∧
      out.stats.min_time ≤ out.avg_time ∧ out.avg_time ≤ out.stats.max_time ∧
      0 ≤ (out.stats.max_time - out.stats.min_time) / out.avg_time * 50 ∧
      (out.stats.max_time - out.stats.min_time) / out.avg_time * 50 < 50 * (NUM_RUNS : ℚ) ∧
      (out.stats.max_time > out.stats.min_time →
        Line.variacao ((out.stats.max_time - out.stats.min_time) / out.avg_time * 50) ∈
          out.bench.out) := by
  obtain ⟨out, b1, row, e, inv, hb, hat, -⟩ :=
    run_benchmark_spec hfunc clock name peak_gflops hcell b hC
  obtain ⟨⟨rmin, hrmin, emin⟩, lmin, ⟨rmax, hrmax, emax⟩, lmax⟩ :=
    stats_min_max inv (t := t) hclock ht
  have havg : out.avg_time = (t 0 + t 1 + t 2 + t 3 + t 4) / 5 := by
    have h := inv.total_time
    simp only at h
    rw [hat, h, sum_range_five]
    simp only [elapsed_of_congr hclock _ (by decide : 0 < NUM_RUNS),
      elapsed_of_congr hclock _ (by decide : 1 < NUM_RUNS),
      elapsed_of_congr hclock _ (by decide : 2 < NUM_RUNS),
      elapsed_of_congr hclock _ (by decide : 3 < NUM_RUNS),
      elapsed_of_congr hclock _ (by decide : 4 < NUM_RUNS)]
    norm_num [NUM_RUNS]
  have p0 := ht 0 (by decide)
  have p1 := ht 1 (by decide)
  have p2 := ht 2 (by decide)
  have p3 := ht 3 (by decide)
  have p4 := ht 4 (by decide)
  have m0 := lmin 0 (by decide)
  have m1 := lmin 1 (by decide)
  have m2 := lmin 2 (by decide)
  have m3 := lmin 3 (by decide)
  have m4 := lmin 4 (by decide)
  have x0 := lmax 0 (by decide)
  have x1 := lmax 1 (by decide)
  have x2 := lmax 2 (by decide)
  have x3 := lmax 3 (by decide)
  have x4 := lmax 4 (by decide)
  have hpos : 0 < out.avg_time := by rw [havg]; linarith
  have hmin_pos : 0 < out.stats.min_time := by rw [emin]; exact (ht rmin hrmin).1
  have hmax_le : out.stats.max_time ≤ t 0 + t 1 + t 2 + t 3 + t 4 := by
    rw [emax]
    have hr : rmax = 0 ∨ rmax = 1 ∨ rmax = 2 ∨ rmax = 3 ∨ rmax = 4 := by
      simp only [NUM_RUNS] at hrmax; omega
    rcases hr with rfl | rfl | rfl | rfl | rfl <;> linarith
  have hle1 : out.stats.min_time ≤ out.avg_time := by rw [havg]; linarith
  have hle2 : out.avg_time ≤ out.stats.max_time := by rw [havg]; linarith
  have hsum : t 0 + t 1 + t 2 + t 3 + t 4 = 5 * out.avg_time := by rw [havg]; ring
  refine ⟨out, e, ⟨rmin, hrmin, emin⟩, lmin, ⟨rmax, hrmax, emax⟩, lmax, hle1, hle2, ?_, ?_, ?_⟩
  · exact mul_nonneg (div_nonneg (by linarith) (le_of_lt hpos)) (by norm_num)
  · have h5 : (out.stats.max_time - out.stats.min_time) / out.avg_time < 5 := by
      rw [div_lt_iff₀ hpos]
      linarith
    have : ((NUM_RUNS : Nat) : ℚ) = 5 := by norm_num [NUM_RUNS]
    rw [this]
    linarith
  · intro hgt
    rw [hb]
    simp [report, hgt]

/-- Witness for amended C26: `dgemm_naive` on 1 × 1 buffers, with a clock whose reading number `k`
is `k ^ 2`: the five runs take 1, 5, 9, 13 and 17 seconds. -/
theorem run_benchmark_min_max_bracket_witness :
    ∃ out,
      run_benchmark dgemm_naive (fun k => (k : ℚ) ^ 2) 1 [2] [3] "Naive (IKJ)" 384
        init_results 0 0 ⟨⟨[7], []⟩, 0, [], []⟩ = some out ∧
      (∃ r, r < NUM_RUNS ∧ out.stats.min_time = (fun r : Nat => 4 * (r : ℚ) + 1) r) ∧
      (∀ r, r < NUM_RUNS → out.stats.min_time ≤ (fun r : Nat => 4 * (r : ℚ) + 1) r) ∧
      (∃ r, r < NUM_RUNS ∧ out.stats.max_time = (fun r : Nat => 4 * (r : ℚ) + 1) r) ∧
      (∀ r, r < NUM_RUNS → (fun r : Nat => 4 * (r : ℚ) + 1) r ≤ out.stats.max_time) ∧
      out.stats.min_time ≤ out.avg_time ∧ out.avg_time ≤ out.stats.max_time ∧
      0 ≤ (out.stats.max_time - out.stats.min_time) / out.avg_time * 50 ∧
      (out.stats.max_time - out.stats.min_time) / out.avg_time * 50 < 50 * (NUM_RUNS : ℚ) ∧
      (out.stats.max_time > out.stats.min_time →
        Line.variacao ((out.stats.max_time - out.stats.min_time) / out.avg_time * 50) ∈
          out.bench.out) :=
  run_benchmark_min_max_bracket dgemm_naive (fun k => (k : ℚ) ^ 2) 1 [2] [3] "Naive (IKJ)" 384
    init_results 0 0 ⟨⟨[7], []⟩, 0, [], []⟩ (fun r : Nat => 4 * (r : ℚ) + 1)
    (dgemm_naive_adds rfl rfl).returns rfl ⟨_, rfl, by decide, by decide, by decide⟩
    (fun r _ => by push_cast; ring)
    (fun r hr => by
      have h5 : (r : ℚ) < 5 := by exact_mod_cast hr
      have h0 : (0 : ℚ) ≤ (r : ℚ) := Nat.cast_nonneg r
      constructor
      · show (0 : ℚ) < 4 * (r : ℚ) + 1
        linarith
      · show 4 * (r : ℚ) + 1 < 10 ^ 9
        norm_num
        linarith)

/-! ## Claim C27: the two ways of averaging GFLOPS -/

/-- What `run_benchmark` of `teste.c` returns, for a kernel that returns. -/
theorem run_benchmark_teste_spec {func : Kernel} {n : Nat} {A B : List ℚ}
    (hfunc : Returns func n A B) (clock : Nat → ℚ) (name : String) (b : Bench)
    (hb : b.mem.C.length = n * n) :
    ∃ out, run_benchmark_teste func clock n A B name b = some out ∧
      out.total_time = ∑ q ∈ range NUM_RUNS, elapsed_of clock b.ticks q ∧
      out.avg_time = out.total_time / (NUM_RUNS : ℚ) ∧
      out.gflops = (operations n / out.avg_time) * (1 / 10 ^ 9) ∧
      out.bench.ticks = b.ticks + 2 * NUM_RUNS := by
  obtain ⟨m, e, l, ec⟩ := clean_and_call_spec hfunc b hb
  have hw : forLoop (WARMUP_RUNS + 1) (fun w => decide (w < WARMUP_RUNS)) 1
      (fun _ b => clean_and_call func n A B b) 0 b =
      some (1, { b with mem := m, calls := List.replicate (n * n) 0 :: b.calls }) := by
    simp [forLoop, WARMUP_RUNS, ec]
  obtain ⟨st, e2, i1, i2, i3⟩ := forLoop_inv NUM_RUNS (measured_run_teste func clock n A B)
    (fun r st => st.1.mem.C.length = n * n ∧ st.1.ticks = b.ticks + 2 * r ∧
      st.2 = ∑ q ∈ range r, elapsed_of clock b.ticks q)
    (fun r st _ h => by
      obtain ⟨h1, h2, h3⟩ := h
      obtain ⟨m', e', l'⟩ := hfunc ⟨List.replicate (n * n) 0, st.1.mem.log⟩ (by simp)
      refine ⟨({ mem := m', ticks := st.1.ticks + 2,
                 calls := List.replicate (n * n) 0 :: st.1.calls, out := st.1.out },
               st.2 + (clock (st.1.ticks + 1) - clock st.1.ticks)), ?_, l', ?_, ?_⟩
      · simp only [measured_run_teste, clean_matrix_eq h1, e']
      · simp only [h2]; ring
      · simp only [h3, h2, Finset.sum_range_succ, elapsed_of])
    (NUM_RUNS + 1) 0
    ({ b with mem := m, calls := List.replicate (n * n) 0 :: b.calls }, 0)
    (Nat.zero_le _) (by omega) ⟨l, rfl, by simp⟩
  obtain ⟨b2, tt⟩ := st
  refine ⟨{ bench := b2, total_time := tt, avg_time := tt / (NUM_RUNS : ℚ),
            gflops := (operations n / (tt / (NUM_RUNS : ℚ))) * (1 / 10 ^ 9) }, ?_, i3, rfl, rfl,
    i2⟩
  simp only [run_benchmark_teste, hw, e2]

/-- The harmonic-arithmetic mean inequality for five positive numbers, with its case of
equality. -/
theorem am_hm_five {a b c d e : ℚ} (ha : 0 < a) (hb : 0 < b) (hc : 0 < c) (hd : 0 < d)
    (he : 0 < e) :
    25 / (a + b + c + d + e) ≤ 1 / a + 1 / b + 1 / c + 1 / d + 1 / e ∧
    (25 / (a + b + c + d + e) = 1 / a + 1 / b + 1 / c + 1 / d + 1 / e ↔
      b = a ∧ c = a ∧ d = a ∧ e = a) := by
  have hS : 0 < a + b + c + d + e := by linarith
  have key : 1 / a + 1 / b + 1 / c + 1 / d + 1 / e - 25 / (a + b + c + d + e) =
      ((a - b) ^ 2 / (a * b) + (a - c) ^ 2 / (a * c) + (a - d) ^ 2 / (a * d) +
        (a - e) ^ 2 / (a * e) + (b - c) ^ 2 / (b * c) + (b - d) ^ 2 / (b * d) +
        (b - e) ^ 2 / (b * e) + (c - d) ^ 2 / (c * d) + (c - e) ^ 2 / (c * e) +
        (d - e) ^ 2 / (d * e)) / (a + b + c + d + e) := by
    field_simp
    ring
  have n1 : 0 ≤ (a - b) ^ 2 / (a * b) := div_nonneg (sq_nonneg _) (le_of_lt (mul_pos ha hb))
  have n2 : 0 ≤ (a - c) ^ 2 / (a * c) := div_nonneg (sq_nonneg _) (le_of_lt (mul_pos ha hc))
  have n3 : 0 ≤ (a - d) ^ 2 / (a * d) := div_nonneg (sq_nonneg _) (le_of_lt (mul_pos ha hd))
  have n4 : 0 ≤ (a - e) ^ 2 / (a * e) := div_nonneg (sq_nonneg _) (le_of_lt (mul_pos ha he))
  have n5 : 0 ≤ (b - c) ^ 2 / (b * c) := div_nonneg (sq_nonneg _) (le_of_lt (mul_pos hb hc))
  have n6 : 0 ≤ (b - d) ^ 2 / (b * d) := div_nonneg (sq_nonneg _) (le_of_lt (mul_pos hb hd))
  have n7 : 0 ≤ (b - e) ^ 2 / (b * e) := div_nonneg (sq_nonneg _) (le_of_lt (mul_pos hb he))
  have n8 : 0 ≤ (c - d) ^ 2 / (c * d) := div_nonneg (sq_nonneg _) (le_of_lt (mul_pos hc hd))
  have n9 : 0 ≤ (c - e) ^ 2 / (c * e) := div_nonneg (sq_nonneg _) (le_of_lt (mul_pos hc he))
  have n10 : 0 ≤ (d - e) ^ 2 / (d * e) := div_nonneg (sq_nonneg _) (le_of_lt (mul_pos hd he))
  have zero_of : ∀ {x y : ℚ}, 0 < x → 0 < y → (x - y) ^ 2 / (x * y) = 0 → y = x := by
    intro x y hx hy h
    rcases div_eq_zero_iff.mp h with h | h
    · have := pow_eq_zero_iff (two_ne_zero) |>.mp h
      linarith
    · exact absurd h (ne_of_gt (mul_pos hx hy))
  constructor
  · have : 0 ≤ 1 / a + 1 / b + 1 / c + 1 / d + 1 / e - 25 / (a + b + c + d + e) := by
      rw [key]
      exact div_nonneg (by linarith) (le_of_lt hS)
    linarith
  · constructor
    · intro h
      have h0 : 1 / a + 1 / b + 1 / c + 1 / d + 1 / e - 25 / (a + b + c + d + e) = 0 := by
        rw [h]; ring
      rw [key] at h0
      have hnum := (div_eq_zero_iff.mp h0).resolve_right (ne_of_gt hS)
      exact ⟨zero_of ha hb (by linarith), zero_of ha hc (by linarith),
        zero_of ha hd (by linarith), zero_of ha he (by linarith)⟩
    · rintro ⟨rfl, rfl, rfl, rfl⟩
      field_simp
      ring

/-- C27 as stated fails in binary64, the arithmetic of the source. For `n = 1` and five
elapsed times of `19.0` seconds, the mean of the per-run GFLOPS that `run_benchmark` of
`dgemm_aprimorado_2.c` returns is one unit in the last place below the value that
`run_benchmark` of `teste.c` returns; and although all elapsed times are equal the two
values differ. -/
theorem detailed_gflops_binary64_counterexample :
    F64.lt ⟨0, 0⟩ (F64.ofNat 19) = true ∧
    avg_gflops64 (stats64 1 (List.replicate NUM_RUNS (F64.ofNat 19))) =
      ⟨8144342363719606, -86⟩ ∧
    teste_gflops64 1 (List.replicate NUM_RUNS (F64.ofNat 19)) = ⟨8144342363719607, -86⟩ ∧
    F64.lt (avg_gflops64 (stats64 1 (List.replicate NUM_RUNS (F64.ofNat 19))))
      (teste_gflops64 1 (List.replicate NUM_RUNS (F64.ofNat 19))) = true := by
  have h1 : avg_gflops64 (stats64 1 (List.replicate NUM_RUNS (F64.ofNat 19))) =
      ⟨8144342363719606, -86⟩ := by
    set_option maxRecDepth 100000 in decide
  have h2 : teste_gflops64 1 (List.replicate NUM_RUNS (F64.ofNat 19)) =
      ⟨8144342363719607, -86⟩ := by
    set_option maxRecDepth 100000 in decide
  refine ⟨?_, h1, h2, ?_⟩
  · set_option maxRecDepth 100000 in decide
  · rw [h1, h2]; decide

/-- C27, amended: over exact arithmetic, the two harnesses aggregate GFLOPS differently, and
the detailed one never reports less. For every `n ≥ 1` and every sequence of
`NUM_RUNS = 5` positive elapsed times `t 0 .. t 4`, both harnesses return;
`run_benchmark` of `dgemm_aprimorado_2.c` returns the
mean of the per-run GFLOPS, `run_benchmark` of `teste.c` returns
`2 * n^3 / (mean elapsed time) * 10^-9`; the former is at least the latter, and they are
equal exactly when all elapsed times are equal. -/
theorem detailed_gflops_ge_teste (func : Kernel) (clock : Nat → ℚ) (n : Nat)
    (A B : List ℚ) (name : String) (peak_gflops : ℚ) (result : List MethodResult)
    (method_idx size_idx : Nat) (b : Bench) (t : Nat → ℚ) (hn : 1 ≤ n)
    (hfunc : Returns func n A B) (hC : b.mem.C.length = n * n)
    (hcell : InTable result method_idx size_idx)
    (hclock : ∀ r, r < NUM_RUNS → clock (b.ticks + 2 * r + 1) - clock (b.ticks + 2 * r) = t r)
    (ht : ∀ r, r < NUM_RUNS → 0 < t r) :
    ∃ out out',
      run_benchmark func clock n A B name peak_gflops result method_idx size_idx b = some out ∧
      run_benchmark_teste func clock n A B name b = some out' ∧
      out.ret = (2 * (n : ℚ) ^ 3 / t 0 * (10 : ℚ) ^ (-9 : ℤ) +
        2 * (n : ℚ) ^ 3 / t 1 * (10 : ℚ) ^ (-9 : ℤ) + 2 * (n : ℚ) ^ 3 / t 2 * (10 : ℚ) ^ (-9 : ℤ) +
        2 * (n : ℚ) ^ 3 / t 3 * (10 : ℚ) ^ (-9 : ℤ) +
        2 * (n : ℚ) ^ 3 / t 4 * (10 : ℚ) ^ (-9 : ℤ)) / 5 ∧
      out'.gflops =
        2 * (n : ℚ) ^ 3 / ((t 0 + t 1 + t 2 + t 3 + t 4) / 5) * (10 : ℚ) ^ (-9 : ℤ) ∧
      out'.gflops ≤ out.ret ∧
      (out.ret = out'.gflops ↔ ∀ r, r < NUM_RUNS → t r = t 0) := by
  obtain ⟨out, b1, row, e, inv, -, -, hag, -, hret, -⟩ :=
    run_benchmark_spec hfunc clock name peak_gflops hcell b hC
  obtain ⟨out', e', htt, hav, hgf, -⟩ := run_benchmark_teste_spec hfunc clock name b hC
  have p0 := ht 0 (by decide)
  have p1 := ht 1 (by decide)
  have p2 := ht 2 (by decide)
  have p3 := ht 3 (by decide)
  have p4 := ht 4 (by decide)
  have hS : 0 < t 0 + t 1 + t 2 + t 3 + t 4 := by linarith
  have hc : 0 < operations n * (1 / 10 ^ 9) := by
    have : (1 : ℚ) ≤ (n : ℚ) := by exact_mod_cast hn
    unfold operations
    positivity
  have r1 : out.ret = operations n * (1 / 10 ^ 9) *
      (1 / t 0 + 1 / t 1 + 1 / t 2 + 1 / t 3 + 1 / t 4) / 5 := by
    have h := inv.total_gflops
    simp only at h
    rw [hret, hag, h, sum_range_five]
    simp only [elapsed_of_congr hclock _ (by decide : 0 < NUM_RUNS),
      elapsed_of_congr hclock _ (by decide : 1 < NUM_RUNS),
      elapsed_of_congr hclock _ (by decide : 2 < NUM_RUNS),
      elapsed_of_congr hclock _ (by decide : 3 < NUM_RUNS),
      elapsed_of_congr hclock _ (by decide : 4 < NUM_RUNS), run_gflops]
    have : ((NUM_RUNS : Nat) : ℚ) = 5 := by norm_num [NUM_RUNS]
    rw [this]
    ring
  have r2 : out'.gflops = operations n * (1 / 10 ^ 9) *
      (25 / (t 0 + t 1 + t 2 + t 3 + t 4)) / 5 := by
    rw [hgf, hav, htt, sum_range_five]
    simp only [elapsed_of_congr hclock _ (by decide : 0 < NUM_RUNS),
      elapsed_of_congr hclock _ (by decide : 1 < NUM_RUNS),
      elapsed_of_congr hclock _ (by decide : 2 < NUM_RUNS),
      elapsed_of_congr hclock _ (by decide : 3 < NUM_RUNS),
      elapsed_of_congr hclock _ (by decide : 4 < NUM_RUNS)]
    have : ((NUM_RUNS : Nat) : ℚ) = 5 := by norm_num [NUM_RUNS]
    rw [this]
    field_simp
    ring
  obtain ⟨hle, heq⟩ := am_hm_five p0 p1 p2 p3 p4
  refine ⟨out, out', e, e', ?_, ?_, ?_, ?_⟩
  · rw [r1]
    unfold operations
    rw [zpow_neg]
    norm_num
    ring
  · rw [r2]
    unfold operations
    rw [zpow_neg]
    norm_num
    field_simp
    ring
  · rw [r1, r2]
    have := mul_le_mul_of_nonneg_left hle (le_of_lt hc)
    linarith
  · rw [r1, r2]
    constructor
    · intro h
      have h2 : 25 / (t 0 + t 1 + t 2 + t 3 + t 4) =
          1 / t 0 + 1 / t 1 + 1 / t 2 + 1 / t 3 + 1 / t 4 := by
        have h3 : operations n * (1 / 10 ^ 9) * (25 / (t 0 + t 1 + t 2 + t 3 + t 4)) =
            operations n * (1 / 10 ^ 9) * (1 / t 0 + 1 / t 1 + 1 / t 2 + 1 / t 3 + 1 / t 4) := by
          linarith
        exact mul_left_cancel₀ (ne_of_gt hc) h3
      obtain ⟨q1, q2, q3, q4⟩ := heq.mp h2
      intro r hr
      have hr' : r = 0 ∨ r = 1 ∨ r = 2 ∨ r = 3 ∨ r = 4 := by
        simp only [NUM_RUNS] at hr; omega
      rcases hr' with rfl | rfl | rfl | rfl | rfl
      · rfl
      · exact q1
      · exact q2
      · exact q3
      · exact q4
    · intro h
      have h2 := heq.mpr ⟨h 1 (by decide), h 2 (by decide), h 3 (by decide), h 4 (by decide)⟩
      rw [h2]

/-- Witness for amended C27: `dgemm_naive` on 1 × 1 buffers, with a clock whose reading number `k`
is `k ^ 2`: the five runs take 1, 5, 9, 13 and 17 seconds. -/
theorem detailed_gflops_ge_teste_witness :
    ∃ out out',
      run_benchmark dgemm_naive (fun k => (k : ℚ) ^ 2) 1 [2] [3] "Naive (IKJ)" 384
        init_results 0 0 ⟨⟨[7], []⟩, 0, [], []⟩ = some out ∧
      run_benchmark_teste dgemm_naive (fun k => (k : ℚ) ^ 2) 1 [2] [3] "Naive (IKJ)"
        ⟨⟨[7], []⟩, 0, [], []⟩ = some out' ∧
      out.ret = (2 * ((1 : Nat) : ℚ) ^ 3 / (fun r : Nat => 4 * (r : ℚ) + 1) 0 * (10 : ℚ) ^ (-9 : ℤ) +
        2 * ((1 : Nat) : ℚ) ^ 3 / (fun r : Nat => 4 * (r : ℚ) + 1) 1 * (10 : ℚ) ^ (-9 : ℤ) +
        2 * ((1 : Nat) : ℚ) ^ 3 / (fun r : Nat => 4 * (r : ℚ) + 1) 2 * (10 : ℚ) ^ (-9 : ℤ) +
        2 * ((1 : Nat) : ℚ) ^ 3 / (fun r : Nat => 4 * (r : ℚ) + 1) 3 * (10 : ℚ) ^ (-9 : ℤ) +
        2 * ((1 : Nat) : ℚ) ^ 3 / (fun r : Nat => 4 * (r : ℚ) + 1) 4 * (10 : ℚ) ^ (-9 : ℤ)) / 5 ∧
      out'.gflops =
        2 * ((1 : Nat) : ℚ) ^ 3 / (((fun r : Nat => 4 * (r : ℚ) + 1) 0 +
          (fun r : Nat => 4 * (r : ℚ) + 1) 1 + (fun r : Nat => 4 * (r : ℚ) + 1) 2 +
          (fun r : Nat => 4 * (r : ℚ) + 1) 3 + (fun r : Nat => 4 * (r : ℚ) + 1) 4) / 5) *
          (10 : ℚ) ^ (-9 : ℤ) ∧
      out'.gflops ≤ out.ret ∧
      (out.ret = out'.gflops ↔
        ∀ r, r < NUM_RUNS → (fun r : Nat => 4 * (r : ℚ) + 1) r =
          (fun r : Nat => 4 * (r : ℚ) + 1) 0) :=
  detailed_gflops_ge_teste dgemm_naive (fun k => (k : ℚ) ^ 2) 1 [2] [3] "Naive (IKJ)" 384
    init_results 0 0 ⟨⟨[7], []⟩, 0, [], []⟩ (fun r : Nat => 4 * (r : ℚ) + 1) (by decide)
    (dgemm_naive_adds rfl rfl).returns rfl ⟨_, rfl, by decide, by decide, by decide⟩
    (fun r _ => by push_cast; ring)
    (fun r _ => by
      have h0 : (0 : ℚ) ≤ (r : ℚ) := Nat.cast_nonneg r
      show (0 : ℚ) < 4 * (r : ℚ) + 1
      linarith)

/-! ## Claim C28: the sizes and the indices of `main` -/

theorem init_results_in_table {m s : Nat} (hm : m < MAX_METHODS) (hs : s < MAX_SIZES) :
    InTable init_results m s := by
  refine ⟨⟨"", List.replicate MAX_SIZES 0, List.replicate MAX_SIZES 0,
    List.replicate MAX_SIZES 0⟩, ?_, by simpa using hs, by simpa using hs, by simpa using hs⟩
  unfold init_results
  rw [List.getElem?_replicate]
  simp [hm]

/-- C28: no configured size is skipped and every result index is in range. In
`dgemm_aprimorado_2.c` (sizes 64 to 2048, limit 4096 MB) and in `dgemm_aprimorado.c`
(sizes 64 to 1024, limit 512 MB), for every size `n` of the list `3 * n * n` fits a 32-bit
`int` and `mem_usage = 3 * n * n * 8 / 2^20` is within the limit; the size loop returns
without a skip message and hands every size to `run_benchmark` three times, in order; and
in `dgemm_aprimorado_2.c` the cells written are `(0, s), (1, s), (2, s)` for
`s = 0, ..., 5`, each with method index `< MAX_METHODS = 3` and size index
`< MAX_SIZES = 7`, a cell of the table `main` set up. -/
theorem main_benchmarks_every_size :
    (∀ n ∈ ([64, 128, 256, 512, 1024, 2048] : List Int),
      3 * n * n < 2 ^ 31 ∧ ∃ mem, mem_usage n = some mem ∧ mem ≤ 4096 ∧
        mem = (3 * n * n * 8 / 2 ^ 20).toNat) ∧
    (∀ n ∈ ([64, 128, 256, 512, 1024] : List Int),
      3 * n * n < 2 ^ 31 ∧ ∃ mem, mem_usage n = some mem ∧ mem ≤ 512 ∧
        mem = (3 * n * n * 8 / 2 ^ 20).toNat) ∧
    (∃ ev, main_size_loop = some ev ∧ (∀ e ∈ ev, e.skipped = false) ∧
      ev.filterMap MainEvent.size =
        [64, 64, 64, 128, 128, 128, 256, 256, 256, 512, 512, 512, 1024, 1024, 1024,
          2048, 2048, 2048] ∧
      ev.filterMap MainEvent.cell =
        (List.range 6).flatMap (fun s => (List.range 3).map (fun m => (m, s))) ∧
      ∀ c ∈ ev.filterMap MainEvent.cell,
        c.1 < MAX_METHODS ∧ c.2 < MAX_SIZES ∧ InTable init_results c.1 c.2) ∧
    (∃ ev, main_size_loop_aprimorado = some ev ∧ (∀ e ∈ ev, e.skipped = false) ∧
      ev.filterMap MainEvent.size =
        [64, 64, 64, 128, 128, 128, 256, 256, 256, 512, 512, 512, 1024, 1024, 1024]) := by
  refine ⟨by decide, by decide, ?_, by decide⟩
  have h : ∃ ev, main_size_loop = some ev ∧ (∀ e ∈ ev, e.skipped = false) ∧
      ev.filterMap MainEvent.size =
        [64, 64, 64, 128, 128, 128, 256, 256, 256, 512, 512, 512, 1024, 1024, 1024,
          2048, 2048, 2048] ∧
      ev.filterMap MainEvent.cell =
        (List.range 6).flatMap (fun s => (List.range 3).map (fun m => (m, s))) ∧
      ∀ c ∈ ev.filterMap MainEvent.cell, c.1 < MAX_METHODS ∧ c.2 < MAX_SIZES := by
    decide
  obtain ⟨ev, e, h1, h2, h3, h4⟩ := h
  exact ⟨ev, e, h1, h2, h3, fun c hc =>
    ⟨(h4 c hc).1, (h4 c hc).2, init_results_in_table (h4 c hc).1 (h4 c hc).2⟩⟩

end DGEMM
